import Mathlib

/-!
# bresc: the Blorb resource compiler

A shallow embedding of `src/bresc/src/bresc.c` and of the helpers of
`src/bresc/src/util.c` it calls, with the properties of the container-building
pipeline proved about it.

Conventions of the embedding.

* A byte is a `Nat` below 256; a C string is the list of its bytes up to, and
  without, the terminating NUL.
* `strcmp (a, b) == 0` is equality of the two lists.
* `manageError` ends the process: functions that may call it return
  `Except Failure`.
* The output stream is a byte list with a position (`FILE`), `fwrite` overwrites
  or extends at the position, `fseek`/`ftell` set and read it.
* The model of the build (`Status`, `readChunk`, `buildIndex`, `generateBlorb`)
  keeps the fields of the status the container depends on. The model of the run
  (`Run`, `Run.readChunk`, `Run.buildIndex`, `Run.generateBlorb`, `main`) adds
  the `.bli` declarations file, the verbose report, the names of the files, the
  clock and the files that can be created, and is proved to leave the status the
  model of the build gives.
* What the program prints on the terminal, and `status->msg`, are not modelled.
-/

namespace Bresc

/-! ## Constants -/

/-- The bytes of a C string literal. -/
def cstr (s : String) : List Nat := s.toList.map Char.toNat

/-- Maximum number of chunks allowed in a blorb file (`MaxChunksBlorb`). -/
def MaxChunksBlorb : Nat := 1024

/-- Size of Blorb ID chunks (`BlorbIdLen`). -/
def BlorbIdLen : Nat := 4

/-- The space character used to pad identifiers (`sp`). -/
def sp : Nat := 32

/-! ## The output stream -/

/-- A seekable byte stream: its contents and the current position. -/
structure FILE where
  bytes : List Nat
  pos : Nat
deriving DecidableEq

/-- The stream just opened with mode "wb": empty, positioned at 0. -/
def FILE.empty : FILE := { bytes := [], pos := 0 }

/-- Replace the bytes of `buf` from offset `off` on by `bs`; a gap between the
end of `buf` and `off` is filled with zeros, as writing after a seek past the end
of a file does. -/
def writeAt (buf : List Nat) (off : Nat) (bs : List Nat) : List Nat :=
  buf.take off ++ List.replicate (off - buf.length) 0 ++ bs ++ buf.drop (off + bs.length)

/-- Model of `fwrite (ptr, 1, count, f)`: the first `count` bytes of the buffer
go to the stream at its position, which advances by as much. -/
def fwrite (ptr : List Nat) (count : Nat) (f : FILE) : FILE :=
  { bytes := writeAt f.bytes f.pos (ptr.take count)
    pos := f.pos + (ptr.take count).length }

/-- Model of `fwrite (&b, 1, 1, f)` for a single byte `b`. -/
def fputByte (f : FILE) (b : Nat) : FILE := fwrite [b] 1 f

/-- Model of `ftell`. -/
def ftell (f : FILE) : Nat := f.pos

/-- Model of `fseek (f, off, SEEK_SET)`. -/
def fseek (f : FILE) (off : Nat) : FILE := { f with pos := off }

/-! ## Identifier codec -/

/-- Model of `writeInt`: the low 32 bits of `v`, most significant byte first, one
byte at a time. -/
def writeInt (f : FILE) (v : Nat) : FILE :=
  let v := v % 2 ^ 32
  let v1 := v % 256
  let v2 := (v / 2 ^ 8) % 256
  let v3 := (v / 2 ^ 16) % 256
  let v4 := (v / 2 ^ 24) % 256
  fputByte (fputByte (fputByte (fputByte f v4) v3) v2) v1

/-- Store the bytes `bs` into the memory buffer `f` from index `off` on, one
assignment `f[i] = b` at a time. -/
def poke (f : List Nat) (off : Nat) : List Nat → List Nat
  | [] => f
  | b :: bs => poke (f.set off b) (off + 1) bs

/-- Model of `strLong (f + off, v)`: the low 32 bits of `v` stored most
significant byte first at `f[off .. off+3]`. -/
def strLong (f : List Nat) (off : Nat) (v : Nat) : List Nat :=
  let v := v % 2 ^ 32
  let v1 := v % 256
  let v2 := (v / 2 ^ 8) % 256
  let v3 := (v / 2 ^ 16) % 256
  let v4 := (v / 2 ^ 24) % 256
  poke f off [v4, v3, v2, v1]

/-- Model of `writeId`: every character of `s`, then spaces up to `BlorbIdLen`. -/
def writeId (f : FILE) (s : List Nat) : FILE :=
  (List.replicate (BlorbIdLen - s.length) sp).foldl fputByte (s.foldl fputByte f)

/-- Model of `strId (f + off, s)`: at most `BlorbIdLen` characters of `s`, padded
with spaces to `BlorbIdLen`, stored at `f[off .. off+3]`. -/
def strId (f : List Nat) (off : Nat) (s : List Nat) : List Nat :=
  let lenId := if s.length > BlorbIdLen then BlorbIdLen else s.length
  poke f off (s.take lenId ++ List.replicate (BlorbIdLen - lenId) sp)

/-- Model of `copyId`: the first `BlorbIdLen` characters of `org`. -/
def copyId (org : List Nat) : List Nat :=
  let lenId := if org.length > BlorbIdLen then BlorbIdLen else org.length
  org.take lenId

/-! ## Chunks -/

/-- The blorb chunk type (`struct _Chunk`); its field `Type` is `Type_` here, the
source's name being a reserved word. -/
structure Chunk where
  Type_ : List Nat
  Use : List Nat
  Res : Nat
  Length : Nat
  Data : List Nat
deriving DecidableEq

/-- What `my_malloc (sizeof (Chunk))` returns: every field zero. -/
def Chunk.zero : Chunk := { Type_ := [], Use := [], Res := 0, Length := 0, Data := [] }

/-- Model of `writeChunk`. -/
def writeChunk (out : FILE) (chunk : Chunk) : FILE :=
  let out1 :=
    if chunk.Type_ ≠ cstr "FORM" then writeInt (writeId out chunk.Type_) chunk.Length
    else out
  let out2 := fwrite chunk.Data chunk.Length out1
  if chunk.Length % 2 ≠ 0 then fputByte out2 0 else out2

/-- One step of the second loop of `buildIndex` (the body of
`for (i = 1; i < numberOfChunks; i++)`): the state is the index data buffer, the
offset `dp - Data` of the write pointer in it, the patch table `indexOffsets` and
`numberOfIndexEntries`. -/
def indexRecord (chunk : Chunk) (s : List Nat × Nat × List Nat × Nat) :
    List Nat × Nat × List Nat × Nat :=
  let (data, dp, indexOffsets, numberOfIndexEntries) := s
  if chunk.Use ≠ cstr "0" then
    let data := strId data dp chunk.Use
    let dp := dp + 4
    let data := strLong data dp chunk.Res
    let dp := dp + 4
    let indexOffsets := indexOffsets.set numberOfIndexEntries (dp + 20)
    let numberOfIndexEntries := numberOfIndexEntries + 1
    let dp := dp + 4
    (data, dp, indexOffsets, numberOfIndexEntries)
  else (data, dp, indexOffsets, numberOfIndexEntries)

/-- The second loop of `buildIndex`, over the chunks after the index chunk. -/
def indexRecords : List Chunk → List Nat × Nat × List Nat × Nat →
    List Nat × Nat × List Nat × Nat
  | [], s => s
  | chunk :: rest, s => indexRecords rest (indexRecord chunk s)

/-- One step of the loop of `generateBlorb`: patch the index record of an
indexed chunk with the current position, then write the chunk. The state is the
output stream and the local `n`, the next entry of the patch table. -/
def generateChunk (indexOffsets : List Nat) (chunk : Chunk) (s : FILE × Nat) : FILE × Nat :=
  let (out, n) := s
  if chunk.Use ≠ cstr "0" then
    let t := ftell out
    let out := fseek out (indexOffsets.getD n 0)
    let out := writeInt out t
    let out := fseek out t
    (writeChunk out chunk, n + 1)
  else (writeChunk out chunk, n)

/-- The loop of `generateBlorb` over the chunks. -/
def generateChunks (indexOffsets : List Nat) : List Chunk → FILE × Nat → FILE × Nat
  | [], s => s
  | chunk :: rest, s => generateChunks indexOffsets rest (generateChunk indexOffsets chunk s)

/-! ## The usage and type registry -/

/-- The usage categories (`enum _Usages`). -/
inductive Usages where
  | Exec | Pict | Snd | IFmd | Fspc | UsageError
deriving DecidableEq

/-- The numeric value of a usage, its index in the tables. -/
def Usages.toNat : Usages → Nat
  | .Exec => 0 | .Pict => 1 | .Snd => 2 | .IFmd => 3 | .Fspc => 4 | .UsageError => 5

/-- Indices of `PictureChunkTypes` (`enum _PictureTypes`). -/
def PNG : Nat := 0
/-- Index of the JPEG tag. -/
def JPG : Nat := 1
/-- Indices of `SoundChunkTypes` (`enum _SoundTypes`). -/
def OGG : Nat := 0
/-- Index of the AIFF tag. -/
def AIFF : Nat := 1
/-- Index of the MOD tag. -/
def MOD : Nat := 2
/-- Indices of `ExecutableChunkTypes` (`enum _ExecutableTypes`). -/
def ZCOD : Nat := 0
/-- Index of the Glulx tag. -/
def GLUL : Nat := 1

/-- The table `PictureChunkTypes`, its terminating empty string included. -/
def PictureChunkTypes : List (List Nat) := [cstr "PNG", cstr "JPEG", cstr ""]

/-- The table `SoundChunkTypes`. -/
def SoundChunkTypes : List (List Nat) := [cstr "OGGV", cstr "AIFF", cstr "MOD", cstr ""]

/-- The table `ExecutableChunkTypes`. -/
def ExecutableChunkTypes : List (List Nat) :=
  [cstr "ZCOD", cstr "GLUL", cstr "TAD2", cstr "TAD3", cstr "HUGO", cstr "ALAN", cstr "ADRI",
   cstr "LEVE", cstr "AGT", cstr "MAGS", cstr "ADVS", cstr "EXEC", cstr ""]

/-- The table `ChunkUsages`. -/
def ChunkUsages : List (List Nat) :=
  [cstr "Exec", cstr "Pict", cstr "Snd", cstr "IFmd", cstr "Fspc", cstr "ERR", cstr ""]

/-- The table `ChunkUsagesAlternateIds`. -/
def ChunkUsagesAlternateIds : List (List Nat) :=
  [cstr " EXEC EXE CODE  ", cstr " PICT PIC PICTURE ", cstr " SND MSC MUSIC SOUND ",
   cstr " META MTA BIBLIO BIBLIOGRAPHIC BIB IFMD ", cstr " POSTER POST COV COVER FRONT FSPC ",
   cstr ""]

/-- Delimiters between fields (`FieldDelimiters`). -/
def FieldDelimiters : List Nat := cstr " \t"

/-- Delimiters between lines (`LineDelimiters`). -/
def LineDelimiters : List Nat := cstr "\n\r"

/-- Characters that start a comment line (`CommentCharacters`). -/
def CommentCharacters : List Nat := cstr ";.!#%&/:\\$->"

/-- Allowed symbols in identifiers, apart from letters and digits. -/
def allowedSymbolsInIds : List Nat := cstr "_-"

/-- Model of `strchr (s, c) != NULL` for an `int c` as `fgetc` returns it: `none`
is `EOF`, which converted to `char` is the byte 255; the byte 0 always matches,
at the terminator of `s`. -/
def strchr (s : List Nat) (c : Option Nat) : Bool :=
  match c with
  | none => s.contains 255
  | some c => c == 0 || s.contains c

/-- Whether the string `n` starts the string `h`. -/
def startsWith : List Nat → List Nat → Bool
  | _, [] => true
  | [], _ :: _ => false
  | a :: h, b :: n => a == b && startsWith h n

/-- Model of `strstr (h, n) != NULL`: `n` occurs in `h`. -/
def strstr : List Nat → List Nat → Bool
  | [], n => n.isEmpty
  | a :: h, n => startsWith (a :: h) n || strstr h n

/-- Model of `toupper` in the C locale. -/
def toupper (c : Nat) : Nat := if 97 ≤ c ∧ c ≤ 122 then c - 32 else c

/-- Model of `tolower` in the C locale. -/
def tolower (c : Nat) : Nat := if 65 ≤ c ∧ c ≤ 90 then c + 32 else c

/-- Model of `isalpha` in the C locale. -/
def isalpha (c : Nat) : Bool := (65 ≤ c && c ≤ 90) || (97 ≤ c && c ≤ 122)

/-- Model of `isdigit`. -/
def isdigit (c : Nat) : Bool := 48 ≤ c && c ≤ 57

/-- Model of `strtoupper`. -/
def strtoupper (s : List Nat) : List Nat := s.map toupper

/-- Model of `strtolower`. -/
def strtolower (s : List Nat) : List Nat := s.map tolower

/-- Model of `cnvtToUsages`: the string, wrapped in spaces and upper-cased, is
searched in the alias tables in order. -/
def cnvtToUsages (s : List Nat) : Usages :=
  if s ≠ [] then
    let aux := strtoupper (32 :: s ++ [32])
    ([Usages.Exec, Usages.Pict, Usages.Snd, Usages.IFmd, Usages.Fspc].find?
      (fun toret => strstr (ChunkUsagesAlternateIds.getD toret.toNat []) aux)).getD
      Usages.UsageError
  else Usages.UsageError

/-- Model of `getVectorPos`: the position of `s` in the vector `v`, or that of
the terminating empty string. -/
def getVectorPos : List (List Nat) → List Nat → Nat
  | [], _ => 0
  | x :: v, s => if x = [] then 0 else if x = s then 0 else getVectorPos v s + 1

/-- Model of the value returned by `chkType`. -/
def chkType (use : Usages) (s : List Nat) : Bool :=
  match use with
  | .Exec => ExecutableChunkTypes.getD (getVectorPos ExecutableChunkTypes s) [] ≠ []
  | .Pict => PictureChunkTypes.getD (getVectorPos PictureChunkTypes s) [] ≠ []
  | .Snd => SoundChunkTypes.getD (getVectorPos SoundChunkTypes s) [] ≠ []
  | _ => ChunkUsages.getD use.toNat [] ≠ []

/-- Model of `isId`. On the empty string the source tests the terminator, which
`strchr` accepts, and scans the memory after it; `readChunk` never passes the empty
string, and the model answers `false` there. -/
def isId (id : List Nat) : Bool :=
  match id with
  | [] => false
  | c :: rest =>
    if isalpha c || strchr allowedSymbolsInIds (some c) then
      rest.all (fun c => isalpha c || isdigit c || strchr allowedSymbolsInIds (some c))
    else false

/-- Model of `strTrim`: `beg` is the index of the first character that is not a
delimiter, `end_` one past the last such character; the string is cut at `end_`
and, when `beg` is not 0 and lies before `end_`, moved to the front. -/
def strTrim (s : List Nat) (delimiters : List Nat) : List Nat :=
  let beg := (s.takeWhile (fun c => strchr delimiters (some c))).length
  let end_ := s.length - (s.reverse.takeWhile (fun c => strchr delimiters (some c))).length
  if beg ≠ 0 ∧ end_ > beg then (s.take end_).drop beg else s.take end_

/-- The index of the last occurrence of `c` in `s`, as the backward scans of
`getFileNameExt` find it. -/
def lastIndexOf (c : Nat) : List Nat → Option Nat
  | [] => none
  | x :: xs =>
    match lastIndexOf c xs with
    | some i => some (i + 1)
    | none => if x = c then some 0 else none

/-- Model of `getFileNameExt`. After the last dot, at index `dotPos`, the source
copies `extLen = dotPos + 2` bytes and terminates the copy there: the result is
the extension cut to `dotPos + 2` characters, then trimmed. (Reads and writes
outside the two buffers are not modelled.) -/
def getFileNameExt (fileName : List Nat) : List Nat :=
  match lastIndexOf 46 fileName with
  | none => []
  | some dotPos =>
    let extLen := dotPos + 2
    strTrim ((fileName.drop (dotPos + 1)).take extLen) FieldDelimiters

/-- Model of `isRelativePath`. -/
def isRelativePath (fileName : List Nat) : Bool :=
  match fileName with
  | [] => true
  | c :: rest =>
    if c = 47 ∨ c = 92 then false
    else if isalpha c then
      match rest with
      | 58 :: 92 :: _ => false
      | _ => true
    else true

/-- Model of `makeCompletePath`. -/
def makeCompletePath (path fileName : List Nat) : List Nat := path ++ fileName

/-! ## The control file -/

/-- The control file while it is read: the bytes not yet read and the
end-of-file indicator. -/
structure InFile where
  rest : List Nat
  eof : Bool
deriving DecidableEq

/-- Model of `fgetc`: `none` is `EOF`, and reading it sets the indicator. -/
def fgetc (f : InFile) : Option Nat × InFile :=
  match f.rest with
  | [] => (none, { f with eof := true })
  | c :: rest => (some c, { f with rest := rest })

/-- Model of `ungetc`: pushing `EOF` back does nothing, pushing a character back
clears the indicator. -/
def ungetc (c : Option Nat) (f : InFile) : InFile :=
  match c with
  | none => f
  | some c => { rest := c :: f.rest, eof := false }

/-- Model of `feof`. -/
def feof (f : InFile) : Bool := f.eof

/-- The loop of `skipDelimiters` over the bytes to read. -/
def skipDelimitersFrom (eof : Bool) : List Nat → InFile
  | [] => { rest := [], eof := true }
  | c :: rest =>
    if strchr FieldDelimiters (some c) || strchr LineDelimiters (some c) then
      skipDelimitersFrom eof rest
    else ungetc (some c) { rest := rest, eof := eof }

/-- Model of `skipDelimiters`. -/
def skipDelimiters (f : InFile) : InFile := skipDelimitersFrom f.eof f.rest

/-- The first loop of `freadLine`: the characters stored, the bytes left after
the character that stopped the loop, and whether that was `EOF`. -/
def freadLineChars (delimiters : List Nat) : List Nat → List Nat × List Nat × Bool
  | [] => ([], [], true)
  | c :: rest =>
    if !strchr delimiters (some c) && c != 10 && c != 13 then
      let (line, rest, atEof) := freadLineChars delimiters rest
      (c :: line, rest, atEof)
    else ([], rest, false)

/-- The last loop of `freadLine`: skip the end of line, push back what follows. -/
def skipEndOfLine (eof : Bool) : List Nat → InFile
  | [] => { rest := [], eof := true }
  | c :: rest =>
    if c = 13 ∨ c = 10 then skipEndOfLine eof rest
    else ungetc (some c) { rest := rest, eof := eof }

/-- Model of `freadLine`: the line read and the stream after it. (The capacity
of the buffer, which the source grows while it stores, is not modelled.) -/
def freadLine (f : InFile) (delimiters : List Nat) : List Nat × InFile :=
  let (line, rest, atEof) := freadLineChars delimiters f.rest
  (line, skipEndOfLine (f.eof || atEof) rest)

/-! ## The status of a build -/

/-- The ways a build ends short of its result. All but the last are the
messages given to `manageError`, which exits. -/
inductive Failure where
  /-- Message "%d: Illegal use '%s'", from `chkUse`. -/
  | illegalUse (lineNumber : Nat) (s : List Nat)
  /-- Message "duplicated bibliographic info". -/
  | duplicatedBib
  /-- Message "duplicated cover". -/
  | duplicatedCover
  /-- Message "unexpected end of file". -/
  | unexpectedEndOfFile
  /-- Message "%d: unrecognized file extension '%s' in '%s'", from `inferType`. -/
  | unrecognizedExtension (lineNumber : Nat) (ext fileName : List Nat)
  /-- Message "%d: can't open file '%s'". -/
  | cantOpen (lineNumber : Nat) (fileName : List Nat)
  /-- Not a message: a store at `BlorbChunks[MaxChunksBlorb]` or after, which
  the source does not check for and whose behaviour is undefined. -/
  | chunkArrayOverrun
  /-- Not an outcome of the source: a loop of the model ran out of fuel. -/
  | outOfFuel
deriving DecidableEq

/-- The fields of `struct _status` the container depends on. `BlorbChunks` holds
the first `numberOfChunks` entries of the array; `path` is the directory of the
control file, `in_` the control file (`in`), `out` the container. -/
structure Status where
  nextChunkForPicts : Nat
  nextChunkForSnds : Nat
  nextChunkForExecs : Nat
  nextChunkForMeta : Nat
  verbose : Bool
  noBli : Bool
  onlyBli : Bool
  thereIsCover : Bool
  coverChunk : Nat
  coverId : Nat
  isShortExtension : Bool
  thereIsBib : Bool
  lineNumber : Nat
  BlorbChunks : List Chunk
  numberOfIndexEntries : Nat
  indexOffsets : List Nat
  path : List Nat
  isGlulx : Bool
  in_ : InFile
  out : FILE
deriving DecidableEq

/-- The field `numberOfChunks`. -/
def Status.numberOfChunks (status : Status) : Nat := status.BlorbChunks.length

/-- Model of `initStatus`. The source leaves `isGlulx` uninitialised: its value
is a parameter. The streams are opened later, by `main`. -/
def initStatus (isGlulx : Bool) : Status :=
  { nextChunkForPicts := 3
    nextChunkForSnds := 3
    nextChunkForExecs := 0
    nextChunkForMeta := 0
    verbose := false
    noBli := false
    onlyBli := false
    isShortExtension := false
    thereIsCover := false
    thereIsBib := false
    coverChunk := 0
    coverId := 0
    lineNumber := 0
    BlorbChunks := []
    numberOfIndexEntries := 0
    path := []
    indexOffsets := []
    isGlulx := isGlulx
    in_ := { rest := [], eof := false }
    out := FILE.empty }

/-- Model of `chkUse`: the value returned. -/
def chkUse (s : List Nat) : Bool := cnvtToUsages s ≠ Usages.UsageError

/-- Model of `assignResNumber`: the number and the status with the counter of
the usage incremented (an `unsigned int`). -/
def assignResNumber (use : Usages) (stat : Status) : Nat × Status :=
  match use with
  | .Exec => (stat.nextChunkForExecs,
      { stat with nextChunkForExecs := (stat.nextChunkForExecs + 1) % 2 ^ 32 })
  | .Pict => (stat.nextChunkForPicts,
      { stat with nextChunkForPicts := (stat.nextChunkForPicts + 1) % 2 ^ 32 })
  | .Snd => (stat.nextChunkForSnds,
      { stat with nextChunkForSnds := (stat.nextChunkForSnds + 1) % 2 ^ 32 })
  | .IFmd => (stat.nextChunkForMeta,
      { stat with nextChunkForMeta := (stat.nextChunkForMeta + 1) % 2 ^ 32 })
  | _ => (Usages.UsageError.toNat, stat)

/-- Model of `prepareFileName`. -/
def prepareFileName (buffer : List Nat) (status : Status) : List Nat :=
  let buffer := strTrim buffer FieldDelimiters
  if isRelativePath buffer then makeCompletePath status.path buffer else buffer

/-- Model of `inferType`: the chunk with its `Type` set from the extension of the
file, and the status with `isGlulx` set for a story file. -/
def inferType (chunk : Chunk) (fileName : List Nat) (status : Status) :
    Except Failure (Chunk × Status) :=
  let ext := strtolower (getFileNameExt fileName)
  if ext = cstr "jpg" then
    .ok ({ chunk with Type_ := copyId (PictureChunkTypes.getD JPG []) }, status)
  else if ext = cstr "png" then
    .ok ({ chunk with Type_ := copyId (PictureChunkTypes.getD PNG []) }, status)
  else if ext = cstr "ogg" then
    .ok ({ chunk with Type_ := copyId (SoundChunkTypes.getD OGG []) }, status)
  else if ext = cstr "mod" then
    .ok ({ chunk with Type_ := copyId (SoundChunkTypes.getD MOD []) }, status)
  else if ext = cstr "aif" then
    .ok ({ chunk with Type_ := copyId (SoundChunkTypes.getD AIFF []) }, status)
  else if ext = cstr "z5" then
    .ok ({ chunk with Type_ := copyId (ExecutableChunkTypes.getD ZCOD []) },
         { status with isGlulx := false })
  else if ext = cstr "z8" then
    .ok ({ chunk with Type_ := copyId (ExecutableChunkTypes.getD ZCOD []) },
         { status with isGlulx := false })
  else if ext = cstr "ulx" then
    .ok ({ chunk with Type_ := copyId (ExecutableChunkTypes.getD GLUL []) },
         { status with isGlulx := true })
  else if ext = cstr "ifiction" then
    .ok ({ chunk with Type_ := copyId (ChunkUsages.getD Usages.IFmd.toNat []) }, status)
  else .error (.unrecognizedExtension status.lineNumber ext fileName)

/-- The loop of `readChunk` that skips the commented lines, `c` being the
character just read. One unit of fuel is used for each line. -/
def skipComments : Nat → Option Nat → InFile → Except Failure (Option Nat × InFile)
  | 0, _, _ => .error .outOfFuel
  | fuel + 1, c, f =>
    if strchr CommentCharacters c then
      let (_, f) := freadLine f LineDelimiters
      let f := skipDelimiters f
      let (c, f) := fgetc f
      skipComments fuel c f
    else .ok (c, f)

/-- The part of `readChunk` from "Use" to "Assign id": `buffer` holds the first
token of the entry. The result is the chunk with `Use` and `Res` set (and `Type`
for bibliographic info), the status and the local `use`. -/
def readChunkUse (buffer : List Nat) (toret : Chunk) (status : Status) :
    Except Failure (Chunk × Status × Usages) := do
  let use := cnvtToUsages buffer
  let toret := { toret with Use := copyId (ChunkUsages.getD use.toNat []) }
  -- Chk use
  if !chkUse toret.Use then throw (.illegalUse status.lineNumber toret.Use)
  -- Convert use, if needed
  let (toret, status, use) ←
    if use = .IFmd then
      if !status.thereIsBib then
        (.ok ({ toret with Type_ := toret.Use, Use := cstr "0" },
              { status with thereIsBib := true }, use) :
          Except Failure (Chunk × Status × Usages))
      else throw .duplicatedBib
    else if use = .Fspc then
      if !status.thereIsCover then
        pure ({ toret with Use := ChunkUsages.getD Usages.Pict.toNat [] },
              { status with thereIsCover := true, coverChunk := status.numberOfChunks },
              Usages.Pict)
      else throw .duplicatedCover
    else pure (toret, status, use)
  -- Assign id
  let (res, status) := assignResNumber use status
  pure ({ toret with Res := res }, status, use)

/-- The part of `readChunk` from "get file name" to the end: `buffer` holds the
file name as read from the entry. `fs` gives the contents of the files that can
be opened. The result is the chunk, or `none` for the `NULL` returned for a file
that cannot be opened in `onlyBli` mode. -/
def readChunkFile (fs : List Nat → Option (List Nat)) (buffer : List Nat) (toret : Chunk)
    (use : Usages) (status : Status) : Except Failure (Option Chunk × Status) := do
  -- get file name
  let fileName := prepareFileName buffer status
  -- set the type of the chunk; the value of chkType is not used
  let (toret, status) ← inferType toret fileName status
  let _ := chkType use toret.Type_
  let status :=
    if status.thereIsCover && status.numberOfChunks == status.coverChunk then
      { status with coverId := toret.Res }
    else status
  -- open file name
  match fs fileName with
  | none =>
    if status.onlyBli then pure (none, status)
    else throw (.cantOpen status.lineNumber fileName)
  | some contents =>
    pure (some { toret with Length := contents.length, Data := contents }, status)

/-- The part of `readChunk` that reads the rest of the line: the file name and
the stream after it. A second token that is an identifier is skipped, and the
file name is then the rest of the line. -/
def readChunkRest (f : InFile) : List Nat × InFile :=
  let (buffer, f) := freadLine f FieldDelimiters
  if isId buffer then
    let f := skipDelimiters f
    let (buffer, f) := freadLine f LineDelimiters
    (strTrim buffer FieldDelimiters, f)
  else (buffer, f)

/-- Model of `readChunk`: one entry of the control file is read and its file
loaded. The result is the chunk, or `none` for the `NULL` returned at the end of
the file and for a file that cannot be opened in `onlyBli` mode. -/
def readChunk (fs : List Nat → Option (List Nat)) (status : Status) :
    Except Failure (Option Chunk × Status) :=
  let toret := Chunk.zero
  -- skip commented lines
  let f := skipDelimiters status.in_
  let (c, f) := fgetc f
  match skipComments (f.rest.length + 2) c f with
  | .error e => .error e
  -- End of file?
  | .ok (none, f) => .ok (none, { status with in_ := f })
  | .ok (some c, f) =>
    -- Use
    let f := ungetc (some c) f
    let (buffer, f) := freadLine f FieldDelimiters
    match readChunkUse buffer toret status with
    | .error e => .error e
    | .ok (toret, status, use) =>
      -- Abort if anything is wrong
      let f := skipDelimiters f
      if feof f then .error .unexpectedEndOfFile
      else
        -- Read the rest of the line, if needed
        let (buffer, f) := readChunkRest f
        match readChunkFile fs buffer toret use status with
        | .error e => .error e
        | .ok (chunk, status) => .ok (chunk, { status with in_ := f })

/-- The body of `if (chunk != NULL)` in the first loop of `buildIndex`: the line
is counted, the chunk stored after the others, the delimiters skipped. -/
def storeChunk (status : Status) (chunk : Chunk) : Status :=
  { status with
    lineNumber := (status.lineNumber + 1) % 2 ^ 32
    BlorbChunks := status.BlorbChunks ++ [chunk]
    in_ := skipDelimiters status.in_ }

/-- The first loop of `buildIndex` (`do ... while (!feof (status->in))`), the
state being the status and the local `n`. One unit of fuel is used for each
call of `readChunk`. -/
def loadChunks (fs : List Nat → Option (List Nat)) :
    Nat → Status × Nat → Except Failure (Status × Nat)
  | 0, _ => .error .outOfFuel
  | fuel + 1, (status, n) => do
    let (chunk, status) ← readChunk fs status
    let (status, n) ←
      match chunk with
      | some chunk =>
        if status.numberOfChunks ≥ MaxChunksBlorb then
          (.error .chunkArrayOverrun : Except Failure (Status × Nat))
        else .ok (storeChunk status chunk, if chunk.Use ≠ cstr "0" then n + 1 else n)
      | none => .ok (status, n)
    if !feof status.in_ then loadChunks fs fuel (status, n) else pure (status, n)

/-- The cover chunk `buildIndex` creates: it holds the resource number of the
cover picture, and is numbered with `nextChunkForMeta` incremented first. -/
def frontispiece (status : Status) : Chunk :=
  { Use := cstr "0"
    Type_ := ChunkUsages.getD Usages.Fspc.toNat []
    Res := (status.nextChunkForMeta + 1) % 2 ^ 32
    Data := strLong (List.replicate BlorbIdLen 0) 0 status.coverId
    Length := 4 }

/-- The part of `buildIndex` that prepares the cover chunk. -/
def coverChunk (status : Status) : Except Failure Status :=
  if status.thereIsCover then
    if status.numberOfChunks ≥ MaxChunksBlorb then .error .chunkArrayOverrun
    else
      .ok { status with
            nextChunkForMeta := (status.nextChunkForMeta + 1) % 2 ^ 32
            BlorbChunks := status.BlorbChunks ++ [frontispiece status] }
  else .ok status

/-- The last part of `buildIndex`: the data of the index chunk is allocated and
filled, and the patch table `indexOffsets` computed; `n` is the number of
resources counted while the chunks were loaded. -/
def indexChunk (status : Status) (n : Nat) : Status :=
  match status.BlorbChunks with
  | [] => status
  | index :: chunks =>
    let length := 12 * n + 4
    let data := List.replicate length 0
    let indexOffsets := List.replicate n 0
    let data := strLong data 0 n
    let (data, _, indexOffsets, numberOfIndexEntries) :=
      indexRecords chunks (data, 4, indexOffsets, status.numberOfIndexEntries)
    { status with
      BlorbChunks := { index with Length := length, Data := data } :: chunks
      indexOffsets := indexOffsets
      numberOfIndexEntries := numberOfIndexEntries }

/-- The index chunk as `buildIndex` first prepares it. -/
def indexChunk0 : Chunk := { Chunk.zero with Type_ := cstr "RIdx", Use := cstr "0" }

/-- Model of `buildIndex`. -/
def buildIndex (fs : List Nat → Option (List Nat)) (status : Status) :
    Except Failure Status := do
  -- Prepare index chunk
  let status := { status with BlorbChunks := [indexChunk0] }
  -- Load all the chunks
  let status := { status with in_ := skipDelimiters status.in_ }
  let (status, n) ←
    if !feof status.in_ then loadChunks fs (status.in_.rest.length + 1) (status, 0)
    else pure (status, 0)
  -- Is there a cover? Prepare cover chunk
  let status ← coverChunk status
  -- The resource index chunk
  pure (indexChunk status n)

/-- Model of `generateBlorb`. -/
def generateBlorb (status : Status) : Status :=
  -- Write the IFF header
  let out := writeId status.out (cstr "FORM")
  let out := writeId out (cstr "latr")
  let out := writeId out (cstr "IFRS")
  let (out, _) := generateChunks status.indexOffsets status.BlorbChunks (out, 0)
  -- Size of the data section of the blorb file
  let n := ftell out - 8
  let out := fseek out 4
  { status with out := writeInt out n }

/-- The status `main` hands to `buildIndex`: the one `initStatus` sets, with the
options decided, the directory `path` of the control file and the control file
`control` opened. -/
def startStatus (verbose noBli onlyBli isShortExtension isGlulx : Bool)
    (path control : List Nat) : Status :=
  { initStatus isGlulx with
    verbose := verbose
    noBli := noBli
    onlyBli := onlyBli
    isShortExtension := isShortExtension
    path := path
    in_ := { rest := control, eof := false } }

/-! ## A small build, used to exercise the definitions -/

/-- The control file of the example of the specification. -/
def exampleControl : List Nat :=
  cstr "pict myPic cover.png\nsnd mySound theme.ogg\nexec story.z8\n"

/-- A file system holding the three files of the example. -/
def exampleFs (fileName : List Nat) : Option (List Nat) :=
  if fileName = cstr "cover.png" then some [1, 2, 3]
  else if fileName = cstr "theme.ogg" then some [4, 5]
  else if fileName = cstr "story.z8" then some [6, 7, 8, 9, 10]
  else none

/-! ## Notions used to state the properties -/

/-- The 4-byte big-endian encoding of a value below `2 ^ 32`. -/
def bigEndian (v : Nat) : List Nat :=
  [v / 2 ^ 24 % 256, v / 2 ^ 16 % 256, v / 2 ^ 8 % 256, v % 256]

/-- A tag space-padded to 4 bytes (and cut to 4 bytes if longer). -/
def padId (s : List Nat) : List Nat := s.take 4 ++ List.replicate (4 - s.length) 32

/-- The value of the 4 bytes at offset `off` of `bytes`, read big-endian. -/
def readInt (bytes : List Nat) (off : Nat) : Nat :=
  bytes.getD off 0 * 2 ^ 24 + bytes.getD (off + 1) 0 * 2 ^ 16 + bytes.getD (off + 2) 0 * 2 ^ 8
    + bytes.getD (off + 3) 0

/-- The index of a container decoded: the entry count at offset 20, then for
each entry the 12-byte record with its usage tag, resource number and offset. -/
def decodeIndex (bytes : List Nat) : List (List Nat × Nat × Nat) :=
  (List.range (readInt bytes 20)).map fun k =>
    ((bytes.drop (24 + 12 * k)).take 4, readInt bytes (28 + 12 * k), readInt bytes (32 + 12 * k))

/-- The bytes `writeChunk` writes for a chunk: what it leaves in a new file. -/
def chunkBytes (chunk : Chunk) : List Nat := (writeChunk FILE.empty chunk).bytes

/-- A stream positioned at its end. -/
def FILE.AtEnd (f : FILE) : Prop := f.pos = f.bytes.length

/-- The chunks that get an index record: those whose usage is not "0". -/
def indexable (chunks : List Chunk) : List Chunk :=
  chunks.filter fun chunk => chunk.Use ≠ cstr "0"

/-- The 12-byte index record of a chunk: its usage tag space-padded to 4 bytes,
its resource number and an offset, both as 4 big-endian bytes. -/
def indexRecordBytes (chunk : Chunk) (offset : Nat) : List Nat :=
  padId chunk.Use ++ bigEndian (chunk.Res % 2 ^ 32) ++ bigEndian (offset % 2 ^ 32)

/-- The indexable chunks of a list, each with the position at which its bytes
start when the bytes of the chunks follow one another from position `start`. -/
def indexedAt (start : Nat) : List Chunk → List (Chunk × Nat)
  | [] => []
  | chunk :: chunks =>
    (if chunk.Use ≠ cstr "0" then [(chunk, start)] else [])
      ++ indexedAt (start + (chunkBytes chunk).length) chunks

/-- The 12 bytes of the IFF header as `generateBlorb` first writes them. -/
def headerBytes : List Nat := cstr "FORM" ++ cstr "latr" ++ cstr "IFRS"

/-- The bytes of a container from offset 8 on, for the chunks that follow the
index chunk: the format tag, the index chunk with its records patched, and the
bytes of the chunks. -/
def containerBody (chunks : List Chunk) : List Nat :=
  cstr "IFRS" ++ cstr "RIdx" ++ bigEndian ((12 * (indexable chunks).length + 4) % 2 ^ 32)
    ++ bigEndian ((indexable chunks).length % 2 ^ 32)
    ++ (indexedAt (24 + 12 * (indexable chunks).length) chunks).flatMap
        (fun p => indexRecordBytes p.1 p.2)
    ++ chunks.flatMap chunkBytes

/-- The type tags `inferType` can give a chunk. -/
def inferredTypes : List (List Nat) :=
  [cstr "JPEG", cstr "PNG", cstr "OGGV", cstr "MOD", cstr "AIFF", cstr "ZCOD", cstr "GLUL",
   cstr "IFmd"]

/-- The usage tag stored in the chunk of an entry of usage `u`: bibliographic
info is stored with the sentinel "0". -/
def storedUse : Usages → List Nat
  | .Exec => cstr "Exec"
  | .Pict => cstr "Pict"
  | .Snd => cstr "Snd"
  | _ => cstr "0"

/-- The counter from which the entries of usage `u` are numbered. -/
def counterOf (status : Status) : Usages → Nat
  | .Exec => status.nextChunkForExecs
  | .Pict => status.nextChunkForPicts
  | .Snd => status.nextChunkForSnds
  | _ => status.nextChunkForMeta

/-- The counters of `st1` are those of `st`, with the counter of usage `u`
incremented. -/
def Bump (st st1 : Status) (u : Usages) : Prop :=
  st1.nextChunkForExecs
      = (if u = .Exec then (st.nextChunkForExecs + 1) % 2 ^ 32 else st.nextChunkForExecs)
    ∧ st1.nextChunkForPicts
      = (if u = .Pict then (st.nextChunkForPicts + 1) % 2 ^ 32 else st.nextChunkForPicts)
    ∧ st1.nextChunkForSnds
      = (if u = .Snd then (st.nextChunkForSnds + 1) % 2 ^ 32 else st.nextChunkForSnds)
    ∧ st1.nextChunkForMeta
      = (if u = .IFmd then (st.nextChunkForMeta + 1) % 2 ^ 32 else st.nextChunkForMeta)

/-- What holds of every chunk that follows the index chunk. -/
def GoodChunk (chunk : Chunk) : Prop :=
  chunk.Res < 2 ^ 32 ∧ chunk.Type_ ∈ cstr "Fspc" :: inferredTypes
    ∧ chunk.Data.length = chunk.Length
    ∧ chunk.Use ∈ [cstr "0", cstr "Exec", cstr "Pict", cstr "Snd"]

/-- The invariant of the first loop of `buildIndex`: the index chunk comes
first, `n` counts the indexable chunks loaded, no index entry is written yet,
the
chunks are well formed and fit the array, and the counters are in range. -/
def Loaded (s : Status × Nat) : Prop :=
  (∃ chunks, s.1.BlorbChunks = indexChunk0 :: chunks ∧ s.2 = (indexable chunks).length
      ∧ ∀ chunk ∈ chunks, GoodChunk chunk)
    ∧ s.1.numberOfIndexEntries = 0 ∧ s.1.BlorbChunks.length ≤ MaxChunksBlorb
    ∧ s.1.nextChunkForExecs < 2 ^ 32 ∧ s.1.nextChunkForPicts < 2 ^ 32
    ∧ s.1.nextChunkForSnds < 2 ^ 32 ∧ s.1.nextChunkForMeta < 2 ^ 32

/-- The bytes of the container `generateBlorb` writes to a new file. -/
def container (status : Status) : List Nat :=
  (generateBlorb { status with out := FILE.empty }).out.bytes

/-- The status with which `buildIndex` ends on the example, or the initial
status if it failed. -/
def exampleIndexed : Status :=
  match buildIndex exampleFs (startStatus false false false false false [] exampleControl) with
  | .ok status => status
  | .error _ => initStatus false

/-- The chunks of a list stored with the usage tag `tag`. -/
def usedBy (tag : List Nat) (chunks : List Chunk) : List Chunk :=
  chunks.filter fun chunk => chunk.Use = tag

/-- The chunks of usage `tag` are numbered from `base` on, one after the other,
and `counter` is the number the next one gets. -/
def NumberedFrom (tag : List Nat) (base counter : Nat) (chunks : List Chunk) : Prop :=
  (usedBy tag chunks).map (fun chunk => chunk.Res) = List.range' base (usedBy tag chunks).length
    ∧ counter = base + (usedBy tag chunks).length

/-- The invariant of the first loop of `buildIndex` when no entry is dropped:
pictures and sounds are numbered from 3, executables from 0. -/
def Numbered (s : Status × Nat) : Prop :=
  NumberedFrom (cstr "Pict") 3 s.1.nextChunkForPicts s.1.BlorbChunks
    ∧ NumberedFrom (cstr "Snd") 3 s.1.nextChunkForSnds s.1.BlorbChunks
    ∧ NumberedFrom (cstr "Exec") 0 s.1.nextChunkForExecs s.1.BlorbChunks
    ∧ s.1.BlorbChunks.length ≤ MaxChunksBlorb

/-- A control file with one entry, for bibliographic info. -/
def bibControl : List Nat := cstr "meta biblio.ifiction\n"

/-- A file system holding the file of `bibControl`. -/
def bibFs (fileName : List Nat) : Option (List Nat) :=
  if fileName = cstr "biblio.ifiction" then some [60, 62] else none

/-- The status with which `buildIndex` ends on `bibControl`, or the initial
status if it failed. -/
def bibIndexed : Status :=
  match buildIndex bibFs (startStatus false false false false false [] bibControl) with
  | .ok status => status
  | .error _ => initStatus false

/-! ## Control files made of well-formed entries -/

/-- An entry of a control file: the usage token, the optional identifier and the
file path. -/
structure Entry where
  use : List Nat
  id : Option (List Nat)
  file : List Nat
deriving DecidableEq

/-- The characters that end a token: NUL, tab, line feed, carriage return and
space. -/
def isBlank (c : Nat) : Bool := c == 0 || c == 9 || c == 10 || c == 13 || c == 32

/-- An entry the reader takes as written: its tokens are not empty and hold no
blank, the usage token does not start with a comment character, the identifier
is one for `isId`, and without an identifier the file path is not one. -/
def Entry.WellFormed (e : Entry) : Prop :=
  e.use ≠ [] ∧ (∀ c ∈ e.use, isBlank c = false)
    ∧ strchr CommentCharacters e.use.head? = false
    ∧ e.file ≠ [] ∧ (∀ c ∈ e.file, isBlank c = false)
    ∧ (match e.id with
       | some i => isId i = true ∧ ∀ c ∈ i, isBlank c = false
       | none => isId e.file = false)

/-- The line of an entry: the tokens separated by one space, ended by a line
feed. -/
def Entry.render (e : Entry) : List Nat :=
  e.use ++ 32 :: ((match e.id with
    | some i => i ++ [32]
    | none => []) ++ (e.file ++ [10]))

/-- The control file made of the lines of the entries. -/
def renderAll : List Entry → List Nat
  | [] => []
  | e :: es => e.render ++ renderAll es

/-- The status with the control file replaced. -/
def withIn (f : InFile) (status : Status) : Status := { status with in_ := f }

/-- What `readChunk` does of an entry once its tokens are read: the usage part,
then the file part. -/
def entryStep (fs : List Nat → Option (List Nat)) (status : Status) (e : Entry) :
    Except Failure (Option Chunk × Status) :=
  match readChunkUse e.use Chunk.zero status with
  | .error err => .error err
  | .ok (toret, status, use) => readChunkFile fs e.file toret use status

/-- The first loop of `buildIndex` over the entries of a control file, with the
control file left at its end after each entry: `loadChunks_renderAll` shows that
`loadChunks` on the control file made of the entries computes it. -/
def loadEntries (fs : List Nat → Option (List Nat)) :
    List Entry → Status × Nat → Except Failure (Status × Nat)
  | [], s => .ok s
  | e :: es, (status, n) =>
    match entryStep fs status e with
    | .error err => .error err
    | .ok (some chunk, status) =>
      if status.numberOfChunks ≥ MaxChunksBlorb then .error .chunkArrayOverrun
      else
        loadEntries fs es
          (storeChunk (withIn { rest := [], eof := true } status) chunk,
           if chunk.Use ≠ cstr "0" then n + 1 else n)
    | .ok (none, status) => loadEntries fs es (withIn { rest := [], eof := true } status, n)

/-- The status `buildIndex` starts the first loop with, the control file left
at its end. -/
def entriesStart (verbose noBli onlyBli isShortExtension isGlulx : Bool)
    (path : List Nat) : Status :=
  { startStatus verbose noBli onlyBli isShortExtension isGlulx path [] with
    BlorbChunks := [indexChunk0]
    in_ := { rest := [], eof := true } }

/-- Whether the usage token of the entry resolves to bibliographic info. -/
def Entry.isBib (e : Entry) : Bool := cnvtToUsages e.use == Usages.IFmd

/-- Whether the usage token of the entry resolves to the cover. -/
def Entry.isCover (e : Entry) : Bool := cnvtToUsages e.use == Usages.Fspc

/-- A control list with two cover entries followed by two entries of
bibliographic info. -/
def twiceBoth : List Entry :=
  [{ use := cstr "cover", id := none, file := cstr "cover.png" },
   { use := cstr "cover", id := none, file := cstr "cover.png" },
   { use := cstr "meta", id := none, file := cstr "biblio.ifiction" },
   { use := cstr "meta", id := none, file := cstr "biblio.ifiction" }]

/-- A control list with two entries of bibliographic info. -/
def twiceBib : List Entry :=
  [{ use := cstr "meta", id := none, file := cstr "biblio.ifiction" },
   { use := cstr "bib", id := some (cstr "about"), file := cstr "biblio.ifiction" }]

/-- A control file whose only entry is bibliographic info kept in a picture
file. -/
def bibInPicture : List Nat := cstr "meta cover.png\n"

/-! ## The alias words of a usage -/

/-- The parts of a string between its spaces. -/
def splitAtSpaces : List Nat → List (List Nat)
  | [] => [[]]
  | c :: rest =>
    if c = 32 then [] :: splitAtSpaces rest
    else
      match splitAtSpaces rest with
      | [] => [[c]]
      | w :: ws => (c :: w) :: ws

/-- The words of a string: its parts between spaces that are not empty. -/
def wordsOf (s : List Nat) : List (List Nat) := (splitAtSpaces s).filter (fun w => w ≠ [])

/-- The alias words listed for a usage in `ChunkUsagesAlternateIds`. -/
def aliasWords (u : Usages) : List (List Nat) :=
  wordsOf (ChunkUsagesAlternateIds.getD u.toNat [])

/-! ## Control files used to evaluate the reader -/

/-- A control file whose entries name files of a type their usage does not
allow. -/
def typeMismatchControl : List Nat := cstr "pict theme.ogg\nsnd cover.png\n"

/-- A control file whose entry names a file with the extension `pngx`. -/
def cutExtControl : List Nat := cstr "pict a.pngx\n"

/-- A file system holding the file of `cutExtControl`. -/
def cutExtFs (fileName : List Nat) : Option (List Nat) :=
  if fileName = cstr "a.pngx" then some [1] else none

/-- A control file whose first line is an entry with an extension that is not
recognized. -/
def badExtControl : List Nat := cstr "pict a.xyz\n"

/-- The entry of `badExtControl` on the fourth line, after two comment lines and
a blank line. -/
def commentedBadExtControl : List Nat := cstr "! a comment\n\n! another comment\npict a.xyz\n"

/-- The entry of `badExtControl` on the third line, after an entry and a comment
line. -/
def secondBadExtControl : List Nat := cstr "pict cover.png\n! a comment\npict a.xyz\n"

/-- An entry for the picture `cover.png`. -/
def pictEntry : Entry := { use := cstr "pict", id := none, file := cstr "cover.png" }

/-! ## Entries met by the reader in a given status -/

/-- The extensions `inferType` knows. -/
def knownExtensions : List (List Nat) :=
  [cstr "jpg", cstr "png", cstr "ogg", cstr "mod", cstr "aif", cstr "z5", cstr "z8",
   cstr "ulx", cstr "ifiction"]

/-- Whether `inferType` knows the extension `getFileNameExt` gives for the file. -/
def knownExt (fileName : List Nat) : Bool :=
  knownExtensions.contains (strtolower (getFileNameExt fileName))

/-- A control file with two cover entries, the second under the alias `poster`. -/
def secondCoverControl : List Nat := cstr "cover cover.png\nposter cover.png\n"

/-- A control file whose first entry names a file that is missing from `bibFs`. -/
def droppedBibControl : List Nat := cstr "meta missing.ifiction\nmeta biblio.ifiction\n"

/-- A control file whose cover entry names a file that is missing from
`exampleFs`. -/
def droppedCoverControl : List Nat := cstr "cover missing.png\npict cover.png\n"

/-- A control file whose cover entry names a file that is missing from
`exampleFs`, followed by a story file. -/
def droppedCoverExecControl : List Nat := cstr "cover missing.png\nexec story.z8\n"

/-- A control file whose only entry is a cover naming a file that is missing from
`exampleFs`. -/
def droppedCoverAloneControl : List Nat := cstr "cover missing.png\n"

/-- An entry whose usage token is no alias of a usage. -/
def fooEntry : Entry := { use := cstr "foo", id := none, file := cstr "cover.png" }

/-- An entry for a picture missing from `exampleFs`. -/
def missingEntry : Entry := { use := cstr "pict", id := none, file := cstr "missing.png" }

/-- A control list with a cover entry between a picture and a sound. -/
def coverEntries : List Entry :=
  [pictEntry,
   { use := cstr "cover", id := none, file := cstr "cover.png" },
   { use := cstr "snd", id := some (cstr "mySound"), file := cstr "theme.ogg" }]

/-- The status with which `buildIndex` ends on `coverEntries`, or the initial
status if it failed. -/
def coverIndexed : Status :=
  match buildIndex exampleFs
      (startStatus false false false false false [] (renderAll coverEntries)) with
  | .ok status => status
  | .error _ => initStatus false

/-! ## The directory of the control file -/

/-- The index of the last '/' or '\\' of a string, as the backward scan of
`getPathFromFileName` finds it. -/
def lastSlashIndex : List Nat → Option Nat
  | [] => none
  | x :: xs =>
    match lastSlashIndex xs with
    | some i => some (i + 1)
    | none => if x = 47 ∨ x = 92 then some 0 else none

/-- Model of `getPathFromFileName`: the name up to its last '/' or '\\', that
character included; `resultingLen` is 0 when there is none. `main` sets the field
`path` of the status to its value on the name of the control file. -/
def getPathFromFileName (fileName : List Nat) : List Nat :=
  match lastSlashIndex fileName with
  | none => []
  | some i => fileName.take (i + 1)

/-- A path is absolute when it starts with '/' or '\\', or with a letter followed
by ":\\". -/
def isAbsolute (p : List Nat) : Prop :=
  (∃ rest, p = 47 :: rest) ∨ (∃ rest, p = 92 :: rest)
    ∨ ∃ c rest, p = c :: 58 :: 92 :: rest ∧ ((65 ≤ c ∧ c ≤ 90) ∨ (97 ≤ c ∧ c ≤ 122))

/-- The identifier grammar: a letter, '_' or '-', then letters, digits, '_' or
'-'. -/
def idFirst (c : Nat) : Prop := (65 ≤ c ∧ c ≤ 90) ∨ (97 ≤ c ∧ c ≤ 122) ∨ c = 95 ∨ c = 45

/-- The characters after the first one of an identifier. -/
def idLater (c : Nat) : Prop :=
  (65 ≤ c ∧ c ≤ 90) ∨ (97 ≤ c ∧ c ≤ 122) ∨ (48 ≤ c ∧ c ≤ 57) ∨ c = 95 ∨ c = 45

instance idFirstDecidable (c : Nat) : Decidable (idFirst c) := by
  unfold idFirst
  infer_instance

instance idLaterDecidable (c : Nat) : Decidable (idLater c) := by
  unfold idLater
  infer_instance

/-- A control file whose only line holds a usage, a file name that is not an
identifier, and a further word. -/
def spacedControl : List Nat := cstr "pict cover.png extra\n"

/-- A file system holding `cover.png` and `cover.png extra`. -/
def spacedFs (fileName : List Nat) : Option (List Nat) :=
  if fileName = cstr "cover.png extra" then some [9]
  else if fileName = cstr "cover.png" then some [1, 2, 3]
  else none

/-! ## The container without patching -/

/-- The stream after the three tags `generateBlorb` first writes to a new file. -/
def headerOut : FILE :=
  writeId (writeId (writeId FILE.empty (cstr "FORM")) (cstr "latr")) (cstr "IFRS")

/-- The plain sequential serialization of a chunk list: the three tags "FORM",
"latr", "IFRS", then `writeChunk` for every chunk in order, with no seek. -/
def plainSerialization (chunks : List Chunk) : List Nat :=
  (chunks.foldl writeChunk headerOut).bytes

/-- The positions `generateBlorb` patches: the 4 bytes at offset 4, and the 4
bytes at each of the first `n` entries of the patch table. -/
def Patched (indexOffsets : List Nat) (n : Nat) (i : Nat) : Prop :=
  (4 ≤ i ∧ i < 8) ∨ ∃ k, k < n ∧ indexOffsets.getD k 0 ≤ i ∧ i < indexOffsets.getD k 0 + 4

/-- The position of the output stream at which each chunk of the loop of
`generateBlorb` is written: the value of `ftell` at the start of each step, to
which the step returns before it calls `writeChunk`. -/
def chunkStarts (indexOffsets : List Nat) : List Chunk → FILE × Nat → List Nat
  | [], _ => []
  | chunk :: rest, s =>
    ftell s.1 :: chunkStarts indexOffsets rest (generateChunk indexOffsets chunk s)

/-! ## The options the container does not depend on -/

/-- The status with the options `verbose`, `noBli` and `isShortExtension`, and
the flag `isGlulx`, cleared: they drive the messages, the declarations file and
the name of the output file. -/
def eraseFlags (st : Status) : Status :=
  { st with verbose := false, noBli := false, isShortExtension := false, isGlulx := false }

/-! ## Control files with comment lines and blank lines -/

/-- The way the line of an entry is written: the spaces and tabs before the
usage token (`indent`), between the usage token and what follows it (`sep`),
between the identifier and the file path (`idSep`) and after the file path
(`trail`), and the carriage returns and line feeds that end the line (`eol`). -/
structure Layout where
  indent : List Nat
  sep : List Nat
  idSep : List Nat
  trail : List Nat
  eol : List Nat
deriving DecidableEq

/-- The layout of `Entry.render`: single spaces and a line feed. -/
def Layout.plain : Layout :=
  { indent := [], sep := [32], idSep := [32], trail := [], eol := [10] }

/-- The layouts of the format of the control file: spaces and tabs only, at
least one after the usage token and after the identifier, and an end of line
made of carriage returns and line feeds. -/
def Layout.WellFormed (l : Layout) : Prop :=
  (∀ x ∈ l.indent, x = 32 ∨ x = 9) ∧ l.sep ≠ [] ∧ (∀ x ∈ l.sep, x = 32 ∨ x = 9)
    ∧ l.idSep ≠ [] ∧ (∀ x ∈ l.idSep, x = 32 ∨ x = 9) ∧ (∀ x ∈ l.trail, x = 32 ∨ x = 9)
    ∧ ∀ x ∈ l.eol, x = 13 ∨ x = 10

/-- The line of an entry written with the layout `l`. -/
def Entry.renderWith (e : Entry) (l : Layout) : List Nat :=
  l.indent ++ (e.use ++ (l.sep ++ ((match e.id with
    | some i => i ++ l.idSep
    | none => []) ++ (e.file ++ (l.trail ++ l.eol)))))

/-- A line of a control file: the line of an entry with its layout, a comment
line (spaces and tabs, a comment character, the text, the end of line), or a
blank line (spaces and tabs, carriage returns and line feeds). -/
inductive Line where
  | entry (e : Entry) (l : Layout)
  | comment (indent : List Nat) (c : Nat) (text : List Nat) (eol : List Nat)
  | blank (indent : List Nat) (eol : List Nat)

/-- The lines taken as written: a well-formed entry in a well-formed layout; a
comment whose first character after the spaces and tabs is one of
`CommentCharacters`, with no NUL and no end of line in its text, ended by
carriage returns and line feeds; a line of spaces and tabs, ended by carriage
returns and line feeds. -/
def Line.WellFormed : Line → Prop
  | .entry e l => e.WellFormed ∧ l.WellFormed
  | .comment indent c text eol =>
    (∀ x ∈ indent, x = 32 ∨ x = 9) ∧ c ∈ CommentCharacters
      ∧ (∀ x ∈ text, x ≠ 0 ∧ x ≠ 10 ∧ x ≠ 13) ∧ ∀ x ∈ eol, x = 13 ∨ x = 10
  | .blank indent eol => (∀ x ∈ indent, x = 32 ∨ x = 9) ∧ ∀ x ∈ eol, x = 13 ∨ x = 10

/-- The line has an end of line: the line of an entry and a comment line end
with at least one carriage return or line feed. -/
def Line.Ended : Line → Prop
  | .entry _ l => l.eol ≠ []
  | .comment _ _ _ eol => eol ≠ []
  | .blank _ _ => True

/-- Every line but the last has an end of line. -/
def EndedButLast (ls : List Line) : Prop :=
  ∀ ls1 x ls2, ls = ls1 ++ x :: ls2 → ls2 ≠ [] → x.Ended

/-- The characters of a line, its end of line included. -/
def Line.render : Line → List Nat
  | .entry e l => e.renderWith l
  | .comment indent c text eol => indent ++ c :: (text ++ eol)
  | .blank indent eol => indent ++ eol

/-- The control file made of the lines. -/
def renderLines : List Line → List Nat
  | [] => []
  | l :: ls => l.render ++ renderLines ls

/-- The entries of the lines, in order. -/
def entriesOf : List Line → List Entry
  | [] => []
  | .entry e _ :: ls => e :: entriesOf ls
  | .comment _ _ _ _ :: ls => entriesOf ls
  | .blank _ _ :: ls => entriesOf ls

/-- The result of the first loop of `buildIndex` with the control file at its
end. -/
def atEnd (r : Status × Nat) : Status × Nat := (withIn { rest := [], eof := true } r.1, r.2)

/-- The lines of a control file with comments and blank lines around its three
entries, written with spaces and tabs before, between and after the tokens, and
with lines ended by line feeds or by a carriage return and a line feed. -/
def commentedLines : List Line :=
  [.comment [] 59 (cstr " resources") [13, 10], .blank [] [10],
   .entry pictEntry
     { indent := [32, 32], sep := [9], idSep := [32], trail := [], eol := [13, 10] },
   .comment [32, 9] 33 (cstr " the cover") [10], .blank [32] [13, 10],
   .entry { use := cstr "cover", id := none, file := cstr "cover.png" } Layout.plain,
   .entry { use := cstr "snd", id := some (cstr "mySound"), file := cstr "theme.ogg" }
     { indent := [9], sep := [32, 32], idSep := [9], trail := [32], eol := [10] },
   .comment [] 35 (cstr "end") [10], .blank [9] []]

/-- The lines of a control file with two entries of bibliographic info, written
with tabs, spaces before and after the tokens, a comment line between them,
lines ended by a carriage return and a line feed, and no end of line after the
last line. -/
def twiceBibLines : List Line :=
  [.entry { use := cstr "meta", id := none, file := cstr "biblio.ifiction" }
     { indent := [32, 32], sep := [9], idSep := [32], trail := [32], eol := [13, 10] },
   .comment [9] 59 (cstr " again") [13, 10],
   .entry { use := cstr "bib", id := some (cstr "about"), file := cstr "biblio.ifiction" }
     { indent := [], sep := [32, 9], idSep := [9, 9], trail := [], eol := [] }]

/-- An entry whose usage token is no alias of a usage, written after a comment
line, with a tab after the usage token, spaces after the file path and a line
ended by a carriage return and a line feed, and followed by other text. -/
def fooControl : List Nat := cstr "; first\r\n\tfoo\t cover.png  \r\nanything else"

/-- The layout of the entry of `fooControl`. -/
def fooLayout : Layout :=
  { indent := [9], sep := [9, 32], idSep := [32], trail := [32, 32], eol := [13, 10] }

/-- The usage tag of the chunk stored for an entry: the cover is stored as a
picture, bibliographic info with the sentinel "0". -/
def Entry.chunkUse (e : Entry) : List Nat :=
  if e.isCover then cstr "Pict" else storedUse (cnvtToUsages e.use)

/-- The file name `prepareFileName` gives for the file of an entry, the control
file being in the directory `path`. -/
def fileOf (path : List Nat) (e : Entry) : List Nat :=
  prepareFileName e.file { initStatus false with path := path }

/-- The chunk of an entry: its data are the contents of the file of the entry,
its `Length` their length, its usage the one stored for the entry, its type one
`inferType` gives. -/
def ChunkOf (fs : List Nat → Option (List Nat)) (path : List Nat) (e : Entry) (c : Chunk) :
    Prop :=
  fs (fileOf path e) = some c.Data
    ∧ c.Length = c.Data.length ∧ c.Use = e.chunkUse ∧ c.Type_ ∈ inferredTypes

/-! ## A sound file with the extension `aif` -/

/-- A control file with one sound, of extension `aif`. -/
def aifControl : List Nat := cstr "snd theme.aif\n"

/-- A file system holding `theme.aif`. -/
def aifFs (fileName : List Nat) : Option (List Nat) :=
  if fileName = cstr "theme.aif" then some [1, 2, 3] else none

/-- The status with which `buildIndex` ends on `aifControl`, or the initial
status if it failed. -/
def aifIndexed : Status :=
  match buildIndex aifFs (startStatus false false false false false [] aifControl) with
  | .ok status => status
  | .error _ => initStatus false

/-- The type tags of the chunks of a build. -/
def chunkTypes : List (List Nat) :=
  [cstr "RIdx", cstr "Fspc", cstr "IFmd", cstr "PNG", cstr "JPEG", cstr "OGGV", cstr "MOD",
   cstr "AIFF", cstr "ZCOD", cstr "GLUL"]

/-- The state with which `indexChunk` starts the second loop of `buildIndex`,
for the count `n` of the first loop: the data of the index chunk, of 12 n + 4
bytes, with the count stored, the write pointer after the count, the patch
table of `n` entries, and no entry written. -/
def indexStart (n : Nat) : List Nat × Nat × List Nat × Nat :=
  (strLong (List.replicate (12 * n + 4) 0) 0 n, 4, List.replicate n 0, 0)

/-! ## The resource numbers, entry by entry -/

/-- The usage under which `readChunk` numbers an entry: the local `use` when
`assignResNumber` is called, the cover having been turned into a picture. -/
def Entry.counter (e : Entry) : Usages :=
  if cnvtToUsages e.use = .Fspc then .Pict else cnvtToUsages e.use

/-- The number the first entry of a usage gets, as `initStatus` sets the
counters: 3 for the pictures and the sounds, 0 for the others. -/
def firstNumber (u : Usages) : Nat := counterOf (initStatus false) u

/-- What the first loop of `buildIndex` gets from `readChunk` for each entry, in
the order of the entries: the chunk, or `none` for an entry that is dropped. The
list stops at the entry at which the loop fails. -/
def entryChunks (fs : List Nat → Option (List Nat)) : List Entry → Status → List (Option Chunk)
  | [], _ => []
  | e :: es, status =>
    match entryStep fs status e with
    | .error _ => []
    | .ok (some chunk, status) =>
      if status.numberOfChunks ≥ MaxChunksBlorb then []
      else
        some chunk
          :: entryChunks fs es (storeChunk (withIn { rest := [], eof := true } status) chunk)
    | .ok (none, status) =>
      none :: entryChunks fs es (withIn { rest := [], eof := true } status)

/-- A file system in which every file opens. -/
def everyFs (_ : List Nat) : Option (List Nat) := some [7]

/-! ## Lines with more than a usage and a file path -/

/-- A control file of one line, a picture entry whose file path is followed by
two more words. -/
def extraCoverControl : List Nat := cstr "pict a.png cover cover.png\n"

/-- A control file of one line, a picture entry whose file path is followed by
two more words. -/
def twoOnLineControl : List Nat := cstr "pict cover.png snd theme.ogg\n"

/-- A control file of two lines, the file path of the first being followed by
one more word. -/
def leftoverControl : List Nat := cstr "pict a.png snd\nsnd b.ogg\n"

/-- The control file `leftoverControl` with a comment line between its two
lines. -/
def leftoverCommentedControl : List Nat := cstr "pict a.png snd\n! c\nsnd b.ogg\n"

/-! ## The entries as `readChunk` reads them -/

/-- What `readChunk` takes from the control file at one call. -/
inductive Tokens where
  /-- Nothing but comment lines and blanks was left: the end of the file is
  reached, with the control file left as `f`. -/
  | endOfFile (f : InFile)
  /-- The usage token and the file path of an entry were read (the identifier, if
  there is one, is skipped), and the control file is left as `f`. -/
  | entry (e : Entry) (f : InFile)
  /-- The usage token `use` was read and the end of the file follows it. -/
  | useOnly (use : List Nat)
  /-- The loop that skips the comment lines failed. -/
  | failed (e : Failure)

/-- The reading part of `readChunk`: the statements of `readChunk` that read the
control file, in their order, without those that work on the tokens read. -/
def readTokens (f : InFile) : Tokens :=
  -- skip commented lines
  let f := skipDelimiters f
  let (c, f) := fgetc f
  match skipComments (f.rest.length + 2) c f with
  | .error e => .failed e
  -- End of file?
  | .ok (none, f) => .endOfFile f
  | .ok (some c, f) =>
    -- Use
    let f := ungetc (some c) f
    let (use, f) := freadLine f FieldDelimiters
    -- Abort if anything is wrong
    let f := skipDelimiters f
    if feof f then .useOnly use
    else
      -- Read the rest of the line, if needed
      let (file, f) := readChunkRest f
      .entry { use := use, id := none, file := file } f

/-- The working part of `readChunk`: what `readChunk` does with the tokens
read. -/
def afterTokens (fs : List Nat → Option (List Nat)) (status : Status) :
    Tokens → Except Failure (Option Chunk × Status)
  | .failed e => .error e
  | .endOfFile f => .ok (none, { status with in_ := f })
  | .useOnly use =>
    match readChunkUse use Chunk.zero status with
    | .error e => .error e
    | .ok _ => .error .unexpectedEndOfFile
  | .entry e f =>
    match entryStep fs status e with
    | .error err => .error err
    | .ok (chunk, st1) => .ok (chunk, withIn f st1)

/-- The entries the first loop of `buildIndex` reads from the control file `f`,
one for each call of `readChunk` that finds a usage token and a file path, in
the order of the calls; `fuel` bounds the number of calls, as in `loadChunks`. -/
def entriesRead : Nat → InFile → List Entry
  | 0, _ => []
  | fuel + 1, f =>
    match readTokens f with
    | .entry e f1 => e :: entriesRead fuel f1
    | _ => []

/-- The entries `buildIndex` reads from the control file `control`. -/
def entriesIn (control : List Nat) : List Entry :=
  entriesRead ((skipDelimiters { rest := control, eof := false }).rest.length + 1)
    (skipDelimiters { rest := control, eof := false })

/-- A control file of three pictures, written with a tab, spaces before a usage
token and after a file path, an identifier, and lines ended by a carriage return
and a line feed; the file of the second picture is missing from `exampleFs`. -/
def numberedControl : List Nat :=
  cstr "pict\tcover.png\r\n  pict missing.png \r\npict myPic cover.png\r\n"

/-- The status with which `buildIndex` ends on `numberedControl` in the mode
`onlyBli`, with the files of `fs`, or the initial status if it failed. -/
def numberedBuilt (fs : List Nat → Option (List Nat)) : Status :=
  match buildIndex fs (startStatus false false true false false [] numberedControl) with
  | .ok status => status
  | .error _ => initStatus false

/-- The invariant of the first loop of `buildIndex` for the resource numbers: no
two chunks stored with the same usage, other than the sentinel "0", have the
same number, and the number of each such chunk is below the counter of its
usage. -/
def BelowCounters (st : Status) : Prop :=
  st.BlorbChunks.Pairwise (fun a b => a.Use = b.Use → a.Use ≠ cstr "0" → a.Res ≠ b.Res)
    ∧ ∀ c ∈ st.BlorbChunks, c.Use ≠ cstr "0" →
        ∃ v, c.Use = storedUse v ∧ c.Res < counterOf st v

/-- A control list for the mode `onlyBli`: a picture, then 2^32 - 1 pictures
whose file is missing from `exampleFs`, then a picture. -/
def wrapEntries : List Entry :=
  pictEntry :: (List.replicate (2 ^ 32 - 1) missingEntry ++ [pictEntry])

/-! ## The run of the program: the declarations file, the report, the clock -/

/-- The program's name. -/
def AppName : List Nat := cstr "bresc"

/-- The program's version message. -/
def Version : List Nat := cstr "v0.32 Serial 20091218"

/-- The default extension of the output file. -/
def BlorbExt : List Nat := cstr "blb"

/-- The extension of the output file for a Z-code story. -/
def BlorbZCodeExt : List Nat := cstr "zblorb"

/-- The extension of the output file for a Glulx story. -/
def BlorbGlulxExt : List Nat := cstr "gblorb"

/-- The extension of the control file. -/
def DefaultInExt : List Nat := cstr "res"

/-- The extension of the declarations file. -/
def DefaultBliExt : List Nat := cstr "bli"

/-- The prefixes of the names `createNameFromFile` makes, by usage. -/
def VblePrefixes : List (List Nat) := [cstr "exe", cstr "pic", cstr "snd", cstr ""]

/-- The fields of `struct tm` that `writeBliHeader` prints. -/
structure Tm where
  tm_sec : Int
  tm_min : Int
  tm_hour : Int
  tm_mday : Int
  tm_mon : Int
  tm_year : Int
deriving DecidableEq

/-- What a run of the program finds outside itself: the files `fopen` opens for
reading, with their contents (`files`, the control file among them); the files
`fopen` opens for writing (`creatable`); and the date `localtime` gives for the
value of `time (NULL)` (`now`). -/
structure World where
  files : List Nat → Option (List Nat)
  creatable : List Nat → Bool
  now : Tm

/-- The state of a run: the fields of `struct _status` of the model of the
build (`status`), and the fields the build leaves aside: the name of the
program, the names of the files, the extension of the output file, the text
written to the declarations file (`bli`, `none` for the stream `NULL`) and the
report (`none` for the pointer `NULL`). What the program prints on the terminal
is not part of the state. -/
structure Run where
  status : Status
  myName : List Nat
  inName : List Nat
  outName : Option (List Nat)
  bliName : Option (List Nat)
  outFileExt : List Nat
  bli : Option (List Nat)
  report : Option (List Nat)
deriving DecidableEq

/-- The ways `main` ends short of its result: a failure of the build, or one of
the messages `main` gives to `manageError` for a file that cannot be opened. -/
inductive Stop where
  /-- A failure of `buildIndex`. -/
  | build (e : Failure)
  /-- Message "(before compilation): can't open Blorb Resources Control File",
  for the control file. -/
  | cantOpenControl (inName : List Nat)
  /-- The same message, with the name of the control file, given when the
  declarations file cannot be opened for writing. -/
  | cantOpenBli (inName : List Nat)
  /-- Message "(before compilation): can't open Blorb Output File". -/
  | cantOpenOutput (outName : List Nat)
deriving DecidableEq

/-- The decimal digits of a number. -/
def decimal (n : Nat) : List Nat := (Nat.toDigits 10 n).map Char.toNat

/-- The conversion `%0<width>d` of `printf` for an `int` (`%d` with `width` 0):
the sign, then the digits padded with zeros up to `width` characters. -/
def printInt (width : Nat) (v : Int) : List Nat :=
  match v with
  | .ofNat n => List.replicate (width - (decimal n).length) 48 ++ decimal n
  | .negSucc n =>
    45 :: (List.replicate (width - 1 - (decimal (n + 1)).length) 48 ++ decimal (n + 1))

/-- The value `printf` takes for an `unsigned int` given to the conversion `%d`:
the `int` with the same 32 bits. -/
def asInt (v : Nat) : Int :=
  if v % 2 ^ 32 < 2 ^ 31 then ((v % 2 ^ 32 : Nat) : Int) else ((v % 2 ^ 32 : Nat) : Int) - 2 ^ 32

/-- Model of `getShortFileName`: the characters after the last '/' or '\\', up
to the first dot after it. -/
def getShortFileName (fileName : List Nat) : List Nat :=
  let name := (fileName.reverse.takeWhile (fun c => c != 47 && c != 92)).reverse
  name.takeWhile (fun c => c != 46)

/-- Model of `changeFileNameExt`: the name up to its last dot, or the whole name
and a dot when it has none, then the extension without its leading dot. (Writes
outside the allocated block are not modelled.) -/
def changeFileNameExt (fileName ext : List Nat) : List Nat :=
  let toret :=
    match lastIndexOf 46 fileName with
    | none => fileName ++ [46]
    | some dotPos => fileName.take (dotPos + 1)
  let ext :=
    match ext with
    | 46 :: rest => rest
    | _ => ext
  -- Append extension
  toret ++ ext

/-- Model of `createNameFromFile`: the prefix of the usage, then the short name
of the file with its first character in upper case. (Writes outside the
allocated block are not modelled.) -/
def createNameFromFile (use : Usages) (fileName : List Nat) : List Nat :=
  let shortName := getShortFileName fileName
  let shortName :=
    match shortName with
    | [] => []
    | c :: rest => toupper c :: rest
  VblePrefixes.getD use.toNat [] ++ shortName

/-- Model of `writeBliEntry`: for a picture or a sound, and when the
declarations file is open, the line `Constant <name> <number>; ! <usage>:
<file>` is written to it, the name being the identifier of the entry or, without
one, the name made from the file. -/
def writeBliEntry (bli : Option (List Nat)) (use : Usages) (res : Nat) (id : Option (List Nat))
    (fileName : List Nat) : Option (List Nat) :=
  match bli with
  | none => none
  | some text =>
    if use = .Pict ∨ use = .Snd then
      let vbleName :=
        match id with
        | none => createNameFromFile use fileName
        | some [] => createNameFromFile use fileName
        | some id => id
      let shortFileName := getShortFileName fileName
      let fileNameExt := getFileNameExt fileName
      some (text ++ (cstr "Constant " ++ vbleName ++ [32] ++ printInt 0 (asInt res)
        ++ cstr ";\t! " ++ ChunkUsages.getD use.toNat [] ++ [58, 32, 39] ++ shortFileName
        ++ [46] ++ fileNameExt ++ [39, 10]))
    else some text

/-- The date `writeBliHeader` prints: day, month, year, hour, minutes and
seconds. -/
def strDate (date : Tm) : List Nat :=
  printInt 2 date.tm_mday ++ [47] ++ printInt 2 (date.tm_mon + 1) ++ [47]
    ++ printInt 4 (date.tm_year + 1900) ++ [32] ++ printInt 2 date.tm_hour ++ [58]
    ++ printInt 2 date.tm_min ++ [58] ++ printInt 2 date.tm_sec

/-- Model of `writeBliHeader`: when the declarations file is open, the date is
read and the header written, with the name of the program and the date. -/
def writeBliHeader (now : Tm) (run : Run) : Run :=
  match run.bli with
  | none => run
  | some text =>
    { run with
      bli := some (text ++ (cstr "! Resources include file for Inform\n! Generated by "
        ++ run.myName ++ cstr " (" ++ AppName ++ cstr ") " ++ Version ++ cstr " on "
        ++ strDate now ++ cstr "\n\n")
        ++ (cstr "message \"Including resources file by " ++ AppName ++ cstr ", on "
        ++ strDate now ++ cstr "\";\n\n")) }

/-- Model of `describeChunk`: the text left in `status->msg`. -/
def describeChunk (chunk : Chunk) (complete : Bool) : List Nat :=
  if complete then
    cstr "id#" ++ printInt 4 (asInt chunk.Res) ++ cstr ": Use " ++ [39] ++ chunk.Use ++ [39]
      ++ cstr "\tType " ++ [39] ++ chunk.Type_ ++ [39] ++ cstr "\tLength: " ++ [39]
      ++ decimal chunk.Length ++ [39]
  else
    cstr "id#" ++ printInt 4 (asInt chunk.Res) ++ cstr ": Use " ++ [39] ++ chunk.Use ++ [39]
      ++ cstr "\tType " ++ [39] ++ chunk.Type_ ++ [39]

/-- Model of `initReport`: the report is allocated and emptied. (The size of the
block is not modelled.) -/
def initReport (run : Run) : Run := { run with report := some [] }

/-- Model of `strcat` on the report. -/
def strcatReport (report : Option (List Nat)) (text : List Nat) : Option (List Nat) :=
  report.map (fun r => r ++ text)

/-- The part of `readChunk` that reads the rest of the line, with the
identifier `id` it keeps for the declarations file: a second token that is an
identifier is kept, and the file name is then the rest of the line. -/
def readChunkId (f : InFile) : Option (List Nat) × List Nat × InFile :=
  let (buffer, f) := freadLine f FieldDelimiters
  if isId buffer then
    let id := buffer
    let f := skipDelimiters f
    let (buffer, f) := freadLine f LineDelimiters
    (some id, strTrim buffer FieldDelimiters, f)
  else (none, buffer, f)

/-- The part of `readChunk` from "get file name" to the end, with the entry it
writes to the declarations file, provided the chunk is not the cover. (The
warning given in `onlyBli` mode when `verbose` is set goes to the terminal.) -/
def Run.readChunkFile (w : World) (id : Option (List Nat)) (buffer : List Nat) (toret : Chunk)
    (use : Usages) (run : Run) : Except Failure (Option Chunk × Run) := do
  -- get file name
  let fileName := prepareFileName buffer run.status
  -- set the type of the chunk; the value of chkType is not used
  let (toret, status) ← inferType toret fileName run.status
  let _ := chkType use toret.Type_
  -- Write the .bli entry, provided it is not the cover
  let run :=
    if status.thereIsCover && status.numberOfChunks == status.coverChunk then
      { run with status := { status with coverId := toret.Res } }
    else
      { run with status := status, bli := writeBliEntry run.bli use toret.Res id fileName }
  -- open file name
  match w.files fileName with
  | none =>
    if run.status.onlyBli then pure (none, run)
    else throw (.cantOpen run.status.lineNumber fileName)
  | some contents =>
    pure (some { toret with Length := contents.length, Data := contents }, run)

/-- Model of `readChunk`, with what it writes to the declarations file. -/
def Run.readChunk (w : World) (run : Run) : Except Failure (Option Chunk × Run) :=
  let toret := Chunk.zero
  -- skip commented lines
  let f := skipDelimiters run.status.in_
  let (c, f) := fgetc f
  match skipComments (f.rest.length + 2) c f with
  | .error e => .error e
  -- End of file?
  | .ok (none, f) => .ok (none, { run with status := { run.status with in_ := f } })
  | .ok (some c, f) =>
    -- Use
    let f := ungetc (some c) f
    let (buffer, f) := freadLine f FieldDelimiters
    match readChunkUse buffer toret run.status with
    | .error e => .error e
    | .ok (toret, status, use) =>
      -- Abort if anything is wrong
      let f := skipDelimiters f
      if feof f then .error .unexpectedEndOfFile
      else
        -- Read the rest of the line, if needed
        let (id, buffer, f) := readChunkId f
        match Run.readChunkFile w id buffer toret use { run with status := status } with
        | .error e => .error e
        | .ok (chunk, run) => .ok (chunk, { run with status := { run.status with in_ := f } })

/-- The first loop of `buildIndex`, with what it writes to the declarations
file. -/
def Run.loadChunks (w : World) : Nat → Run × Nat → Except Failure (Run × Nat)
  | 0, _ => .error .outOfFuel
  | fuel + 1, (run, n) => do
    let (chunk, run) ← Run.readChunk w run
    let (run, n) ←
      match chunk with
      | some chunk =>
        if run.status.numberOfChunks ≥ MaxChunksBlorb then
          (.error .chunkArrayOverrun : Except Failure (Run × Nat))
        else
          .ok ({ run with status := storeChunk run.status chunk },
            if chunk.Use ≠ cstr "0" then n + 1 else n)
      | none => .ok (run, n)
    if !feof run.status.in_ then Run.loadChunks w fuel (run, n) else pure (run, n)

/-- The lines the second loop of `buildIndex` adds to the report in `verbose`
mode, one for each chunk after the index chunk. -/
def reportIndex (verbose : Bool) : List Chunk → Option (List Nat) → Option (List Nat)
  | [], report => report
  | chunk :: rest, report =>
    reportIndex verbose rest
      (if verbose then
        strcatReport (strcatReport (strcatReport report (cstr "\t\t"))
          (describeChunk chunk true)) (cstr "\n")
      else report)

/-- Model of `buildIndex`, with the header and the entries of the declarations
file and the report. -/
def Run.buildIndex (w : World) (run : Run) : Except Failure Run := do
  -- Start bli file
  let run := writeBliHeader w.now run
  -- Prepare index chunk
  let run := { run with status := { run.status with BlorbChunks := [indexChunk0] } }
  -- Load all the chunks
  let run := { run with status := { run.status with in_ := skipDelimiters run.status.in_ } }
  let (run, n) ←
    if !feof run.status.in_ then Run.loadChunks w (run.status.in_.rest.length + 1) (run, 0)
    else pure (run, 0)
  -- Is there a cover? Prepare cover chunk
  let status ← coverChunk run.status
  let run := { run with status := status }
  -- Prepare the report
  let run := if run.status.verbose then initReport run else run
  -- Now, scroll through the chunks, noting each one in the index chunk
  pure { run with
         report := reportIndex run.status.verbose run.status.BlorbChunks.tail run.report
         status := indexChunk run.status n }

/-- The lines the loop of `generateBlorb` adds to the report in `verbose` mode,
one for each chunk, `i` being the index of the first one. -/
def reportWritten (verbose : Bool) : Nat → List Chunk → Option (List Nat) → Option (List Nat)
  | _, [], report => report
  | i, chunk :: rest, report =>
    reportWritten verbose (i + 1) rest
      (if verbose then
        strcatReport report (cstr "\t\tChunk " ++ printInt 4 (((i + 1 : Nat) : Int))
          ++ [40] ++ describeChunk chunk false ++ cstr ")\twritten.\n")
      else report)

/-- Model of `generateBlorb`, with the report. -/
def Run.generateBlorb (run : Run) : Run :=
  -- Prepare report, if needed
  let run := if run.status.verbose && run.report.isNone then initReport run else run
  { run with
    report := reportWritten run.status.verbose 0 run.status.BlorbChunks run.report
    status := Bresc.generateBlorb run.status }

/-- Model of `changeOutputFileExtension`. -/
def changeOutputFileExtension (run : Run) : Run :=
  let run :=
    if !run.status.isShortExtension then
      if run.status.thereIsBib then
        if run.status.isGlulx then { run with outFileExt := BlorbGlulxExt }
        else { run with outFileExt := BlorbZCodeExt }
      else if !run.status.isGlulx then { run with outFileExt := BlorbZCodeExt }
      else run
    else run
  { run with outName := some (changeFileNameExt run.inName run.outFileExt) }

/-- Model of `main` after the options are decided, `arg` being the name given
for the control file: the names of the files are made, the control file is
opened, and the declarations file unless `noBli` is set; the index is built;
then, unless `onlyBli` is set, the output file is opened and the container
written to it. -/
def main (w : World) (myName arg : List Nat)
    (verbose noBli onlyBli isShortExtension isGlulx : Bool) : Except Stop Run :=
  let inName := changeFileNameExt arg DefaultInExt
  -- Open entry file
  let path := getPathFromFileName inName
  let bliName := changeFileNameExt inName DefaultBliExt
  match w.files inName with
  | none => .error (.cantOpenControl inName)
  | some control =>
    let status := startStatus verbose noBli onlyBli isShortExtension isGlulx path control
    let run : Run :=
      { status := status, myName := myName, inName := inName, outName := none,
        bliName := some bliName, outFileExt := BlorbExt, bli := none, report := none }
    if !run.status.noBli && !w.creatable bliName then .error (.cantOpenBli inName)
    else
      let run := if !run.status.noBli then { run with bli := some [] } else run
      -- Read the .res file and build the index
      match Run.buildIndex w run with
      | .error e => .error (.build e)
      | .ok run =>
        let run := if run.status.verbose then { run with report := some [] } else run
        -- Generate blorb
        if !run.status.onlyBli then
          -- Open output blb file
          let run := changeOutputFileExtension run
          if !w.creatable (run.outName.getD []) then .error (.cantOpenOutput (run.outName.getD []))
          else .ok (Run.generateBlorb { run with status := { run.status with out := FILE.empty } })
        else .ok { run with outName := run.bliName, bliName := none }

/-- The files of the example with its control file, named `game.res`. -/
def gameFiles (fileName : List Nat) : Option (List Nat) :=
  if fileName = cstr "game.res" then some exampleControl else exampleFs fileName

/-- A date: the first of November 2026, at 17:33:05. -/
def dateA : Tm :=
  { tm_sec := 5, tm_min := 33, tm_hour := 17, tm_mday := 1, tm_mon := 10, tm_year := 126 }

/-- Another date: the second of March 2031, at 08:00:59. -/
def dateB : Tm :=
  { tm_sec := 59, tm_min := 0, tm_hour := 8, tm_mday := 2, tm_mon := 2, tm_year := 131 }

/-- A run of the example at the date `dateA`, with no option set, the program
being called `bresc` and every file being creatable. -/
def gameRunA : Except Stop Run :=
  main { files := gameFiles, creatable := fun _ => true, now := dateA } (cstr "bresc")
    (cstr "game") false false false false false

/-- A run of the example at the date `dateB`, with the options `verbose`,
`noBli` and `isShortExtension` set, the program being called `blc` and the only
file that can be created being `game.blb`. -/
def gameRunB : Except Stop Run :=
  main { files := gameFiles, creatable := fun name => name = cstr "game.blb", now := dateB }
    (cstr "blc") (cstr "game") true true false true false

/-- The result of `gameRunA`. -/
def gameA : Run :=
  match gameRunA with
  | .ok run => run
  | .error _ =>
    { status := initStatus false, myName := [], inName := [], outName := none, bliName := none,
      outFileExt := [], bli := none, report := none }

/-- The result of `gameRunB`. -/
def gameB : Run :=
  match gameRunB with
  | .ok run => run
  | .error _ =>
    { status := initStatus false, myName := [], inName := [], outName := none, bliName := none,
      outFileExt := [], bli := none, report := none }

/-! ## The output stream: lemmas -/

theorem atEnd_mk (bs : List Nat) : FILE.AtEnd { bytes := bs, pos := bs.length } := rfl

theorem writeAt_end (buf bs : List Nat) : writeAt buf buf.length bs = buf ++ bs := by
  simp [writeAt]

theorem writeAt_mid (A B C bs : List Nat) (h : B.length = bs.length) :
    writeAt (A ++ B ++ C) A.length bs = A ++ bs ++ C := by
  simp [writeAt, List.take_append_eq_append_take, List.drop_append_eq_append_drop, ← h]

theorem fwrite_end (ptr : List Nat) (count : Nat) (f : FILE) (h : f.AtEnd) :
    fwrite ptr count f =
      { bytes := f.bytes ++ ptr.take count, pos := (f.bytes ++ ptr.take count).length } := by
  unfold FILE.AtEnd at h
  simp [fwrite, h, writeAt_end]

theorem fputByte_end (f : FILE) (b : Nat) (h : f.AtEnd) :
    fputByte f b = { bytes := f.bytes ++ [b], pos := (f.bytes ++ [b]).length } := by
  rw [fputByte, fwrite_end _ _ _ h]; rfl

theorem foldl_fputByte_end (bs : List Nat) (f : FILE) (h : f.AtEnd) :
    bs.foldl fputByte f = { bytes := f.bytes ++ bs, pos := (f.bytes ++ bs).length } := by
  induction bs generalizing f with
  | nil => cases f; simp_all [FILE.AtEnd]
  | cons b bs ih =>
    rw [List.foldl_cons, fputByte_end f b h, ih _ (atEnd_mk _)]
    simp

theorem writeId_end (f : FILE) (s : List Nat) (h : f.AtEnd) :
    writeId f s =
      { bytes := f.bytes ++ (s ++ List.replicate (BlorbIdLen - s.length) sp)
        pos := (f.bytes ++ (s ++ List.replicate (BlorbIdLen - s.length) sp)).length } := by
  rw [writeId, foldl_fputByte_end s f h, foldl_fputByte_end _ _ (atEnd_mk _)]
  simp

theorem writeInt_end (f : FILE) (v : Nat) (h : f.AtEnd) :
    writeInt f v =
      { bytes := f.bytes ++ bigEndian (v % 2 ^ 32)
        pos := (f.bytes ++ bigEndian (v % 2 ^ 32)).length } := by
  simp only [writeInt]
  rw [fputByte_end f _ h, fputByte_end _ _ (atEnd_mk _), fputByte_end _ _ (atEnd_mk _),
    fputByte_end _ _ (atEnd_mk _)]
  simp [bigEndian]

theorem fputByte_mid (A C : List Nat) (x b : Nat) :
    fputByte { bytes := A ++ x :: C, pos := A.length } b =
      { bytes := A ++ b :: C, pos := A.length + 1 } := by
  have h := writeAt_mid A [x] C [b] rfl
  simp only [List.append_assoc, List.singleton_append] at h
  simp [fputByte, fwrite, h]

theorem writeInt_mid (A C : List Nat) (x0 x1 x2 x3 v : Nat) :
    writeInt { bytes := A ++ x0 :: x1 :: x2 :: x3 :: C, pos := A.length } v =
      { bytes := A ++ bigEndian (v % 2 ^ 32) ++ C, pos := A.length + 4 } := by
  simp only [writeInt]
  rw [fputByte_mid]
  have e1 : ∀ (b : Nat) (T : List Nat), (⟨A ++ b :: T, A.length + 1⟩ : FILE)
      = ⟨(A ++ [b]) ++ T, (A ++ [b]).length⟩ := by intros; simp
  rw [e1, fputByte_mid]
  have e2 : ∀ (L : List Nat) (b : Nat) (T : List Nat), (⟨L ++ b :: T, L.length + 1⟩ : FILE)
      = ⟨(L ++ [b]) ++ T, (L ++ [b]).length⟩ := by intros; simp
  rw [e2, fputByte_mid, e2, fputByte_mid]
  simp [bigEndian]

theorem split4 (bytes : List Nat) (p : Nat) (h : p + 4 ≤ bytes.length) :
    ∃ A x0 x1 x2 x3 C, bytes = A ++ x0 :: x1 :: x2 :: x3 :: C ∧ A.length = p := by
  refine ⟨bytes.take p, ?_⟩
  have hd : 4 ≤ (bytes.drop p).length := by simp; omega
  match hb : bytes.drop p, hd with
  | x0 :: x1 :: x2 :: x3 :: C, _ =>
    refine ⟨x0, x1, x2, x3, C, ?_, ?_⟩
    · rw [← hb, List.take_append_drop]
    · simp; omega

/-! ## `writeChunk` -/

/-- The bytes of a chunk as `writeChunk` lays them out. -/
theorem writeChunk_end (out : FILE) (chunk : Chunk) (h : out.AtEnd) :
    writeChunk out chunk =
      { bytes := out.bytes ++
          ((if chunk.Type_ ≠ cstr "FORM" then
              chunk.Type_ ++ List.replicate (BlorbIdLen - chunk.Type_.length) sp
                ++ bigEndian (chunk.Length % 2 ^ 32)
            else []) ++ chunk.Data.take chunk.Length
            ++ (if chunk.Length % 2 ≠ 0 then [0] else []))
        pos := (out.bytes ++
          ((if chunk.Type_ ≠ cstr "FORM" then
              chunk.Type_ ++ List.replicate (BlorbIdLen - chunk.Type_.length) sp
                ++ bigEndian (chunk.Length % 2 ^ 32)
            else []) ++ chunk.Data.take chunk.Length
            ++ (if chunk.Length % 2 ≠ 0 then [0] else []))).length } := by
  unfold writeChunk
  by_cases ht : chunk.Type_ ≠ cstr "FORM" <;> by_cases hl : chunk.Length % 2 ≠ 0
  · simp only [if_pos ht, if_pos hl]
    rw [writeId_end _ _ h, writeInt_end _ _ (atEnd_mk _), fwrite_end _ _ _ (atEnd_mk _),
      fputByte_end _ _ (atEnd_mk _)]
    simp [List.append_assoc]
  · simp only [if_pos ht, if_neg hl]
    rw [writeId_end _ _ h, writeInt_end _ _ (atEnd_mk _), fwrite_end _ _ _ (atEnd_mk _)]
    simp [List.append_assoc]
  · simp only [if_neg ht, if_pos hl]
    rw [fwrite_end _ _ _ h, fputByte_end _ _ (atEnd_mk _)]
    simp [List.append_assoc]
  · simp only [if_neg ht, if_neg hl]
    rw [fwrite_end _ _ _ h]
    simp [List.append_assoc]

theorem chunkBytes_eq (chunk : Chunk) :
    chunkBytes chunk =
      (if chunk.Type_ ≠ cstr "FORM" then
          chunk.Type_ ++ List.replicate (BlorbIdLen - chunk.Type_.length) sp
            ++ bigEndian (chunk.Length % 2 ^ 32)
        else []) ++ chunk.Data.take chunk.Length
        ++ (if chunk.Length % 2 ≠ 0 then [0] else []) := by
  unfold chunkBytes
  rw [writeChunk_end FILE.empty chunk rfl]
  simp [FILE.empty]

theorem writeChunk_append (out : FILE) (chunk : Chunk) (h : out.AtEnd) :
    writeChunk out chunk =
      { bytes := out.bytes ++ chunkBytes chunk
        pos := (out.bytes ++ chunkBytes chunk).length } := by
  rw [writeChunk_end out chunk h, chunkBytes_eq]

theorem padId_of_le (s : List Nat) (h : s.length ≤ 4) :
    s ++ List.replicate (BlorbIdLen - s.length) sp = padId s := by
  simp [padId, BlorbIdLen, sp, List.take_of_length_le h]

/-- C5. For a chunk whose type is not "FORM" (type of at most 4 characters,
Length below 2^32, data of Length bytes), `writeChunk` at the end of the output
appends exactly the type tag space-padded to 4 bytes, the 4-byte big-endian
Length, the data, and one zero byte exactly when Length is odd: in all
8 + Length + Length mod 2 bytes. -/
theorem C5_writeChunk_layout (out : FILE) (chunk : Chunk) (hend : out.AtEnd)
    (htype : chunk.Type_ ≠ cstr "FORM") (hid : chunk.Type_.length ≤ 4)
    (hlen : chunk.Length < 2 ^ 32) (hdata : chunk.Data.length = chunk.Length) :
    (writeChunk out chunk).bytes =
        out.bytes ++ (padId chunk.Type_ ++ bigEndian chunk.Length ++ chunk.Data
          ++ (if chunk.Length % 2 = 1 then [0] else []))
      ∧ (writeChunk out chunk).bytes.length
          = out.bytes.length + (8 + chunk.Length + chunk.Length % 2)
      ∧ (writeChunk out chunk).AtEnd := by
  rw [writeChunk_end out chunk hend]
  have hpad : chunk.Type_ ++ List.replicate (BlorbIdLen - chunk.Type_.length) sp
      = padId chunk.Type_ := padId_of_le _ hid
  have hpl : (padId chunk.Type_).length = 4 := by simp [padId]; omega
  have htake : chunk.Data.take chunk.Length = chunk.Data := by
    rw [← hdata]; exact List.take_length _
  have hmod : chunk.Length % 2 ^ 32 = chunk.Length := Nat.mod_eq_of_lt hlen
  simp only [htype, ne_eq, not_false_eq_true, if_true, hpad, htake, hmod]
  refine ⟨?_, ?_, atEnd_mk _⟩
  · rcases Nat.mod_two_eq_zero_or_one chunk.Length with h | h <;> simp [h]
  · rcases Nat.mod_two_eq_zero_or_one chunk.Length with h | h <;>
      simp [h, hpl, hdata, bigEndian] <;> omega

/-- A witness of C5: a PNG chunk of 3 bytes appended to a 2-byte output. -/
theorem C5_writeChunk_layout_witness :
    (writeChunk { bytes := [7, 7], pos := 2 }
        { Type_ := cstr "PNG", Use := cstr "Pict", Res := 3, Length := 3, Data := [1, 2, 3] }).bytes
      = [7, 7] ++ (padId (cstr "PNG") ++ bigEndian 3 ++ [1, 2, 3]
          ++ (if 3 % 2 = 1 then [0] else []))
    ∧ (writeChunk { bytes := [7, 7], pos := 2 }
        { Type_ := cstr "PNG", Use := cstr "Pict", Res := 3, Length := 3,
          Data := [1, 2, 3] }).bytes.length = 2 + (8 + 3 + 3 % 2)
    ∧ (writeChunk { bytes := [7, 7], pos := 2 }
        { Type_ := cstr "PNG", Use := cstr "Pict", Res := 3, Length := 3,
          Data := [1, 2, 3] }).AtEnd :=
  C5_writeChunk_layout { bytes := [7, 7], pos := 2 }
    { Type_ := cstr "PNG", Use := cstr "Pict", Res := 3, Length := 3, Data := [1, 2, 3] }
    rfl (by decide) (by decide) (by decide) rfl

theorem drop_take_mid (X Y Z : List Nat) (p k : Nat) (hp : p = X.length) (hk : k = Y.length) :
    ((X ++ (Y ++ Z)).drop p).take k = Y := by
  subst hp hk
  rw [List.drop_left, List.take_left]

theorem getD_mid (A L C : List Nat) (i : Nat) (h : i < L.length) :
    (A ++ (L ++ C)).getD (A.length + i) 0 = L.getD i 0 := by
  simp [List.getD_eq_getElem?_getD, List.getElem?_append_right, List.getElem?_append_left h]

theorem readInt_mid (A C : List Nat) (v : Nat) (hv : v < 2 ^ 32) :
    readInt (A ++ bigEndian v ++ C) A.length = v := by
  have h0 := getD_mid A (bigEndian v) C 0 (by simp [bigEndian])
  have h1 := getD_mid A (bigEndian v) C 1 (by simp [bigEndian])
  have h2 := getD_mid A (bigEndian v) C 2 (by simp [bigEndian])
  have h3 := getD_mid A (bigEndian v) C 3 (by simp [bigEndian])
  simp only [Nat.add_zero] at h0
  simp only [readInt, List.append_assoc, h0, h1, h2, h3]
  simp only [bigEndian, List.getD_cons_zero, List.getD_cons_succ]
  norm_num at hv ⊢
  omega

theorem generateChunk_skip (offs : List Nat) (chunk : Chunk) (out : FILE) (n : Nat)
    (hu : chunk.Use = cstr "0") (h : out.AtEnd) :
    generateChunk offs chunk (out, n) =
      ({ bytes := out.bytes ++ chunkBytes chunk
         pos := (out.bytes ++ chunkBytes chunk).length }, n) := by
  simp only [generateChunk, hu, ne_eq, not_true_eq_false, if_false]
  rw [writeChunk_append _ _ h]

theorem generateChunk_patch (offs : List Nat) (chunk : Chunk) (A C : List Nat)
    (x0 x1 x2 x3 n t : Nat) (hu : chunk.Use ≠ cstr "0") (hoff : offs.getD n 0 = A.length)
    (ht : t = (A ++ x0 :: x1 :: x2 :: x3 :: C).length) :
    generateChunk offs chunk ({ bytes := A ++ x0 :: x1 :: x2 :: x3 :: C, pos := t }, n) =
      ({ bytes := A ++ bigEndian (t % 2 ^ 32) ++ C ++ chunkBytes chunk
         pos := (A ++ bigEndian (t % 2 ^ 32) ++ C ++ chunkBytes chunk).length }, n + 1) := by
  have hlen : t = (A ++ bigEndian (t % 2 ^ 32) ++ C).length := by
    rw [ht]; simp [bigEndian]
  have hw : writeChunk (fseek (writeInt (fseek { bytes := A ++ x0 :: x1 :: x2 :: x3 :: C, pos := t }
      (offs.getD n 0)) (ftell { bytes := A ++ x0 :: x1 :: x2 :: x3 :: C, pos := t }))
      (ftell { bytes := A ++ x0 :: x1 :: x2 :: x3 :: C, pos := t })) chunk
      = { bytes := A ++ bigEndian (t % 2 ^ 32) ++ C ++ chunkBytes chunk
          pos := (A ++ bigEndian (t % 2 ^ 32) ++ C ++ chunkBytes chunk).length } := by
    have e : fseek (writeInt (fseek { bytes := A ++ x0 :: x1 :: x2 :: x3 :: C, pos := t }
        (offs.getD n 0)) (ftell { bytes := A ++ x0 :: x1 :: x2 :: x3 :: C, pos := t }))
        (ftell { bytes := A ++ x0 :: x1 :: x2 :: x3 :: C, pos := t })
        = { bytes := A ++ bigEndian (t % 2 ^ 32) ++ C
            pos := (A ++ bigEndian (t % 2 ^ 32) ++ C).length } := by
      simp only [fseek, ftell, hoff]
      rw [writeInt_mid, ← hlen]
    rw [e, writeChunk_append _ _ (atEnd_mk _)]
  simp only [generateChunk, if_pos hu, hw]

/-- C6. For a chunk whose type tag is exactly "FORM", `writeChunk` writes no type
tag and no length field: the bytes appended are the raw data, followed by one
zero byte when Length is odd; and when such a chunk is indexed, the offset that
the loop of `generateBlorb` patches into its index record is the position of the
first byte of its data. -/
theorem C6_writeChunk_form (out : FILE) (chunk : Chunk) (indexOffsets : List Nat) (n : Nat)
    (hend : out.AtEnd) (htype : chunk.Type_ = cstr "FORM")
    (hdata : chunk.Data.length = chunk.Length) (huse : chunk.Use ≠ cstr "0")
    (hpatch : indexOffsets.getD n 0 + 4 ≤ out.bytes.length) (hpos : out.pos < 2 ^ 32) :
    (writeChunk out chunk).bytes
        = out.bytes ++ chunk.Data ++ (if chunk.Length % 2 = 1 then [0] else [])
      ∧ readInt (generateChunk indexOffsets chunk (out, n)).1.bytes (indexOffsets.getD n 0)
          = out.pos
      ∧ ((generateChunk indexOffsets chunk (out, n)).1.bytes.drop out.pos).take chunk.Length
          = chunk.Data := by
  have htake : chunk.Data.take chunk.Length = chunk.Data := by
    rw [← hdata]; exact List.take_length _
  have hcb : chunkBytes chunk = chunk.Data ++ (if chunk.Length % 2 = 1 then [0] else []) := by
    rw [chunkBytes_eq, htake]
    rcases Nat.mod_two_eq_zero_or_one chunk.Length with h | h <;> simp [htype, h]
  refine ⟨?_, ?_⟩
  · rw [writeChunk_append out chunk hend, hcb, List.append_assoc]
  · obtain ⟨A, x0, x1, x2, x3, C, hb, hA⟩ := split4 out.bytes _ hpatch
    obtain ⟨bytes, pos⟩ := out
    simp only [FILE.AtEnd] at hend hb hpos hA ⊢
    subst hb
    rw [generateChunk_patch indexOffsets chunk A C x0 x1 x2 x3 n pos huse hA.symm hend]
    have hm : pos % 2 ^ 32 = pos := Nat.mod_eq_of_lt hpos
    simp only [hm, ← hA]
    refine ⟨?_, ?_⟩
    · rw [List.append_assoc (A ++ bigEndian pos)]
      exact readInt_mid A _ pos hpos
    · have hl : pos = (A ++ bigEndian pos ++ C).length := by rw [hend]; simp [bigEndian]
      rw [hcb]
      exact drop_take_mid _ _ _ _ _ hl hdata.symm

/-- A witness of C6: an indexed FORM chunk of 3 bytes written after 6 bytes, its
index record patched at offset 1. -/
theorem C6_writeChunk_form_witness :
    (writeChunk { bytes := [9, 9, 9, 9, 9, 9], pos := 6 }
        { Type_ := cstr "FORM", Use := cstr "Snd", Res := 3, Length := 3, Data := [1, 2, 3] }).bytes
      = [9, 9, 9, 9, 9, 9] ++ [1, 2, 3] ++ (if 3 % 2 = 1 then [0] else [])
    ∧ readInt (generateChunk [1]
        { Type_ := cstr "FORM", Use := cstr "Snd", Res := 3, Length := 3, Data := [1, 2, 3] }
        ({ bytes := [9, 9, 9, 9, 9, 9], pos := 6 }, 0)).1.bytes ([1].getD 0 0) = 6
    ∧ ((generateChunk [1]
        { Type_ := cstr "FORM", Use := cstr "Snd", Res := 3, Length := 3, Data := [1, 2, 3] }
        ({ bytes := [9, 9, 9, 9, 9, 9], pos := 6 }, 0)).1.bytes.drop 6).take 3 = [1, 2, 3] :=
  C6_writeChunk_form { bytes := [9, 9, 9, 9, 9, 9], pos := 6 }
    { Type_ := cstr "FORM", Use := cstr "Snd", Res := 3, Length := 3, Data := [1, 2, 3] }
    [1] 0 rfl rfl rfl (by decide) (by decide) (by decide)

/-! ## The index chunk -/

theorem poke_mid (A B C bs : List Nat) (h : B.length = bs.length) :
    poke (A ++ B ++ C) A.length bs = A ++ bs ++ C := by
  induction bs generalizing A B with
  | nil =>
    have : B = [] := List.length_eq_zero.mp h
    simp [poke, this]
  | cons b bs ih =>
    match B, h with
    | x :: B, h =>
      have hset : (A ++ x :: B ++ C).set A.length b = (A ++ [b]) ++ B ++ C := by
        simp [List.set_append_right]
      have hl : A.length + 1 = (A ++ [b]).length := by simp
      rw [poke, hset, hl, ih (A ++ [b]) B (by simpa using h)]
      simp

theorem strLong_mid (A B C : List Nat) (v : Nat) (h : B.length = 4) :
    strLong (A ++ B ++ C) A.length v = A ++ bigEndian (v % 2 ^ 32) ++ C := by
  simp only [strLong]
  rw [poke_mid A B C _ (by simpa using h)]
  rfl

theorem strId_mid (A B C : List Nat) (s : List Nat) (h : B.length = 4) :
    strId (A ++ B ++ C) A.length s = A ++ padId s ++ C := by
  simp only [strId]
  have e : List.take (if s.length > BlorbIdLen then BlorbIdLen else s.length) s ++
      List.replicate (BlorbIdLen - if s.length > BlorbIdLen then BlorbIdLen else s.length) sp
      = padId s := by
    unfold padId BlorbIdLen sp
    by_cases hs : s.length > 4
    · simp only [if_pos hs]
      congr 1
      have : 4 - s.length = 0 := by omega
      simp [this]
    · simp only [if_neg hs]
      rw [List.take_length, List.take_of_length_le (by omega)]
  rw [e, poke_mid A B C _ (by rw [h]; simp [padId]; omega)]

theorem bigEndian_zero : bigEndian 0 = [0, 0, 0, 0] := by decide

theorem indexRecordBytes_length (chunk : Chunk) (offset : Nat) :
    (indexRecordBytes chunk offset).length = 12 := by
  simp [indexRecordBytes, padId, bigEndian]; omega

theorem indexable_cons_pos (chunk : Chunk) (chunks : List Chunk) (h : chunk.Use ≠ cstr "0") :
    indexable (chunk :: chunks) = chunk :: indexable chunks := by
  simp [indexable, h]

theorem indexable_cons_neg (chunk : Chunk) (chunks : List Chunk) (h : chunk.Use = cstr "0") :
    indexable (chunk :: chunks) = indexable chunks := by
  simp [indexable, h]

theorem indexable_append (xs ys : List Chunk) :
    indexable (xs ++ ys) = indexable xs ++ indexable ys := by
  simp [indexable]

/-- The second loop of `buildIndex` in closed form: started on a buffer whose
zero bytes after `A` have room for the records, it writes one record per
indexable chunk and one patch-table entry for each. -/
theorem indexRecords_eq (chunks : List Chunk) (A O : List Nat) (j : Nat) :
    indexRecords chunks
        (A ++ List.replicate (12 * ((indexable chunks).length + j)) 0, A.length,
         O ++ List.replicate ((indexable chunks).length + j) 0, O.length) =
      (A ++ (indexable chunks).flatMap (fun chunk => indexRecordBytes chunk 0)
          ++ List.replicate (12 * j) 0,
       A.length + 12 * (indexable chunks).length,
       O ++ (List.range (indexable chunks).length).map (fun k => A.length + 12 * k + 28)
          ++ List.replicate j 0,
       O.length + (indexable chunks).length) := by
  induction chunks generalizing A O with
  | nil => simp [indexRecords, indexable]
  | cons chunk chunks ih =>
    by_cases hu : chunk.Use ≠ cstr "0"
    · rw [indexable_cons_pos _ _ hu]
      simp only [indexRecords, indexRecord, if_pos hu, List.length_cons]
      have hrep : List.replicate (12 * ((indexable chunks).length + 1 + j)) 0
          = List.replicate 4 0 ++ (List.replicate 4 0 ++ (List.replicate 4 0
              ++ List.replicate (12 * ((indexable chunks).length + j)) 0)) := by
        simp only [← List.replicate_add]; congr 1; omega
      have h1 : strId (A ++ List.replicate (12 * ((indexable chunks).length + 1 + j)) 0)
          A.length chunk.Use
          = (A ++ padId chunk.Use) ++ List.replicate 4 0 ++ (List.replicate 4 0
              ++ List.replicate (12 * ((indexable chunks).length + j)) 0) := by
        rw [hrep, ← List.append_assoc, strId_mid A _ _ _ (by simp)]
        simp
      have hl1 : A.length + 4 = (A ++ padId chunk.Use).length := by simp [padId]; omega
      have h2 : strLong ((A ++ padId chunk.Use) ++ List.replicate 4 0 ++ (List.replicate 4 0
              ++ List.replicate (12 * ((indexable chunks).length + j)) 0))
          (A.length + 4) chunk.Res
          = (A ++ indexRecordBytes chunk 0)
              ++ List.replicate (12 * ((indexable chunks).length + j)) 0 := by
        rw [hl1, strLong_mid _ _ _ _ (by simp)]
        simp [indexRecordBytes, bigEndian_zero]
      have h3 : (O ++ List.replicate ((indexable chunks).length + 1 + j) 0).set O.length
          (A.length + 4 + 4 + 20)
          = (O ++ [A.length + 28]) ++ List.replicate ((indexable chunks).length + j) 0 := by
        have : (indexable chunks).length + 1 + j = ((indexable chunks).length + j) + 1 := by omega
        rw [this, List.replicate_succ]
        simp [List.set_append_right]
      have hl2 : A.length + 4 + 4 + 4 = (A ++ indexRecordBytes chunk 0).length := by
        simp [indexRecordBytes_length]
      have hl3 : O.length + 1 = (O ++ [A.length + 28]).length := by simp
      rw [h1, h2, h3, hl2, hl3, ih]
      simp only [List.flatMap_cons, List.append_assoc, List.length_append,
        indexRecordBytes_length, List.length_singleton, List.range_succ_eq_map, List.map_cons,
        List.map_map, List.singleton_append, List.cons_append, List.nil_append,
        Prod.mk.injEq]
      refine ⟨trivial, by omega, ?_, by omega⟩
      have hm : List.map (fun k => A.length + 12 + 12 * k + 28)
            (List.range (indexable chunks).length)
          = List.map ((fun k => A.length + 12 * k + 28) ∘ Nat.succ)
            (List.range (indexable chunks).length) :=
        List.map_congr_left (fun k _ => by simp only [Function.comp]; omega)
      rw [hm]
    · have hu2 : chunk.Use = cstr "0" := by simpa using hu
      rw [indexable_cons_neg _ _ hu2]
      simp only [indexRecords, indexRecord, if_neg hu]
      exact ih A O

/-- The index chunk and the patch table that `indexChunk` builds, in closed
form. -/
theorem indexChunk_eq (status : Status) (index : Chunk) (chunks : List Chunk)
    (hc : status.BlorbChunks = index :: chunks) (h0 : status.numberOfIndexEntries = 0) :
    indexChunk status (indexable chunks).length =
      { status with
        BlorbChunks :=
          { index with
            Length := 12 * (indexable chunks).length + 4
            Data := bigEndian ((indexable chunks).length % 2 ^ 32)
              ++ (indexable chunks).flatMap (fun chunk => indexRecordBytes chunk 0) } :: chunks
        indexOffsets := (List.range (indexable chunks).length).map (fun k => 32 + 12 * k)
        numberOfIndexEntries := (indexable chunks).length } := by
  unfold indexChunk
  rw [hc, h0]
  have hz : List.replicate (12 * (indexable chunks).length + 4) 0
      = [] ++ List.replicate 4 0 ++ List.replicate (12 * ((indexable chunks).length + 0)) 0 := by
    simp only [List.nil_append, ← List.replicate_add]; congr 1; omega
  have hs : strLong (List.replicate (12 * (indexable chunks).length + 4) 0) 0
      (indexable chunks).length
      = bigEndian ((indexable chunks).length % 2 ^ 32)
          ++ List.replicate (12 * ((indexable chunks).length + 0)) 0 := by
    rw [hz]
    exact strLong_mid [] _ _ _ (by simp)
  have hr := indexRecords_eq chunks (bigEndian ((indexable chunks).length % 2 ^ 32)) [] 0
  have hbl : (bigEndian ((indexable chunks).length % 2 ^ 32)).length = 4 := by simp [bigEndian]
  simp only [List.nil_append, List.length_nil, hbl, Nat.add_zero, Nat.mul_zero,
    List.replicate_zero, List.append_nil, Nat.zero_add] at hr hs
  simp only [hs, hr]
  congr 2
  funext k
  omega

/-! ## `generateBlorb` -/

theorem indexedAt_fst (start : Nat) (chunks : List Chunk) :
    (indexedAt start chunks).map Prod.fst = indexable chunks := by
  induction chunks generalizing start with
  | nil => rfl
  | cons chunk chunks ih =>
    by_cases hu : chunk.Use ≠ cstr "0"
    · simp [indexedAt, hu, indexable_cons_pos, ih]
    · have hu2 : chunk.Use = cstr "0" := by simpa using hu
      simp [indexedAt, hu2, indexable_cons_neg, ih]

theorem indexedAt_length (start : Nat) (chunks : List Chunk) :
    (indexedAt start chunks).length = (indexable chunks).length := by
  rw [← indexedAt_fst start chunks, List.length_map]

/-- The loop of `generateBlorb` in closed form: started at the end of an output
that holds, after `A`, the still unpatched records of the chunks to write, it
leaves every record patched with the position of its chunk and the bytes of
the chunks appended. -/
theorem generateChunks_eq (offs : List Nat) (chunks : List Chunk) (A W : List Nat) (k : Nat)
    (hoffs : ∀ i, i < (indexable chunks).length → offs.getD (k + i) 0 = A.length + 12 * i + 8) :
    generateChunks offs chunks
        ({ bytes := A ++ (indexable chunks).flatMap (fun chunk => indexRecordBytes chunk 0) ++ W
           pos := (A ++ (indexable chunks).flatMap (fun chunk => indexRecordBytes chunk 0)
                    ++ W).length }, k) =
      ({ bytes := A ++ (indexedAt (A.length + 12 * (indexable chunks).length + W.length)
                      chunks).flatMap (fun p => indexRecordBytes p.1 p.2)
                    ++ W ++ chunks.flatMap chunkBytes
         pos := (A ++ (indexedAt (A.length + 12 * (indexable chunks).length + W.length)
                      chunks).flatMap (fun p => indexRecordBytes p.1 p.2)
                    ++ W ++ chunks.flatMap chunkBytes).length },
       k + (indexable chunks).length) := by
  induction chunks generalizing A W k with
  | nil => simp [generateChunks, indexable, indexedAt]
  | cons chunk chunks ih =>
    by_cases hu : chunk.Use ≠ cstr "0"
    · have hix := indexable_cons_pos chunk chunks hu
      rw [hix] at hoffs ⊢
      simp only [generateChunks, List.flatMap_cons, List.length_cons]
      have hrec : indexRecordBytes chunk 0
          = (padId chunk.Use ++ bigEndian (chunk.Res % 2 ^ 32)) ++ [0, 0, 0, 0] := by
        simp [indexRecordBytes, bigEndian_zero]
      have hA : (A ++ (padId chunk.Use ++ bigEndian (chunk.Res % 2 ^ 32))).length
          = A.length + 8 := by simp [padId, bigEndian]; omega
      have hshape : A ++ (indexRecordBytes chunk 0
            ++ (indexable chunks).flatMap (fun chunk => indexRecordBytes chunk 0)) ++ W
          = (A ++ (padId chunk.Use ++ bigEndian (chunk.Res % 2 ^ 32)))
            ++ 0 :: 0 :: 0 :: 0 ::
              ((indexable chunks).flatMap (fun chunk => indexRecordBytes chunk 0) ++ W) := by
        rw [hrec]; simp
      have hoff0 : offs.getD k 0
          = (A ++ (padId chunk.Use ++ bigEndian (chunk.Res % 2 ^ 32))).length := by
        rw [hA]; simpa using hoffs 0 (by simp)
      rw [hshape, generateChunk_patch offs chunk _ _ 0 0 0 0 k _ hu hoff0 rfl]
      have hflat : ((indexable chunks).flatMap (fun chunk => indexRecordBytes chunk 0)).length
          = 12 * (indexable chunks).length := by
        induction (indexable chunks) with
        | nil => rfl
        | cons c cs ihc => simp [List.flatMap_cons, indexRecordBytes_length, ihc]; omega
      have ht : ((A ++ (padId chunk.Use ++ bigEndian (chunk.Res % 2 ^ 32)))
            ++ 0 :: 0 :: 0 :: 0 ::
              ((indexable chunks).flatMap (fun chunk => indexRecordBytes chunk 0) ++ W)).length
          = A.length + 12 * ((indexable chunks).length + 1) + W.length := by
        simp only [List.length_append, List.length_cons, hflat] at hA ⊢
        omega
      rw [ht]
      have hre : A ++ (padId chunk.Use ++ bigEndian (chunk.Res % 2 ^ 32))
            ++ bigEndian ((A.length + 12 * ((indexable chunks).length + 1) + W.length) % 2 ^ 32)
            ++ ((indexable chunks).flatMap (fun chunk => indexRecordBytes chunk 0) ++ W)
            ++ chunkBytes chunk
          = (A ++ indexRecordBytes chunk
                (A.length + 12 * ((indexable chunks).length + 1) + W.length))
            ++ (indexable chunks).flatMap (fun chunk => indexRecordBytes chunk 0)
            ++ (W ++ chunkBytes chunk) := by
        simp [indexRecordBytes]
      rw [hre, ih (A ++ indexRecordBytes chunk
          (A.length + 12 * ((indexable chunks).length + 1) + W.length)) (W ++ chunkBytes chunk)
          (k + 1)]
      · have hstart : (A ++ indexRecordBytes chunk
              (A.length + 12 * ((indexable chunks).length + 1) + W.length)).length
            + 12 * (indexable chunks).length + (W ++ chunkBytes chunk).length
            = A.length + 12 * ((indexable chunks).length + 1) + W.length
              + (chunkBytes chunk).length := by
          simp only [List.length_append, indexRecordBytes_length]; omega
        rw [hstart]
        simp only [indexedAt, if_pos hu, List.singleton_append, List.flatMap_cons,
          List.append_assoc, Prod.mk.injEq]
        exact ⟨trivial, by omega⟩
      · intro i hi
        have := hoffs (i + 1) (by simpa using hi)
        simp only [List.length_append, indexRecordBytes_length]
        rw [show k + 1 + i = k + (i + 1) by omega, this]
        omega
    · have hu2 : chunk.Use = cstr "0" := by simpa using hu
      have hix := indexable_cons_neg chunk chunks hu2
      rw [hix] at hoffs ⊢
      simp only [generateChunks]
      rw [generateChunk_skip offs chunk _ k hu2 (atEnd_mk _)]
      have hre : A ++ (indexable chunks).flatMap (fun chunk => indexRecordBytes chunk 0) ++ W
            ++ chunkBytes chunk
          = A ++ (indexable chunks).flatMap (fun chunk => indexRecordBytes chunk 0)
            ++ (W ++ chunkBytes chunk) := by simp
      rw [hre, ih A (W ++ chunkBytes chunk) k hoffs]
      have hstart : A.length + 12 * (indexable chunks).length + (W ++ chunkBytes chunk).length
          = A.length + 12 * (indexable chunks).length + W.length + (chunkBytes chunk).length := by
        simp only [List.length_append]; omega
      rw [hstart]
      simp only [indexedAt, if_neg hu, List.nil_append, List.flatMap_cons, List.append_assoc]

theorem flatMap_indexRecordBytes_length (chunks : List Chunk) :
    (chunks.flatMap (fun chunk => indexRecordBytes chunk 0)).length = 12 * chunks.length := by
  induction chunks with
  | nil => rfl
  | cons c cs ih => simp [List.flatMap_cons, indexRecordBytes_length, ih]; omega

/-- The container `generateBlorb` writes to a new file for a chunk list whose
first chunk is the index chunk as `indexChunk` leaves it. -/
theorem generateBlorb_eq (status : Status) (index : Chunk) (chunks : List Chunk)
    (hc : status.BlorbChunks = index :: chunks) (hout : status.out = FILE.empty)
    (hu : index.Use = cstr "0") (ht : index.Type_ = cstr "RIdx")
    (hl : index.Length = 12 * (indexable chunks).length + 4)
    (hd : index.Data = bigEndian ((indexable chunks).length % 2 ^ 32)
      ++ (indexable chunks).flatMap (fun chunk => indexRecordBytes chunk 0))
    (ho : status.indexOffsets = (List.range (indexable chunks).length).map (fun k => 32 + 12 * k)) :
    (generateBlorb status).out =
      { bytes := cstr "FORM" ++ bigEndian ((containerBody chunks).length % 2 ^ 32)
                  ++ containerBody chunks
        pos := 8 } := by
  have hcb : chunkBytes index = cstr "RIdx"
      ++ bigEndian ((12 * (indexable chunks).length + 4) % 2 ^ 32)
      ++ bigEndian ((indexable chunks).length % 2 ^ 32)
      ++ (indexable chunks).flatMap (fun chunk => indexRecordBytes chunk 0) := by
    have hdl : index.Data.length = index.Length := by
      rw [hd, hl, List.length_append, flatMap_indexRecordBytes_length]
      simp [bigEndian]; omega
    have hev : index.Length % 2 = 0 := by rw [hl]; omega
    have hne : cstr "RIdx" ≠ cstr "FORM" := by decide
    rw [chunkBytes_eq, ht, if_pos hne, ← hdl, List.take_length, hdl, hev, hd, hl]
    simp [cstr, BlorbIdLen]
  have hhead : writeId (writeId (writeId FILE.empty (cstr "FORM")) (cstr "latr")) (cstr "IFRS")
      = { bytes := headerBytes, pos := headerBytes.length } := by
    decide
  have hgen : generateChunks status.indexOffsets (index :: chunks)
      ({ bytes := headerBytes, pos := headerBytes.length }, 0)
      = ({ bytes := cstr "FORM" ++ cstr "latr" ++ containerBody chunks
           pos := (cstr "FORM" ++ cstr "latr" ++ containerBody chunks).length },
         0 + (indexable chunks).length) := by
    simp only [generateChunks]
    rw [generateChunk_skip _ index _ 0 hu (atEnd_mk _), hcb]
    have hre : headerBytes ++ (cstr "RIdx"
          ++ bigEndian ((12 * (indexable chunks).length + 4) % 2 ^ 32)
          ++ bigEndian ((indexable chunks).length % 2 ^ 32)
          ++ (indexable chunks).flatMap (fun chunk => indexRecordBytes chunk 0))
        = (headerBytes ++ cstr "RIdx"
            ++ bigEndian ((12 * (indexable chunks).length + 4) % 2 ^ 32)
            ++ bigEndian ((indexable chunks).length % 2 ^ 32))
          ++ (indexable chunks).flatMap (fun chunk => indexRecordBytes chunk 0) ++ [] := by
      simp
    have hAl : (headerBytes ++ cstr "RIdx"
            ++ bigEndian ((12 * (indexable chunks).length + 4) % 2 ^ 32)
            ++ bigEndian ((indexable chunks).length % 2 ^ 32)).length = 24 := by
      simp [headerBytes, cstr, bigEndian]
    rw [hre, generateChunks_eq status.indexOffsets chunks _ [] 0]
    · rw [hAl]
      simp [containerBody, headerBytes]
    · intro i hi
      rw [hAl, ho, List.getD_eq_getElem?_getD, Nat.zero_add,
        List.getElem?_eq_getElem (by simpa using hi)]
      simp
      omega
  simp only [generateBlorb, hout, hhead, hc, hgen, ftell, fseek]
  have hform : cstr "FORM" = [70, 79, 82, 77] := by decide
  have hlatr : cstr "latr" = [108, 97, 116, 114] := by decide
  have hsh : cstr "FORM" ++ cstr "latr" ++ containerBody chunks
      = cstr "FORM" ++ 108 :: 97 :: 116 :: 114 :: containerBody chunks := by
    rw [hlatr]; simp
  have h4 : (4 : Nat) = (cstr "FORM").length := by decide
  have hlen : (cstr "FORM" ++ cstr "latr" ++ containerBody chunks).length - 8
      = (containerBody chunks).length := by
    simp [hform, hlatr]
  rw [hlen, hsh]
  conv_lhs => rw [h4]
  rw [writeInt_mid]
  simp [hform]

/-! ## `readChunk` -/

/-- The part of `readChunk` that resolves the usage, case by case. -/
theorem readChunkUse_eq (buffer : List Nat) (toret : Chunk) (status : Status) :
    readChunkUse buffer toret status =
      match cnvtToUsages buffer with
      | .Exec =>
        .ok ({ toret with Use := cstr "Exec", Res := status.nextChunkForExecs },
             { status with nextChunkForExecs := (status.nextChunkForExecs + 1) % 2 ^ 32 },
             .Exec)
      | .Pict =>
        .ok ({ toret with Use := cstr "Pict", Res := status.nextChunkForPicts },
             { status with nextChunkForPicts := (status.nextChunkForPicts + 1) % 2 ^ 32 },
             .Pict)
      | .Snd =>
        .ok ({ toret with Use := cstr "Snd", Res := status.nextChunkForSnds },
             { status with nextChunkForSnds := (status.nextChunkForSnds + 1) % 2 ^ 32 },
             .Snd)
      | .IFmd =>
        if status.thereIsBib then .error .duplicatedBib
        else
          .ok ({ toret with Type_ := cstr "IFmd", Use := cstr "0",
                            Res := status.nextChunkForMeta },
               { status with thereIsBib := true,
                             nextChunkForMeta := (status.nextChunkForMeta + 1) % 2 ^ 32 },
               .IFmd)
      | .Fspc =>
        if status.thereIsCover then .error .duplicatedCover
        else
          .ok ({ toret with Use := cstr "Pict", Res := status.nextChunkForPicts },
               { status with thereIsCover := true, coverChunk := status.numberOfChunks,
                             nextChunkForPicts := (status.nextChunkForPicts + 1) % 2 ^ 32 },
               .Pict)
      | .UsageError => .error (.illegalUse status.lineNumber (cstr "ERR")) := by
  have hE : chkUse (cstr "Exec") = true := by decide
  have hP : chkUse (cstr "Pict") = true := by decide
  have hS : chkUse (cstr "Snd") = true := by decide
  have hI : chkUse (cstr "IFmd") = true := by decide
  have hF : chkUse (cstr "Fspc") = true := by decide
  have hU : chkUse (cstr "ERR") = false := by decide
  have cF : copyId (ChunkUsages[Usages.Fspc.toNat]?.getD []) = cstr "Fspc" := by decide
  have cE : copyId (ChunkUsages[Usages.Exec.toNat]?.getD []) = cstr "Exec" := by decide
  have cP : copyId (ChunkUsages[Usages.Pict.toNat]?.getD []) = cstr "Pict" := by decide
  have cS : copyId (ChunkUsages[Usages.Snd.toNat]?.getD []) = cstr "Snd" := by decide
  have cI : copyId (ChunkUsages[Usages.IFmd.toNat]?.getD []) = cstr "IFmd" := by decide
  have cU : copyId (ChunkUsages[Usages.UsageError.toNat]?.getD []) = cstr "ERR" := by decide
  have pP : ChunkUsages[Usages.Pict.toNat]?.getD [] = cstr "Pict" := by decide
  unfold readChunkUse
  cases h : cnvtToUsages buffer
  · simp [hE, cE, assignResNumber, bind, Except.bind, pure, Except.pure]
  · simp [hP, cP, assignResNumber, bind, Except.bind, pure, Except.pure]
  · simp [hS, cS, assignResNumber, bind, Except.bind, pure, Except.pure]
  · cases hb : status.thereIsBib <;>
      simp [hI, cI, hb, assignResNumber, bind, Except.bind, pure, Except.pure, throw,
        throwThe, MonadExceptOf.throw]
  · cases hc : status.thereIsCover <;>
      simp [hF, cF, pP, hc, assignResNumber, bind, Except.bind, pure, Except.pure, throw,
        throwThe, MonadExceptOf.throw]
  · simp [hU, cU, bind, Except.bind, pure, Except.pure, throw, throwThe, MonadExceptOf.throw]


theorem inferType_ok (chunk c : Chunk) (fileName : List Nat) (status st : Status)
    (h : inferType chunk fileName status = .ok (c, st)) :
    ∃ T g, T ∈ inferredTypes ∧ c = { chunk with Type_ := T } ∧ st = { status with isGlulx := g } := by
  have tJ : copyId (PictureChunkTypes.getD JPG []) = cstr "JPEG" := by decide
  have tP : copyId (PictureChunkTypes.getD PNG []) = cstr "PNG" := by decide
  have tO : copyId (SoundChunkTypes.getD OGG []) = cstr "OGGV" := by decide
  have tM : copyId (SoundChunkTypes.getD MOD []) = cstr "MOD" := by decide
  have tA : copyId (SoundChunkTypes.getD AIFF []) = cstr "AIFF" := by decide
  have tZ : copyId (ExecutableChunkTypes.getD ZCOD []) = cstr "ZCOD" := by decide
  have tG : copyId (ExecutableChunkTypes.getD GLUL []) = cstr "GLUL" := by decide
  have tI : copyId (ChunkUsages.getD Usages.IFmd.toNat []) = cstr "IFmd" := by decide
  unfold inferType at h
  simp only [tJ, tP, tO, tM, tA, tZ, tG, tI] at h
  split_ifs at h <;> first
    | (injection h with h; injection h with h1 h2; subst h1 h2
       exact ⟨_, status.isGlulx, by simp [inferredTypes], rfl, rfl⟩)
    | (injection h with h; injection h with h1 h2; subst h1 h2
       exact ⟨_, _, by simp [inferredTypes], rfl, rfl⟩)


theorem readChunkFile_ok (fs : List Nat → Option (List Nat)) (buffer : List Nat)
    (toret : Chunk) (use : Usages) (status st : Status) (chunk : Option Chunk)
    (h : readChunkFile fs buffer toret use status = .ok (chunk, st)) :
    ∃ T g cid, T ∈ inferredTypes ∧ st = { status with isGlulx := g, coverId := cid } ∧
      ((chunk = none ∧ status.onlyBli = true ∧ fs (prepareFileName buffer status) = none) ∨
        ∃ contents, fs (prepareFileName buffer status) = some contents ∧
          chunk = some { toret with Type_ := T, Length := contents.length, Data := contents }) := by
  unfold readChunkFile at h
  simp only [bind, Except.bind] at h
  cases hi : inferType toret (prepareFileName buffer status) status with
  | error e => rw [hi] at h; exact absurd h (by simp)
  | ok r =>
    obtain ⟨c, s1⟩ := r
    obtain ⟨T, g, hT, hc, hs⟩ := inferType_ok _ _ _ _ _ hi
    rw [hi] at h
    simp only at h
    subst hc hs
    cases hf : fs (prepareFileName buffer status) with
    | none =>
      rw [hf] at h
      simp only at h
      split_ifs at h
      all_goals
        simp only [pure, Except.pure, Except.ok.injEq, Prod.mk.injEq] at h
        obtain ⟨hc, hs⟩ := h
        subst hc hs
        refine ⟨T, g, _, hT, rfl, Or.inl ⟨rfl, ?_, rfl⟩⟩
        assumption
    | some contents =>
      rw [hf] at h
      simp only [pure, Except.pure, Except.ok.injEq, Prod.mk.injEq] at h
      obtain ⟨hc, hs⟩ := h
      subst hc
      split_ifs at hs with h1
      · subst hs; exact ⟨T, g, _, hT, rfl, Or.inr ⟨contents, rfl, rfl⟩⟩
      · subst hs; exact ⟨T, g, status.coverId, hT, rfl, Or.inr ⟨contents, rfl, rfl⟩⟩

theorem fgetc_none (f f1 : InFile) (h : fgetc f = (none, f1)) : f1.eof = true := by
  unfold fgetc at h
  split at h
  · injection h with _ h2; subst h2; rfl
  · injection h with h1 _; cases h1

theorem skipComments_none (fuel : Nat) (c : Option Nat) (f f1 : InFile)
    (h : skipComments fuel c f = .ok (none, f1)) (hc : c = none → f.eof = true) :
    f1.eof = true := by
  induction fuel generalizing c f with
  | zero => cases h
  | succ fuel ih =>
    unfold skipComments at h
    split_ifs at h with hcom
    · exact ih _ _ h (fun hn => fgetc_none _ _ (Prod.ext hn rfl))
    · injection h with h; injection h with h1 h2
      subst h2
      exact hc h1

section

attribute [local irreducible] skipComments freadLine skipDelimiters readChunkRest readChunkUse
  readChunkFile fgetc ungetc

/-- What a successful call of `readChunk` is made of: the end of the file, or
the usage and the file parts run on two tokens read from the control file. -/
theorem readChunk_ok (fs : List Nat → Option (List Nat)) (st st1 : Status)
    (chunk : Option Chunk) (h : readChunk fs st = .ok (chunk, st1)) :
    (chunk = none ∧ st1.in_.eof = true ∧ st1 = { st with in_ := st1.in_ }) ∨
      ∃ buffer toret st2 use buffer2 st3,
        readChunkUse buffer Chunk.zero st = .ok (toret, st2, use) ∧
        readChunkFile fs buffer2 toret use st2 = .ok (chunk, st3) ∧
        st1 = { st3 with in_ := st1.in_ } := by
  unfold readChunk at h
  simp only at h
  split at h
  · cases h
  · rename_i f hsk
    simp only [Except.ok.injEq, Prod.mk.injEq] at h
    obtain ⟨h1, h2⟩ := h
    subst h1 h2
    refine Or.inl ⟨rfl, ?_, rfl⟩
    exact skipComments_none _ _ _ _ hsk (fun hn => fgetc_none _ _ (Prod.ext hn rfl))
  · rename_i c0 f hsk
    split at h
    · cases h
    · rename_i toret st2 use hu
      split_ifs at h
      split at h
      · cases h
      · rename_i c3 st3 hf
        simp only [Except.ok.injEq, Prod.mk.injEq] at h
        obtain ⟨h1, h2⟩ := h
        subst h1 h2
        exact Or.inr ⟨_, _, _, _, _, _, hu, hf, rfl⟩

end

/-! ## The loop of `buildIndex` -/

section

attribute [local irreducible] readChunk storeChunk

/-- Induction over the first loop of `buildIndex`: a property of the status and
of `n` that every stored chunk and every dropped entry preserve holds when the
loop ends. -/
theorem loadChunks_induct (fs : List Nat → Option (List Nat)) (P : Status × Nat → Prop)
    (hsome : ∀ st n chunk st1, P (st, n) → readChunk fs st = .ok (some chunk, st1) →
      st1.numberOfChunks < MaxChunksBlorb →
      P (storeChunk st1 chunk, if chunk.Use ≠ cstr "0" then n + 1 else n))
    (hnone : ∀ st n st1, P (st, n) → readChunk fs st = .ok (none, st1) → P (st1, n))
    (fuel : Nat) (st : Status) (n : Nat) (r : Status × Nat) (hP : P (st, n))
    (h : loadChunks fs fuel (st, n) = .ok r) : P r := by
  induction fuel generalizing st n with
  | zero => cases h
  | succ fuel ih =>
    unfold loadChunks at h
    simp only [bind, Except.bind] at h
    split at h
    · cases h
    · rename_i r1 hr
      obtain ⟨chunk, st1⟩ := r1
      simp only at h
      cases chunk with
      | none =>
        simp only at h
        have hP1 := hnone st n st1 hP hr
        split_ifs at h
        · exact ih _ _ hP1 h
        · simp only [pure, Except.pure, Except.ok.injEq] at h
          subst h; exact hP1
      | some chunk =>
        simp only at h
        by_cases hcap : st1.numberOfChunks ≥ MaxChunksBlorb
        · rw [if_pos hcap] at h; cases h
        · rw [if_neg hcap] at h
          have hP1 := hsome st n chunk st1 hP hr (by omega)
          generalize (if chunk.Use ≠ cstr "0" then n + 1 else n) = n1 at h hP1
          split_ifs at h
          · exact ih _ _ hP1 h
          · simp only [pure, Except.pure, Except.ok.injEq] at h
            subst h; exact hP1

end

section

attribute [local irreducible] readChunk readChunkUse readChunkFile

theorem readChunkUse_ok (buffer : List Nat) (st st2 : Status) (toret : Chunk) (use : Usages)
    (h : readChunkUse buffer Chunk.zero st = .ok (toret, st2, use)) :
    ∃ u, u ∈ [Usages.Exec, Usages.Pict, Usages.Snd, Usages.IFmd] ∧ toret.Use = storedUse u
      ∧ toret.Res = counterOf st u ∧ Bump st st2 u
      ∧ toret.Length = 0 ∧ toret.Data = []
      ∧ st2.BlorbChunks = st.BlorbChunks ∧ st2.numberOfIndexEntries = st.numberOfIndexEntries
      ∧ st2.onlyBli = st.onlyBli := by
  rw [readChunkUse_eq] at h
  split at h
  · injection h with h; injection h with h1 h; injection h with h2 h3
    subst h1 h2 h3
    exact ⟨.Exec, by simp, rfl, rfl, by simp [Bump], rfl, rfl, rfl, rfl, rfl⟩
  · injection h with h; injection h with h1 h; injection h with h2 h3
    subst h1 h2 h3
    exact ⟨.Pict, by simp, rfl, rfl, by simp [Bump], rfl, rfl, rfl, rfl, rfl⟩
  · injection h with h; injection h with h1 h; injection h with h2 h3
    subst h1 h2 h3
    exact ⟨.Snd, by simp, rfl, rfl, by simp [Bump], rfl, rfl, rfl, rfl, rfl⟩
  · split_ifs at h
    injection h with h; injection h with h1 h; injection h with h2 h3
    subst h1 h2 h3
    exact ⟨.IFmd, by simp, rfl, rfl, by simp [Bump], rfl, rfl, rfl, rfl, rfl⟩
  · split_ifs at h
    injection h with h; injection h with h1 h; injection h with h2 h3
    subst h1 h2 h3
    exact ⟨.Pict, by simp, rfl, rfl, by simp [Bump], rfl, rfl, rfl, rfl, rfl⟩
  · cases h

/-- What a call of `readChunk` that returns a chunk does: the chunk carries the
number of the counter of its usage, which is incremented. -/
theorem readChunk_some (fs : List Nat → Option (List Nat)) (st st1 : Status) (chunk : Chunk)
    (h : readChunk fs st = .ok (some chunk, st1)) :
    ∃ u, u ∈ [Usages.Exec, Usages.Pict, Usages.Snd, Usages.IFmd] ∧ chunk.Use = storedUse u
      ∧ chunk.Res = counterOf st u ∧ Bump st st1 u
      ∧ chunk.Type_ ∈ inferredTypes ∧ chunk.Data.length = chunk.Length
      ∧ st1.BlorbChunks = st.BlorbChunks ∧ st1.numberOfIndexEntries = st.numberOfIndexEntries
      ∧ st1.onlyBli = st.onlyBli := by
  rcases readChunk_ok fs st st1 _ h with ⟨hn, _⟩ | ⟨buffer, toret, st2, use, buffer2, st3, hu, hf, hs⟩
  · cases hn
  · obtain ⟨u, hmem, huse, hres, hbump, hlen, hdata, hbc, hnie, hob⟩ :=
      readChunkUse_ok _ _ _ _ _ hu
    obtain ⟨T, g, cid, hT, hst3, hcase⟩ := readChunkFile_ok _ _ _ _ _ _ _ hf
    rcases hcase with ⟨hc, _⟩ | ⟨contents, _, hc⟩
    · cases hc
    · injection hc with hc
      subst hc hst3
      rw [hs]
      exact ⟨u, hmem, huse, hres, hbump, hT, rfl, hbc, hnie, hob⟩

/-- What a call of `readChunk` that returns no chunk does: at the end of the
file nothing; for a file that cannot be opened, in `onlyBli` mode, the counter of
the usage of the entry is incremented all the same. -/
theorem readChunk_none (fs : List Nat → Option (List Nat)) (st st1 : Status)
    (h : readChunk fs st = .ok (none, st1)) :
    st1.BlorbChunks = st.BlorbChunks ∧ st1.numberOfIndexEntries = st.numberOfIndexEntries
      ∧ st1.onlyBli = st.onlyBli
      ∧ ((st1.in_.eof = true ∧ st1.nextChunkForExecs = st.nextChunkForExecs
            ∧ st1.nextChunkForPicts = st.nextChunkForPicts
            ∧ st1.nextChunkForSnds = st.nextChunkForSnds
            ∧ st1.nextChunkForMeta = st.nextChunkForMeta)
        ∨ (st.onlyBli = true ∧ (∃ fileName, fs fileName = none) ∧ ∃ u, Bump st st1 u)) := by
  rcases readChunk_ok fs st st1 _ h with ⟨_, he, hs⟩ | ⟨buffer, toret, st2, use, buffer2, st3, hu, hf, hs⟩
  · rw [hs]
    refine ⟨rfl, rfl, rfl, Or.inl ⟨?_, rfl, rfl, rfl, rfl⟩⟩
    exact he
  · obtain ⟨u, hmem, huse, hres, hbump, hlen, hdata, hbc, hnie, hob⟩ :=
      readChunkUse_ok _ _ _ _ _ hu
    obtain ⟨T, g, cid, hT, hst3, hcase⟩ := readChunkFile_ok _ _ _ _ _ _ _ hf
    rcases hcase with ⟨_, hb, hfs⟩ | ⟨contents, _, hc⟩
    · subst hst3
      rw [hs]
      exact ⟨hbc, hnie, hob, Or.inr ⟨by rw [← hob]; exact hb, ⟨_, hfs⟩, u, hbump⟩⟩
    · cases hc

end

theorem indexable_singleton (chunk : Chunk) :
    (indexable [chunk]).length = if chunk.Use ≠ cstr "0" then 1 else 0 := by
  by_cases h : chunk.Use ≠ cstr "0"
  · simp [indexable, h]
  · have h2 : chunk.Use = cstr "0" := by simpa using h
    simp [indexable, h2]

theorem bump_lt (st st1 : Status) (u : Usages) (h : Bump st st1 u)
    (h1 : st.nextChunkForExecs < 2 ^ 32) (h2 : st.nextChunkForPicts < 2 ^ 32)
    (h3 : st.nextChunkForSnds < 2 ^ 32) (h4 : st.nextChunkForMeta < 2 ^ 32) :
    st1.nextChunkForExecs < 2 ^ 32 ∧ st1.nextChunkForPicts < 2 ^ 32
      ∧ st1.nextChunkForSnds < 2 ^ 32 ∧ st1.nextChunkForMeta < 2 ^ 32 := by
  obtain ⟨e1, e2, e3, e4⟩ := h
  have hm : ∀ x : Nat, (x + 1) % 2 ^ 32 < 2 ^ 32 := fun x => Nat.mod_lt _ (by norm_num)
  rw [e1, e2, e3, e4]
  refine ⟨?_, ?_, ?_, ?_⟩ <;> split_ifs <;> first | exact hm _ | assumption

theorem counterOf_lt (st : Status) (u : Usages)
    (h1 : st.nextChunkForExecs < 2 ^ 32) (h2 : st.nextChunkForPicts < 2 ^ 32)
    (h3 : st.nextChunkForSnds < 2 ^ 32) (h4 : st.nextChunkForMeta < 2 ^ 32) :
    counterOf st u < 2 ^ 32 := by
  cases u <;> simp only [counterOf] <;> assumption

theorem storedUse_mem (u : Usages) :
    storedUse u ∈ [cstr "0", cstr "Exec", cstr "Pict", cstr "Snd"] := by
  cases u <;> simp [storedUse]

section

attribute [local irreducible] readChunk skipDelimiters

theorem loaded_store (fs : List Nat → Option (List Nat)) (st : Status) (n : Nat)
    (chunk : Chunk) (st1 : Status) (hP : Loaded (st, n))
    (h : readChunk fs st = .ok (some chunk, st1)) (hcap : st1.numberOfChunks < MaxChunksBlorb) :
    Loaded (storeChunk st1 chunk, if chunk.Use ≠ cstr "0" then n + 1 else n) := by
  obtain ⟨u, -, huse, hres, hbump, hT, hdata, hbc, hnie, -⟩ := readChunk_some fs st st1 chunk h
  obtain ⟨⟨chunks, hc, hn, hgood⟩, h0, hle, h1, h2, h3, h4⟩ := hP
  simp only at hc hn h0 h1 h2 h3 h4
  obtain ⟨b1, b2, b3, b4⟩ := bump_lt st st1 u hbump h1 h2 h3 h4
  refine ⟨⟨chunks ++ [chunk], ?_, ?_, ?_⟩, ?_, ?_, b1, b2, b3, b4⟩
  · simp [storeChunk, hbc, hc]
  · simp only [indexable_append, List.length_append, indexable_singleton, hn]
    split_ifs <;> rfl
  · intro c hcm
    rcases List.mem_append.mp hcm with hcm | hcm
    · exact hgood c hcm
    · rw [List.mem_singleton.mp hcm]
      refine ⟨?_, List.mem_cons_of_mem _ hT, hdata, ?_⟩
      · rw [hres]; exact counterOf_lt st u h1 h2 h3 h4
      · rw [huse]; exact storedUse_mem u
  · simp [storeChunk, hnie, h0]
  · simp only [Status.numberOfChunks] at hcap
    simp only [storeChunk, List.length_append, List.length_singleton]
    omega

theorem loaded_drop (fs : List Nat → Option (List Nat)) (st : Status) (n : Nat)
    (st1 : Status) (hP : Loaded (st, n)) (h : readChunk fs st = .ok (none, st1)) :
    Loaded (st1, n) := by
  obtain ⟨hbc, hnie, -, hcase⟩ := readChunk_none fs st st1 h
  obtain ⟨⟨chunks, hc, hn, hgood⟩, h0, hle, h1, h2, h3, h4⟩ := hP
  simp only at hc hn h0 hle h1 h2 h3 h4
  refine ⟨⟨chunks, by simp [hbc, hc], hn, hgood⟩, by simp [hnie, h0], by simp [hbc, hle], ?_⟩
  rcases hcase with ⟨-, e1, e2, e3, e4⟩ | ⟨-, -, u, hbump⟩
  · simp only [e1, e2, e3, e4]; exact ⟨h1, h2, h3, h4⟩
  · exact bump_lt st st1 u hbump h1 h2 h3 h4

theorem loadChunks_loaded (fs : List Nat → Option (List Nat)) (fuel : Nat) (st : Status)
    (n : Nat) (r : Status × Nat) (hP : Loaded (st, n))
    (h : loadChunks fs fuel (st, n) = .ok r) : Loaded r :=
  loadChunks_induct fs Loaded (fun st n chunk st1 hP hr hc => loaded_store fs st n chunk st1 hP hr hc)
    (fun st n st1 hP hr => loaded_drop fs st n st1 hP hr) fuel st n r hP h

end

theorem poke_length (f : List Nat) (off : Nat) (bs : List Nat) : (poke f off bs).length = f.length := by
  induction bs generalizing f off with
  | nil => rfl
  | cons b bs ih => simp [poke, ih]

theorem coverChunk_loaded (st st1 : Status) (n : Nat) (hP : Loaded (st, n))
    (h : coverChunk st = .ok st1) : Loaded (st1, n) := by
  obtain ⟨⟨chunks, hc, hn, hgood⟩, h0, hle, h1, h2, h3, h4⟩ := hP
  simp only at hc hn h0 hle h1 h2 h3 h4
  unfold coverChunk at h
  split_ifs at h with hcov hcap
  · injection h with h
    subst h
    refine ⟨⟨chunks ++ [frontispiece st], ?_, ?_, ?_⟩, h0, ?_, h1, h2, h3,
      Nat.mod_lt _ (by norm_num)⟩
    · simp only [hc, List.cons_append]
    · simp only [indexable_append, List.length_append, indexable_singleton, hn]
      simp [frontispiece]
    · intro c hcm
      rcases List.mem_append.mp hcm with hcm | hcm
      · exact hgood c hcm
      · rw [List.mem_singleton.mp hcm]
        refine ⟨Nat.mod_lt _ (by norm_num), ?_, ?_, ?_⟩
        · simp only [List.mem_cons, frontispiece]; left; decide
        · simp [frontispiece, strLong, poke_length, BlorbIdLen]
        · simp [frontispiece]
    · simp only [Status.numberOfChunks] at hcap
      simp only [List.length_append, List.length_singleton]
      omega
  · injection h with h
    subst h
    exact ⟨⟨chunks, hc, hn, hgood⟩, h0, hle, h1, h2, h3, h4⟩

theorem loaded_init (st0 : Status) (f : InFile) (h0 : st0.numberOfIndexEntries = 0)
    (h1 : st0.nextChunkForExecs < 2 ^ 32) (h2 : st0.nextChunkForPicts < 2 ^ 32)
    (h3 : st0.nextChunkForSnds < 2 ^ 32) (h4 : st0.nextChunkForMeta < 2 ^ 32) :
    Loaded ({ st0 with BlorbChunks := [indexChunk0], in_ := f }, 0) :=
  ⟨⟨[], rfl, rfl, by simp⟩, h0, by simp [MaxChunksBlorb], h1, h2, h3, h4⟩

section

attribute [local irreducible] loadChunks coverChunk indexChunk skipDelimiters

/-- The chunk list and the patch table a successful `buildIndex` leaves, when it
starts with no index entry written and the counters in range, as `initStatus`
sets them. -/
theorem buildIndex_ok (fs : List Nat → Option (List Nat)) (st0 st : Status)
    (h0 : st0.numberOfIndexEntries = 0)
    (h1 : st0.nextChunkForExecs < 2 ^ 32) (h2 : st0.nextChunkForPicts < 2 ^ 32)
    (h3 : st0.nextChunkForSnds < 2 ^ 32) (h4 : st0.nextChunkForMeta < 2 ^ 32)
    (h : buildIndex fs st0 = .ok st) :
    ∃ chunks, (∀ chunk ∈ chunks, GoodChunk chunk) ∧ chunks.length < MaxChunksBlorb ∧
      st.BlorbChunks =
        { indexChunk0 with
          Length := 12 * (indexable chunks).length + 4
          Data := bigEndian (indexable chunks).length
            ++ (indexable chunks).flatMap (fun chunk => indexRecordBytes chunk 0) } :: chunks
      ∧ st.indexOffsets = (List.range (indexable chunks).length).map (fun k => 32 + 12 * k)
      ∧ st.numberOfIndexEntries = (indexable chunks).length := by
  have tail : ∀ st2 n st3, Loaded (st2, n) → coverChunk st2 = .ok st3 → indexChunk st3 n = st →
      ∃ chunks, (∀ chunk ∈ chunks, GoodChunk chunk) ∧ chunks.length < MaxChunksBlorb ∧
        st.BlorbChunks =
          { indexChunk0 with
            Length := 12 * (indexable chunks).length + 4
            Data := bigEndian (indexable chunks).length
              ++ (indexable chunks).flatMap (fun chunk => indexRecordBytes chunk 0) } :: chunks
        ∧ st.indexOffsets = (List.range (indexable chunks).length).map (fun k => 32 + 12 * k)
        ∧ st.numberOfIndexEntries = (indexable chunks).length := by
    intro st2 n st3 hl2 hcover hst
    have hl3 := coverChunk_loaded st2 st3 n hl2 hcover
    obtain ⟨⟨chunks, hc, hn, hgood⟩, hnie, hle, -⟩ := hl3
    simp only at hc hn hnie hle
    subst hst
    rw [hn, indexChunk_eq st3 indexChunk0 chunks hc hnie]
    have hlen : chunks.length < MaxChunksBlorb := by
      rw [hc] at hle; simp only [List.length_cons] at hle; omega
    have hix : (indexable chunks).length ≤ chunks.length := List.length_filter_le _ _
    have hmod : (indexable chunks).length % 2 ^ 32 = (indexable chunks).length := by
      apply Nat.mod_eq_of_lt
      simp only [MaxChunksBlorb] at hlen
      omega
    rw [hmod]
    exact ⟨chunks, hgood, hlen, rfl, rfl, rfl⟩
  have hinit := loaded_init st0 (skipDelimiters st0.in_) h0 h1 h2 h3 h4
  unfold buildIndex at h
  simp only [bind, Except.bind] at h
  split_ifs at h with hf
  · split at h
    · cases h
    · rename_i r hload
      obtain ⟨st2, n⟩ := r
      have hl2 : Loaded (st2, n) := loadChunks_loaded fs _ _ _ _ hinit hload
      simp only at h
      split at h
      · cases h
      · rename_i st3 hcover
        simp only [pure, Except.pure, Except.ok.injEq] at h
        exact tail st2 n st3 hl2 hcover h
  · simp only [pure, Except.pure] at h
    split at h
    · cases h
    · rename_i st3 hcover
      simp only [Except.ok.injEq] at h
      exact tail _ 0 st3 hinit hcover h

end

/-! ## The container of a build -/

theorem exampleIndexed_ok :
    buildIndex exampleFs (startStatus false false false false false [] exampleControl)
      = .ok exampleIndexed := by
  rfl

theorem flatMap_records_length (L : List (Chunk × Nat)) :
    (L.flatMap (fun p => indexRecordBytes p.1 p.2)).length = 12 * L.length := by
  induction L with
  | nil => rfl
  | cons p L ih => simp [List.flatMap_cons, indexRecordBytes_length, ih]; omega

theorem containerBody_length (chunks : List Chunk) :
    (containerBody chunks).length
      = 16 + 12 * (indexable chunks).length + (chunks.flatMap chunkBytes).length := by
  simp only [containerBody, List.length_append, flatMap_records_length, indexedAt_length]
  simp [cstr, bigEndian]

/-- The container of a successful build, in closed form. -/
theorem container_eq (fs : List Nat → Option (List Nat))
    (verbose noBli onlyBli isShortExtension isGlulx : Bool) (path control : List Nat)
    (st : Status)
    (h : buildIndex fs (startStatus verbose noBli onlyBli isShortExtension isGlulx path control)
      = .ok st) :
    ∃ index chunks, st.BlorbChunks = index :: chunks ∧ index.Use = cstr "0"
      ∧ index.Type_ = cstr "RIdx"
      ∧ index.Length = 12 * (indexable chunks).length + 4
      ∧ index.Data = bigEndian (indexable chunks).length
          ++ (indexable chunks).flatMap (fun chunk => indexRecordBytes chunk 0)
      ∧ (∀ chunk ∈ chunks, GoodChunk chunk) ∧ chunks.length < MaxChunksBlorb
      ∧ st.indexOffsets = (List.range (indexable chunks).length).map (fun k => 32 + 12 * k)
      ∧ container st = cstr "FORM" ++ bigEndian ((containerBody chunks).length % 2 ^ 32)
          ++ containerBody chunks := by
  obtain ⟨chunks, hgood, hlen, hc, ho, -⟩ :=
    buildIndex_ok fs _ st rfl (by simp [startStatus, initStatus])
      (by simp [startStatus, initStatus]) (by simp [startStatus, initStatus])
      (by simp [startStatus, initStatus]) h
  refine ⟨_, chunks, hc, rfl, rfl, rfl, rfl, hgood, hlen, ho, ?_⟩
  have hix : (indexable chunks).length ≤ chunks.length := List.length_filter_le _ _
  have hmod : (indexable chunks).length % 2 ^ 32 = (indexable chunks).length := by
    apply Nat.mod_eq_of_lt
    simp only [MaxChunksBlorb] at hlen
    omega
  have := generateBlorb_eq { st with out := FILE.empty } _ chunks hc rfl rfl rfl rfl
    (by rw [hmod]) ho
  unfold container
  rw [this]

theorem indexRecordBytes_zero (chunk : Chunk) (h : GoodChunk chunk) :
    indexRecordBytes chunk 0 = padId chunk.Use ++ bigEndian chunk.Res ++ [0, 0, 0, 0] := by
  simp only [indexRecordBytes, Nat.mod_eq_of_lt h.1, Nat.zero_mod, bigEndian_zero]

theorem flatMap_indexRecordBytes_zero (chunks : List Chunk) (h : ∀ chunk ∈ chunks, GoodChunk chunk) :
    chunks.flatMap (fun chunk => indexRecordBytes chunk 0)
      = chunks.flatMap (fun chunk => padId chunk.Use ++ bigEndian chunk.Res ++ [0, 0, 0, 0]) := by
  induction chunks with
  | nil => rfl
  | cons c cs ih =>
    simp only [List.flatMap_cons]
    rw [indexRecordBytes_zero c (h c (List.mem_cons_self _ _)),
      ih (fun x hx => h x (List.mem_cons_of_mem _ hx))]

theorem good_of_indexable (chunks : List Chunk) (h : ∀ chunk ∈ chunks, GoodChunk chunk) :
    ∀ chunk ∈ indexable chunks, GoodChunk chunk :=
  fun c hc => h c (List.mem_of_mem_filter hc)

/-- C2. After `buildIndex`, with n the number of chunks of the list whose usage
is not the sentinel "0", the index chunk (first in the list, usage "0", type
"RIdx") has Length 4 + 12 n, and its data is the 4-byte big-endian n followed,
for each such chunk in list order, by a 12-byte record: the usage tag
space-padded to 4 bytes, the resource number as 4 big-endian bytes, and 4 zero
bytes for the offset. -/
theorem C2_index_chunk_layout (fs : List Nat → Option (List Nat))
    (verbose noBli onlyBli isShortExtension isGlulx : Bool) (path control : List Nat)
    (st : Status)
    (h : buildIndex fs (startStatus verbose noBli onlyBli isShortExtension isGlulx path control)
      = .ok st) :
    ∃ index chunks, st.BlorbChunks = index :: chunks ∧ index.Use = cstr "0"
      ∧ index.Type_ = cstr "RIdx"
      ∧ index.Length = 4 + 12 * (indexable st.BlorbChunks).length
      ∧ index.Data = bigEndian (indexable st.BlorbChunks).length
          ++ (indexable st.BlorbChunks).flatMap
              (fun chunk => padId chunk.Use ++ bigEndian chunk.Res ++ [0, 0, 0, 0]) := by
  obtain ⟨index, chunks, hc, hu, ht, hl, hd, hgood, -, -, -⟩ :=
    container_eq fs verbose noBli onlyBli isShortExtension isGlulx path control st h
  have hix : indexable st.BlorbChunks = indexable chunks := by
    rw [hc, indexable_cons_neg _ _ hu]
  refine ⟨index, chunks, hc, hu, ht, ?_, ?_⟩
  · rw [hix, hl]; omega
  · rw [hix, hd, flatMap_indexRecordBytes_zero _ (good_of_indexable _ hgood)]

/-- A witness of C2: the index chunk built for the example. -/
theorem C2_index_chunk_layout_witness :
    ∃ index chunks, exampleIndexed.BlorbChunks = index :: chunks ∧ index.Use = cstr "0"
      ∧ index.Type_ = cstr "RIdx"
      ∧ index.Length = 4 + 12 * (indexable exampleIndexed.BlorbChunks).length
      ∧ index.Data = bigEndian (indexable exampleIndexed.BlorbChunks).length
          ++ (indexable exampleIndexed.BlorbChunks).flatMap
              (fun chunk => padId chunk.Use ++ bigEndian chunk.Res ++ [0, 0, 0, 0]) :=
  C2_index_chunk_layout exampleFs false false false false false [] exampleControl
    exampleIndexed (by rfl)

theorem records_slice (L : List (Chunk × Nat)) (k : Nat) (hk : k < L.length) (X Y : List Nat) :
    ((X ++ L.flatMap (fun p => indexRecordBytes p.1 p.2) ++ Y).drop (X.length + 12 * k)).take 12
      = indexRecordBytes (L.getD k (Chunk.zero, 0)).1 (L.getD k (Chunk.zero, 0)).2 := by
  induction L generalizing k X with
  | nil => simp at hk
  | cons p L ih =>
    cases k with
    | zero =>
      simp only [List.flatMap_cons, Nat.mul_zero, Nat.add_zero, List.getD_cons_zero,
        List.append_assoc]
      exact drop_take_mid X _ _ _ _ rfl (indexRecordBytes_length _ _).symm
    | succ k =>
      have hk2 : k < L.length := by simpa using hk
      have := ih k hk2 (X ++ indexRecordBytes p.1 p.2)
      simp only [List.length_append, indexRecordBytes_length, List.append_assoc] at this
      simp only [List.flatMap_cons, List.getD_cons_succ, List.append_assoc]
      rw [show X.length + 12 * (k + 1) = X.length + 12 + 12 * k by omega]
      exact this

theorem chunkBytes_at (chunks : List Chunk) (X : List Nat) :
    ∀ p ∈ indexedAt X.length chunks,
      ((X ++ chunks.flatMap chunkBytes).drop p.2).take (chunkBytes p.1).length = chunkBytes p.1
        ∧ p.2 + (chunkBytes p.1).length ≤ (X ++ chunks.flatMap chunkBytes).length := by
  induction chunks generalizing X with
  | nil => intro p hp; simp [indexedAt] at hp
  | cons c cs ih =>
    intro p hp
    simp only [indexedAt, List.mem_append] at hp
    rcases hp with hp | hp
    · have hpc : p = (c, X.length) := by
        split_ifs at hp
        · simpa using hp
        · simp at hp
      subst hpc
      simp only [List.flatMap_cons, List.length_append]
      exact ⟨drop_take_mid X _ _ _ _ rfl rfl, by omega⟩
    · have := ih (X ++ chunkBytes c) p (by simpa using hp)
      simpa only [List.flatMap_cons, List.append_assoc] using this

theorem chunkBytes_index_length (index : Chunk) (n : Nat) (ht : index.Type_ = cstr "RIdx")
    (hl : index.Length = 12 * n + 4) (hd : index.Data.length = index.Length) :
    (chunkBytes index).length = 12 + 12 * n := by
  have hne : cstr "RIdx" ≠ cstr "FORM" := by decide
  have hev : index.Length % 2 = 0 := by rw [hl]; omega
  rw [chunkBytes_eq, ht, if_pos hne, ← hd, List.take_length, hd, hev]
  simp [cstr, BlorbIdLen, bigEndian, hd, hl]
  omega

theorem slice_split (l A B : List Nat) (a : Nat) (h : (l.drop a).take (A.length + B.length) = A ++ B) :
    (l.drop a).take A.length = A ∧ (l.drop (a + A.length)).take B.length = B := by
  constructor
  · have := congrArg (List.take A.length) h
    rw [List.take_take, List.take_left, Nat.min_eq_left (by omega)] at this
    exact this
  · have := congrArg (List.drop A.length) h
    rw [List.drop_left, List.drop_take, List.drop_drop] at this
    simpa [Nat.add_comm] using this

theorem readInt_of_slice (bytes : List Nat) (off v : Nat) (hv : v < 2 ^ 32)
    (h : (bytes.drop off).take 4 = bigEndian v) : readInt bytes off = v := by
  have hg : ∀ i, i < 4 → bytes.getD (off + i) 0 = (bigEndian v).getD i 0 := by
    intro i hi
    rw [← h]
    simp [List.getD_eq_getElem?_getD, List.getElem?_take, hi, List.getElem?_drop]
  have h0 := hg 0 (by omega)
  have h1 := hg 1 (by omega)
  have h2 := hg 2 (by omega)
  have h3 := hg 3 (by omega)
  simp only [Nat.add_zero] at h0
  simp only [readInt, h0, h1, h2, h3, bigEndian, List.getD_cons_zero, List.getD_cons_succ]
  norm_num at hv ⊢
  omega

theorem length_flatMap_chunkBytes (chunks : List Chunk) :
    (chunks.flatMap chunkBytes).length = (chunks.map (fun c => (chunkBytes c).length)).sum := by
  induction chunks with
  | nil => rfl
  | cons c cs ih => simp [List.flatMap_cons, ih]

/-- C4. In the container written by `generateBlorb` to a new file, of length F
below 2^32: bytes 0..3 are "FORM", bytes 4..7 the big-endian F - 8 (nothing is
left of "latr"), bytes 8..11 "IFRS", bytes 12..15 "RIdx", bytes 16..19 the
big-endian index data length 4 + 12 n; and F - 8 is 4 plus the sum over all
chunks, index included, of the number of bytes `writeChunk` writes for each. -/
theorem C4_container_header (fs : List Nat → Option (List Nat))
    (verbose noBli onlyBli isShortExtension isGlulx : Bool) (path control : List Nat)
    (st : Status)
    (h : buildIndex fs (startStatus verbose noBli onlyBli isShortExtension isGlulx path control)
      = .ok st)
    (hF : (container st).length < 2 ^ 32) :
    (container st).take 4 = cstr "FORM"
      ∧ ((container st).drop 4).take 4 = bigEndian ((container st).length - 8)
      ∧ ((container st).drop 8).take 4 = cstr "IFRS"
      ∧ ((container st).drop 12).take 4 = cstr "RIdx"
      ∧ ((container st).drop 16).take 4 = bigEndian (4 + 12 * (indexable st.BlorbChunks).length)
      ∧ (container st).length - 8
          = 4 + (st.BlorbChunks.map (fun chunk => (chunkBytes chunk).length)).sum := by
  obtain ⟨index, chunks, hc, hu, ht, hl, hd, hgood, -, -, hcont⟩ :=
    container_eq fs verbose noBli onlyBli isShortExtension isGlulx path control st h
  have hix : indexable st.BlorbChunks = indexable chunks := by
    rw [hc, indexable_cons_neg _ _ hu]
  have hbl := containerBody_length chunks
  have hlen : (container st).length = 8 + (containerBody chunks).length := by
    rw [hcont]; simp [cstr, bigEndian]; omega
  have hm1 : (containerBody chunks).length % 2 ^ 32 = (containerBody chunks).length :=
    Nat.mod_eq_of_lt (by omega)
  have hm2 : (12 * (indexable chunks).length + 4) % 2 ^ 32 = 4 + 12 * (indexable chunks).length := by
    rw [Nat.mod_eq_of_lt (by omega)]; omega
  have hdl : index.Data.length = index.Length := by
    rw [hd, hl, List.length_append, flatMap_indexRecordBytes_length]
    simp [bigEndian]; omega
  have hil := chunkBytes_index_length index _ ht hl hdl
  rw [hix, hlen, hcont, hm1]
  refine ⟨?_, ?_, ?_, ?_, ?_, ?_⟩
  · rw [List.append_assoc]
    exact List.take_left' (by decide)
  · rw [Nat.add_sub_cancel_left, List.append_assoc]
    exact drop_take_mid (cstr "FORM") (bigEndian (containerBody chunks).length)
      (containerBody chunks) 4 4 (by decide) (by simp [bigEndian])
  · have : cstr "FORM" ++ bigEndian (containerBody chunks).length ++ containerBody chunks
        = (cstr "FORM" ++ bigEndian (containerBody chunks).length)
          ++ (cstr "IFRS" ++ (cstr "RIdx"
            ++ bigEndian ((12 * (indexable chunks).length + 4) % 2 ^ 32)
            ++ bigEndian ((indexable chunks).length % 2 ^ 32)
            ++ (indexedAt (24 + 12 * (indexable chunks).length) chunks).flatMap
                (fun p => indexRecordBytes p.1 p.2)
            ++ chunks.flatMap chunkBytes)) := by
      simp [containerBody]
    rw [this]
    exact drop_take_mid _ _ _ _ _ (by simp [cstr, bigEndian]) (by decide)
  · have : cstr "FORM" ++ bigEndian (containerBody chunks).length ++ containerBody chunks
        = (cstr "FORM" ++ bigEndian (containerBody chunks).length ++ cstr "IFRS")
          ++ (cstr "RIdx" ++ (bigEndian ((12 * (indexable chunks).length + 4) % 2 ^ 32)
            ++ bigEndian ((indexable chunks).length % 2 ^ 32)
            ++ (indexedAt (24 + 12 * (indexable chunks).length) chunks).flatMap
                (fun p => indexRecordBytes p.1 p.2)
            ++ chunks.flatMap chunkBytes)) := by
      simp [containerBody]
    rw [this]
    exact drop_take_mid _ _ _ _ _ (by simp [cstr, bigEndian]) (by decide)
  · have : cstr "FORM" ++ bigEndian (containerBody chunks).length ++ containerBody chunks
        = (cstr "FORM" ++ bigEndian (containerBody chunks).length ++ cstr "IFRS" ++ cstr "RIdx")
          ++ (bigEndian ((12 * (indexable chunks).length + 4) % 2 ^ 32)
            ++ (bigEndian ((indexable chunks).length % 2 ^ 32)
            ++ (indexedAt (24 + 12 * (indexable chunks).length) chunks).flatMap
                (fun p => indexRecordBytes p.1 p.2)
            ++ chunks.flatMap chunkBytes)) := by
      simp [containerBody]
    rw [this, hm2]
    exact drop_take_mid _ _ _ _ _ (by simp [cstr, bigEndian]) (by simp [bigEndian])
  · rw [Nat.add_sub_cancel_left, hbl, hc, List.map_cons, List.sum_cons, hil,
      length_flatMap_chunkBytes]
    omega

set_option maxRecDepth 100000 in
/-- A witness of C4: the container of the example. -/
theorem C4_container_header_witness :
    (container exampleIndexed).take 4 = cstr "FORM"
      ∧ ((container exampleIndexed).drop 4).take 4
          = bigEndian ((container exampleIndexed).length - 8)
      ∧ ((container exampleIndexed).drop 8).take 4 = cstr "IFRS"
      ∧ ((container exampleIndexed).drop 12).take 4 = cstr "RIdx"
      ∧ ((container exampleIndexed).drop 16).take 4
          = bigEndian (4 + 12 * (indexable exampleIndexed.BlorbChunks).length)
      ∧ (container exampleIndexed).length - 8
          = 4 + (exampleIndexed.BlorbChunks.map (fun chunk => (chunkBytes chunk).length)).sum :=
  C4_container_header exampleFs false false false false false [] exampleControl
    exampleIndexed (by rfl) (by decide)

/-- The container of a successful build, cut in three: the 24 bytes up to and
including the entry count, the index records, the bytes of the chunks. -/
theorem container_split (fs : List Nat → Option (List Nat))
    (verbose noBli onlyBli isShortExtension isGlulx : Bool) (path control : List Nat)
    (st : Status)
    (h : buildIndex fs (startStatus verbose noBli onlyBli isShortExtension isGlulx path control)
      = .ok st) :
    ∃ index chunks X, st.BlorbChunks = index :: chunks ∧ index.Use = cstr "0"
      ∧ (∀ chunk ∈ chunks, GoodChunk chunk)
      ∧ indexable st.BlorbChunks = indexable chunks
      ∧ (indexable chunks).length < 2 ^ 32
      ∧ indexedAt 12 st.BlorbChunks = indexedAt (24 + 12 * (indexable chunks).length) chunks
      ∧ X.length = 20 ∧ (X ++ bigEndian (indexable chunks).length
          ++ (indexedAt 12 st.BlorbChunks).flatMap (fun p => indexRecordBytes p.1 p.2)).length
          = 24 + 12 * (indexable chunks).length
      ∧ st.indexOffsets = (List.range (indexable chunks).length).map (fun k => 32 + 12 * k)
      ∧ container st = X ++ bigEndian (indexable chunks).length
          ++ (indexedAt 12 st.BlorbChunks).flatMap (fun p => indexRecordBytes p.1 p.2)
          ++ chunks.flatMap chunkBytes := by
  obtain ⟨index, chunks, hc, hu, ht, hl, hd, hgood, hcap, ho, hcont⟩ :=
    container_eq fs verbose noBli onlyBli isShortExtension isGlulx path control st h
  have hix : indexable st.BlorbChunks = indexable chunks := by
    rw [hc, indexable_cons_neg _ _ hu]
  have hixl : (indexable chunks).length ≤ chunks.length := List.length_filter_le _ _
  have hn : (indexable chunks).length < 2 ^ 32 := by
    simp only [MaxChunksBlorb] at hcap; omega
  have hdl : index.Data.length = index.Length := by
    rw [hd, hl, List.length_append, flatMap_indexRecordBytes_length]
    simp [bigEndian]; omega
  have hil := chunkBytes_index_length index _ ht hl hdl
  have hidx : indexedAt 12 st.BlorbChunks
      = indexedAt (24 + 12 * (indexable chunks).length) chunks := by
    rw [hc]
    simp only [indexedAt, hu, ne_eq, not_true_eq_false, if_false, List.nil_append, hil]
    congr 1
    omega
  refine ⟨index, chunks,
    cstr "FORM" ++ bigEndian ((containerBody chunks).length % 2 ^ 32) ++ cstr "IFRS"
      ++ cstr "RIdx" ++ bigEndian ((12 * (indexable chunks).length + 4) % 2 ^ 32),
    hc, hu, hgood, hix, hn, hidx, by simp [cstr, bigEndian], ?_, ho, ?_⟩
  · simp only [List.length_append, flatMap_records_length, indexedAt_length, hidx]
    simp [cstr, bigEndian]
  · have hm : (indexable chunks).length % 4294967296 = (indexable chunks).length :=
      Nat.mod_eq_of_lt (by norm_num at hn; exact hn)
    rw [hcont, hidx]
    simp [containerBody, hm]

/-- C3. The k-th entry of the patch table computed by `buildIndex`, k counted
from 0 over the chunks whose usage is not "0", is 20 + 4 + 12 k + 8 = 32 + 12 k;
and in the container written by `generateBlorb` this is the offset of the 4-byte
offset field of the k-th index record: the 8 bytes before it are the usage tag
and the resource number of the k-th such chunk, the 4 bytes at it hold the
position of that chunk. -/
theorem C3_patch_table (fs : List Nat → Option (List Nat))
    (verbose noBli onlyBli isShortExtension isGlulx : Bool) (path control : List Nat)
    (st : Status)
    (h : buildIndex fs (startStatus verbose noBli onlyBli isShortExtension isGlulx path control)
      = .ok st)
    (k : Nat) (hk : k < (indexable st.BlorbChunks).length) :
    st.indexOffsets
        = (List.range (indexable st.BlorbChunks).length).map (fun k => 20 + 4 + 12 * k + 8)
      ∧ st.indexOffsets.getD k 0 = 32 + 12 * k
      ∧ ((container st).drop (st.indexOffsets.getD k 0 - 8)).take 8
          = padId ((indexable st.BlorbChunks).getD k Chunk.zero).Use
            ++ bigEndian ((indexable st.BlorbChunks).getD k Chunk.zero).Res
      ∧ ((container st).drop (st.indexOffsets.getD k 0)).take 4
          = bigEndian (((indexedAt 12 st.BlorbChunks).getD k (Chunk.zero, 0)).2 % 2 ^ 32)
      ∧ ((indexedAt 12 st.BlorbChunks).getD k (Chunk.zero, 0)).1
          = (indexable st.BlorbChunks).getD k Chunk.zero := by
  obtain ⟨index, chunks, X, hc, hu, hgood, hix, hn, hidx, hX, -, ho, hcont⟩ :=
    container_split fs verbose noBli onlyBli isShortExtension isGlulx path control st h
  rw [hix] at hk ⊢
  have hget : st.indexOffsets.getD k 0 = 32 + 12 * k := by
    rw [ho, List.getD_eq_getElem?_getD, List.getElem?_eq_getElem (by simpa using hk)]
    simp
  have hkl : k < (indexedAt 12 st.BlorbChunks).length := by
    rw [hidx, indexedAt_length]; exact hk
  have hfst : ((indexedAt 12 st.BlorbChunks).getD k (Chunk.zero, 0)).1
      = (indexable chunks).getD k Chunk.zero := by
    have := indexedAt_fst 12 st.BlorbChunks
    rw [hix] at this
    rw [← this, List.getD_eq_getElem?_getD, List.getD_eq_getElem?_getD, List.getElem?_map,
      List.getElem?_eq_getElem hkl]
    rfl
  have hmem : (indexable chunks).getD k Chunk.zero ∈ indexable chunks := by
    rw [List.getD_eq_getElem?_getD, List.getElem?_eq_getElem hk]
    exact List.getElem_mem _
  have hg := good_of_indexable _ hgood _ hmem
  have hslice := records_slice (indexedAt 12 st.BlorbChunks) k hkl
    (X ++ bigEndian (indexable chunks).length) (chunks.flatMap chunkBytes)
  have hXl : (X ++ bigEndian (indexable chunks).length).length + 12 * k = 32 + 12 * k - 8 := by
    simp [hX, bigEndian]; omega
  rw [← hcont, hXl, hfst] at hslice
  have hrec : indexRecordBytes ((indexable chunks).getD k Chunk.zero)
        ((indexedAt 12 st.BlorbChunks).getD k (Chunk.zero, 0)).2
      = (padId ((indexable chunks).getD k Chunk.zero).Use
          ++ bigEndian ((indexable chunks).getD k Chunk.zero).Res)
        ++ bigEndian (((indexedAt 12 st.BlorbChunks).getD k (Chunk.zero, 0)).2 % 2 ^ 32) := by
    simp only [indexRecordBytes, Nat.mod_eq_of_lt hg.1]
  have hl8 : (padId ((indexable chunks).getD k Chunk.zero).Use
      ++ bigEndian ((indexable chunks).getD k Chunk.zero).Res).length = 8 := by
    simp [padId, bigEndian]; omega
  have hl4 : (bigEndian (((indexedAt 12 st.BlorbChunks).getD k (Chunk.zero, 0)).2
      % 2 ^ 32)).length = 4 := by simp [bigEndian]
  rw [hrec] at hslice
  have hsp := slice_split (container st)
    (padId ((indexable chunks).getD k Chunk.zero).Use
      ++ bigEndian ((indexable chunks).getD k Chunk.zero).Res)
    (bigEndian (((indexedAt 12 st.BlorbChunks).getD k (Chunk.zero, 0)).2 % 2 ^ 32))
    (32 + 12 * k - 8) (by rw [hl8, hl4]; exact hslice)
  rw [hl8, hl4] at hsp
  refine ⟨?_, hget, ?_, ?_, hfst⟩
  · rw [ho]
    apply List.map_congr_left
    intro j _
    omega
  · rw [hget]; exact hsp.1
  · rw [hget]
    have := hsp.2
    rw [show 32 + 12 * k - 8 + 8 = 32 + 12 * k by omega] at this
    exact this

set_option maxRecDepth 100000 in
/-- A witness of C3: the second entry of the patch table of the example. -/
theorem C3_patch_table_witness :
    exampleIndexed.indexOffsets
        = (List.range (indexable exampleIndexed.BlorbChunks).length).map
            (fun k => 20 + 4 + 12 * k + 8)
      ∧ exampleIndexed.indexOffsets.getD 1 0 = 32 + 12 * 1
      ∧ ((container exampleIndexed).drop (exampleIndexed.indexOffsets.getD 1 0 - 8)).take 8
          = padId ((indexable exampleIndexed.BlorbChunks).getD 1 Chunk.zero).Use
            ++ bigEndian ((indexable exampleIndexed.BlorbChunks).getD 1 Chunk.zero).Res
      ∧ ((container exampleIndexed).drop (exampleIndexed.indexOffsets.getD 1 0)).take 4
          = bigEndian (((indexedAt 12 exampleIndexed.BlorbChunks).getD 1 (Chunk.zero, 0)).2
              % 2 ^ 32)
      ∧ ((indexedAt 12 exampleIndexed.BlorbChunks).getD 1 (Chunk.zero, 0)).1
          = (indexable exampleIndexed.BlorbChunks).getD 1 Chunk.zero :=
  C3_patch_table exampleFs false false false false false [] exampleControl
    exampleIndexed (by rfl) 1 (by decide)

theorem map_range_getD {α β : Type} (L : List α) (d : α) (f : α → β) :
    (List.range L.length).map (fun k => f (L.getD k d)) = L.map f := by
  apply List.ext_getElem
  · simp
  · intro i h1 h2
    have hi : i < L.length := by simpa using h1
    simp [List.getD_eq_getElem?_getD, List.getElem?_eq_getElem hi]

theorem good_type (T : List Nat) (h : T ∈ cstr "Fspc" :: inferredTypes) :
    T ≠ cstr "FORM" ∧ T.length ≤ 4 := by
  simp only [inferredTypes, List.mem_cons, List.mem_singleton, List.not_mem_nil, or_false] at h
  rcases h with h | h | h | h | h | h | h | h | h <;> subst h <;> decide

theorem chunkBytes_tag (chunk : Chunk) (h : GoodChunk chunk) :
    (chunkBytes chunk).take 4 = padId chunk.Type_ ∧ 4 ≤ (chunkBytes chunk).length := by
  obtain ⟨hne, hle⟩ := good_type _ h.2.1
  have hp : (padId chunk.Type_).length = 4 := by simp [padId]; omega
  rw [chunkBytes_eq, if_pos hne, padId_of_le _ hle]
  constructor
  · rw [List.append_assoc, List.append_assoc]
    exact List.take_left' hp
  · simp only [List.length_append, hp]; omega

/-- C1. Decoding the index chunk of the container written by `generateBlorb` to
a new file, of length below 2^32 (the entry count at offset 20, then the
12-byte records), yields for the chunks whose usage is not "0", in write order,
the usage tag space-padded to 4 bytes, the resource number and the offset of
each; and each offset is the position in the output at which the bytes of the
chunk start, the first four being its type tag. -/
theorem C1_index_roundtrip (fs : List Nat → Option (List Nat))
    (verbose noBli onlyBli isShortExtension isGlulx : Bool) (path control : List Nat)
    (st : Status)
    (h : buildIndex fs (startStatus verbose noBli onlyBli isShortExtension isGlulx path control)
      = .ok st)
    (hF : (container st).length < 2 ^ 32)
    (p : Chunk × Nat) (hp : p ∈ indexedAt 12 st.BlorbChunks) :
    decodeIndex (container st)
        = (indexedAt 12 st.BlorbChunks).map (fun p => (padId p.1.Use, p.1.Res, p.2))
      ∧ (indexedAt 12 st.BlorbChunks).map Prod.fst = indexable st.BlorbChunks
      ∧ ((container st).drop p.2).take (chunkBytes p.1).length = chunkBytes p.1
      ∧ ((container st).drop p.2).take 4 = padId p.1.Type_ := by
  obtain ⟨index, chunks, X, hc, hu, hgood, hix, hn, hidx, hX, hXl, ho, hcont⟩ :=
    container_split fs verbose noBli onlyBli isShortExtension isGlulx path control st h
  have hat := chunkBytes_at chunks (X ++ bigEndian (indexable chunks).length
    ++ (indexedAt 12 st.BlorbChunks).flatMap (fun p => indexRecordBytes p.1 p.2))
  rw [hXl, ← hidx, ← hcont] at hat
  have hgoodp : ∀ q ∈ indexedAt 12 st.BlorbChunks, GoodChunk q.1 := by
    intro q hq
    have : q.1 ∈ indexable st.BlorbChunks := by
      rw [← indexedAt_fst 12]; exact List.mem_map_of_mem _ hq
    rw [hix] at this
    exact good_of_indexable _ hgood _ this
  have hcount : readInt (container st) 20 = (indexedAt 12 st.BlorbChunks).length := by
    rw [hidx, indexedAt_length]
    apply readInt_of_slice _ _ _ hn
    rw [hcont, List.append_assoc, List.append_assoc]
    exact drop_take_mid X _ _ _ _ hX.symm (by simp [bigEndian])
  refine ⟨?_, indexedAt_fst 12 _, (hat p hp).1, ?_⟩
  · unfold decodeIndex
    rw [hcount, ← map_range_getD (indexedAt 12 st.BlorbChunks) (Chunk.zero, 0)]
    apply List.map_congr_left
    intro k hk
    have hkl : k < (indexedAt 12 st.BlorbChunks).length := List.mem_range.mp hk
    have hslice := records_slice (indexedAt 12 st.BlorbChunks) k hkl
      (X ++ bigEndian (indexable chunks).length) (chunks.flatMap chunkBytes)
    have hmem : (indexedAt 12 st.BlorbChunks).getD k (Chunk.zero, 0)
        ∈ indexedAt 12 st.BlorbChunks := by
      rw [List.getD_eq_getElem?_getD, List.getElem?_eq_getElem hkl]
      exact List.getElem_mem _
    obtain ⟨q, hq⟩ : ∃ q, q = (indexedAt 12 st.BlorbChunks).getD k (Chunk.zero, 0) := ⟨_, rfl⟩
    rw [← hq] at hslice hmem ⊢
    have hg := hgoodp q hmem
    have hq2 : q.2 < 2 ^ 32 := by have := (hat q hmem).2; omega
    have hXk : (X ++ bigEndian (indexable chunks).length).length + 12 * k = 24 + 12 * k := by
      simp [hX, bigEndian]
    have hrec : indexRecordBytes q.1 q.2
        = padId q.1.Use ++ (bigEndian q.1.Res ++ bigEndian q.2) := by
      simp only [indexRecordBytes, Nat.mod_eq_of_lt hg.1, Nat.mod_eq_of_lt hq2,
        List.append_assoc]
    rw [← hcont, hXk, hrec] at hslice
    have hl4 : (padId q.1.Use).length = 4 := by simp [padId]; omega
    have hb4 : ∀ v, (bigEndian v).length = 4 := fun v => by simp [bigEndian]
    have s1 := slice_split (container st) (padId q.1.Use) (bigEndian q.1.Res ++ bigEndian q.2)
      (24 + 12 * k) (by rw [hl4, List.length_append, hb4, hb4]; exact hslice)
    rw [hl4] at s1
    have s2 := slice_split (container st) (bigEndian q.1.Res) (bigEndian q.2)
      (24 + 12 * k + 4) (by rw [hb4, hb4]; simpa [hb4] using s1.2)
    rw [hb4, hb4] at s2
    have r1 := readInt_of_slice (container st) (28 + 12 * k) q.1.Res hg.1
      (by rw [show 28 + 12 * k = 24 + 12 * k + 4 by omega]; exact s2.1)
    have r2 := readInt_of_slice (container st) (32 + 12 * k) q.2 hq2
      (by rw [show 32 + 12 * k = 24 + 12 * k + 4 + 4 by omega]; exact s2.2)
    rw [s1.1, r1, r2]
  · obtain ⟨htag, h4⟩ := chunkBytes_tag p.1 (hgoodp p hp)
    have := congrArg (List.take 4) (hat p hp).1
    rw [List.take_take, Nat.min_eq_left h4, htag] at this
    exact this

set_option maxRecDepth 100000 in
/-- A witness of C1: the index of the container of the example, and the sound
chunk, written at offset 72. -/
theorem C1_index_roundtrip_witness :
    decodeIndex (container exampleIndexed)
        = (indexedAt 12 exampleIndexed.BlorbChunks).map (fun p => (padId p.1.Use, p.1.Res, p.2))
      ∧ (indexedAt 12 exampleIndexed.BlorbChunks).map Prod.fst
          = indexable exampleIndexed.BlorbChunks
      ∧ ((container exampleIndexed).drop 72).take
            (chunkBytes { Type_ := cstr "OGGV", Use := cstr "Snd", Res := 3, Length := 2,
                          Data := [4, 5] }).length
          = chunkBytes { Type_ := cstr "OGGV", Use := cstr "Snd", Res := 3, Length := 2,
                         Data := [4, 5] }
      ∧ ((container exampleIndexed).drop 72).take 4 = padId (cstr "OGGV") :=
  C1_index_roundtrip exampleFs false false false false false [] exampleControl
    exampleIndexed (by rfl) (by decide)
    ({ Type_ := cstr "OGGV", Use := cstr "Snd", Res := 3, Length := 2, Data := [4, 5] }, 72)
    (by decide)

/-! ## Resource numbers -/

theorem usedBy_append (tag : List Nat) (xs ys : List Chunk) :
    usedBy tag (xs ++ ys) = usedBy tag xs ++ usedBy tag ys := by
  simp [usedBy]

theorem usedBy_length_le (tag : List Nat) (chunks : List Chunk) :
    (usedBy tag chunks).length ≤ chunks.length := List.length_filter_le _ _

theorem numberedFrom_same (tag : List Nat) (base counter : Nat) (chunks : List Chunk)
    (chunk : Chunk) (h : NumberedFrom tag base counter chunks) (hu : chunk.Use = tag)
    (hr : chunk.Res = counter) (hlt : counter + 1 < 2 ^ 32) :
    NumberedFrom tag base ((counter + 1) % 2 ^ 32) (chunks ++ [chunk]) := by
  obtain ⟨h1, h2⟩ := h
  have hs : usedBy tag [chunk] = [chunk] := by simp [usedBy, hu]
  unfold NumberedFrom
  rw [usedBy_append, hs, List.map_append, h1, List.length_append, List.length_singleton,
    List.range'_concat, Nat.mod_eq_of_lt hlt]
  simp [hr, h2]
  omega

theorem numberedFrom_other (tag : List Nat) (base counter : Nat) (chunks : List Chunk)
    (chunk : Chunk) (h : NumberedFrom tag base counter chunks) (hu : chunk.Use ≠ tag) :
    NumberedFrom tag base counter (chunks ++ [chunk]) := by
  have hs : usedBy tag [chunk] = [] := by simp [usedBy, hu]
  unfold NumberedFrom at h ⊢
  rw [usedBy_append, hs, List.append_nil]
  exact h

section

attribute [local irreducible] readChunk skipDelimiters

theorem numbered_store (fs : List Nat → Option (List Nat)) (st : Status) (n : Nat)
    (chunk : Chunk) (st1 : Status) (hP : Numbered (st, n))
    (h : readChunk fs st = .ok (some chunk, st1)) (hcap : st1.numberOfChunks < MaxChunksBlorb) :
    Numbered (storeChunk st1 chunk, if chunk.Use ≠ cstr "0" then n + 1 else n) := by
  obtain ⟨u, hmem, huse, hres, ⟨b1, b2, b3, b4⟩, -, -, hbc, -, -⟩ :=
    readChunk_some fs st st1 chunk h
  obtain ⟨hp, hs, he, hle⟩ := hP
  simp only at hp hs he hle
  simp only [Status.numberOfChunks, hbc, MaxChunksBlorb] at hcap
  have lp := usedBy_length_le (cstr "Pict") st.BlorbChunks
  have ls := usedBy_length_le (cstr "Snd") st.BlorbChunks
  have le := usedBy_length_le (cstr "Exec") st.BlorbChunks
  have hcp := hp.2
  have hcs := hs.2
  have hce := he.2
  have n1 : cstr "Exec" ≠ cstr "Pict" := by decide
  have n2 : cstr "Exec" ≠ cstr "Snd" := by decide
  have n3 : cstr "Pict" ≠ cstr "Snd" := by decide
  have n4 : cstr "0" ≠ cstr "Pict" := by decide
  have n5 : cstr "0" ≠ cstr "Snd" := by decide
  have n6 : cstr "0" ≠ cstr "Exec" := by decide
  simp only [List.mem_cons, List.mem_singleton, List.not_mem_nil, or_false] at hmem
  refine ⟨?_, ?_, ?_, ?_⟩
  · simp only [storeChunk, hbc]
    rcases hmem with rfl | rfl | rfl | rfl <;>
      simp only [storedUse, counterOf, reduceCtorEq, if_false, if_true] at huse hres b2 <;>
      rw [b2]
    · exact numberedFrom_other _ _ _ _ _ hp (by rw [huse]; exact n1)
    · exact numberedFrom_same _ _ _ _ _ hp huse hres (by omega)
    · exact numberedFrom_other _ _ _ _ _ hp (by rw [huse]; exact n3.symm)
    · exact numberedFrom_other _ _ _ _ _ hp (by rw [huse]; exact n4)
  · simp only [storeChunk, hbc]
    rcases hmem with rfl | rfl | rfl | rfl <;>
      simp only [storedUse, counterOf, reduceCtorEq, if_false, if_true] at huse hres b3 <;>
      rw [b3]
    · exact numberedFrom_other _ _ _ _ _ hs (by rw [huse]; exact n2)
    · exact numberedFrom_other _ _ _ _ _ hs (by rw [huse]; exact n3)
    · exact numberedFrom_same _ _ _ _ _ hs huse hres (by omega)
    · exact numberedFrom_other _ _ _ _ _ hs (by rw [huse]; exact n5)
  · simp only [storeChunk, hbc]
    rcases hmem with rfl | rfl | rfl | rfl <;>
      simp only [storedUse, counterOf, reduceCtorEq, if_false, if_true] at huse hres b1 <;>
      rw [b1]
    · exact numberedFrom_same _ _ _ _ _ he huse hres (by omega)
    · exact numberedFrom_other _ _ _ _ _ he (by rw [huse]; exact n1.symm)
    · exact numberedFrom_other _ _ _ _ _ he (by rw [huse]; exact n2.symm)
    · exact numberedFrom_other _ _ _ _ _ he (by rw [huse]; exact n6)
  · simp only [storeChunk, hbc, List.length_append, List.length_singleton, MaxChunksBlorb]
    omega

end

section

attribute [local irreducible] loadChunks coverChunk indexChunk skipDelimiters readChunk storeChunk

/-- Induction over `buildIndex`: a property that holds when the loop starts and
that every stored chunk, every dropped entry and the cover chunk preserve holds
of the status on which `indexChunk` is run at the end. -/
theorem buildIndex_inv (fs : List Nat → Option (List Nat)) (P : Status × Nat → Prop)
    (hsome : ∀ st n chunk st1, P (st, n) → readChunk fs st = .ok (some chunk, st1) →
      st1.numberOfChunks < MaxChunksBlorb →
      P (storeChunk st1 chunk, if chunk.Use ≠ cstr "0" then n + 1 else n))
    (hnone : ∀ st n st1, P (st, n) → readChunk fs st = .ok (none, st1) → P (st1, n))
    (hcover : ∀ st n st1, P (st, n) → coverChunk st = .ok st1 → P (st1, n))
    (st0 st : Status)
    (h0 : P ({ st0 with BlorbChunks := [indexChunk0], in_ := skipDelimiters st0.in_ }, 0))
    (h : buildIndex fs st0 = .ok st) :
    ∃ st3 n, P (st3, n) ∧ st = indexChunk st3 n := by
  unfold buildIndex at h
  simp only [bind, Except.bind] at h
  split_ifs at h with hf
  · split at h
    · cases h
    · rename_i r hload
      obtain ⟨st2, n⟩ := r
      have hl2 : P (st2, n) := loadChunks_induct fs P hsome hnone _ _ _ _ h0 hload
      simp only at h
      split at h
      · cases h
      · rename_i st3 hcover3
        simp only [pure, Except.pure, Except.ok.injEq] at h
        exact ⟨st3, n, hcover _ _ _ hl2 hcover3, h.symm⟩
  · simp only [pure, Except.pure] at h
    split at h
    · cases h
    · rename_i st3 hcover3
      simp only [Except.ok.injEq] at h
      exact ⟨st3, 0, hcover _ _ _ h0 hcover3, h.symm⟩

theorem numbered_drop (fs : List Nat → Option (List Nat)) (st : Status) (n : Nat)
    (st1 : Status) (hP : Numbered (st, n)) (h : readChunk fs st = .ok (none, st1))
    (hfiles : st.onlyBli = false ∨ ∀ fileName, fs fileName ≠ none) :
    Numbered (st1, n) := by
  obtain ⟨hbc, -, -, hcase⟩ := readChunk_none fs st st1 h
  rcases hcase with ⟨-, e1, e2, e3, e4⟩ | ⟨hob, ⟨fileName, hfn⟩, -⟩
  · obtain ⟨hp, hs, he, hle⟩ := hP
    exact ⟨by simpa only [e2, hbc] using hp, by simpa only [e3, hbc] using hs,
      by simpa only [e1, hbc] using he, by simpa only [hbc] using hle⟩
  · rcases hfiles with hf | hf
    · rw [hf] at hob; cases hob
    · exact absurd hfn (hf fileName)

theorem numbered_cover (st : Status) (n : Nat) (st1 : Status) (hP : Numbered (st, n))
    (h : coverChunk st = .ok st1) : Numbered (st1, n) := by
  obtain ⟨hp, hs, he, hle⟩ := hP
  simp only at hp hs he hle
  have hfu : (frontispiece st).Use = cstr "0" := rfl
  unfold coverChunk at h
  split_ifs at h with hcov hcap
  · injection h with h
    subst h
    refine ⟨numberedFrom_other _ _ _ _ _ hp (by rw [hfu]; decide),
      numberedFrom_other _ _ _ _ _ hs (by rw [hfu]; decide),
      numberedFrom_other _ _ _ _ _ he (by rw [hfu]; decide), ?_⟩
    simp only [Status.numberOfChunks] at hcap
    simp only [List.length_append, List.length_singleton]
    omega
  · injection h with h
    subst h
    exact ⟨hp, hs, he, hle⟩

end

theorem indexChunk_chunks (st : Status) (n : Nat) :
    ∃ data, (indexChunk st n).BlorbChunks
        = (match st.BlorbChunks with
          | [] => []
          | index :: chunks => { index with Length := 12 * n + 4, Data := data } :: chunks)
      ∧ (indexChunk st n).nextChunkForPicts = st.nextChunkForPicts
      ∧ (indexChunk st n).nextChunkForSnds = st.nextChunkForSnds
      ∧ (indexChunk st n).nextChunkForExecs = st.nextChunkForExecs
      ∧ (indexChunk st n).nextChunkForMeta = st.nextChunkForMeta := by
  unfold indexChunk
  cases hc : st.BlorbChunks with
  | nil => exact ⟨[], by simp [hc], rfl, rfl, rfl, rfl⟩
  | cons index chunks => exact ⟨_, rfl, rfl, rfl, rfl, rfl⟩

theorem indexChunk_numberedFrom (st : Status) (n : Nat) (tag : List Nat) (base counter : Nat)
    (h : NumberedFrom tag base counter st.BlorbChunks) :
    NumberedFrom tag base counter (indexChunk st n).BlorbChunks := by
  obtain ⟨data, hc, -⟩ := indexChunk_chunks st n
  rw [hc]
  cases hs : st.BlorbChunks with
  | nil => rw [hs] at h; exact h
  | cons index chunks =>
    rw [hs] at h
    unfold NumberedFrom usedBy at h ⊢
    simp only [List.filter_cons] at h ⊢
    by_cases hu : index.Use = tag
    · simp only [hu, decide_True, if_true, List.map_cons, List.length_cons] at h ⊢
      exact h
    · simp only [hu, decide_False, if_false] at h ⊢
      exact h

theorem numbered_init (st0 : Status) (f : InFile) (hp : st0.nextChunkForPicts = 3)
    (hs : st0.nextChunkForSnds = 3) (he : st0.nextChunkForExecs = 0) :
    Numbered ({ st0 with BlorbChunks := [indexChunk0], in_ := f }, 0) := by
  have hu : usedBy (cstr "Pict") [indexChunk0] = [] := by decide
  have hv : usedBy (cstr "Snd") [indexChunk0] = [] := by decide
  have hw : usedBy (cstr "Exec") [indexChunk0] = [] := by decide
  refine ⟨⟨?_, ?_⟩, ⟨?_, ?_⟩, ⟨?_, ?_⟩, ?_⟩
  · simp only [hu]; rfl
  · simp only [hu, hp]; rfl
  · simp only [hv]; rfl
  · simp only [hv, hs]; rfl
  · simp only [hw]; rfl
  · simp only [hw, he]; rfl
  · simp [MaxChunksBlorb]

theorem readChunk_onlyBli (fs : List Nat → Option (List Nat)) (st st1 : Status)
    (chunk : Option Chunk) (h : readChunk fs st = .ok (chunk, st1)) : st1.onlyBli = st.onlyBli := by
  cases chunk with
  | none => exact (readChunk_none fs st st1 h).2.2.1
  | some c =>
    obtain ⟨u, -, -, -, -, -, -, -, -, hob⟩ := readChunk_some fs st st1 c h
    exact hob

theorem coverChunk_onlyBli (st st1 : Status) (h : coverChunk st = .ok st1) :
    st1.onlyBli = st.onlyBli := by
  unfold coverChunk at h
  split_ifs at h <;> injection h with h <;> subst h <;> rfl

/-- When no entry is dropped, the chunk list `buildIndex` leaves has its pictures
and sounds numbered from 3 and its executables from 0. -/
theorem buildIndex_numbered (fs : List Nat → Option (List Nat))
    (verbose noBli onlyBli isShortExtension isGlulx : Bool) (path control : List Nat)
    (st : Status)
    (h : buildIndex fs (startStatus verbose noBli onlyBli isShortExtension isGlulx path control)
      = .ok st)
    (hfiles : onlyBli = false ∨ ∀ fileName, fs fileName ≠ none) :
    NumberedFrom (cstr "Pict") 3 st.nextChunkForPicts st.BlorbChunks
      ∧ NumberedFrom (cstr "Snd") 3 st.nextChunkForSnds st.BlorbChunks
      ∧ NumberedFrom (cstr "Exec") 0 st.nextChunkForExecs st.BlorbChunks := by
  obtain ⟨st3, n, ⟨⟨hp, hs, he, -⟩, -⟩, hst⟩ := buildIndex_inv fs
    (fun s => Numbered s ∧ s.1.onlyBli = onlyBli)
    (fun st n chunk st1 hP hr hc =>
      ⟨numbered_store fs st n chunk st1 hP.1 hr hc,
        by rw [← hP.2]; exact readChunk_onlyBli fs st st1 _ hr⟩)
    (fun st n st1 hP hr =>
      ⟨numbered_drop fs st n st1 hP.1 hr (by rw [hP.2]; exact hfiles),
        by rw [← hP.2]; exact readChunk_onlyBli fs st st1 _ hr⟩)
    (fun st n st1 hP hr =>
      ⟨numbered_cover st n st1 hP.1 hr, by rw [← hP.2]; exact coverChunk_onlyBli st st1 hr⟩)
    _ st ⟨numbered_init _ _ rfl rfl rfl, rfl⟩ h
  obtain ⟨data, -, e1, e2, e3, -⟩ := indexChunk_chunks st3 n
  subst hst
  rw [e1, e2, e3]
  exact ⟨indexChunk_numberedFrom _ _ _ _ _ hp, indexChunk_numberedFrom _ _ _ _ _ hs,
    indexChunk_numberedFrom _ _ _ _ _ he⟩

/-- C7. When every file can be opened (as in every successful build in normal
mode), the chunks stored with usage Picture, picture entries and cover entry
together, carry in control-list order the resource numbers 3, 4, 5, ...; the
chunks of usage Sound the numbers 3, 4, 5, ...; the chunks of usage Executable
the numbers 0, 1, 2, ... -/
theorem C7_resource_numbers (fs : List Nat → Option (List Nat))
    (verbose noBli onlyBli isShortExtension isGlulx : Bool) (path control : List Nat)
    (st : Status)
    (h : buildIndex fs (startStatus verbose noBli onlyBli isShortExtension isGlulx path control)
      = .ok st)
    (hfiles : onlyBli = false ∨ ∀ fileName, fs fileName ≠ none) :
    (usedBy (cstr "Pict") st.BlorbChunks).map (fun chunk => chunk.Res)
        = List.range' 3 (usedBy (cstr "Pict") st.BlorbChunks).length
      ∧ (usedBy (cstr "Snd") st.BlorbChunks).map (fun chunk => chunk.Res)
        = List.range' 3 (usedBy (cstr "Snd") st.BlorbChunks).length
      ∧ (usedBy (cstr "Exec") st.BlorbChunks).map (fun chunk => chunk.Res)
        = List.range' 0 (usedBy (cstr "Exec") st.BlorbChunks).length := by
  obtain ⟨hp, hs, he⟩ := buildIndex_numbered fs verbose noBli onlyBli isShortExtension isGlulx
    path control st h hfiles
  exact ⟨hp.1, hs.1, he.1⟩

set_option maxRecDepth 100000 in
/-- A witness of C7: the example of the specification, `pict myPic cover.png`,
`snd mySound theme.ogg`, `exec story.z8`, gives the numbers 3, 3 and 0. -/
theorem C7_resource_numbers_witness :
    ((usedBy (cstr "Pict") exampleIndexed.BlorbChunks).map (fun chunk => chunk.Res)
        = List.range' 3 (usedBy (cstr "Pict") exampleIndexed.BlorbChunks).length
      ∧ (usedBy (cstr "Snd") exampleIndexed.BlorbChunks).map (fun chunk => chunk.Res)
        = List.range' 3 (usedBy (cstr "Snd") exampleIndexed.BlorbChunks).length
      ∧ (usedBy (cstr "Exec") exampleIndexed.BlorbChunks).map (fun chunk => chunk.Res)
        = List.range' 0 (usedBy (cstr "Exec") exampleIndexed.BlorbChunks).length)
    ∧ (usedBy (cstr "Pict") exampleIndexed.BlorbChunks).map (fun chunk => chunk.Res) = [3]
    ∧ (usedBy (cstr "Snd") exampleIndexed.BlorbChunks).map (fun chunk => chunk.Res) = [3]
    ∧ (usedBy (cstr "Exec") exampleIndexed.BlorbChunks).map (fun chunk => chunk.Res) = [0] :=
  ⟨C7_resource_numbers exampleFs false false false false false [] exampleControl
    exampleIndexed (by rfl) (Or.inl rfl), by decide, by decide, by decide⟩

theorem pairwise_of_numberedFrom (tag : List Nat) (base counter : Nat) (chunks : List Chunk)
    (h : NumberedFrom tag base counter chunks) :
    chunks.Pairwise (fun a b => a.Use = tag → b.Use = tag → a.Res ≠ b.Res) := by
  have hn : ((usedBy tag chunks).map (fun chunk => chunk.Res)).Nodup := by
    rw [h.1]; exact List.nodup_range' _ _
  unfold List.Nodup at hn
  rw [List.pairwise_map] at hn
  unfold usedBy at hn
  rw [List.pairwise_filter] at hn
  exact hn.imp (fun hab ha hb => hab (by simpa using ha) (by simpa using hb))

/-! ## Reading a control file made of well-formed entries -/

theorem fieldDelimiters_eq : FieldDelimiters = [32, 9] := by decide

theorem lineDelimiters_eq : LineDelimiters = [10, 13] := by decide

theorem not_blank (c : Nat) (h : isBlank c = false) :
    c ≠ 0 ∧ c ≠ 9 ∧ c ≠ 10 ∧ c ≠ 13 ∧ c ≠ 32 := by
  simp only [isBlank, Bool.or_eq_false_iff, beq_eq_false_iff_ne, ne_eq] at h
  tauto

theorem strchr_of_not_blank (c : Nat) (h : isBlank c = false) :
    strchr FieldDelimiters (some c) = false ∧ strchr LineDelimiters (some c) = false := by
  obtain ⟨h0, h9, h10, h13, h32⟩ := not_blank c h
  simp [strchr, fieldDelimiters_eq, lineDelimiters_eq, h0, h9, h10, h13, h32]

theorem skipDelimiters_cons (c : Nat) (r : List Nat) (e : Bool) (h : isBlank c = false) :
    skipDelimiters { rest := c :: r, eof := e } = { rest := c :: r, eof := false } := by
  obtain ⟨h1, h2⟩ := strchr_of_not_blank c h
  simp [skipDelimiters, skipDelimitersFrom, h1, h2, ungetc]

theorem skipDelimiters_nil (e : Bool) :
    skipDelimiters { rest := [], eof := e } = { rest := [], eof := true } := rfl

theorem skipEndOfLine_cons (c : Nat) (r : List Nat) (e : Bool) (h : isBlank c = false) :
    skipEndOfLine e (c :: r) = { rest := c :: r, eof := false } := by
  obtain ⟨-, -, h10, h13, -⟩ := not_blank c h
  simp [skipEndOfLine, h10, h13, ungetc]

theorem skipEndOfLine_nil (e : Bool) : skipEndOfLine e [] = { rest := [], eof := true } := rfl

theorem freadLineChars_field (t r : List Nat) (d : Nat) (ht : ∀ c ∈ t, isBlank c = false)
    (hd : d = 32 ∨ d = 10) :
    freadLineChars FieldDelimiters (t ++ d :: r) = (t, r, false) := by
  induction t with
  | nil =>
    rcases hd with rfl | rfl <;> simp [freadLineChars, strchr, fieldDelimiters_eq]
  | cons c t ih =>
    obtain ⟨h1, -⟩ := strchr_of_not_blank c (ht c (List.mem_cons_self _ _))
    obtain ⟨-, -, h10, h13, -⟩ := not_blank c (ht c (List.mem_cons_self _ _))
    have ih2 := ih (fun x hx => ht x (List.mem_cons_of_mem _ hx))
    simp only [List.cons_append, freadLineChars, h1, Bool.not_false, Bool.true_and,
      List.append_eq, ih2]
    simp [h10, h13]

theorem freadLineChars_line (t r : List Nat) (ht : ∀ c ∈ t, isBlank c = false) :
    freadLineChars LineDelimiters (t ++ 10 :: r) = (t, r, false) := by
  induction t with
  | nil => simp [freadLineChars, strchr, lineDelimiters_eq]
  | cons c t ih =>
    obtain ⟨-, h1⟩ := strchr_of_not_blank c (ht c (List.mem_cons_self _ _))
    obtain ⟨-, -, h10, h13, -⟩ := not_blank c (ht c (List.mem_cons_self _ _))
    have ih2 := ih (fun x hx => ht x (List.mem_cons_of_mem _ hx))
    simp only [List.cons_append, freadLineChars, h1, Bool.not_false, Bool.true_and,
      List.append_eq, ih2]
    simp [h10, h13]

theorem strTrim_of_not_blank (s : List Nat) (hs : ∀ c ∈ s, isBlank c = false) :
    strTrim s FieldDelimiters = s := by
  have h1 : s.takeWhile (fun c => strchr FieldDelimiters (some c)) = [] := by
    cases s with
    | nil => rfl
    | cons c s =>
      simp [List.takeWhile, (strchr_of_not_blank c (hs c (List.mem_cons_self _ _))).1]
  have h2 : s.reverse.takeWhile (fun c => strchr FieldDelimiters (some c)) = [] := by
    cases hr : s.reverse with
    | nil => rfl
    | cons c r =>
      have hc : c ∈ s := by
        have : c ∈ s.reverse := by rw [hr]; exact List.mem_cons_self _ _
        exact List.mem_reverse.mp this
      simp [List.takeWhile, (strchr_of_not_blank c (hs c hc)).1]
  simp [strTrim, h1, h2]

/-- The control file made of well-formed entries is empty or starts with a
character that is not blank. -/
theorem renderAll_cases (es : List Entry) (hwf : ∀ x ∈ es, x.WellFormed) :
    (es = [] ∧ renderAll es = []) ∨
      ∃ c r, renderAll es = c :: r ∧ isBlank c = false ∧ es ≠ [] := by
  cases es with
  | nil => exact Or.inl ⟨rfl, rfl⟩
  | cons e es =>
    right
    obtain ⟨hu, hub, -⟩ := hwf e (List.mem_cons_self _ _)
    cases hus : e.use with
    | nil => exact absurd hus hu
    | cons c u =>
      refine ⟨c, (renderAll (e :: es)).tail, ?_, ?_, by simp⟩
      · simp [renderAll, Entry.render, hus]
      · exact hub c (by rw [hus]; exact List.mem_cons_self _ _)

theorem skipEndOfLine_renderAll (es : List Entry) (hwf : ∀ x ∈ es, x.WellFormed) (e : Bool) :
    skipEndOfLine e (renderAll es) = { rest := renderAll es, eof := es.isEmpty } := by
  rcases renderAll_cases es hwf with ⟨h1, h2⟩ | ⟨c, r, h1, h2, h3⟩
  · rw [h2, h1]; rfl
  · rw [h1, skipEndOfLine_cons c r e h2]
    cases es with
    | nil => exact absurd rfl h3
    | cons _ _ => rfl

section

attribute [local irreducible] skipComments freadLine skipDelimiters readChunkRest readChunkUse
  readChunkFile fgetc ungetc

/-- The steps of `readChunk`, with the results of the reads named by
projections. -/
theorem readChunk_eq (fs : List Nat → Option (List Nat)) (status : Status) :
    readChunk fs status =
      match skipComments ((fgetc (skipDelimiters status.in_)).2.rest.length + 2)
          (fgetc (skipDelimiters status.in_)).1 (fgetc (skipDelimiters status.in_)).2 with
      | .error e => .error e
      | .ok (none, f) => .ok (none, { status with in_ := f })
      | .ok (some c, f) =>
        match readChunkUse (freadLine (ungetc (some c) f) FieldDelimiters).1 Chunk.zero status with
        | .error e => .error e
        | .ok (toret, st, use) =>
          if feof (skipDelimiters (freadLine (ungetc (some c) f) FieldDelimiters).2) then
            .error .unexpectedEndOfFile
          else
            match readChunkFile fs (readChunkRest
                (skipDelimiters (freadLine (ungetc (some c) f) FieldDelimiters).2)).1
                toret use st with
            | .error e => .error e
            | .ok (chunk, st) =>
              .ok (chunk, { st with in_ := (readChunkRest
                (skipDelimiters (freadLine (ungetc (some c) f) FieldDelimiters).2)).2 }) := by
  rfl

end

theorem freadLine_field (t r : List Nat) (d : Nat) (b : Bool)
    (ht : ∀ c ∈ t, isBlank c = false) (hd : d = 32 ∨ d = 10) :
    freadLine { rest := t ++ d :: r, eof := b } FieldDelimiters = (t, skipEndOfLine b r) := by
  simp [freadLine, freadLineChars_field t r d ht hd]

theorem freadLine_line (t r : List Nat) (b : Bool) (ht : ∀ c ∈ t, isBlank c = false) :
    freadLine { rest := t ++ 10 :: r, eof := b } LineDelimiters = (t, skipEndOfLine b r) := by
  simp [freadLine, freadLineChars_line t r ht]

theorem isId_ne_nil (i : List Nat) (h : isId i = true) : i ≠ [] := by
  intro hi
  rw [hi] at h
  exact absurd h (by decide)

/-- The rest of the line of an entry after its usage token starts with a
character that is not blank. -/
theorem entry_rest_cases (e : Entry) (hwf : e.WellFormed) (r : List Nat) :
    ∃ c t, (match e.id with
      | some i => i ++ [32]
      | none => []) ++ (e.file ++ [10]) ++ r = c :: t ∧ isBlank c = false := by
  obtain ⟨-, -, -, hf, hfb, hid⟩ := hwf
  cases hi : e.id with
  | none =>
    cases hfl : e.file with
    | nil => exact absurd hfl hf
    | cons c t =>
      exact ⟨c, t ++ 10 :: r, by simp, hfb c (by rw [hfl]; exact List.mem_cons_self _ _)⟩
  | some i =>
    rw [hi] at hid
    cases hil : i with
    | nil => exact absurd hil (isId_ne_nil i hid.1)
    | cons c t =>
      exact ⟨c, t ++ 32 :: (e.file ++ 10 :: r), by simp,
        hid.2 c (by rw [hil]; exact List.mem_cons_self _ _)⟩

/-- The second part of the line of a well-formed entry is read as its file
path, and the stream is left at the next entry. -/
theorem readChunkRest_render (e : Entry) (es : List Entry) (hwf : e.WellFormed)
    (hes : ∀ x ∈ es, x.WellFormed) :
    readChunkRest { rest := (match e.id with
      | some i => i ++ [32]
      | none => []) ++ (e.file ++ [10]) ++ renderAll es, eof := false }
      = (e.file, { rest := renderAll es, eof := es.isEmpty }) := by
  obtain ⟨-, -, -, hf, hfb, hid⟩ := hwf
  cases hi : e.id with
  | none =>
    rw [hi] at hid
    simp only at hid
    have h1 : ([] : List Nat) ++ (e.file ++ [10]) ++ renderAll es
        = e.file ++ 10 :: renderAll es := by simp
    simp only [h1]
    unfold readChunkRest
    rw [freadLine_field e.file _ 10 false hfb (Or.inr rfl)]
    simp only [hid, skipEndOfLine_renderAll es hes]
    rfl
  | some i =>
    rw [hi] at hid
    simp only at hid
    obtain ⟨hid1, hid2⟩ := hid
    have h1 : i ++ [32] ++ (e.file ++ [10]) ++ renderAll es
        = i ++ 32 :: (e.file ++ 10 :: renderAll es) := by simp
    simp only [h1]
    unfold readChunkRest
    rw [freadLine_field i _ 32 false hid2 (Or.inl rfl)]
    cases hfl : e.file with
    | nil => exact absurd hfl hf
    | cons c t =>
      have hc : isBlank c = false := hfb c (by rw [hfl]; exact List.mem_cons_self _ _)
      have h2 : (c :: t) ++ 10 :: renderAll es = c :: (t ++ 10 :: renderAll es) := rfl
      rw [h2, skipEndOfLine_cons c _ false hc]
      simp only [hid1, if_true]
      rw [skipDelimiters_cons c _ false hc, ← h2, ← hfl,
        freadLine_line e.file _ false hfb, strTrim_of_not_blank e.file hfb,
        skipEndOfLine_renderAll es hes]

theorem skipComments_pass (fuel : Nat) (c : Nat) (f : InFile)
    (h : strchr CommentCharacters (some c) = false) :
    skipComments (fuel + 1) (some c) f = .ok (some c, f) := by
  simp [skipComments, h]

section

attribute [local irreducible] skipComments freadLine skipDelimiters readChunkRest readChunkUse
  readChunkFile skipEndOfLine

/-- On a control file that starts with the line of a well-formed entry,
`readChunk` reads the tokens of the entry, does the two parts of `entryStep`,
and leaves the control file at the next entry. -/
theorem readChunk_render (fs : List Nat → Option (List Nat)) (st : Status) (e : Entry)
    (es : List Entry) (hwf : e.WellFormed) (hes : ∀ x ∈ es, x.WellFormed)
    (hin : st.in_ = { rest := renderAll (e :: es), eof := false }) :
    readChunk fs st =
      match entryStep fs st e with
      | .error err => .error err
      | .ok (chunk, st1) =>
        .ok (chunk, withIn { rest := renderAll es, eof := es.isEmpty } st1) := by
  obtain ⟨c1, t1, hr1, hb1⟩ := entry_rest_cases e hwf (renderAll es)
  have hrest := readChunkRest_render e es hwf hes
  obtain ⟨hu, hub, hcom, -⟩ := hwf
  cases hus : e.use with
  | nil => exact absurd hus hu
  | cons u0 U =>
    have hu0 : isBlank u0 = false := hub u0 (by rw [hus]; exact List.mem_cons_self _ _)
    have hc0 : strchr CommentCharacters (some u0) = false := by
      rw [hus] at hcom; exact hcom
    have h0 : renderAll (e :: es) = u0 :: (U ++ 32 :: (c1 :: t1)) := by
      rw [← hr1]
      simp [renderAll, Entry.render, hus]
    have hs1 : skipDelimiters st.in_ = { rest := u0 :: (U ++ 32 :: (c1 :: t1)), eof := false } := by
      rw [hin, h0]; exact skipDelimiters_cons u0 _ false hu0
    have hs5 : freadLine (ungetc (some u0) { rest := U ++ 32 :: (c1 :: t1), eof := false })
        FieldDelimiters = (u0 :: U, { rest := c1 :: t1, eof := false }) := by
      have := freadLine_field (u0 :: U) (c1 :: t1) 32 false (by rw [← hus]; exact hub)
        (Or.inl rfl)
      rw [skipEndOfLine_cons c1 t1 false hb1] at this
      exact this
    rw [readChunk_eq, hs1]
    simp only [fgetc]
    rw [skipComments_pass _ u0 _ hc0]
    simp only [hs5, skipDelimiters_cons c1 t1 false hb1, feof, Bool.false_eq_true, if_false]
    rw [← hr1, hrest]
    simp only [entryStep, hus]
    cases readChunkUse (u0 :: U) Chunk.zero st with
    | error err => rfl
    | ok r =>
      obtain ⟨toret, st2, use⟩ := r
      simp only
      cases readChunkFile fs e.file toret use st2 with
      | error err => rfl
      | ok r2 => rfl

end

/-! ## The control file does not matter to the parts of `entryStep` -/

theorem readChunkUse_withIn (buffer : List Nat) (toret : Chunk) (st : Status) (f : InFile) :
    readChunkUse buffer toret (withIn f st) =
      match readChunkUse buffer toret st with
      | .error err => .error err
      | .ok (c, s, u) => .ok (c, withIn f s, u) := by
  rw [readChunkUse_eq, readChunkUse_eq]
  cases cnvtToUsages buffer
  case IFmd =>
    simp only [withIn]
    by_cases hb : st.thereIsBib = true
    · rw [if_pos hb, if_pos hb]
    · rw [if_neg hb, if_neg hb]
  case Fspc =>
    simp only [withIn]
    by_cases hb : st.thereIsCover = true
    · rw [if_pos hb, if_pos hb]
    · rw [if_neg hb, if_neg hb]; rfl
  all_goals rfl

theorem inferType_withIn (chunk : Chunk) (fileName : List Nat) (st : Status) (f : InFile) :
    inferType chunk fileName (withIn f st) =
      match inferType chunk fileName st with
      | .error err => .error err
      | .ok (c, s) => .ok (c, withIn f s) := by
  unfold inferType
  simp only
  generalize strtolower (getFileNameExt fileName) = ext
  by_cases h0 : ext = cstr "jpg"
  · rw [if_pos h0, if_pos h0]
    try rfl
  rw [if_neg h0, if_neg h0]
  by_cases h1 : ext = cstr "png"
  · rw [if_pos h1, if_pos h1]
    try rfl
  rw [if_neg h1, if_neg h1]
  by_cases h2 : ext = cstr "ogg"
  · rw [if_pos h2, if_pos h2]
    try rfl
  rw [if_neg h2, if_neg h2]
  by_cases h3 : ext = cstr "mod"
  · rw [if_pos h3, if_pos h3]
    try rfl
  rw [if_neg h3, if_neg h3]
  by_cases h4 : ext = cstr "aif"
  · rw [if_pos h4, if_pos h4]
    try rfl
  rw [if_neg h4, if_neg h4]
  by_cases h5 : ext = cstr "z5"
  · rw [if_pos h5, if_pos h5]
    try rfl
  rw [if_neg h5, if_neg h5]
  by_cases h6 : ext = cstr "z8"
  · rw [if_pos h6, if_pos h6]
    try rfl
  rw [if_neg h6, if_neg h6]
  by_cases h7 : ext = cstr "ulx"
  · rw [if_pos h7, if_pos h7]
    try rfl
  rw [if_neg h7, if_neg h7]
  by_cases h8 : ext = cstr "ifiction"
  · rw [if_pos h8, if_pos h8]
    try rfl
  rw [if_neg h8, if_neg h8]
  try rfl

theorem readChunkFile_withIn (fs : List Nat → Option (List Nat)) (buffer : List Nat)
    (toret : Chunk) (use : Usages) (st : Status) (f : InFile) :
    readChunkFile fs buffer toret use (withIn f st) =
      match readChunkFile fs buffer toret use st with
      | .error err => .error err
      | .ok (c, s) => .ok (c, withIn f s) := by
  unfold readChunkFile
  have hp : prepareFileName buffer (withIn f st) = prepareFileName buffer st := rfl
  simp only [bind, Except.bind, hp, inferType_withIn]
  cases inferType toret (prepareFileName buffer st) st with
  | error err => rfl
  | ok r =>
    obtain ⟨c, s⟩ := r
    simp only
    cases s
    simp only [withIn, Status.numberOfChunks]
    cases fs (prepareFileName buffer st) with
    | none =>
      simp only
      split_ifs <;> rfl
    | some contents =>
      simp only
      split_ifs <;> rfl

theorem entryStep_withIn (fs : List Nat → Option (List Nat)) (st : Status) (e : Entry)
    (f : InFile) :
    entryStep fs (withIn f st) e =
      match entryStep fs st e with
      | .error err => .error err
      | .ok (c, s) => .ok (c, withIn f s) := by
  unfold entryStep
  rw [readChunkUse_withIn]
  cases readChunkUse e.use Chunk.zero st with
  | error err => rfl
  | ok r =>
    obtain ⟨c, s, u⟩ := r
    simp only
    rw [readChunkFile_withIn]

/-! ## The first loop of `buildIndex` over the entries -/

theorem loadEntries_withIn (fs : List Nat → Option (List Nat)) (es : List Entry)
    (hne : es ≠ []) (st : Status) (n : Nat) (f : InFile) :
    loadEntries fs es (withIn f st, n) = loadEntries fs es (st, n) := by
  cases es with
  | nil => exact absurd rfl hne
  | cons e es =>
    simp only [loadEntries]
    rw [entryStep_withIn]
    cases entryStep fs st e with
    | error err => rfl
    | ok r =>
      obtain ⟨c, s⟩ := r
      cases c with
      | none => rfl
      | some chunk => rfl

theorem skipDelimiters_renderAll (es : List Entry) (hwf : ∀ x ∈ es, x.WellFormed) (b : Bool) :
    skipDelimiters { rest := renderAll es, eof := b }
      = { rest := renderAll es, eof := es.isEmpty } := by
  rcases renderAll_cases es hwf with ⟨h1, h2⟩ | ⟨c, r, h1, h2, h3⟩
  · rw [h2, h1]; rfl
  · rw [h1, skipDelimiters_cons c r b h2]
    cases es with
    | nil => exact absurd rfl h3
    | cons _ _ => rfl

section

attribute [local irreducible] readChunk entryStep skipDelimiters

/-- On the control file made of well-formed entries, the first loop of
`buildIndex` does `loadEntries`. -/
theorem loadChunks_renderAll (fs : List Nat → Option (List Nat)) :
    ∀ (es : List Entry) (fuel : Nat) (st : Status) (n : Nat), es ≠ [] →
      (∀ x ∈ es, x.WellFormed) → es.length ≤ fuel →
      st.in_ = { rest := renderAll es, eof := false } →
      loadChunks fs fuel (st, n) = loadEntries fs es (st, n) := by
  intro es
  induction es with
  | nil => intro fuel st n hne; exact absurd rfl hne
  | cons e es ih =>
    intro fuel st n _ hwf hfuel hin
    have hwe : e.WellFormed := hwf e (List.mem_cons_self _ _)
    have hwes : ∀ x ∈ es, x.WellFormed := fun x hx => hwf x (List.mem_cons_of_mem _ hx)
    cases fuel with
    | zero => simp at hfuel
    | succ fuel =>
      have hfuel2 : es.length ≤ fuel := by simpa using hfuel
      rw [loadChunks]
      simp only [bind, Except.bind]
      rw [readChunk_render fs st e es hwe hwes hin]
      simp only [loadEntries]
      cases entryStep fs st e with
      | error err => rfl
      | ok r =>
        obtain ⟨c, st1⟩ := r
        cases c with
        | none =>
          simp only
          cases es with
          | nil => rfl
          | cons e2 es2 =>
            have hf :
                feof (withIn { rest := renderAll (e2 :: es2), eof := (e2 :: es2).isEmpty }
                  st1).in_ = false := rfl
            simp only [hf, Bool.not_false, if_true]
            rw [ih fuel _ n (by simp) hwes hfuel2 rfl, loadEntries_withIn fs _ (by simp),
              loadEntries_withIn fs _ (by simp)]
        | some chunk =>
          simp only
          have hn : (withIn { rest := renderAll es, eof := es.isEmpty } st1).numberOfChunks
              = st1.numberOfChunks := rfl
          rw [hn]
          by_cases hov : st1.numberOfChunks ≥ MaxChunksBlorb
          · rw [if_pos hov, if_pos hov]
          · rw [if_neg hov, if_neg hov]
            have hs : storeChunk (withIn { rest := renderAll es, eof := es.isEmpty } st1) chunk
                = withIn { rest := renderAll es, eof := es.isEmpty }
                    (storeChunk (withIn { rest := [], eof := true } st1) chunk) := by
              simp only [storeChunk, withIn, skipDelimiters_renderAll es hwes]
            cases es with
            | nil =>
              have hf : feof (storeChunk (withIn { rest := renderAll [], eof := true } st1)
                  chunk).in_ = true := by
                show feof (skipDelimiters { rest := [], eof := true }) = true
                rw [skipDelimiters_nil]; rfl
              simp only [List.isEmpty, hf]
              rfl
            | cons e2 es2 =>
              rw [hs]
              have hf :
                  feof (withIn { rest := renderAll (e2 :: es2), eof := (e2 :: es2).isEmpty }
                    (storeChunk (withIn { rest := [], eof := true } st1) chunk)).in_
                    = false := rfl
              simp only [hf, Bool.not_false, if_true]
              rw [ih fuel _ _ (by simp) hwes hfuel2 rfl, loadEntries_withIn fs _ (by simp)]

end

theorem length_le_renderAll (es : List Entry) : es.length ≤ (renderAll es).length := by
  induction es with
  | nil => exact Nat.le_refl _
  | cons e es ih =>
    simp only [renderAll, Entry.render, List.length_cons, List.length_append]
    omega

section

attribute [local irreducible] loadChunks skipDelimiters coverChunk indexChunk

/-- The steps of `buildIndex`. -/
theorem buildIndex_eq (fs : List Nat → Option (List Nat)) (status : Status) :
    buildIndex fs status =
      match (if !feof (skipDelimiters status.in_) then
          loadChunks fs ((skipDelimiters status.in_).rest.length + 1)
            (withIn (skipDelimiters status.in_) { status with BlorbChunks := [indexChunk0] }, 0)
        else
          .ok (withIn (skipDelimiters status.in_) { status with BlorbChunks := [indexChunk0] },
            0)) with
      | .error err => .error err
      | .ok (s, n) =>
        match coverChunk s with
        | .error err => .error err
        | .ok s => .ok (indexChunk s n) := by
  unfold buildIndex
  simp only [bind, Except.bind, pure, Except.pure, withIn]
  by_cases hf : (!feof (skipDelimiters status.in_)) = true
  · rw [if_pos hf, if_pos hf]
    generalize loadChunks fs _ _ = r
    cases r with
    | error err => rfl
    | ok r =>
      obtain ⟨s, n⟩ := r
      simp only
      generalize coverChunk s = c
      cases c <;> rfl
  · rw [if_neg hf, if_neg hf]
    simp only
    generalize coverChunk _ = c
    cases c <;> rfl

/-- On the control file made of well-formed entries, `buildIndex` does
`loadEntries`, then prepares the cover chunk and the index chunk. -/
theorem buildIndex_renderAll (fs : List Nat → Option (List Nat))
    (verbose noBli onlyBli isShortExtension isGlulx : Bool) (path : List Nat)
    (es : List Entry) (hwf : ∀ x ∈ es, x.WellFormed) :
    buildIndex fs (startStatus verbose noBli onlyBli isShortExtension isGlulx path
        (renderAll es)) =
      match loadEntries fs es
          (entriesStart verbose noBli onlyBli isShortExtension isGlulx path, 0) with
      | .error err => .error err
      | .ok (s, n) =>
        match coverChunk s with
        | .error err => .error err
        | .ok s => .ok (indexChunk s n) := by
  have hsk := skipDelimiters_renderAll es hwf false
  have hin : (startStatus verbose noBli onlyBli isShortExtension isGlulx path
      (renderAll es)).in_ = { rest := renderAll es, eof := false } := rfl
  rw [buildIndex_eq, hin, hsk]
  cases es with
  | nil => rfl
  | cons e es =>
    simp only [feof, List.isEmpty, Bool.not_false, if_true]
    rw [loadChunks_renderAll fs (e :: es) _ _ 0 (by simp) hwf
      (Nat.le_succ_of_le (length_le_renderAll _)) rfl]
    rw [← loadEntries_withIn fs (e :: es) (by simp)
      (entriesStart verbose noBli onlyBli isShortExtension isGlulx path) 0
      { rest := renderAll (e :: es), eof := false }]
    rfl

end

theorem loadEntries_append (fs : List Nat → Option (List Nat)) (es1 es2 : List Entry) :
    ∀ s : Status × Nat, loadEntries fs (es1 ++ es2) s =
      match loadEntries fs es1 s with
      | .error err => .error err
      | .ok s1 => loadEntries fs es2 s1 := by
  induction es1 with
  | nil => intro s; rfl
  | cons e es1 ih =>
    intro s
    obtain ⟨st, n⟩ := s
    simp only [List.cons_append, loadEntries]
    cases entryStep fs st e with
    | error err => rfl
    | ok r =>
      obtain ⟨c, st1⟩ := r
      cases c with
      | none => exact ih _
      | some chunk =>
        simp only
        by_cases hov : st1.numberOfChunks ≥ MaxChunksBlorb
        · rw [if_pos hov, if_pos hov]
        · rw [if_neg hov, if_neg hov]
          exact ih _

/-! ## The flags `thereIsBib` and `thereIsCover` -/

theorem inferType_err (chunk : Chunk) (fileName : List Nat) (st : Status) (err : Failure)
    (h : inferType chunk fileName st = .error err) :
    ∃ a b c, err = .unrecognizedExtension a b c := by
  unfold inferType at h
  simp only at h
  generalize strtolower (getFileNameExt fileName) = ext at h
  by_cases h0 : ext = cstr "jpg"
  · rw [if_pos h0] at h; cases h
  rw [if_neg h0] at h
  by_cases h1 : ext = cstr "png"
  · rw [if_pos h1] at h; cases h
  rw [if_neg h1] at h
  by_cases h2 : ext = cstr "ogg"
  · rw [if_pos h2] at h; cases h
  rw [if_neg h2] at h
  by_cases h3 : ext = cstr "mod"
  · rw [if_pos h3] at h; cases h
  rw [if_neg h3] at h
  by_cases h4 : ext = cstr "aif"
  · rw [if_pos h4] at h; cases h
  rw [if_neg h4] at h
  by_cases h5 : ext = cstr "z5"
  · rw [if_pos h5] at h; cases h
  rw [if_neg h5] at h
  by_cases h6 : ext = cstr "z8"
  · rw [if_pos h6] at h; cases h
  rw [if_neg h6] at h
  by_cases h7 : ext = cstr "ulx"
  · rw [if_pos h7] at h; cases h
  rw [if_neg h7] at h
  by_cases h8 : ext = cstr "ifiction"
  · rw [if_pos h8] at h; cases h
  rw [if_neg h8] at h
  injection h with h
  exact ⟨_, _, _, h.symm⟩

theorem readChunkFile_err (fs : List Nat → Option (List Nat)) (buffer : List Nat)
    (toret : Chunk) (use : Usages) (st : Status) (err : Failure)
    (h : readChunkFile fs buffer toret use st = .error err) :
    err ≠ .duplicatedBib ∧ err ≠ .duplicatedCover := by
  unfold readChunkFile at h
  simp only [bind, Except.bind] at h
  cases hi : inferType toret (prepareFileName buffer st) st with
  | error e =>
    rw [hi] at h
    injection h with h
    obtain ⟨a, b, c, he⟩ := inferType_err _ _ _ _ hi
    subst h he
    exact ⟨by simp, by simp⟩
  | ok r =>
    rw [hi] at h
    simp only at h
    cases hf : fs (prepareFileName buffer st) with
    | none =>
      rw [hf] at h
      simp only at h
      split_ifs at h
      all_goals first
        | (cases h; done)
        | (cases h; exact ⟨Failure.noConfusion, Failure.noConfusion⟩)
    | some contents =>
      rw [hf] at h
      cases h

theorem readChunkFile_flags (fs : List Nat → Option (List Nat)) (buffer : List Nat)
    (toret : Chunk) (use : Usages) (st st1 : Status) (chunk : Option Chunk)
    (h : readChunkFile fs buffer toret use st = .ok (chunk, st1)) :
    st1.thereIsBib = st.thereIsBib ∧ st1.thereIsCover = st.thereIsCover := by
  obtain ⟨T, g, cid, -, hs, -⟩ := readChunkFile_ok fs buffer toret use st st1 chunk h
  subst hs
  exact ⟨rfl, rfl⟩

/-- What the usage part of `entryStep` does with the two flags. -/
theorem entryStep_cases (fs : List Nat → Option (List Nat)) (st : Status) (e : Entry) :
    (e.isBib = false ∧ e.isCover = false
        ∧ ∃ l s, entryStep fs st e = .error (.illegalUse l s))
      ∨ (e.isBib = true ∧ st.thereIsBib = true ∧ entryStep fs st e = .error .duplicatedBib)
      ∨ (e.isCover = true ∧ st.thereIsCover = true
          ∧ entryStep fs st e = .error .duplicatedCover)
      ∨ ∃ toret st2 use, entryStep fs st e = readChunkFile fs e.file toret use st2
          ∧ st2.thereIsBib = (st.thereIsBib || e.isBib)
          ∧ st2.thereIsCover = (st.thereIsCover || e.isCover)
          ∧ (e.isBib = true → st.thereIsBib = false)
          ∧ (e.isCover = true → st.thereIsCover = false) := by
  unfold entryStep
  rw [readChunkUse_eq]
  cases hu : cnvtToUsages e.use
  case UsageError =>
    exact Or.inl ⟨by simp [Entry.isBib, hu], by simp [Entry.isCover, hu], _, _, rfl⟩
  case IFmd =>
    have hb : e.isBib = true := by simp [Entry.isBib, hu]
    have hc : e.isCover = false := by simp [Entry.isCover, hu]
    cases ht : st.thereIsBib
    · refine Or.inr (Or.inr (Or.inr ⟨_, _, _, rfl, ?_, ?_, ?_, ?_⟩))
      · simp [hb]
      · simp [hc]
      · intro _; rfl
      · simp [hc]
    · exact Or.inr (Or.inl ⟨hb, rfl, rfl⟩)
  case Fspc =>
    have hb : e.isBib = false := by simp [Entry.isBib, hu]
    have hc : e.isCover = true := by simp [Entry.isCover, hu]
    cases ht : st.thereIsCover
    · refine Or.inr (Or.inr (Or.inr ⟨_, _, _, rfl, ?_, ?_, ?_, ?_⟩))
      · simp [hb]
      · simp [hc]
      · simp [hb]
      · intro _; rfl
    · exact Or.inr (Or.inr (Or.inl ⟨hc, rfl, rfl⟩))
  all_goals
    have hb : e.isBib = false := by simp [Entry.isBib, hu]
    have hc : e.isCover = false := by simp [Entry.isCover, hu]
    refine Or.inr (Or.inr (Or.inr ⟨_, _, _, rfl, ?_, ?_, ?_, ?_⟩))
    · simp [hb]
    · simp [hc]
    · simp [hb]
    · simp [hc]

theorem entryStep_flags (fs : List Nat → Option (List Nat)) (st st1 : Status) (e : Entry)
    (chunk : Option Chunk) (h : entryStep fs st e = .ok (chunk, st1)) :
    st1.thereIsBib = (st.thereIsBib || e.isBib)
      ∧ st1.thereIsCover = (st.thereIsCover || e.isCover) := by
  rcases entryStep_cases fs st e with ⟨-, -, l, s, h1⟩ | ⟨-, -, h1⟩ | ⟨-, -, h1⟩
    | ⟨toret, st2, use, h1, h2, h3, -, -⟩
  · rw [h1] at h; cases h
  · rw [h1] at h; cases h
  · rw [h1] at h; cases h
  · rw [h1] at h
    obtain ⟨h4, h5⟩ := readChunkFile_flags _ _ _ _ _ _ _ h
    exact ⟨h4.trans h2, h5.trans h3⟩

theorem isBib_not_isCover (e : Entry) (h : e.isCover = true) : e.isBib = false := by
  simp only [Entry.isCover, beq_iff_eq] at h
  simp [Entry.isBib, h]

theorem entryStep_dupBib (fs : List Nat → Option (List Nat)) (st : Status) (e : Entry) :
    entryStep fs st e = .error .duplicatedBib ↔ (e.isBib = true ∧ st.thereIsBib = true) := by
  rcases entryStep_cases fs st e with ⟨hb, -, l, s, h1⟩ | ⟨h0, h2, h1⟩ | ⟨h0, h2, h1⟩
    | ⟨toret, st2, use, h1, -, -, h4, -⟩
  · rw [h1]; simp [hb]
  · rw [h1]; simp [h0, h2]
  · rw [h1]; simp [isBib_not_isCover e h0]
  · constructor
    · intro h
      rw [h1] at h
      exact absurd rfl (readChunkFile_err _ _ _ _ _ _ h).1
    · rintro ⟨hb, ht⟩
      rw [h4 hb] at ht
      cases ht

theorem entryStep_dupCover (fs : List Nat → Option (List Nat)) (st : Status) (e : Entry) :
    entryStep fs st e = .error .duplicatedCover
      ↔ (e.isCover = true ∧ st.thereIsCover = true) := by
  rcases entryStep_cases fs st e with ⟨-, hc, l, s, h1⟩ | ⟨h0, h2, h1⟩ | ⟨h0, h2, h1⟩
    | ⟨toret, st2, use, h1, -, -, -, h4⟩
  · rw [h1]; simp [hc]
  · rw [h1]
    have : e.isCover = false := by
      cases hc : e.isCover
      · rfl
      · rw [isBib_not_isCover e hc] at h0; cases h0
    simp [this]
  · rw [h1]; simp [h0, h2]
  · constructor
    · intro h
      rw [h1] at h
      exact absurd rfl (readChunkFile_err _ _ _ _ _ _ h).2
    · rintro ⟨hb, ht⟩
      rw [h4 hb] at ht
      cases ht

theorem loadEntries_flags (fs : List Nat → Option (List Nat)) :
    ∀ (es : List Entry) (st : Status) (n : Nat) (s : Status) (m : Nat),
      loadEntries fs es (st, n) = .ok (s, m) →
      s.thereIsBib = (st.thereIsBib || es.any Entry.isBib)
        ∧ s.thereIsCover = (st.thereIsCover || es.any Entry.isCover) := by
  intro es
  induction es with
  | nil =>
    intro st n s m h
    simp only [loadEntries, Except.ok.injEq, Prod.mk.injEq] at h
    obtain ⟨h1, -⟩ := h
    subst h1
    simp
  | cons e es ih =>
    intro st n s m h
    simp only [loadEntries] at h
    cases he : entryStep fs st e with
    | error err => rw [he] at h; cases h
    | ok r =>
      obtain ⟨c, st1⟩ := r
      obtain ⟨hb, hc⟩ := entryStep_flags fs st st1 e c he
      rw [he] at h
      cases c with
      | none =>
        obtain ⟨h1, h2⟩ := ih _ _ _ _ h
        have e1 : (withIn { rest := [], eof := true } st1).thereIsBib = st1.thereIsBib := rfl
        have e2 : (withIn { rest := [], eof := true } st1).thereIsCover = st1.thereIsCover := rfl
        rw [e1, hb] at h1
        rw [e2, hc] at h2
        simp only [List.any_cons, h1, h2, Bool.or_assoc, and_self]
      | some chunk =>
        simp only at h
        by_cases hov : st1.numberOfChunks ≥ MaxChunksBlorb
        · rw [if_pos hov] at h; cases h
        · rw [if_neg hov] at h
          obtain ⟨h1, h2⟩ := ih _ _ _ _ h
          have e1 : (storeChunk (withIn { rest := [], eof := true } st1) chunk).thereIsBib
              = st1.thereIsBib := rfl
          have e2 : (storeChunk (withIn { rest := [], eof := true } st1) chunk).thereIsCover
              = st1.thereIsCover := rfl
          rw [e1, hb] at h1
          rw [e2, hc] at h2
          simp only [List.any_cons, h1, h2, Bool.or_assoc, and_self]

/-- The first loop stops with the message "duplicated bibliographic info" only
at an entry of bibliographic info that follows another one, or that is met with
the flag already set. -/
theorem loadEntries_dupBib (fs : List Nat → Option (List Nat)) :
    ∀ (es : List Entry) (st : Status) (n : Nat),
      loadEntries fs es (st, n) = .error .duplicatedBib →
      (st.thereIsBib = true ∧ 1 ≤ es.countP Entry.isBib) ∨ 2 ≤ es.countP Entry.isBib := by
  intro es
  induction es with
  | nil => intro st n h; cases h
  | cons e es ih =>
    intro st n h
    simp only [loadEntries] at h
    have key : ∀ st2 : Status, st2.thereIsBib = (st.thereIsBib || e.isBib) →
        ((st2.thereIsBib = true ∧ 1 ≤ es.countP Entry.isBib) ∨ 2 ≤ es.countP Entry.isBib) →
        (st.thereIsBib = true ∧ 1 ≤ (e :: es).countP Entry.isBib)
          ∨ 2 ≤ (e :: es).countP Entry.isBib := by
      intro st2 h2 h3
      rw [List.countP_cons]
      rcases h3 with ⟨h4, h5⟩ | h4
      · rw [h2] at h4
        cases hs : st.thereIsBib
        · rw [hs] at h4
          simp only [Bool.false_or] at h4
          right; rw [if_pos h4]; omega
        · left; exact ⟨rfl, by omega⟩
      · right; omega
    cases he : entryStep fs st e with
    | error err =>
      rw [he] at h
      injection h with h
      subst h
      obtain ⟨h1, h2⟩ := (entryStep_dupBib fs st e).mp he
      left
      rw [List.countP_cons, if_pos h1]
      exact ⟨h2, by omega⟩
    | ok r =>
      obtain ⟨c, st1⟩ := r
      obtain ⟨hb, -⟩ := entryStep_flags fs st st1 e c he
      rw [he] at h
      cases c with
      | none => exact key (withIn { rest := [], eof := true } st1) hb (ih _ _ h)
      | some chunk =>
        simp only at h
        by_cases hov : st1.numberOfChunks ≥ MaxChunksBlorb
        · rw [if_pos hov] at h; cases h
        · rw [if_neg hov] at h
          exact key (storeChunk (withIn { rest := [], eof := true } st1) chunk) hb
            (ih _ _ h)

/-- The first loop stops with the message "duplicated cover" only at a cover
entry that follows another one, or that is met with the flag already set. -/
theorem loadEntries_dupCover (fs : List Nat → Option (List Nat)) :
    ∀ (es : List Entry) (st : Status) (n : Nat),
      loadEntries fs es (st, n) = .error .duplicatedCover →
      (st.thereIsCover = true ∧ 1 ≤ es.countP Entry.isCover)
        ∨ 2 ≤ es.countP Entry.isCover := by
  intro es
  induction es with
  | nil => intro st n h; cases h
  | cons e es ih =>
    intro st n h
    simp only [loadEntries] at h
    have key : ∀ st2 : Status, st2.thereIsCover = (st.thereIsCover || e.isCover) →
        ((st2.thereIsCover = true ∧ 1 ≤ es.countP Entry.isCover)
          ∨ 2 ≤ es.countP Entry.isCover) →
        (st.thereIsCover = true ∧ 1 ≤ (e :: es).countP Entry.isCover)
          ∨ 2 ≤ (e :: es).countP Entry.isCover := by
      intro st2 h2 h3
      rw [List.countP_cons]
      rcases h3 with ⟨h4, h5⟩ | h4
      · rw [h2] at h4
        cases hs : st.thereIsCover
        · rw [hs] at h4
          simp only [Bool.false_or] at h4
          right; rw [if_pos h4]; omega
        · left; exact ⟨rfl, by omega⟩
      · right; omega
    cases he : entryStep fs st e with
    | error err =>
      rw [he] at h
      injection h with h
      subst h
      obtain ⟨h1, h2⟩ := (entryStep_dupCover fs st e).mp he
      left
      rw [List.countP_cons, if_pos h1]
      exact ⟨h2, by omega⟩
    | ok r =>
      obtain ⟨c, st1⟩ := r
      obtain ⟨-, hb⟩ := entryStep_flags fs st st1 e c he
      rw [he] at h
      cases c with
      | none => exact key (withIn { rest := [], eof := true } st1) hb (ih _ _ h)
      | some chunk =>
        simp only at h
        by_cases hov : st1.numberOfChunks ≥ MaxChunksBlorb
        · rw [if_pos hov] at h; cases h
        · rw [if_neg hov] at h
          exact key (storeChunk (withIn { rest := [], eof := true } st1) chunk) hb
            (ih _ _ h)

theorem coverChunk_err (st : Status) (err : Failure) (h : coverChunk st = .error err) :
    err = .chunkArrayOverrun := by
  unfold coverChunk at h
  split_ifs at h
  · injection h with h; exact h.symm

/-- The build of a control list of well-formed entries that has an entry of
bibliographic info after another one, the entries before it being built without
an error, stops with "duplicated bibliographic info"; likewise for the cover. -/
theorem buildIndex_second (fs : List Nat → Option (List Nat))
    (verbose noBli onlyBli isShortExtension isGlulx : Bool) (path : List Nat)
    (es1 : List Entry) (e : Entry) (es2 : List Entry)
    (hwf : ∀ x ∈ es1 ++ e :: es2, x.WellFormed) (st1 : Status)
    (hpre : buildIndex fs (startStatus verbose noBli onlyBli isShortExtension isGlulx path
      (renderAll es1)) = .ok st1) :
    ((∃ x ∈ es1, x.isBib = true) → e.isBib = true →
        buildIndex fs (startStatus verbose noBli onlyBli isShortExtension isGlulx path
          (renderAll (es1 ++ e :: es2))) = .error .duplicatedBib)
      ∧ ((∃ x ∈ es1, x.isCover = true) → e.isCover = true →
        buildIndex fs (startStatus verbose noBli onlyBli isShortExtension isGlulx path
          (renderAll (es1 ++ e :: es2))) = .error .duplicatedCover) := by
  have hwf1 : ∀ x ∈ es1, x.WellFormed := fun x hx => hwf x (List.mem_append_left _ hx)
  rw [buildIndex_renderAll fs _ _ _ _ _ _ es1 hwf1] at hpre
  rw [buildIndex_renderAll fs _ _ _ _ _ _ _ hwf, loadEntries_append]
  cases hl : loadEntries fs es1
      (entriesStart verbose noBli onlyBli isShortExtension isGlulx path, 0) with
  | error err => rw [hl] at hpre; cases hpre
  | ok r =>
    obtain ⟨s, n⟩ := r
    obtain ⟨hb, hc⟩ := loadEntries_flags fs es1 _ _ _ _ hl
    have hb0 : (entriesStart verbose noBli onlyBli isShortExtension isGlulx path).thereIsBib
        = false := rfl
    have hc0 : (entriesStart verbose noBli onlyBli isShortExtension isGlulx path).thereIsCover
        = false := rfl
    rw [hb0, Bool.false_or] at hb
    rw [hc0, Bool.false_or] at hc
    simp only [loadEntries]
    constructor
    · rintro ⟨x, hx, hxb⟩ he
      have hs : s.thereIsBib = true := by
        rw [hb]; exact List.any_eq_true.mpr ⟨x, hx, hxb⟩
      rw [(entryStep_dupBib fs s e).mpr ⟨he, hs⟩]
    · rintro ⟨x, hx, hxb⟩ he
      have hs : s.thereIsCover = true := by
        rw [hc]; exact List.any_eq_true.mpr ⟨x, hx, hxb⟩
      rw [(entryStep_dupCover fs s e).mpr ⟨he, hs⟩]

/-- The build of a control list of well-formed entries stops with "duplicated
bibliographic info" only if two entries are bibliographic info, and with
"duplicated cover" only if two entries are covers. -/
theorem buildIndex_dup (fs : List Nat → Option (List Nat))
    (verbose noBli onlyBli isShortExtension isGlulx : Bool) (path : List Nat)
    (es : List Entry) (hwf : ∀ x ∈ es, x.WellFormed) :
    (buildIndex fs (startStatus verbose noBli onlyBli isShortExtension isGlulx path
        (renderAll es)) = .error .duplicatedBib → 2 ≤ es.countP Entry.isBib)
      ∧ (buildIndex fs (startStatus verbose noBli onlyBli isShortExtension isGlulx path
        (renderAll es)) = .error .duplicatedCover → 2 ≤ es.countP Entry.isCover) := by
  rw [buildIndex_renderAll fs _ _ _ _ _ _ es hwf]
  cases hl : loadEntries fs es
      (entriesStart verbose noBli onlyBli isShortExtension isGlulx path, 0) with
  | error err =>
    constructor
    · intro h
      injection h with h
      subst h
      rcases loadEntries_dupBib fs es _ _ hl with ⟨h1, -⟩ | h1
      · cases h1
      · exact h1
    · intro h
      injection h with h
      subst h
      rcases loadEntries_dupCover fs es _ _ hl with ⟨h1, -⟩ | h1
      · cases h1
      · exact h1
  | ok r =>
    obtain ⟨s, n⟩ := r
    simp only
    cases hc : coverChunk s with
    | error err =>
      have := coverChunk_err s err hc
      subst this
      exact ⟨fun h => (by cases h), fun h => (by cases h)⟩
    | ok s2 => exact ⟨fun h => (by cases h), fun h => (by cases h)⟩

set_option maxRecDepth 100000 in
/-- C9 as stated fails: the control file with two cover entries followed by two
entries of bibliographic info holds two entries whose usage resolves to
bibliographic info, and its build stops with "duplicated cover", not with
"duplicated bibliographic info". -/
theorem C9_counterexample :
    renderAll twiceBoth
        = cstr "cover cover.png\ncover cover.png\nmeta biblio.ifiction\nmeta biblio.ifiction\n"
      ∧ twiceBoth.countP Entry.isBib = 2
      ∧ buildIndex exampleFs (startStatus false false false false false []
          (renderAll twiceBoth)) = .error .duplicatedCover
      ∧ buildIndex exampleFs (startStatus false false false false false []
          (renderAll twiceBoth)) ≠ .error .duplicatedBib := by
  refine ⟨by decide, by decide, by rfl, ?_⟩
  intro h
  have h2 : buildIndex exampleFs (startStatus false false false false false []
      (renderAll twiceBoth)) = .error .duplicatedCover := by rfl
  rw [h2] at h
  cases h

/-- Of a control file made of the lines of well-formed entries, written with
single spaces and ended by line feeds: a second entry of bibliographic info
stops the build with "duplicated bibliographic info" when the build of the
entries before it succeeds, a second cover entry with "duplicated cover"; and
with at most one entry of bibliographic info the build never stops with the
first message, with at most one cover entry never with the second. -/
theorem duplicate_entries (fs : List Nat → Option (List Nat))
    (verbose noBli onlyBli isShortExtension isGlulx : Bool) (path : List Nat)
    (es : List Entry) (hwf : ∀ x ∈ es, x.WellFormed) :
    (∀ es1 e es2 st1, es = es1 ++ e :: es2 →
        buildIndex fs (startStatus verbose noBli onlyBli isShortExtension isGlulx path
          (renderAll es1)) = .ok st1 →
        (∃ x ∈ es1, x.isBib = true) → e.isBib = true →
        buildIndex fs (startStatus verbose noBli onlyBli isShortExtension isGlulx path
          (renderAll es)) = .error .duplicatedBib)
      ∧ (∀ es1 e es2 st1, es = es1 ++ e :: es2 →
        buildIndex fs (startStatus verbose noBli onlyBli isShortExtension isGlulx path
          (renderAll es1)) = .ok st1 →
        (∃ x ∈ es1, x.isCover = true) → e.isCover = true →
        buildIndex fs (startStatus verbose noBli onlyBli isShortExtension isGlulx path
          (renderAll es)) = .error .duplicatedCover)
      ∧ (es.countP Entry.isBib ≤ 1 →
        buildIndex fs (startStatus verbose noBli onlyBli isShortExtension isGlulx path
          (renderAll es)) ≠ .error .duplicatedBib)
      ∧ (es.countP Entry.isCover ≤ 1 →
        buildIndex fs (startStatus verbose noBli onlyBli isShortExtension isGlulx path
          (renderAll es)) ≠ .error .duplicatedCover) := by
  obtain ⟨h3, h4⟩ := buildIndex_dup fs verbose noBli onlyBli isShortExtension isGlulx path
    es hwf
  refine ⟨?_, ?_, fun hle h => ?_, fun hle h => ?_⟩
  · intro es1 e es2 st1 hes hpre hx he
    subst hes
    exact (buildIndex_second fs verbose noBli onlyBli isShortExtension isGlulx path
      es1 e es2 hwf st1 hpre).1 hx he
  · intro es1 e es2 st1 hes hpre hx he
    subst hes
    exact (buildIndex_second fs verbose noBli onlyBli isShortExtension isGlulx path
      es1 e es2 hwf st1 hpre).2 hx he
  · have := h3 h
    omega
  · have := h4 h
    omega

theorem twiceBib_wellFormed : ∀ x ∈ twiceBib, x.WellFormed := by
  intro x hx
  simp only [twiceBib, List.mem_cons, List.mem_singleton, List.not_mem_nil, or_false] at hx
  rcases hx with rfl | rfl <;>
    exact ⟨by decide, by decide, by decide, by decide, by decide, by decide⟩

set_option maxRecDepth 100000 in
/-- C10 fails on the code. The control file `meta cover.png`, whose file opens,
has one entry of bibliographic info. The usage part of `readChunk` gives its
chunk the type "IFmd", and `inferType` then overwrites it from the extension of
the file: the chunk is stored with usage "0" and type "PNG", after the index
chunk, and no record of the index is made for it. -/
theorem C10_metadata_type_overwritten :
    (match readChunkUse (cstr "meta") Chunk.zero
        (startStatus false false false false false [] bibInPicture) with
      | .ok (toret, _, _) => (toret.Type_, toret.Use)
      | .error _ => ([], [])) = (cstr "IFmd", cstr "0")
      ∧ (match buildIndex exampleFs
          (startStatus false false false false false [] bibInPicture) with
        | .ok status =>
          (status.BlorbChunks.map (fun chunk => (chunk.Type_, chunk.Use)),
            status.numberOfIndexEntries)
        | .error _ => ([], 0))
        = ([(cstr "RIdx", cstr "0"), (cstr "PNG", cstr "0")], 0) := by
  refine ⟨by rfl, by rfl⟩

/-! ## The registry: `chkType` -/

/-- The entry `getVectorPos` stops at is not the terminating empty string exactly
when the string searched stands in the vector before the terminator. -/
theorem getVectorPos_found (v : List (List Nat)) (s : List Nat) :
    v.getD (getVectorPos v s) [] ≠ [] ↔ s ∈ v.takeWhile (fun x => x ≠ []) := by
  induction v with
  | nil => simp [getVectorPos]
  | cons x v ih =>
    unfold getVectorPos
    by_cases hx : x = []
    · simp [hx]
    · rw [if_neg hx]
      by_cases hs : x = s
      · rw [if_pos hs]
        simp [hx, hs ▸ hx, hs]
      · rw [if_neg hs]
        have h1 : (x :: v).getD (getVectorPos v s + 1) [] = v.getD (getVectorPos v s) [] := rfl
        rw [h1, ih]
        simp [hx, List.takeWhile_cons, Ne.symm hs]

/-- C13. For every tag, `chkType` accepts it for usage Picture exactly when it is
"PNG" or "JPEG", for usage Sound exactly when it is "OGGV", "AIFF" or "MOD", for
usage Executable exactly when it is one of the twelve strings of
`ExecutableChunkTypes`; for every other usage it accepts every tag. -/
theorem C13_chkType (tag : List Nat) :
    (chkType .Pict tag = true ↔ tag ∈ [cstr "PNG", cstr "JPEG"])
      ∧ (chkType .Snd tag = true ↔ tag ∈ [cstr "OGGV", cstr "AIFF", cstr "MOD"])
      ∧ (chkType .Exec tag = true ↔ tag ∈ ExecutableChunkTypes.take 12)
      ∧ (ExecutableChunkTypes.take 12).length = 12
      ∧ [] ∉ ExecutableChunkTypes.take 12
      ∧ ∀ use : Usages, use ≠ .Pict → use ≠ .Snd → use ≠ .Exec → chkType use tag = true := by
  have hP : PictureChunkTypes.takeWhile (fun x => x ≠ []) = [cstr "PNG", cstr "JPEG"] := by
    decide
  have hS : SoundChunkTypes.takeWhile (fun x => x ≠ [])
      = [cstr "OGGV", cstr "AIFF", cstr "MOD"] := by decide
  have hE : ExecutableChunkTypes.takeWhile (fun x => x ≠ []) = ExecutableChunkTypes.take 12 := by
    decide
  refine ⟨?_, ?_, ?_, by decide, by decide, ?_⟩
  · simp only [chkType, decide_eq_true_eq]
    rw [getVectorPos_found, hP]
  · simp only [chkType, decide_eq_true_eq]
    rw [getVectorPos_found, hS]
  · simp only [chkType, decide_eq_true_eq]
    rw [getVectorPos_found, hE]
  · intro use h1 h2 h3
    cases use
    · exact absurd rfl h3
    · exact absurd rfl h1
    · exact absurd rfl h2
    all_goals simp only [chkType, decide_eq_true_eq]; decide

/-! ## The registry: `cnvtToUsages` -/

theorem startsWith_word (w : List Nat) : ∀ (s r : List Nat), 32 ∉ w → 32 ∉ s →
    startsWith (w ++ 32 :: r) (s ++ [32]) = decide (s = w) := by
  induction w with
  | nil =>
    intro s r _ hs
    cases s with
    | nil => simp [startsWith]
    | cons a s =>
      have ha : a ≠ 32 := fun h => hs (by simp [h])
      simp [startsWith, Ne.symm ha]
  | cons b w ih =>
    intro s r hw hs
    have hb : b ≠ 32 := fun h => hw (by simp [h])
    have hw2 : 32 ∉ w := fun h => hw (List.mem_cons_of_mem _ h)
    cases s with
    | nil => simp [startsWith, hb]
    | cons a s =>
      have hs2 : 32 ∉ s := fun h => hs (List.mem_cons_of_mem _ h)
      show (b == a && startsWith (w ++ 32 :: r) (s ++ [32])) = decide (a :: s = b :: w)
      rw [ih s r hw2 hs2]
      by_cases hab : b = a
      · subst hab; simp
      · simp [hab, Ne.symm hab]

theorem strstr_skip_word (w r m : List Nat) (hw : 32 ∉ w) :
    strstr (w ++ r) (32 :: m) = strstr r (32 :: m) := by
  induction w with
  | nil => rfl
  | cons b w ih =>
    have hb : b ≠ 32 := fun h => hw (by simp [h])
    have hw2 : 32 ∉ w := fun h => hw (List.mem_cons_of_mem _ h)
    show (b == 32 && startsWith (w ++ r) m || strstr (w ++ r) (32 :: m)) = strstr r (32 :: m)
    rw [ih hw2]
    simp [hb]

/-- In a string made of words, each after a space, and of a last space, the
string " s " occurs exactly when `s` is one of the words. -/
theorem strstr_words (ws : List (List Nat)) (s : List Nat) (hws : ∀ w ∈ ws, 32 ∉ w)
    (hs : 32 ∉ s) :
    strstr (ws.flatMap (fun w => 32 :: w) ++ [32]) (32 :: (s ++ [32])) = decide (s ∈ ws) := by
  induction ws with
  | nil =>
    cases s <;> simp [strstr, startsWith]
  | cons w ws ih =>
    have hw : 32 ∉ w := hws w (List.mem_cons_self _ _)
    have ih2 := ih (fun x hx => hws x (List.mem_cons_of_mem _ hx))
    obtain ⟨r, hr⟩ : ∃ r, ws.flatMap (fun w => 32 :: w) ++ [32] = 32 :: r := by
      cases ws with
      | nil => exact ⟨[], rfl⟩
      | cons x xs => exact ⟨_, rfl⟩
    have e1 : (w :: ws).flatMap (fun w => 32 :: w) ++ [32]
        = 32 :: (w ++ (ws.flatMap (fun w => 32 :: w) ++ [32])) := by
      simp [List.flatMap_cons]
    rw [e1]
    simp only [strstr, startsWith, BEq.refl, Bool.true_and]
    rw [strstr_skip_word w _ _ hw, ih2, hr, startsWith_word w s r hw hs]
    by_cases h1 : s = w
    · simp [h1]
    · simp [h1]

theorem toupper_ne_space (c : Nat) (h : c ≠ 32) : toupper c ≠ 32 := by
  unfold toupper
  split_ifs with h1 <;> omega

theorem strtoupper_no_space (s : List Nat) (h : 32 ∉ s) : 32 ∉ strtoupper s := by
  intro hm
  obtain ⟨c, hc, hc2⟩ := List.mem_map.mp hm
  exact toupper_ne_space c (fun h2 => h (h2 ▸ hc)) hc2

theorem strtoupper_wrap (s : List Nat) :
    strtoupper (32 :: s ++ [32]) = 32 :: (strtoupper s ++ [32]) := by
  simp [strtoupper, toupper]

theorem aliasWords_eq :
    aliasWords .Exec = [cstr "EXEC", cstr "EXE", cstr "CODE"]
      ∧ aliasWords .Pict = [cstr "PICT", cstr "PIC", cstr "PICTURE"]
      ∧ aliasWords .Snd = [cstr "SND", cstr "MSC", cstr "MUSIC", cstr "SOUND"]
      ∧ aliasWords .IFmd = [cstr "META", cstr "MTA", cstr "BIBLIO", cstr "BIBLIOGRAPHIC",
          cstr "BIB", cstr "IFMD"]
      ∧ aliasWords .Fspc = [cstr "POSTER", cstr "POST", cstr "COV", cstr "COVER",
          cstr "FRONT", cstr "FSPC"]
      ∧ aliasWords .UsageError = [] := by
  decide

/-- The test `cnvtToUsages` makes for a usage, on a wrapped string without
spaces: whether the string is one of the alias words of the usage. -/
theorem strstr_alias (u : Usages) (S : List Nat) (hne : S ≠ []) (hS : 32 ∉ S) :
    strstr (ChunkUsagesAlternateIds.getD u.toNat []) (32 :: (S ++ [32]))
      = decide (S ∈ aliasWords u) := by
  obtain ⟨a0, a1, a2, a3, a4, a5⟩ := aliasWords_eq
  have key : ∀ ws : List (List Nat), (∀ w ∈ ws, 32 ∉ w) →
      ChunkUsagesAlternateIds.getD u.toNat [] = ws.flatMap (fun w => 32 :: w) ++ [32] →
      aliasWords u = ws.filter (fun w => w ≠ []) →
      strstr (ChunkUsagesAlternateIds.getD u.toNat []) (32 :: (S ++ [32]))
        = decide (S ∈ aliasWords u) := by
    intro ws h1 h2 h3
    rw [h2, strstr_words ws S h1 hS, h3]
    congr 1
    simp [List.mem_filter, hne]
  cases u
  · exact key [cstr "EXEC", cstr "EXE", cstr "CODE", []] (by decide) (by decide) (by decide)
  · exact key [cstr "PICT", cstr "PIC", cstr "PICTURE"] (by decide) (by decide) (by decide)
  · exact key [cstr "SND", cstr "MSC", cstr "MUSIC", cstr "SOUND"] (by decide) (by decide)
      (by decide)
  · exact key [cstr "META", cstr "MTA", cstr "BIBLIO", cstr "BIBLIOGRAPHIC", cstr "BIB",
      cstr "IFMD"] (by decide) (by decide) (by decide)
  · exact key [cstr "POSTER", cstr "POST", cstr "COV", cstr "COVER", cstr "FRONT",
      cstr "FSPC"] (by decide) (by decide) (by decide)
  · rw [a5]
    cases S with
    | nil => exact absurd rfl hne
    | cons c S => simp [ChunkUsagesAlternateIds, Usages.toNat, strstr, cstr]

/-- No word is an alias of two usages. -/
theorem aliasWords_disjoint (S : List Nat) (u v : Usages) (hu : S ∈ aliasWords u)
    (hv : S ∈ aliasWords v) : u = v := by
  obtain ⟨a0, a1, a2, a3, a4, a5⟩ := aliasWords_eq
  cases u <;> cases v <;> first
    | rfl
    | (exfalso
       simp only [a0, a1, a2, a3, a4, a5, List.mem_cons, List.mem_singleton,
         List.not_mem_nil, or_false] at hu hv <;>
       (rcases hu with rfl | rfl | rfl | rfl | rfl | rfl <;> revert hv <;> decide))

/-- The value of `cnvtToUsages` on a token without spaces: the first usage one
of whose alias words is the upper-cased token. -/
theorem cnvtToUsages_eq (token : List Nat) (hne : token ≠ []) (hsp : 32 ∉ token) :
    cnvtToUsages token =
      ([Usages.Exec, Usages.Pict, Usages.Snd, Usages.IFmd, Usages.Fspc].find?
        (fun u => decide (strtoupper token ∈ aliasWords u))).getD Usages.UsageError := by
  have hS : 32 ∉ strtoupper token := strtoupper_no_space token hsp
  have hSne : strtoupper token ≠ [] := by
    intro h
    exact hne (List.map_eq_nil_iff.mp h)
  unfold cnvtToUsages
  rw [if_pos hne]
  simp only [strtoupper_wrap, fun u => strstr_alias u (strtoupper token) hSne hS]

theorem cnvtToUsages_of_alias (token : List Nat) (hne : token ≠ []) (hsp : 32 ∉ token)
    (u : Usages) (hu : strtoupper token ∈ aliasWords u) : cnvtToUsages token = u := by
  have hb : ∀ v : Usages, decide (strtoupper token ∈ aliasWords v) = decide (v = u) := by
    intro v
    by_cases hv : v = u
    · subst hv; simp [hu]
    · simp only [hv, decide_False, decide_eq_false_iff_not]
      exact fun h => hv (aliasWords_disjoint _ v u h hu)
  rw [cnvtToUsages_eq token hne hsp]
  simp only [hb]
  cases u <;> rfl

theorem cnvtToUsages_mem (token : List Nat) (hne : token ≠ []) (hsp : 32 ∉ token) :
    cnvtToUsages token = .UsageError ∨ strtoupper token ∈ aliasWords (cnvtToUsages token) := by
  by_cases h : ∃ u, strtoupper token ∈ aliasWords u
  · obtain ⟨u, hu⟩ := h
    right
    rw [cnvtToUsages_of_alias token hne hsp u hu]
    exact hu
  · left
    have hd : ∀ v : Usages, decide (strtoupper token ∈ aliasWords v) = false := by
      intro v
      simp only [decide_eq_false_iff_not]
      exact fun hv => h ⟨v, hv⟩
    rw [cnvtToUsages_eq token hne hsp]
    simp only [List.find?, hd, Option.getD]

/-- C12. For a token that is not empty and holds no space, `cnvtToUsages` gives a
usage exactly when the upper-cased token is one of the alias words listed for
that usage in `ChunkUsagesAlternateIds`, and `UsageError` when it is none of the
alias words of any usage; the result only depends on the upper-cased token. -/
theorem C12_cnvtToUsages (token : List Nat) (hne : token ≠ []) (hsp : 32 ∉ token) :
    (∀ u : Usages, u ≠ .UsageError →
        (cnvtToUsages token = u ↔ strtoupper token ∈ aliasWords u))
      ∧ (cnvtToUsages token = .UsageError ↔ ∀ u : Usages, strtoupper token ∉ aliasWords u)
      ∧ (∀ other : List Nat, strtoupper other = strtoupper token →
          cnvtToUsages other = cnvtToUsages token) := by
  refine ⟨?_, ?_, ?_⟩
  · intro u hu
    constructor
    · intro h
      rcases cnvtToUsages_mem token hne hsp with h1 | h1
      · exact absurd (h ▸ h1) hu
      · rw [h] at h1; exact h1
    · exact cnvtToUsages_of_alias token hne hsp u
  · constructor
    · intro h u hu
      have := cnvtToUsages_of_alias token hne hsp u hu
      rw [h] at this
      subst this
      rw [aliasWords_eq.2.2.2.2.2] at hu
      cases hu
    · intro h
      rcases cnvtToUsages_mem token hne hsp with h1 | h1
      · exact h1
      · exact absurd h1 (h _)
  · intro other ho
    have hone : other ≠ [] := by
      intro h
      rw [h] at ho
      exact hne (List.map_eq_nil_iff.mp ho.symm)
    unfold cnvtToUsages
    rw [if_pos hone, if_pos hne]
    simp only [strtoupper_wrap, ho]

/-- A witness of C12: "pict", "PIC" and "PICTURE" give Picture; "PI" and "ICT",
parts of alias words, give no usage. -/
theorem C12_cnvtToUsages_witness :
    aliasWords .Pict = [cstr "PICT", cstr "PIC", cstr "PICTURE"]
      ∧ cnvtToUsages (cstr "pict") = .Pict ∧ cnvtToUsages (cstr "PIC") = .Pict
      ∧ cnvtToUsages (cstr "PICTURE") = .Pict
      ∧ cnvtToUsages (cstr "PI") = .UsageError ∧ cnvtToUsages (cstr "ICT") = .UsageError :=
  ⟨by decide,
    ((C12_cnvtToUsages (cstr "pict") (by decide) (by decide)).1 .Pict (by decide)).mpr
      (by decide),
    ((C12_cnvtToUsages (cstr "PIC") (by decide) (by decide)).1 .Pict (by decide)).mpr
      (by decide),
    ((C12_cnvtToUsages (cstr "PICTURE") (by decide) (by decide)).1 .Pict (by decide)).mpr
      (by decide),
    (C12_cnvtToUsages (cstr "PI") (by decide) (by decide)).2.1.mpr
      (fun u => by cases u <;> decide),
    (C12_cnvtToUsages (cstr "ICT") (by decide) (by decide)).2.1.mpr
      (fun u => by cases u <;> decide)⟩

/-! ## Evaluations of the reader -/

set_option maxRecDepth 100000 in
/-- C14 fails on the code. The control file `pict theme.ogg`, `snd cover.png`
names a sound file for a picture and a picture file for a sound: `chkType`
rejects both types for these usages, but `readChunk` does not use its value, and
the build succeeds with a chunk of usage "Pict" and type "OGGV" and a chunk of
usage "Snd" and type "PNG". -/
theorem C14_type_check_unused :
    chkType .Pict (cstr "OGGV") = false ∧ chkType .Snd (cstr "PNG") = false
      ∧ (match buildIndex exampleFs
          (startStatus false false false false false [] typeMismatchControl) with
        | .ok status => status.BlorbChunks.map (fun chunk => (chunk.Use, chunk.Type_))
        | .error _ => [])
        = [(cstr "0", cstr "RIdx"), (cstr "Pict", cstr "OGGV"), (cstr "Snd", cstr "PNG")] := by
  refine ⟨by decide, by decide, by rfl⟩

/-- C15 fails on the code. `getFileNameExt` cuts the extension to two characters
more than the index of the last dot in the path, so the type `inferType` sets
depends on what comes before the dot: `biblio.ifiction` gives "IFmd" and
`a.ifiction` is refused with the extension "ifi"; `d/.png` gives "PNG" and
`.png` is refused with the extension "pn". -/
theorem C15_extension_cut :
    getFileNameExt (cstr "biblio.ifiction") = cstr "ifiction"
      ∧ getFileNameExt (cstr "a.ifiction") = cstr "ifi"
      ∧ getFileNameExt (cstr "d/.png") = cstr "png"
      ∧ getFileNameExt (cstr ".png") = cstr "pn"
      ∧ (inferType Chunk.zero (cstr "biblio.ifiction") (initStatus false)).toOption.map
          (fun r => r.1.Type_) = some (cstr "IFmd")
      ∧ inferType Chunk.zero (cstr "a.ifiction") (initStatus false)
          = .error (.unrecognizedExtension 0 (cstr "ifi") (cstr "a.ifiction"))
      ∧ (inferType Chunk.zero (cstr "d/.png") (initStatus false)).toOption.map
          (fun r => r.1.Type_) = some (cstr "PNG")
      ∧ inferType Chunk.zero (cstr ".png") (initStatus false)
          = .error (.unrecognizedExtension 0 (cstr "pn") (cstr ".png")) := by
  refine ⟨by decide, by decide, by decide, by decide, by rfl, by rfl, by rfl, by rfl⟩

set_option maxRecDepth 100000 in
/-- C16 fails on the code. The control file `pict a.pngx` names a file whose
extension, `pngx`, is not recognized; `getFileNameExt` cuts it to `png`, and the
build succeeds with a chunk of type "PNG". -/
theorem C16_cut_extension_accepted :
    getFileNameExt (cstr "a.pngx") = cstr "png"
      ∧ (match buildIndex cutExtFs
          (startStatus false false false false false [] cutExtControl) with
        | .ok status => status.BlorbChunks.map (fun chunk => (chunk.Use, chunk.Type_))
        | .error _ => [])
        = [(cstr "0", cstr "RIdx"), (cstr "Pict", cstr "PNG")] := by
  refine ⟨by decide, by rfl⟩

set_option maxRecDepth 100000 in
/-- C17 fails on the code. The number carried by an error is `lineNumber`, which
`buildIndex` increments once for each chunk stored: the error for the entry
`pict a.xyz` carries 0 when the entry is the first line and when it is the
fourth line, after two comment lines and a blank line, and carries 1 when it is
the third line, after one entry and a comment line. -/
theorem C17_line_number_counts_chunks :
    buildIndex exampleFs (startStatus false false false false false [] badExtControl)
        = .error (.unrecognizedExtension 0 (cstr "xyz") (cstr "a.xyz"))
      ∧ buildIndex exampleFs
          (startStatus false false false false false [] commentedBadExtControl)
        = .error (.unrecognizedExtension 0 (cstr "xyz") (cstr "a.xyz"))
      ∧ buildIndex exampleFs
          (startStatus false false false false false [] secondBadExtControl)
        = .error (.unrecognizedExtension 1 (cstr "xyz") (cstr "a.xyz")) := by
  refine ⟨by rfl, by rfl, by rfl⟩

/-! ## A control list that fills the array of chunks -/

theorem pictEntry_wellFormed : pictEntry.WellFormed :=
  ⟨by decide, by decide, by decide, by decide, by decide,
    (by decide : isId (cstr "cover.png") = false)⟩

/-- The entry `pictEntry` gives a chunk whatever the status, when the files are
looked for in the current directory. -/
theorem entryStep_pictEntry (st : Status) (hp : st.path = []) :
    ∃ chunk st1, entryStep exampleFs st pictEntry = .ok (some chunk, st1)
      ∧ st1.BlorbChunks = st.BlorbChunks ∧ st1.path = [] := by
  have hu : cnvtToUsages pictEntry.use = .Pict := by decide
  have hf : ∀ s : Status, s.path = [] → prepareFileName pictEntry.file s = cstr "cover.png" := by
    intro s hs
    have h1 : strTrim pictEntry.file FieldDelimiters = cstr "cover.png" := by decide
    have h2 : isRelativePath (cstr "cover.png") = true := by decide
    simp only [prepareFileName, h1, h2, if_true, makeCompletePath, hs, List.nil_append]
  have hi : ∀ (c : Chunk) (s : Status), inferType c (cstr "cover.png") s
      = .ok ({ c with Type_ := cstr "PNG" }, s) := by
    intro c s
    have h1 : strtolower (getFileNameExt (cstr "cover.png")) = cstr "png" := by decide
    have h2 : copyId (PictureChunkTypes.getD PNG []) = cstr "PNG" := by decide
    unfold inferType
    simp only [h1, h2]
    rfl
  have he : exampleFs (cstr "cover.png") = some [1, 2, 3] := by decide
  unfold entryStep
  rw [readChunkUse_eq, hu]
  simp only
  unfold readChunkFile
  simp only [bind, Except.bind, hf, hp, hi, he, pure, Except.pure]
  exact ⟨_, _, rfl, by split_ifs <;> rfl, by split_ifs <;> rfl⟩

theorem loadEntries_pictEntry : ∀ (k : Nat) (st : Status) (n : Nat), st.path = [] →
    st.numberOfChunks + k ≤ MaxChunksBlorb →
    ∃ s m, loadEntries exampleFs (List.replicate k pictEntry) (st, n) = .ok (s, m)
      ∧ s.path = [] ∧ s.numberOfChunks = st.numberOfChunks + k := by
  intro k
  induction k with
  | zero => intro st n hp _; exact ⟨st, n, rfl, hp, rfl⟩
  | succ k ih =>
    intro st n hp hk
    obtain ⟨chunk, st1, h1, h2, h3⟩ := entryStep_pictEntry st hp
    have hn : st1.numberOfChunks = st.numberOfChunks := by
      simp only [Status.numberOfChunks, h2]
    have hov : ¬ st1.numberOfChunks ≥ MaxChunksBlorb := by
      rw [hn]; omega
    simp only [List.replicate_succ, loadEntries, h1, if_neg hov]
    have hlen : (storeChunk (withIn { rest := [], eof := true } st1) chunk).numberOfChunks
        = st.numberOfChunks + 1 := by
      simp only [Status.numberOfChunks, storeChunk, withIn, List.length_append,
        List.length_singleton, h2]
    obtain ⟨s, m, h4, h5, h6⟩ := ih (storeChunk (withIn { rest := [], eof := true } st1) chunk)
      (if chunk.Use ≠ cstr "0" then n + 1 else n) h3 (by rw [hlen]; omega)
    exact ⟨s, m, h4, h5, by rw [h6, hlen]; omega⟩

/-- C18 fails on the code. The control file made of 1024 entries for the picture
`cover.png` makes `buildIndex` store a chunk in `BlorbChunks [1024]`, past the
end of the array: the source makes no check and raises no error there. -/
theorem C18_no_capacity_check :
    buildIndex exampleFs (startStatus false false false false false []
        (renderAll (List.replicate 1024 pictEntry))) = .error .chunkArrayOverrun := by
  have hwf : ∀ x ∈ List.replicate 1024 pictEntry, x.WellFormed := by
    intro x hx
    rw [(List.mem_replicate.mp hx).2]
    exact pictEntry_wellFormed
  rw [buildIndex_renderAll exampleFs _ _ _ _ _ _ _ hwf]
  have hsplit : List.replicate 1024 pictEntry = List.replicate 1023 pictEntry ++ [pictEntry] := by
    rw [← List.replicate_succ']
  rw [hsplit, loadEntries_append]
  obtain ⟨s, m, h1, h2, h3⟩ := loadEntries_pictEntry 1023
    (entriesStart false false false false false []) 0 rfl (by decide)
  rw [h1]
  obtain ⟨chunk, st1, h4, h5, -⟩ := entryStep_pictEntry s h2
  have hov : st1.numberOfChunks ≥ MaxChunksBlorb := by
    have : st1.numberOfChunks = s.numberOfChunks := by simp only [Status.numberOfChunks, h5]
    rw [this, h3]
    decide
  simp only [loadEntries, h4, if_pos hov]

/-! ## What makes the reading of an entry fail -/

theorem inferType_known (chunk : Chunk) (fileName : List Nat) (st : Status)
    (h : knownExt fileName = true) :
    ∃ T g, T ∈ inferredTypes
      ∧ inferType chunk fileName st = .ok ({ chunk with Type_ := T }, { st with isGlulx := g }) := by
  have tJ : copyId (PictureChunkTypes.getD JPG []) = cstr "JPEG" := by decide
  have tP : copyId (PictureChunkTypes.getD PNG []) = cstr "PNG" := by decide
  have tO : copyId (SoundChunkTypes.getD OGG []) = cstr "OGGV" := by decide
  have tM : copyId (SoundChunkTypes.getD MOD []) = cstr "MOD" := by decide
  have tA : copyId (SoundChunkTypes.getD AIFF []) = cstr "AIFF" := by decide
  have tZ : copyId (ExecutableChunkTypes.getD ZCOD []) = cstr "ZCOD" := by decide
  have tG : copyId (ExecutableChunkTypes.getD GLUL []) = cstr "GLUL" := by decide
  have tI : copyId (ChunkUsages.getD Usages.IFmd.toNat []) = cstr "IFmd" := by decide
  unfold knownExt at h
  unfold inferType
  simp only [tJ, tP, tO, tM, tA, tZ, tG, tI]
  generalize strtolower (getFileNameExt fileName) = ext at h
  by_cases h0 : ext = cstr "jpg"
  · rw [if_pos h0]
    exact ⟨_, _, by simp [inferredTypes], rfl⟩
  rw [if_neg h0]
  by_cases h1 : ext = cstr "png"
  · rw [if_pos h1]
    exact ⟨_, _, by simp [inferredTypes], rfl⟩
  rw [if_neg h1]
  by_cases h2 : ext = cstr "ogg"
  · rw [if_pos h2]
    exact ⟨_, _, by simp [inferredTypes], rfl⟩
  rw [if_neg h2]
  by_cases h3 : ext = cstr "mod"
  · rw [if_pos h3]
    exact ⟨_, _, by simp [inferredTypes], rfl⟩
  rw [if_neg h3]
  by_cases h4 : ext = cstr "aif"
  · rw [if_pos h4]
    exact ⟨_, _, by simp [inferredTypes], rfl⟩
  rw [if_neg h4]
  by_cases h5 : ext = cstr "z5"
  · rw [if_pos h5]
    exact ⟨_, _, by simp [inferredTypes], rfl⟩
  rw [if_neg h5]
  by_cases h6 : ext = cstr "z8"
  · rw [if_pos h6]
    exact ⟨_, _, by simp [inferredTypes], rfl⟩
  rw [if_neg h6]
  by_cases h7 : ext = cstr "ulx"
  · rw [if_pos h7]
    exact ⟨_, _, by simp [inferredTypes], rfl⟩
  rw [if_neg h7]
  by_cases h8 : ext = cstr "ifiction"
  · rw [if_pos h8]
    exact ⟨_, _, by simp [inferredTypes], rfl⟩
  rw [if_neg h8]
  exfalso
  simp only [knownExtensions, List.contains_cons, List.contains_nil, Bool.or_false,
    Bool.or_eq_true, beq_iff_eq] at h
  tauto

theorem inferType_unknown (chunk : Chunk) (fileName : List Nat) (st : Status)
    (h : knownExt fileName = false) :
    inferType chunk fileName st
      = .error (.unrecognizedExtension st.lineNumber (strtolower (getFileNameExt fileName))
          fileName) := by
  unfold knownExt at h
  unfold inferType
  simp only
  generalize strtolower (getFileNameExt fileName) = ext at h
  simp only [knownExtensions, List.contains_cons, List.contains_nil, Bool.or_false,
    Bool.or_eq_false_iff, beq_eq_false_iff_ne, ne_eq] at h
  obtain ⟨h0, h1, h2, h3, h4, h5, h6, h7, h8⟩ := h
  rw [if_neg h0, if_neg h1, if_neg h2, if_neg h3, if_neg h4, if_neg h5, if_neg h6, if_neg h7,
    if_neg h8]

/-- The outcomes of the usage part of `readChunk`: the token is no alias, or the
entry is bibliographic info or a cover after another one, or the part succeeds
and leaves the path, the count of lines, the mode and the chunks as they are. -/
theorem readChunkUse_cases (buffer : List Nat) (toret : Chunk) (st : Status) :
    (cnvtToUsages buffer = .UsageError
        ∧ readChunkUse buffer toret st = .error (.illegalUse st.lineNumber (cstr "ERR")))
      ∨ (cnvtToUsages buffer = .IFmd ∧ st.thereIsBib = true
        ∧ readChunkUse buffer toret st = .error .duplicatedBib)
      ∨ (cnvtToUsages buffer = .Fspc ∧ st.thereIsCover = true
        ∧ readChunkUse buffer toret st = .error .duplicatedCover)
      ∨ (cnvtToUsages buffer ≠ .UsageError
        ∧ ¬ (cnvtToUsages buffer = .IFmd ∧ st.thereIsBib = true)
        ∧ ¬ (cnvtToUsages buffer = .Fspc ∧ st.thereIsCover = true)
        ∧ ∃ c st2 u, readChunkUse buffer toret st = .ok (c, st2, u)
          ∧ st2.path = st.path ∧ st2.lineNumber = st.lineNumber ∧ st2.onlyBli = st.onlyBli
          ∧ st2.BlorbChunks = st.BlorbChunks) := by
  rw [readChunkUse_eq]
  cases hu : cnvtToUsages buffer
  case UsageError => exact Or.inl ⟨rfl, rfl⟩
  case IFmd =>
    cases ht : st.thereIsBib
    · exact Or.inr (Or.inr (Or.inr ⟨by simp, by simp, by simp,
        _, _, _, rfl, rfl, rfl, rfl, rfl⟩))
    · exact Or.inr (Or.inl ⟨rfl, rfl, rfl⟩)
  case Fspc =>
    cases ht : st.thereIsCover
    · exact Or.inr (Or.inr (Or.inr ⟨by simp, by simp, by simp,
        _, _, _, rfl, rfl, rfl, rfl, rfl⟩))
    · exact Or.inr (Or.inr (Or.inl ⟨rfl, rfl, rfl⟩))
  all_goals
    exact Or.inr (Or.inr (Or.inr ⟨by simp, by simp, by simp, _, _, _, rfl, rfl, rfl, rfl, rfl⟩))

/-- The file part of `readChunk` for a file with a known extension: a chunk when
the file opens; when it does not, an error in normal mode and no chunk in
`onlyBli` mode. -/
theorem readChunkFile_known (fs : List Nat → Option (List Nat)) (buffer : List Nat)
    (toret : Chunk) (use : Usages) (st : Status)
    (hext : knownExt (prepareFileName buffer st) = true) :
    (∀ contents, fs (prepareFileName buffer st) = some contents →
        ∃ chunk st1, readChunkFile fs buffer toret use st = .ok (some chunk, st1))
      ∧ (fs (prepareFileName buffer st) = none → st.onlyBli = false →
        readChunkFile fs buffer toret use st
          = .error (.cantOpen st.lineNumber (prepareFileName buffer st)))
      ∧ (fs (prepareFileName buffer st) = none → st.onlyBli = true →
        ∃ st1, readChunkFile fs buffer toret use st = .ok (none, st1)) := by
  obtain ⟨T, g, -, hi⟩ := inferType_known toret (prepareFileName buffer st) st hext
  unfold readChunkFile
  simp only [bind, Except.bind, hi, pure, Except.pure]
  refine ⟨?_, ?_, ?_⟩
  · intro contents hc
    rw [hc]
    exact ⟨_, _, rfl⟩
  · intro hc ho
    rw [hc]
    simp only
    split_ifs <;> first | rfl | simp_all
  · intro hc ho
    rw [hc]
    simp only
    split_ifs <;> exact ⟨_, rfl⟩

theorem prepareFileName_path (buffer : List Nat) (s t : Status) (h : s.path = t.path) :
    prepareFileName buffer s = prepareFileName buffer t := by
  simp only [prepareFileName, h]

set_option maxRecDepth 100000 in
/-- C20 as stated fails: in the control file `cover cover.png`,
`poster cover.png` the first token of the second entry resolves to a usage
(`cnvtToUsages` gives `Fspc`) and the rest of the entry is well formed (the same
line builds when it is alone), and reading the second entry stops the build with
"duplicated cover". -/
theorem C20_counterexample :
    cnvtToUsages (cstr "poster") = .Fspc
      ∧ (match buildIndex exampleFs
          (startStatus false false false false false [] (cstr "poster cover.png\n")) with
        | .ok _ => true
        | .error _ => false) = true
      ∧ buildIndex exampleFs (startStatus false false false false false [] secondCoverControl)
        = .error .duplicatedCover := by
  refine ⟨by decide, by rfl, by rfl⟩

theorem fooEntry_wellFormed : fooEntry.WellFormed :=
  ⟨by decide, by decide, by decide, by decide, by decide,
    (by decide : isId (cstr "cover.png") = false)⟩

/-! ## An entry whose file cannot be opened -/

theorem loadChunks_none (fs : List Nat → Option (List Nat)) (fuel : Nat) (st st1 : Status)
    (n : Nat) (h : readChunk fs st = .ok (none, st1)) :
    loadChunks fs (fuel + 1) (st, n)
      = if feof st1.in_ then .ok (st1, n) else loadChunks fs fuel (st1, n) := by
  rw [loadChunks]
  simp only [bind, Except.bind, h, pure, Except.pure]
  cases feof st1.in_ <;> rfl

theorem loadChunks_error (fs : List Nat → Option (List Nat)) (fuel : Nat) (st : Status)
    (n : Nat) (err : Failure) (h : readChunk fs st = .error err) :
    loadChunks fs (fuel + 1) (st, n) = .error err := by
  rw [loadChunks]
  simp only [bind, Except.bind, h]

set_option maxRecDepth 100000 in
/-- C19 fails on the code. `readChunk` takes the resource number and sets
`thereIsBib` or `thereIsCover` (with `coverChunk`) before it tries to open the
file, so in `onlyBli` mode an entry that is dropped leaves its mark. With the
files of `exampleFs`, where `missing.png` does not open: the control file
`cover missing.png`, `exec story.z8` gives the chunk of the story file and then
a cover chunk "Fspc" whose data is 0, the number of the story file; the control
file `cover missing.png`, `pict cover.png` gives a cover chunk that holds the
number 4 of the picture of the second line; and the control file
`cover missing.png` alone gives a cover chunk that holds the number 3 the
dropped entry took. With the files of `bibFs`, where only `biblio.ifiction`
opens: the entry `meta biblio.ifiction` builds when it is alone, and after the
dropped entry `meta missing.ifiction` it stops the build with "duplicated
bibliographic info" and gives no chunk. -/
theorem C19_dropped_entry_leaves_trace :
    (match buildIndex exampleFs
          (startStatus false false true false false [] droppedCoverExecControl) with
        | .ok status =>
          status.BlorbChunks.tail.map (fun chunk => (chunk.Use, chunk.Type_, chunk.Res, chunk.Data))
        | .error _ => [])
        = [(cstr "Exec", cstr "ZCOD", 0, [6, 7, 8, 9, 10]),
           (cstr "0", cstr "Fspc", 1, [0, 0, 0, 0])]
      ∧ (match buildIndex exampleFs
          (startStatus false false true false false [] droppedCoverControl) with
        | .ok status =>
          status.BlorbChunks.tail.map (fun chunk => (chunk.Use, chunk.Type_, chunk.Res, chunk.Data))
        | .error _ => [])
        = [(cstr "Pict", cstr "PNG", 4, [1, 2, 3]), (cstr "0", cstr "Fspc", 1, [0, 0, 0, 4])]
      ∧ (match buildIndex exampleFs
          (startStatus false false true false false [] droppedCoverAloneControl) with
        | .ok status =>
          status.BlorbChunks.tail.map (fun chunk => (chunk.Use, chunk.Type_, chunk.Res, chunk.Data))
        | .error _ => [])
        = [(cstr "0", cstr "Fspc", 1, [0, 0, 0, 3])]
      ∧ (match buildIndex bibFs (startStatus false false true false false [] bibControl) with
        | .ok _ => true
        | .error _ => false) = true
      ∧ buildIndex bibFs (startStatus false false true false false [] droppedBibControl)
        = .error .duplicatedBib := by
  refine ⟨by rfl, by rfl, by rfl, by rfl, by rfl⟩

/-- For a well-formed entry at the head of the control file whose first token
resolves to a usage, which is not bibliographic info or a cover after another
one, and whose file has a known extension and cannot be opened: in normal mode
`readChunk` and the loop of `buildIndex` fail with "can't open file"; in
`onlyBli` mode `readChunk` returns no chunk, the chunks stored are not changed,
the control file is left at the next entry, and the loop goes on from that
status with the count of index entries unchanged. -/
theorem unopened_file_step (fs : List Nat → Option (List Nat)) (st : Status) (e : Entry)
    (es : List Entry) (hwf : e.WellFormed) (hes : ∀ x ∈ es, x.WellFormed)
    (hin : st.in_ = { rest := renderAll (e :: es), eof := false })
    (husage : cnvtToUsages e.use ≠ .UsageError)
    (hbib : ¬ (cnvtToUsages e.use = .IFmd ∧ st.thereIsBib = true))
    (hcover : ¬ (cnvtToUsages e.use = .Fspc ∧ st.thereIsCover = true))
    (hext : knownExt (prepareFileName e.file st) = true)
    (hclosed : fs (prepareFileName e.file st) = none) :
    (st.onlyBli = false →
        readChunk fs st = .error (.cantOpen st.lineNumber (prepareFileName e.file st))
          ∧ ∀ fuel n, loadChunks fs (fuel + 1) (st, n)
            = .error (.cantOpen st.lineNumber (prepareFileName e.file st)))
      ∧ (st.onlyBli = true →
        ∃ st1, readChunk fs st = .ok (none, st1)
          ∧ st1.BlorbChunks = st.BlorbChunks ∧ st1.onlyBli = true
          ∧ st1.in_ = { rest := renderAll es, eof := es.isEmpty }
          ∧ ∀ fuel n, loadChunks fs (fuel + 1) (st, n)
            = if es.isEmpty then .ok (st1, n) else loadChunks fs fuel (st1, n)) := by
  have hr := readChunk_render fs st e es hwf hes hin
  unfold entryStep at hr
  rcases readChunkUse_cases e.use Chunk.zero st with ⟨h1, -⟩ | ⟨h1, h2, -⟩ | ⟨h1, h2, -⟩
    | ⟨-, -, -, c, st2, u, h4, h5, h6, h7, h8⟩
  · exact absurd h1 husage
  · exact absurd ⟨h1, h2⟩ hbib
  · exact absurd ⟨h1, h2⟩ hcover
  · rw [h4] at hr
    simp only at hr
    have hp := prepareFileName_path e.file st2 st h5
    rw [← hp] at hext hclosed
    obtain ⟨-, hb, hc⟩ := readChunkFile_known fs e.file c u st2 hext
    constructor
    · intro ho
      have h9 := hb hclosed (h7.trans ho)
      rw [h9] at hr
      simp only at hr
      rw [h6, hp] at hr
      exact ⟨hr, fun fuel n => loadChunks_error fs fuel st n _ hr⟩
    · intro ho
      obtain ⟨st1, h9⟩ := hc hclosed (h7.trans ho)
      obtain ⟨T, g, cid, -, hs, -⟩ := readChunkFile_ok fs e.file c u st2 st1 none h9
      rw [h9] at hr
      simp only at hr
      refine ⟨_, hr, ?_, ?_, rfl, ?_⟩
      · rw [hs]; exact h8
      · rw [hs]; exact h7.trans ho
      · intro fuel n
        rw [loadChunks_none fs fuel st _ n hr]
        rfl

theorem missingEntry_wellFormed : missingEntry.WellFormed :=
  ⟨by decide, by decide, by decide, by decide, by decide,
    (by decide : isId (cstr "missing.png") = false)⟩

theorem missing_pict_wellFormed : ∀ x ∈ [pictEntry], x.WellFormed := by
  intro x hx
  rw [List.mem_singleton.mp hx]
  exact pictEntry_wellFormed

set_option maxRecDepth 100000 in
/-- The control file `pict missing.png`, `pict cover.png` with a file system
where `missing.png` does not open. In normal mode `readChunk` fails on the first
entry; in `onlyBli` mode it returns no chunk, stores nothing and leaves the
control file at the second entry. -/
theorem unopened_file_step_example :
    renderAll [missingEntry, pictEntry] = cstr "pict missing.png\npict cover.png\n"
      ∧ readChunk exampleFs (startStatus false false false false false []
          (renderAll [missingEntry, pictEntry])) = .error (.cantOpen 0 (cstr "missing.png"))
      ∧ ∃ st1, readChunk exampleFs (startStatus false false true false false []
            (renderAll [missingEntry, pictEntry])) = .ok (none, st1)
          ∧ st1.BlorbChunks = []
          ∧ st1.in_ = { rest := cstr "pict cover.png\n", eof := false } :=
  ⟨by decide,
    ((unopened_file_step exampleFs
      (startStatus false false false false false [] (renderAll [missingEntry, pictEntry]))
      missingEntry [pictEntry] missingEntry_wellFormed missing_pict_wellFormed rfl
      (by decide) (by decide) (by decide) (by decide) (by decide)).1 rfl).1,
    match (unopened_file_step exampleFs
      (startStatus false false true false false [] (renderAll [missingEntry, pictEntry]))
      missingEntry [pictEntry] missingEntry_wellFormed missing_pict_wellFormed rfl
      (by decide) (by decide) (by decide) (by decide) (by decide)).2 rfl with
    | ⟨st1, h1, h2, _, h4, _⟩ => ⟨st1, h1, h2, h4⟩⟩

/-! ## The cover -/

/-- What the file part of `readChunk` does with the cover: the resource number of
the chunk is kept as `coverId` when the chunk is the one at the place of the
cover. -/
theorem readChunkFile_cover (fs : List Nat → Option (List Nat)) (buffer : List Nat)
    (toret : Chunk) (use : Usages) (st st1 : Status) (c : Option Chunk)
    (h : readChunkFile fs buffer toret use st = .ok (c, st1)) :
    st1.coverChunk = st.coverChunk
      ∧ st1.coverId = (if st.thereIsCover && st.numberOfChunks == st.coverChunk then toret.Res
          else st.coverId)
      ∧ ∀ chunk, c = some chunk → chunk.Use = toret.Use ∧ chunk.Res = toret.Res := by
  unfold readChunkFile at h
  simp only [bind, Except.bind] at h
  cases hi : inferType toret (prepareFileName buffer st) st with
  | error e => rw [hi] at h; exact absurd h (by simp)
  | ok r =>
    obtain ⟨c1, s1⟩ := r
    obtain ⟨T, g, hT, hc, hs⟩ := inferType_ok _ _ _ _ _ hi
    rw [hi] at h
    simp only at h
    subst hc hs
    cases hf : fs (prepareFileName buffer st) with
    | none =>
      rw [hf] at h
      simp only at h
      split_ifs at h
      all_goals
        simp only [pure, Except.pure, Except.ok.injEq, Prod.mk.injEq] at h
        obtain ⟨hc, hs⟩ := h
        subst hc hs
        simp_all [Status.numberOfChunks]
        try rw [if_neg (by tauto)]
    | some contents =>
      rw [hf] at h
      simp only [pure, Except.pure, Except.ok.injEq, Prod.mk.injEq] at h
      obtain ⟨hc, hs⟩ := h
      subst hc
      split_ifs at hs with h1
      all_goals
        subst hs
        simp_all [Status.numberOfChunks]
        try rw [if_neg (by tauto)]

section

attribute [local irreducible] readChunkFile

/-- What one entry does to the status when it is read without an error: the
chunks stored and the mode are kept; a chunk returned has a type `inferType`
sets; no chunk is returned only in `onlyBli` mode for a file that cannot be
opened; once the cover is stored, the entry keeps `coverId`; and a cover entry
gets the next number for pictures, which becomes `coverId`. -/
theorem entryStep_shape (fs : List Nat → Option (List Nat)) (st st1 : Status) (e : Entry)
    (c : Option Chunk) (h : entryStep fs st e = .ok (c, st1)) :
    st1.BlorbChunks = st.BlorbChunks ∧ st1.onlyBli = st.onlyBli
      ∧ (∀ chunk, c = some chunk → chunk.Type_ ∈ inferredTypes)
      ∧ (c = none → st.onlyBli = true ∧ ∃ fileName, fs fileName = none)
      ∧ (st.thereIsCover = true → st.coverChunk < st.BlorbChunks.length →
          st1.coverId = st.coverId ∧ st1.coverChunk = st.coverChunk)
      ∧ (e.isCover = true →
          st1.coverChunk = st.BlorbChunks.length ∧ st1.coverId = st.nextChunkForPicts
            ∧ ∀ chunk, c = some chunk →
              chunk.Use = cstr "Pict" ∧ chunk.Res = st.nextChunkForPicts) := by
  have gen : ∀ (toret : Chunk) (use : Usages) (st2 : Status),
      readChunkFile fs e.file toret use st2 = .ok (c, st1) →
      st2.BlorbChunks = st.BlorbChunks → st2.onlyBli = st.onlyBli →
      st1.BlorbChunks = st.BlorbChunks ∧ st1.onlyBli = st.onlyBli
        ∧ (∀ chunk, c = some chunk → chunk.Type_ ∈ inferredTypes)
        ∧ (c = none → st.onlyBli = true ∧ ∃ fileName, fs fileName = none) := by
    intro toret use st2 hr hb ho
    obtain ⟨T, g, cid, hT, hs, hcase⟩ := readChunkFile_ok _ _ _ _ _ _ _ hr
    refine ⟨by rw [hs]; exact hb, by rw [hs]; exact ho, ?_, ?_⟩
    · intro chunk hc
      rcases hcase with ⟨hn, -⟩ | ⟨contents, -, hsome⟩
      · rw [hn] at hc; cases hc
      · rw [hsome] at hc
        injection hc with hc
        rw [← hc]
        exact hT
    · intro hn
      rcases hcase with ⟨-, ho2, hf⟩ | ⟨contents, -, hsome⟩
      · exact ⟨ho ▸ ho2, _, hf⟩
      · rw [hn] at hsome; cases hsome
  have plain : ∀ (toret : Chunk) (use : Usages) (st2 : Status),
      readChunkFile fs e.file toret use st2 = .ok (c, st1) →
      st2.BlorbChunks = st.BlorbChunks → st2.onlyBli = st.onlyBli →
      st2.coverChunk = st.coverChunk → st2.coverId = st.coverId →
      st2.thereIsCover = st.thereIsCover → e.isCover = false →
      st1.BlorbChunks = st.BlorbChunks ∧ st1.onlyBli = st.onlyBli
        ∧ (∀ chunk, c = some chunk → chunk.Type_ ∈ inferredTypes)
        ∧ (c = none → st.onlyBli = true ∧ ∃ fileName, fs fileName = none)
        ∧ (st.thereIsCover = true → st.coverChunk < st.BlorbChunks.length →
            st1.coverId = st.coverId ∧ st1.coverChunk = st.coverChunk)
        ∧ (e.isCover = true →
            st1.coverChunk = st.BlorbChunks.length ∧ st1.coverId = st.nextChunkForPicts
              ∧ ∀ chunk, c = some chunk →
                chunk.Use = cstr "Pict" ∧ chunk.Res = st.nextChunkForPicts) := by
    intro toret use st2 hr hb ho hcc hci htc hnc
    obtain ⟨g1, g2, g3, g4⟩ := gen toret use st2 hr hb ho
    obtain ⟨k1, k2, -⟩ := readChunkFile_cover _ _ _ _ _ _ _ hr
    refine ⟨g1, g2, g3, g4, ?_, ?_⟩
    · intro ht hlt
      have hne : (st2.thereIsCover && st2.numberOfChunks == st2.coverChunk) = false := by
        simp only [Status.numberOfChunks, hb, hcc, Bool.and_eq_false_imp, beq_eq_false_iff_ne]
        intro _
        omega
      rw [hne] at k2
      exact ⟨k2.trans hci, k1.trans hcc⟩
    · intro hc
      rw [hnc] at hc
      cases hc
  unfold entryStep at h
  rw [readChunkUse_eq] at h
  cases hu : cnvtToUsages e.use <;> rw [hu] at h <;> simp only at h
  case UsageError => cases h
  case Fspc =>
    cases ht : st.thereIsCover
    · rw [ht] at h
      simp only [Bool.false_eq_true, if_false] at h
      obtain ⟨g1, g2, g3, g4⟩ := gen _ _ _ h rfl rfl
      obtain ⟨k1, k2, k3⟩ := readChunkFile_cover _ _ _ _ _ _ _ h
      simp only [Status.numberOfChunks, beq_self_eq_true, Bool.and_self, if_true] at k1 k2 k3
      refine ⟨g1, g2, g3, g4, ?_, ?_⟩
      · intro h2; cases h2
      · intro _
        exact ⟨k1, k2, k3⟩
    · rw [ht] at h
      simp only [if_true] at h
      cases h
  case IFmd =>
    cases ht : st.thereIsBib
    · rw [ht] at h
      simp only [Bool.false_eq_true, if_false] at h
      exact plain _ _ _ h rfl rfl rfl rfl rfl (by simp [Entry.isCover, hu])
    · rw [ht] at h
      simp only [if_true] at h
      cases h
  all_goals exact plain _ _ _ h rfl rfl rfl rfl rfl (by simp [Entry.isCover, hu])

end

/-- When every file opens, the first entry of the list gives a chunk, which is
stored before the rest of the list is read. -/
theorem loadEntries_cons (fs : List Nat → Option (List Nat)) (e : Entry) (es : List Entry)
    (st s : Status) (n m : Nat) (h : loadEntries fs (e :: es) (st, n) = .ok (s, m))
    (hfiles : st.onlyBli = false ∨ ∀ fileName, fs fileName ≠ none) :
    ∃ chunk st1 n1, entryStep fs st e = .ok (some chunk, st1)
      ∧ loadEntries fs es (storeChunk (withIn { rest := [], eof := true } st1) chunk, n1)
        = .ok (s, m) := by
  simp only [loadEntries] at h
  cases he : entryStep fs st e with
  | error err => rw [he] at h; cases h
  | ok r =>
    obtain ⟨c, st1⟩ := r
    obtain ⟨-, -, -, hnone, -, -⟩ := entryStep_shape fs st st1 e c he
    rw [he] at h
    cases c with
    | none =>
      obtain ⟨ho, fileName, hf⟩ := hnone rfl
      rcases hfiles with h1 | h1
      · rw [h1] at ho; cases ho
      · exact absurd hf (h1 fileName)
    | some chunk =>
      simp only at h
      by_cases hov : st1.numberOfChunks ≥ MaxChunksBlorb
      · rw [if_pos hov] at h; cases h
      · rw [if_neg hov] at h
        exact ⟨chunk, st1, _, rfl, h⟩

/-- When every file opens, the entries of the list give one chunk each, stored
in order after the chunks already there. -/
theorem loadEntries_chunks (fs : List Nat → Option (List Nat)) :
    ∀ (es : List Entry) (st s : Status) (n m : Nat), loadEntries fs es (st, n) = .ok (s, m) →
      (st.onlyBli = false ∨ ∀ fileName, fs fileName ≠ none) →
      ∃ cs, s.BlorbChunks = st.BlorbChunks ++ cs ∧ cs.length = es.length
        ∧ (∀ c ∈ cs, c.Type_ ∈ inferredTypes) ∧ s.onlyBli = st.onlyBli := by
  intro es
  induction es with
  | nil =>
    intro st s n m h _
    simp only [loadEntries, Except.ok.injEq, Prod.mk.injEq] at h
    obtain ⟨h1, -⟩ := h
    subst h1
    exact ⟨[], by simp, rfl, by simp, rfl⟩
  | cons e es ih =>
    intro st s n m h hfiles
    obtain ⟨chunk, st1, n1, he, hl⟩ := loadEntries_cons fs e es st s n m h hfiles
    obtain ⟨hb, ho, ht, -, -, -⟩ := entryStep_shape fs st st1 e _ he
    have ho2 : (storeChunk (withIn { rest := [], eof := true } st1) chunk).onlyBli
        = st.onlyBli := ho
    have hb2 : (storeChunk (withIn { rest := [], eof := true } st1) chunk).BlorbChunks
        = st.BlorbChunks ++ [chunk] := by
      rw [← hb]; rfl
    obtain ⟨cs, h1, h2, h3, h4⟩ := ih _ s n1 m hl (by rw [ho2]; exact hfiles)
    refine ⟨chunk :: cs, ?_, by simp [h2], ?_, h4.trans ho2⟩
    · rw [h1, hb2]; simp
    · intro c hc
      rcases List.mem_cons.mp hc with hc | hc
      · rw [hc]; exact ht chunk rfl
      · exact h3 c hc

/-- Once the cover is stored, reading more entries keeps `coverId`. -/
theorem loadEntries_coverId (fs : List Nat → Option (List Nat)) :
    ∀ (es : List Entry) (st s : Status) (n m : Nat), loadEntries fs es (st, n) = .ok (s, m) →
      st.thereIsCover = true → st.coverChunk < st.BlorbChunks.length →
      s.coverId = st.coverId := by
  intro es
  induction es with
  | nil =>
    intro st s n m h _ _
    simp only [loadEntries, Except.ok.injEq, Prod.mk.injEq] at h
    rw [h.1]
  | cons e es ih =>
    intro st s n m h ht hlt
    simp only [loadEntries] at h
    cases he : entryStep fs st e with
    | error err => rw [he] at h; cases h
    | ok r =>
      obtain ⟨c, st1⟩ := r
      obtain ⟨hb, -, -, -, hkeep, -⟩ := entryStep_shape fs st st1 e c he
      obtain ⟨hk1, hk2⟩ := hkeep ht hlt
      have ht1 : st1.thereIsCover = true := by
        rw [(entryStep_flags fs st st1 e c he).2, ht]; rfl
      rw [he] at h
      cases c with
      | none =>
        have := ih (withIn { rest := [], eof := true } st1) s n m h ht1
          (by show st1.coverChunk < st1.BlorbChunks.length; rw [hk2, hb]; exact hlt)
        exact this.trans hk1
      | some chunk =>
        simp only at h
        by_cases hov : st1.numberOfChunks ≥ MaxChunksBlorb
        · rw [if_pos hov] at h; cases h
        · rw [if_neg hov] at h
          have := ih (storeChunk (withIn { rest := [], eof := true } st1) chunk) s _ m h ht1
            (by
              show st1.coverChunk < (st1.BlorbChunks ++ [chunk]).length
              rw [hk2, hb, List.length_append]
              exact Nat.lt_add_right _ hlt)
          exact this.trans hk1

theorem bigEndian_mod (v : Nat) : bigEndian (v % 2 ^ 32) = bigEndian v := by
  have h1 : v % 2 ^ 32 / 2 ^ 24 % 256 = v / 2 ^ 24 % 256 := by omega
  have h2 : v % 2 ^ 32 / 2 ^ 16 % 256 = v / 2 ^ 16 % 256 := by omega
  have h3 : v % 2 ^ 32 / 2 ^ 8 % 256 = v / 2 ^ 8 % 256 := by omega
  have h4 : v % 2 ^ 32 % 256 = v % 256 := by omega
  simp only [bigEndian, h1, h2, h3, h4]

theorem frontispiece_eq (st : Status) :
    (frontispiece st).Use = cstr "0" ∧ (frontispiece st).Type_ = cstr "Fspc"
      ∧ (frontispiece st).Length = 4 ∧ (frontispiece st).Data = bigEndian st.coverId := by
  refine ⟨rfl, rfl, rfl, ?_⟩
  have h := strLong_mid [] (List.replicate 4 0) [] st.coverId rfl
  simp only [List.nil_append, List.append_nil, List.length_nil] at h
  show strLong (List.replicate BlorbIdLen 0) 0 st.coverId = bigEndian st.coverId
  rw [← bigEndian_mod]
  exact h

/-- In a list numbered from `b`, the element after `A` has the number
`b + A.length`. -/
theorem range_mid (f : Chunk → Nat) (A B : List Chunk) (x : Chunk) (b : Nat)
    (h : (A ++ x :: B).map f = List.range' b (A ++ x :: B).length) : f x = b + A.length := by
  have h1 := congrArg (fun l => l[A.length]?) h
  simp only [List.map_append, List.map_cons] at h1
  rw [List.getElem?_append_right (by simp)] at h1
  simp only [List.length_map, Nat.sub_self, List.getElem?_cons_zero] at h1
  rw [List.getElem?_range' _ _ (by simp)] at h1
  simpa using h1

/-- The chunk list a successful build of a control list of well-formed entries
leaves, in terms of the first loop over the entries. -/
theorem buildIndex_entries (fs : List Nat → Option (List Nat))
    (verbose noBli onlyBli isShortExtension isGlulx : Bool) (path : List Nat)
    (es : List Entry) (hwf : ∀ x ∈ es, x.WellFormed) (st : Status)
    (h : buildIndex fs (startStatus verbose noBli onlyBli isShortExtension isGlulx path
      (renderAll es)) = .ok st) :
    ∃ s n index, loadEntries fs es
        (entriesStart verbose noBli onlyBli isShortExtension isGlulx path, 0) = .ok (s, n)
      ∧ index.Type_ = cstr "RIdx" ∧ index.Use = cstr "0"
      ∧ st.BlorbChunks = index :: (s.BlorbChunks.tail
          ++ (if s.thereIsCover then [frontispiece s] else [])) := by
  rw [buildIndex_renderAll fs _ _ _ _ _ _ es hwf] at h
  cases hl : loadEntries fs es
      (entriesStart verbose noBli onlyBli isShortExtension isGlulx path, 0) with
  | error err => rw [hl] at h; cases h
  | ok r =>
    obtain ⟨s, n⟩ := r
    rw [hl] at h
    simp only at h
    have hfirst : ∃ cs, s.BlorbChunks = indexChunk0 :: cs := by
      have : ∀ (es : List Entry) (st s : Status) (n m : Nat),
          loadEntries fs es (st, n) = .ok (s, m) → ∃ cs, s.BlorbChunks = st.BlorbChunks ++ cs := by
        intro es
        induction es with
        | nil =>
          intro st s n m h
          simp only [loadEntries, Except.ok.injEq, Prod.mk.injEq] at h
          exact ⟨[], by rw [h.1]; simp⟩
        | cons e es ih =>
          intro st s n m h
          simp only [loadEntries] at h
          cases he : entryStep fs st e with
          | error err => rw [he] at h; cases h
          | ok r =>
            obtain ⟨c, st1⟩ := r
            obtain ⟨hb, -⟩ := entryStep_shape fs st st1 e c he
            rw [he] at h
            cases c with
            | none =>
              obtain ⟨cs, hcs⟩ := ih _ _ _ _ h
              exact ⟨cs, by rw [hcs]; show st1.BlorbChunks ++ cs = _; rw [hb]⟩
            | some chunk =>
              simp only at h
              by_cases hov : st1.numberOfChunks ≥ MaxChunksBlorb
              · rw [if_pos hov] at h; cases h
              · rw [if_neg hov] at h
                obtain ⟨cs, hcs⟩ := ih _ _ _ _ h
                refine ⟨chunk :: cs, ?_⟩
                rw [hcs]
                show st1.BlorbChunks ++ [chunk] ++ cs = _
                rw [hb]
                simp
      obtain ⟨cs, hcs⟩ := this es _ s 0 n hl
      exact ⟨cs, hcs⟩
    obtain ⟨cs, hcs⟩ := hfirst
    cases hc : coverChunk s with
    | error err => rw [hc] at h; cases h
    | ok s2 =>
      rw [hc] at h
      simp only [Except.ok.injEq] at h
      obtain ⟨data, hd, -⟩ := indexChunk_chunks s2 n
      rw [h] at hd
      have hs2 : s2.BlorbChunks
          = indexChunk0 :: (cs ++ (if s.thereIsCover then [frontispiece s] else [])) := by
        unfold coverChunk at hc
        cases ht : s.thereIsCover
        · rw [ht] at hc
          simp only [Bool.false_eq_true, if_false, Except.ok.injEq] at hc
          rw [← hc, hcs]
          simp
        · rw [ht] at hc
          simp only [if_true] at hc
          split_ifs at hc
          injection hc with hc
          rw [← hc]
          simp [hcs]
      rw [hs2] at hd
      refine ⟨s, n, { indexChunk0 with Length := 12 * n + 4, Data := data }, rfl, rfl, rfl, ?_⟩
      rw [hd, hcs]
      rfl

theorem not_fspc_of_inferred (T : List Nat) (h : T ∈ inferredTypes) : T ≠ cstr "Fspc" := by
  intro hT
  rw [hT] at h
  revert h
  decide

/-- For a control list of well-formed entries whose build succeeds with every
file opened: when an entry is a cover, the chunk list is the index chunk,
one chunk for each entry and, last, the cover chunk; the chunk of the cover
entry has usage "Pict" and the number the counter of pictures gives it, 3 more
than the number of "Pict" chunks before it; the cover chunk has usage "0", type
"Fspc", length 4 and holds that number, big-endian; and no other chunk has type
"Fspc". When no entry is a cover, no chunk has type "Fspc". -/
theorem frontispiece_of_entries (fs : List Nat → Option (List Nat))
    (verbose noBli onlyBli isShortExtension isGlulx : Bool) (path : List Nat)
    (es : List Entry) (hwf : ∀ x ∈ es, x.WellFormed) (st : Status)
    (h : buildIndex fs (startStatus verbose noBli onlyBli isShortExtension isGlulx path
      (renderAll es)) = .ok st)
    (hfiles : onlyBli = false ∨ ∀ fileName, fs fileName ≠ none) :
    (∀ es1 e es2, es = es1 ++ e :: es2 → e.isCover = true →
        ∃ index cs1 cov cs2 fsp, st.BlorbChunks = index :: (cs1 ++ cov :: cs2) ++ [fsp]
          ∧ cs1.length = es1.length ∧ cs2.length = es2.length
          ∧ cov.Use = cstr "Pict" ∧ cov.Res = 3 + (usedBy (cstr "Pict") cs1).length
          ∧ fsp.Use = cstr "0" ∧ fsp.Type_ = cstr "Fspc" ∧ fsp.Length = 4
          ∧ fsp.Data = bigEndian cov.Res
          ∧ ∀ c ∈ index :: (cs1 ++ cov :: cs2), c.Type_ ≠ cstr "Fspc")
      ∧ ((∀ e ∈ es, e.isCover = false) → ∀ c ∈ st.BlorbChunks, c.Type_ ≠ cstr "Fspc") := by
  obtain ⟨s, n, index, hl, hiT, hiU, hst⟩ := buildIndex_entries fs verbose noBli onlyBli
    isShortExtension isGlulx path es hwf st h
  have hnum := (buildIndex_numbered fs verbose noBli onlyBli isShortExtension isGlulx path
    (renderAll es) st h hfiles).1.1
  have hstart : (entriesStart verbose noBli onlyBli isShortExtension isGlulx path).onlyBli
      = onlyBli := rfl
  have hiF : index.Type_ ≠ cstr "Fspc" := by rw [hiT]; decide
  constructor
  · intro es1 e es2 hes he
    subst hes
    rw [loadEntries_append] at hl
    cases hA : loadEntries fs es1
        (entriesStart verbose noBli onlyBli isShortExtension isGlulx path, 0) with
    | error err => rw [hA] at hl; cases hl
    | ok r =>
      obtain ⟨sA, nA⟩ := r
      rw [hA] at hl
      simp only at hl
      obtain ⟨cs1, hA1, hA2, hA3, hA4⟩ := loadEntries_chunks fs es1 _ sA 0 nA hA
        (by rw [hstart]; exact hfiles)
      have hfA : sA.onlyBli = false ∨ ∀ fileName, fs fileName ≠ none := by
        rw [hA4, hstart]; exact hfiles
      obtain ⟨cov, sB, n1, hB, hC⟩ := loadEntries_cons fs e es2 sA s nA n hl hfA
      obtain ⟨hB1, hB2, hB3, -, -, hB6⟩ := entryStep_shape fs sA sB e _ hB
      obtain ⟨hB7, hB8, hB9⟩ := hB6 he
      obtain ⟨hcU, hcR⟩ := hB9 cov rfl
      have hBt : sB.thereIsCover = true := by
        rw [(entryStep_flags fs sA sB e _ hB).2, he]; simp
      have hCb : (storeChunk (withIn { rest := [], eof := true } sB) cov).BlorbChunks
          = sA.BlorbChunks ++ [cov] := by
        rw [← hB1]; rfl
      obtain ⟨cs2, hC1, hC2, hC3, -⟩ := loadEntries_chunks fs es2 _ s n1 n hC
        (by show sB.onlyBli = false ∨ _; rw [hB2]; exact hfA)
      have hCid := loadEntries_coverId fs es2 _ s n1 n hC hBt
        (by
          show sB.coverChunk < (storeChunk (withIn { rest := [], eof := true } sB) cov).BlorbChunks.length
          rw [hCb, hB7, List.length_append]
          exact Nat.lt_succ_self _)
      have hst2 : s.thereIsCover = true := by
        rw [(loadEntries_flags fs es2 _ _ _ _ hC).2]
        show (sB.thereIsCover || _) = true
        rw [hBt]; rfl
      have hsB : s.BlorbChunks = indexChunk0 :: (cs1 ++ cov :: cs2) := by
        rw [hC1, hCb, hA1]
        show ([indexChunk0] ++ cs1 ++ [cov]) ++ cs2 = _
        simp
      obtain ⟨f1, f2, f3, f4⟩ := frontispiece_eq s
      have hfinal : st.BlorbChunks = index :: (cs1 ++ cov :: cs2) ++ [frontispiece s] := by
        rw [hst, hsB, hst2]
        simp
      have hres : cov.Res = 3 + (usedBy (cstr "Pict") cs1).length := by
        rw [hfinal] at hnum
        have hiP : ¬ index.Use = cstr "Pict" := by rw [hiU]; decide
        have e1 : usedBy (cstr "Pict") (index :: (cs1 ++ cov :: cs2) ++ [frontispiece s])
            = usedBy (cstr "Pict") cs1
              ++ cov :: usedBy (cstr "Pict") (cs2 ++ [frontispiece s]) := by
          simp [usedBy, List.filter_cons, List.filter_append, hiP, hcU]
        rw [e1] at hnum
        exact range_mid _ _ _ _ _ hnum
      refine ⟨index, cs1, cov, cs2, frontispiece s, hfinal, hA2, hC2, hcU, hres, f1, f2, f3, ?_,
        ?_⟩
      · rw [f4, hCid]
        show bigEndian sB.coverId = bigEndian cov.Res
        rw [hB8, hcR]
      · intro c hc
        rcases List.mem_cons.mp hc with hc | hc
        · rw [hc]; exact hiF
        · rcases List.mem_append.mp hc with hc | hc
          · exact not_fspc_of_inferred _ (hA3 c hc)
          · rcases List.mem_cons.mp hc with hc | hc
            · rw [hc]; exact not_fspc_of_inferred _ (hB3 cov rfl)
            · exact not_fspc_of_inferred _ (hC3 c hc)
  · intro hno c hc
    obtain ⟨cs, h1, -, h3, -⟩ := loadEntries_chunks fs es _ s 0 n hl
      (by rw [hstart]; exact hfiles)
    have hst2 : s.thereIsCover = false := by
      rw [(loadEntries_flags fs es _ _ _ _ hl).2]
      show (false || es.any Entry.isCover) = false
      rw [Bool.false_or, List.any_eq_false]
      intro x hx
      rw [hno x hx]
      simp
    rw [hst, hst2, h1] at hc
    simp only [Bool.false_eq_true, if_false, List.append_nil] at hc
    rcases List.mem_cons.mp hc with hc | hc
    · rw [hc]; exact hiF
    · have : c ∈ cs := by
        have e2 : ((entriesStart verbose noBli onlyBli isShortExtension isGlulx path).BlorbChunks
            ++ cs).tail = cs := rfl
        rw [e2] at hc
        exact hc
      exact not_fspc_of_inferred _ (h3 c this)

theorem coverEntries_wellFormed : ∀ x ∈ coverEntries, x.WellFormed := by
  intro x hx
  simp only [coverEntries, List.mem_cons, List.mem_singleton, List.not_mem_nil, or_false] at hx
  rcases hx with rfl | rfl | rfl
  · exact pictEntry_wellFormed
  · exact ⟨by decide, by decide, by decide, by decide, by decide, by decide⟩
  · exact ⟨by decide, by decide, by decide, by decide, by decide, by decide⟩

set_option maxRecDepth 100000 in
/-- The control file `pict cover.png`, `cover cover.png`,
`snd mySound theme.ogg`: the chunk of the cover entry is the second picture,
numbered 4, and the cover chunk, the last one, holds 0 0 0 4. -/
theorem frontispiece_of_entries_example :
    renderAll coverEntries = cstr "pict cover.png\ncover cover.png\nsnd mySound theme.ogg\n"
      ∧ coverIndexed.BlorbChunks.tail.map
          (fun chunk => (chunk.Use, chunk.Type_, chunk.Res, chunk.Data))
        = [(cstr "Pict", cstr "PNG", 3, [1, 2, 3]), (cstr "Pict", cstr "PNG", 4, [1, 2, 3]),
           (cstr "Snd", cstr "OGGV", 3, [4, 5]), (cstr "0", cstr "Fspc", 1, [0, 0, 0, 4])]
      ∧ ∃ index cs1 cov cs2 fsp,
          coverIndexed.BlorbChunks = index :: (cs1 ++ cov :: cs2) ++ [fsp]
          ∧ cs1.length = 1 ∧ cs2.length = 1
          ∧ cov.Use = cstr "Pict" ∧ cov.Res = 3 + (usedBy (cstr "Pict") cs1).length
          ∧ fsp.Use = cstr "0" ∧ fsp.Type_ = cstr "Fspc" ∧ fsp.Length = 4
          ∧ fsp.Data = bigEndian cov.Res
          ∧ ∀ c ∈ index :: (cs1 ++ cov :: cs2), c.Type_ ≠ cstr "Fspc" :=
  ⟨by decide, by rfl,
    (frontispiece_of_entries exampleFs false false false false false [] coverEntries
      coverEntries_wellFormed coverIndexed (by rfl) (Or.inl rfl)).1 [pictEntry]
      { use := cstr "cover", id := none, file := cstr "cover.png" }
      [{ use := cstr "snd", id := some (cstr "mySound"), file := cstr "theme.ogg" }] rfl
      (by decide)⟩

/-! ## Identifiers and file paths -/

theorem strchr_allowed (c : Nat) (h : c ≠ 0) :
    strchr allowedSymbolsInIds (some c) = true ↔ c = 95 ∨ c = 45 := by
  have ha : allowedSymbolsInIds = [95, 45] := by decide
  simp [strchr, ha, h]

theorem isalpha_iff (c : Nat) : isalpha c = true ↔ (65 ≤ c ∧ c ≤ 90) ∨ (97 ≤ c ∧ c ≤ 122) := by
  simp [isalpha]

theorem isdigit_iff (c : Nat) : isdigit c = true ↔ 48 ≤ c ∧ c ≤ 57 := by
  simp [isdigit]

/-- C22. For a non-empty string (a C string: no character of it is NUL), `isId`
holds exactly when the first character is a letter, '_' or '-' and every later
character is a letter, a digit, '_' or '-'; a string with a '.' or a '/' is not
an identifier. -/
theorem C22_isId (c : Nat) (rest : List Nat) (hc : c ≠ 0) (hrest : ∀ x ∈ rest, x ≠ 0) :
    (isId (c :: rest) = true ↔ idFirst c ∧ ∀ x ∈ rest, idLater x)
      ∧ (46 ∈ c :: rest ∨ 47 ∈ c :: rest → isId (c :: rest) = false) := by
  have main : isId (c :: rest) = true ↔ idFirst c ∧ ∀ x ∈ rest, idLater x := by
    unfold isId
    simp only
    by_cases h1 : (isalpha c || strchr allowedSymbolsInIds (some c)) = true
    · rw [if_pos h1]
      have hf : idFirst c := by
        rw [Bool.or_eq_true, isalpha_iff, strchr_allowed c hc] at h1
        unfold idFirst
        tauto
      simp only [List.all_eq_true, hf, true_and]
      constructor
      · intro h x hx
        have := h x hx
        rw [Bool.or_eq_true, Bool.or_eq_true, isalpha_iff, isdigit_iff,
          strchr_allowed x (hrest x hx)] at this
        unfold idLater
        tauto
      · intro h x hx
        have := h x hx
        rw [Bool.or_eq_true, Bool.or_eq_true, isalpha_iff, isdigit_iff,
          strchr_allowed x (hrest x hx)]
        unfold idLater at this
        tauto
    · rw [if_neg h1]
      have hf : ¬ idFirst c := by
        rw [Bool.or_eq_true, isalpha_iff, strchr_allowed c hc] at h1
        unfold idFirst
        tauto
      simp [hf]
  refine ⟨main, ?_⟩
  intro hdot
  cases hid : isId (c :: rest) with
  | false => rfl
  | true =>
    exfalso
    obtain ⟨hf, hl⟩ := main.mp hid
    have bad : ∀ x, (x = 46 ∨ x = 47) → ¬ idFirst x ∧ ¬ idLater x := by
      intro x hx
      unfold idFirst idLater
      omega
    rcases hdot with h | h
    · rcases List.mem_cons.mp h with h | h
      · exact (bad c (Or.inl h.symm)).1 hf
      · exact (bad 46 (Or.inl rfl)).2 (hl 46 h)
    · rcases List.mem_cons.mp h with h | h
      · exact (bad c (Or.inr h.symm)).1 hf
      · exact (bad 47 (Or.inr rfl)).2 (hl 47 h)

/-- A witness of C22: `myPic` and `_a-1` are identifiers, `cover.png`, `1a` and
`a/b` are not. -/
theorem C22_isId_witness :
    isId (cstr "myPic") = true ∧ isId (cstr "_a-1") = true
      ∧ isId (cstr "cover.png") = false ∧ isId (cstr "a/b") = false
      ∧ isId (cstr "1a") = false :=
  ⟨(C22_isId 109 (cstr "yPic") (by decide) (by decide)).1.mpr (by decide),
    by decide,
    (C22_isId 99 (cstr "over.png") (by decide) (by decide)).2 (Or.inl (by decide)),
    (C22_isId 97 (cstr "/b") (by decide) (by decide)).2 (Or.inr (by decide)),
    by decide⟩

set_option maxRecDepth 100000 in
/-- C21 fails on the code. On the line `pict cover.png extra` the second token,
`cover.png`, is not an identifier; `readChunk` reads the file name with
`freadLine` up to the first space or tab, so the file opened is `cover.png`, not
`cover.png extra`, and `extra` stays in the control file, where the next call of
`readChunk` takes it for the usage of another entry: the build stops with
"Illegal use". -/
theorem C21_rest_of_line_left :
    isId (cstr "cover.png") = false
      ∧ readChunkRest { rest := cstr "cover.png extra\n", eof := false }
        = (cstr "cover.png", { rest := cstr "extra\n", eof := false })
      ∧ (match readChunk spacedFs (startStatus false false false false false [] spacedControl) with
        | .ok (some chunk, status) => some (chunk.Data, status.in_.rest)
        | _ => none) = some ([1, 2, 3], cstr "extra\n")
      ∧ buildIndex spacedFs (startStatus false false false false false [] spacedControl)
        = .error (.illegalUse 1 (cstr "ERR")) := by
  refine ⟨by decide, by rfl, by rfl, by rfl⟩

theorem isRelativePath_iff (p : List Nat) : isRelativePath p = false ↔ isAbsolute p := by
  unfold isAbsolute
  cases p with
  | nil => simp [isRelativePath]
  | cons c rest =>
    unfold isRelativePath
    simp only []
    by_cases h1 : c = 47 ∨ c = 92
    · rw [if_pos h1]
      rcases h1 with h | h
      · exact ⟨fun _ => Or.inl ⟨rest, by rw [h]⟩, fun _ => rfl⟩
      · exact ⟨fun _ => Or.inr (Or.inl ⟨rest, by rw [h]⟩), fun _ => rfl⟩
    · rw [if_neg h1]
      have n1 : ¬ ∃ r, c :: rest = 47 :: r := by
        rintro ⟨r, hr⟩
        exact h1 (Or.inl (List.cons.inj hr).1)
      have n2 : ¬ ∃ r, c :: rest = 92 :: r := by
        rintro ⟨r, hr⟩
        exact h1 (Or.inr (List.cons.inj hr).1)
      by_cases h2 : isalpha c = true
      · rw [if_pos h2]
        have hc := (isalpha_iff c).mp h2
        by_cases h3 : ∃ r, rest = 58 :: 92 :: r
        · obtain ⟨r, hr⟩ := h3
          subst hr
          exact ⟨fun _ => Or.inr (Or.inr ⟨c, r, rfl, hc⟩), fun _ => rfl⟩
        · constructor
          · intro h
            exfalso
            match rest, h3, h with
            | [], _, h => simp at h
            | [_], _, h => simp at h
            | a :: b :: r, h3, h =>
              by_cases ha : a = 58
              · by_cases hb : b = 92
                · exact h3 ⟨r, by rw [ha, hb]⟩
                · subst ha
                  split at h
                  · rename_i heq
                    exact hb (List.cons.inj (List.cons.inj heq).2).1
                  · cases h
              · split at h
                · rename_i heq
                  exact ha (List.cons.inj heq).1
                · cases h
          · rintro (h | h | ⟨c2, r, hr, _⟩)
            · exact absurd h n1
            · exact absurd h n2
            · exact absurd ⟨r, (List.cons.inj hr).2⟩ h3
      · rw [if_neg h2]
        constructor
        · intro h
          cases h
        · rintro (h | h | ⟨c2, r, hr, hc⟩)
          · exact absurd h n1
          · exact absurd h n2
          · exfalso
            rw [← (List.cons.inj hr).1] at hc
            exact h2 ((isalpha_iff c).mpr hc)

theorem lastSlashIndex_none (name : List Nat) :
    lastSlashIndex name = none ↔ ∀ c ∈ name, c ≠ 47 ∧ c ≠ 92 := by
  induction name with
  | nil => simp [lastSlashIndex]
  | cons x xs ih =>
    unfold lastSlashIndex
    cases h : lastSlashIndex xs with
    | some i =>
      have : ¬ ∀ c ∈ xs, c ≠ 47 ∧ c ≠ 92 := fun hh => by
        rw [ih.mpr hh] at h
        cases h
      simp only [List.mem_cons, forall_eq_or_imp]
      constructor
      · intro hh
        cases hh
      · intro hh
        exact absurd hh.2 this
    | none =>
      have hxs := ih.mp h
      simp only [List.mem_cons, forall_eq_or_imp]
      by_cases hx : x = 47 ∨ x = 92
      · simp only [if_pos hx]
        constructor
        · intro hh
          cases hh
        · intro hh
          exfalso
          rcases hx with hx | hx
          · exact hh.1.1 hx
          · exact hh.1.2 hx
      · simp only [if_neg hx]
        exact ⟨fun _ => ⟨by tauto, hxs⟩, fun _ => trivial⟩

theorem lastSlashIndex_some (name : List Nat) (i : Nat) (h : lastSlashIndex name = some i) :
    ∃ pre c rest, name = pre ++ c :: rest ∧ pre.length = i ∧ (c = 47 ∨ c = 92)
      ∧ ∀ x ∈ rest, x ≠ 47 ∧ x ≠ 92 := by
  induction name generalizing i with
  | nil => simp [lastSlashIndex] at h
  | cons x xs ih =>
    unfold lastSlashIndex at h
    cases hx : lastSlashIndex xs with
    | some j =>
      rw [hx] at h
      simp only [Option.some.injEq] at h
      obtain ⟨pre, c, rest, e, hl, hc, hr⟩ := ih j hx
      exact ⟨x :: pre, c, rest, by rw [e]; rfl, by rw [← h, List.length_cons, hl], hc, hr⟩
    | none =>
      rw [hx] at h
      simp only at h
      by_cases hs : x = 47 ∨ x = 92
      · rw [if_pos hs] at h
        simp only [Option.some.injEq] at h
        exact ⟨[], x, xs, rfl, by rw [← h]; rfl, hs, (lastSlashIndex_none xs).mp hx⟩
      · rw [if_neg hs] at h
        cases h

/-- The directory of a name: the name is the directory followed by a rest with
no '/' and no '\\', and the directory is empty or ends in one of them. -/
theorem getPathFromFileName_split (name : List Nat) :
    ∃ rest, name = getPathFromFileName name ++ rest
      ∧ (∀ x ∈ rest, x ≠ 47 ∧ x ≠ 92)
      ∧ (getPathFromFileName name = []
          ∨ ∃ pre c, getPathFromFileName name = pre ++ [c] ∧ (c = 47 ∨ c = 92)) := by
  unfold getPathFromFileName
  cases h : lastSlashIndex name with
  | none => exact ⟨name, rfl, (lastSlashIndex_none name).mp h, Or.inl rfl⟩
  | some i =>
    obtain ⟨pre, c, rest, e, hl, hc, hr⟩ := lastSlashIndex_some name i h
    have ht : List.take (i + 1) name = pre ++ [c] := by
      rw [e, ← hl]
      have : pre ++ c :: rest = (pre ++ [c]) ++ rest := by simp
      rw [this]
      have hlen : pre.length + 1 = (pre ++ [c]).length := by simp
      rw [hlen, List.take_left]
    refine ⟨rest, ?_, hr, Or.inr ⟨pre, c, ?_, hc⟩⟩
    · simp only [ht]
      rw [e]
      simp
    · simp only [ht]

/-- C23. With p the file path trimmed of spaces and tabs, `prepareFileName`
returns p when p is absolute and the directory of the control file followed by
p when it is not; p is absolute (`isRelativePath` is false) exactly when it
starts with '/' or '\\', or with a letter followed by ":\\". The directory
`getPathFromFileName` computes from a name is a prefix of the name, is empty or
ends in '/' or '\\', is at least as long as every prefix of the name that ends
in '/' or '\\', and is empty when the name has neither. -/
theorem C23_prepareFileName (buffer name : List Nat) (st : Status) :
    (isRelativePath (strTrim buffer FieldDelimiters) = false
        ↔ isAbsolute (strTrim buffer FieldDelimiters))
      ∧ (isAbsolute (strTrim buffer FieldDelimiters) →
          prepareFileName buffer st = strTrim buffer FieldDelimiters)
      ∧ (¬ isAbsolute (strTrim buffer FieldDelimiters) →
          prepareFileName buffer st = st.path ++ strTrim buffer FieldDelimiters)
      ∧ getPathFromFileName name <+: name
      ∧ (getPathFromFileName name = []
          ∨ ∃ pre c, getPathFromFileName name = pre ++ [c] ∧ (c = 47 ∨ c = 92))
      ∧ (∀ q pre c, q <+: name → q = pre ++ [c] → (c = 47 ∨ c = 92) →
          q.length ≤ (getPathFromFileName name).length)
      ∧ ((∀ x ∈ name, x ≠ 47 ∧ x ≠ 92) → getPathFromFileName name = []) := by
  refine ⟨isRelativePath_iff _, ?_, ?_, ?_, ?_, ?_, ?_⟩
  · intro h
    unfold prepareFileName
    simp only
    rw [if_neg]
    rw [(isRelativePath_iff _).mpr h]
    decide
  · intro h
    unfold prepareFileName
    simp only
    rw [if_pos]
    · rfl
    · cases hr : isRelativePath (strTrim buffer FieldDelimiters) with
      | true => rfl
      | false => exact absurd ((isRelativePath_iff _).mp hr) h
  · obtain ⟨rest, e, _, _⟩ := getPathFromFileName_split name
    exact ⟨rest, e.symm⟩
  · obtain ⟨rest, _, _, h⟩ := getPathFromFileName_split name
    exact h
  · intro q pre c hq hqe hc
    obtain ⟨rest, e, hr, _⟩ := getPathFromFileName_split name
    by_contra hlt
    push_neg at hlt
    obtain ⟨t, ht⟩ := hq
    generalize getPathFromFileName name = d at e hlt
    subst e
    -- the last character of q lies in rest
    have hmem : c ∈ rest := by
      have h2 : d.length ≤ pre.length := by
        rw [hqe] at hlt
        simp at hlt
        omega
      have h3 : rest = (d ++ rest).drop d.length := by simp
      rw [h3, ← ht, hqe, List.append_assoc, List.drop_append_of_le_length h2]
      simp
    rcases hc with hc | hc
    · exact (hr c hmem).1 hc
    · exact (hr c hmem).2 hc
  · intro h
    unfold getPathFromFileName
    rw [(lastSlashIndex_none name).mpr h]

/-- A witness of C23: resolving `cover.png` and `/img/cover.png` against the
directory of the control file `games/my/res.txt`. -/
theorem C23_prepareFileName_witness :
    getPathFromFileName (cstr "games/my/res.txt") = cstr "games/my/"
      ∧ getPathFromFileName (cstr "res.txt") = []
      ∧ prepareFileName (cstr "/img/cover.png")
          (startStatus false false false false false (cstr "games/my/") [])
        = cstr "/img/cover.png"
      ∧ prepareFileName (cstr " cover.png ")
          (startStatus false false false false false (cstr "games/my/") [])
        = cstr "games/my/cover.png" :=
  ⟨by decide,
    (C23_prepareFileName [] (cstr "res.txt") (initStatus false)).2.2.2.2.2.2 (by decide),
    (C23_prepareFileName (cstr "/img/cover.png") []
      (startStatus false false false false false (cstr "games/my/") [])).2.1
      (Or.inl ⟨cstr "img/cover.png", by decide⟩),
    by decide⟩

/-! ## The identifier codec at any position of the stream -/

theorem writeAt_cons (buf : List Nat) (off b : Nat) (bs : List Nat) :
    writeAt (writeAt buf off [b]) (off + 1) bs = writeAt buf off (b :: bs) := by
  unfold writeAt
  generalize hP : buf.take off ++ List.replicate (off - buf.length) 0 = P
  have hPl : P.length = off := by
    rw [← hP]
    simp
    omega
  have hPb : (P ++ [b]).length = off + 1 := by simp [hPl]
  have e1 : List.take (off + 1) (P ++ [b] ++ List.drop (off + [b].length) buf) = P ++ [b] := by
    rw [← hPb, List.take_left]
  have e2 : List.drop (off + 1 + bs.length) (P ++ [b] ++ List.drop (off + [b].length) buf)
      = List.drop (off + (b :: bs).length) buf := by
    have : off + 1 + bs.length = (P ++ [b]).length + bs.length := by rw [hPb]
    rw [this, List.drop_append, List.drop_drop]
    congr 1
    simp
    omega
  have e3 : off + 1 - (P ++ [b] ++ List.drop (off + [b].length) buf).length = 0 := by
    simp [hPl]
  rw [e1, e2, e3]
  simp

theorem foldl_fputByte (bs : List Nat) (f : FILE) (h : bs ≠ [] ∨ f.pos ≤ f.bytes.length) :
    bs.foldl fputByte f = { bytes := writeAt f.bytes f.pos bs, pos := f.pos + bs.length } := by
  induction bs generalizing f with
  | nil =>
    rcases h with h | h
    · exact absurd rfl h
    · cases f with
      | mk bytes pos =>
        simp only [List.foldl_nil, writeAt, List.length_nil, Nat.add_zero, List.append_nil]
        congr 1
        rw [Nat.sub_eq_zero_of_le h]
        simp
  | cons b bs ih =>
    have hb : (fputByte f b).pos ≤ (fputByte f b).bytes.length := by
      simp [fputByte, fwrite, writeAt]
      omega
    rw [List.foldl_cons, ih _ (Or.inr hb)]
    simp only [fputByte, fwrite, List.take_succ_cons, List.take_zero, List.length_cons,
      List.length_nil]
    rw [writeAt_cons]
    congr 1
    omega

theorem writeAt_length (buf : List Nat) (off : Nat) (bs : List Nat) :
    (writeAt buf off bs).length = max buf.length (off + bs.length) := by
  simp [writeAt]
  omega

theorem readInt_bigEndian (v : Nat) (h : v < 2 ^ 32) : readInt (bigEndian v) 0 = v := by
  simp [readInt, bigEndian]
  omega

/-- C28 fails on the code. For the 5-character string `ABCDE`, `writeId` writes
5 bytes, not 4: its first loop runs over every character of the string, with no
clamp of the length to `BlorbIdLen`. `strId` and `copyId`, which have the clamp,
keep the first 4 characters of the same string. -/
theorem C28_writeId_unclamped :
    (writeId FILE.empty (cstr "ABCDE")).bytes = cstr "ABCDE"
      ∧ (writeId FILE.empty (cstr "ABCDE")).bytes.length = 5
      ∧ (writeId FILE.empty (cstr "ABCDE")).pos = 5
      ∧ strId [0, 0, 0, 0, 0, 0] 0 (cstr "ABCDE") = cstr "ABCD" ++ [0, 0]
      ∧ copyId (cstr "ABCDE") = cstr "ABCD" := by
  decide

/-- For every string s, `writeId` writes at the position of the stream the
characters of s followed by `4 - length s` spaces, and moves the position after
them: for a string of at most 4 characters, as are all the tags the program
writes, that is exactly 4 bytes, the tag space-padded; for a longer string it is
every character of the string. `strId`, for every string, stores exactly 4
bytes: the first 4 characters of s, space-padded. -/
theorem writeId_bytes (f : FILE) (s A B C : List Nat) (hB : B.length = 4) :
    writeId f s =
        { bytes := writeAt f.bytes f.pos (s ++ List.replicate (4 - s.length) 32)
          pos := f.pos + max 4 s.length }
      ∧ (s.length ≤ 4 →
          s ++ List.replicate (4 - s.length) 32 = padId s ∧ (padId s).length = 4
            ∧ (writeId f s).pos = f.pos + 4)
      ∧ (4 ≤ s.length → writeId f s = fwrite s s.length f)
      ∧ strId (A ++ B ++ C) A.length s = A ++ padId s ++ C
      ∧ (padId s).length = 4 := by
  have hne : s ++ List.replicate (4 - s.length) 32 ≠ [] := by
    intro h
    have := congrArg List.length h
    rw [List.length_append, List.length_replicate, List.length_nil] at this
    omega
  have h1 : writeId f s =
      { bytes := writeAt f.bytes f.pos (s ++ List.replicate (4 - s.length) 32)
        pos := f.pos + max 4 s.length } := by
    have e : writeId f s = (s ++ List.replicate (4 - s.length) 32).foldl fputByte f := by
      rw [List.foldl_append]
      rfl
    rw [e, foldl_fputByte _ _ (Or.inl hne)]
    congr 1
    simp
    omega
  have hpl : (padId s).length = 4 := by
    simp [padId]
    omega
  refine ⟨h1, ?_, ?_, strId_mid A B C s hB, hpl⟩
  · intro hs
    refine ⟨?_, hpl, ?_⟩
    · simp [padId, List.take_of_length_le hs]
    · rw [h1]
      simp [hs]
  · intro hs
    rw [h1]
    have : 4 - s.length = 0 := by omega
    simp [fwrite, this, hs]

/-- The tag `PNG` written at the end of a stream, and stored in a buffer. -/
theorem writeId_bytes_example :
    writeId { bytes := [7, 7], pos := 2 } (cstr "PNG")
        = { bytes := [7, 7] ++ cstr "PNG ", pos := 6 }
      ∧ strId [0, 0, 0, 0, 0, 0] 1 (cstr "PNG") = [0] ++ cstr "PNG " ++ [0] :=
  ⟨(writeId_bytes { bytes := [7, 7], pos := 2 } (cstr "PNG") [0] [0, 0, 0, 0] [0] rfl).1.trans
      (by decide),
    (writeId_bytes { bytes := [7, 7], pos := 2 } (cstr "PNG") [0] [0, 0, 0, 0] [0] rfl).2.2.2.1.trans
      (by decide)⟩

/-- C29. For every value v below 2^32, `writeInt` writes at the position of the
stream, and `strLong` stores in the buffer, the same 4 bytes
`v / 2^24`, `(v / 2^16) mod 256`, `(v / 2^8) mod 256`, `v mod 256`, and reading
them back most significant byte first gives v; for every value w, what is
encoded is `w mod 2^32`. -/
theorem C29_big_endian (v w : Nat) (f : FILE) (A B C : List Nat) (hv : v < 2 ^ 32)
    (hB : B.length = 4) :
    writeInt f v =
        { bytes := writeAt f.bytes f.pos [v / 2 ^ 24, v / 2 ^ 16 % 256, v / 2 ^ 8 % 256, v % 256]
          pos := f.pos + 4 }
      ∧ strLong (A ++ B ++ C) A.length v
        = A ++ [v / 2 ^ 24, v / 2 ^ 16 % 256, v / 2 ^ 8 % 256, v % 256] ++ C
      ∧ readInt [v / 2 ^ 24, v / 2 ^ 16 % 256, v / 2 ^ 8 % 256, v % 256] 0 = v
      ∧ v / 2 ^ 24 < 256
      ∧ writeInt f w = writeInt f (w % 2 ^ 32)
      ∧ strLong (A ++ B ++ C) A.length w = strLong (A ++ B ++ C) A.length (w % 2 ^ 32) := by
  have hb : bigEndian v = [v / 2 ^ 24, v / 2 ^ 16 % 256, v / 2 ^ 8 % 256, v % 256] := by
    have : v / 2 ^ 24 % 256 = v / 2 ^ 24 := Nat.mod_eq_of_lt (by omega)
    rw [bigEndian, this]
  refine ⟨?_, ?_, ?_, by omega, ?_, ?_⟩
  · have e : writeInt f v = (bigEndian (v % 2 ^ 32)).foldl fputByte f := rfl
    rw [e, foldl_fputByte _ _ (Or.inl (by simp [bigEndian])), Nat.mod_eq_of_lt hv, hb]
    rfl
  · rw [strLong_mid A B C v hB, Nat.mod_eq_of_lt hv, hb]
  · rw [← hb]
    exact readInt_bigEndian v hv
  · simp only [writeInt, Nat.mod_mod]
  · simp only [strLong, Nat.mod_mod]

/-- A witness of C29: the value 0x01020304, and the value 2^32 + 5. -/
theorem C29_big_endian_witness :
    writeInt FILE.empty 16909060 = { bytes := [1, 2, 3, 4], pos := 4 }
      ∧ strLong [9, 0, 0, 0, 0, 9] 1 16909060 = [9, 1, 2, 3, 4, 9]
      ∧ writeInt FILE.empty (2 ^ 32 + 5) = writeInt FILE.empty 5 :=
  ⟨(C29_big_endian 16909060 0 FILE.empty [9] [0, 0, 0, 0] [9] (by decide) rfl).1.trans
      (by decide),
    (C29_big_endian 16909060 0 FILE.empty [9] [0, 0, 0, 0] [9] (by decide) rfl).2.1.trans
      (by decide),
    (C29_big_endian 16909060 (2 ^ 32 + 5) FILE.empty [9] [0, 0, 0, 0] [9] (by decide)
      rfl).2.2.2.2.1.trans (by decide)⟩

/-! ## Patching does not move anything -/

theorem writeAt_inside_length (buf : List Nat) (off : Nat) (bs : List Nat)
    (h : off + bs.length ≤ buf.length) : (writeAt buf off bs).length = buf.length := by
  rw [writeAt_length]
  omega

theorem writeAt_inside_get (buf : List Nat) (off : Nat) (bs : List Nat)
    (h : off + bs.length ≤ buf.length) (i : Nat) (hi : i < off ∨ off + bs.length ≤ i) :
    (writeAt buf off bs)[i]? = buf[i]? := by
  have h0 : off - buf.length = 0 := by omega
  unfold writeAt
  rw [h0]
  simp only [List.replicate_zero, List.append_nil]
  have hto : (buf.take off).length = off := by
    rw [List.length_take]
    omega
  rcases hi with hi | hi
  · rw [List.append_assoc, List.getElem?_append_left (by omega), List.getElem?_take_of_lt hi]
  · rw [List.getElem?_append_right (by simp; omega), List.getElem?_drop]
    congr 1
    simp
    omega

theorem writeInt_at (f : FILE) (v : Nat) :
    writeInt f v = { bytes := writeAt f.bytes f.pos (bigEndian (v % 2 ^ 32)), pos := f.pos + 4 } := by
  have e : writeInt f v = (bigEndian (v % 2 ^ 32)).foldl fputByte f := rfl
  rw [e, foldl_fputByte _ _ (Or.inl (by simp [bigEndian]))]
  rfl

theorem getElem?_append_congr (A B X : List Nat) (i : Nat) (hl : A.length = B.length)
    (h : A[i]? = B[i]?) : (A ++ X)[i]? = (B ++ X)[i]? := by
  by_cases hi : i < A.length
  · rw [List.getElem?_append_left hi, List.getElem?_append_left (by omega), h]
  · rw [List.getElem?_append_right (by omega), List.getElem?_append_right (by omega), hl]

theorem indexable_cons_length (c : Chunk) (cs : List Chunk) :
    (indexable (c :: cs)).length
      = (if c.Use ≠ cstr "0" then 1 else 0) + (indexable cs).length := by
  unfold indexable
  by_cases h : c.Use ≠ cstr "0"
  · rw [List.filter_cons_of_pos (by simpa using h), if_pos h, List.length_cons]
    omega
  · rw [List.filter_cons_of_neg (by simpa using h), if_neg h]
    omega

/-- The loop of `generateBlorb`, when each patch falls inside the bytes already
written: the stream ends as if the chunks had been written one after the other,
except at the patched positions. -/
theorem generateChunks_patch (offs : List Nat) (chunks : List Chunk) (out : FILE) (n : Nat)
    (hend : out.AtEnd)
    (hvalid : ∀ pre c post, chunks = pre ++ c :: post → c.Use ≠ cstr "0" →
      offs.getD (n + (indexable pre).length) 0 + 4
        ≤ out.bytes.length + (pre.flatMap chunkBytes).length) :
    (generateChunks offs chunks (out, n)).1.AtEnd
      ∧ (generateChunks offs chunks (out, n)).1.bytes.length
          = out.bytes.length + (chunks.flatMap chunkBytes).length
      ∧ (generateChunks offs chunks (out, n)).2 = n + (indexable chunks).length
      ∧ (∀ i, (∀ k, k < (indexable chunks).length →
            ¬ (offs.getD (n + k) 0 ≤ i ∧ i < offs.getD (n + k) 0 + 4)) →
          (generateChunks offs chunks (out, n)).1.bytes[i]?
            = (out.bytes ++ chunks.flatMap chunkBytes)[i]?)
      ∧ chunkStarts offs chunks (out, n)
          = (List.range chunks.length).map
              (fun j => out.bytes.length + ((chunks.take j).flatMap chunkBytes).length) := by
  induction chunks generalizing out n with
  | nil =>
    refine ⟨hend, by simp [generateChunks], by simp [generateChunks, indexable], ?_, rfl⟩
    intro i _
    simp [generateChunks]
  | cons c rest ih =>
    -- the stream after the step for c
    have step : ∃ B, B.length = out.bytes.length
        ∧ (∀ i, ¬ (c.Use ≠ cstr "0" ∧ offs.getD n 0 ≤ i ∧ i < offs.getD n 0 + 4) →
            B[i]? = out.bytes[i]?)
        ∧ generateChunk offs c (out, n)
          = ({ bytes := B ++ chunkBytes c, pos := (B ++ chunkBytes c).length },
              n + (if c.Use ≠ cstr "0" then 1 else 0)) := by
      by_cases hu : c.Use ≠ cstr "0"
      · have hv := hvalid [] c rest rfl hu
        simp only [indexable, List.filter_nil, List.length_nil, Nat.add_zero, List.flatMap_nil]
          at hv
        refine ⟨writeAt out.bytes (offs.getD n 0) (bigEndian (ftell out % 2 ^ 32)), ?_, ?_, ?_⟩
        · exact writeAt_inside_length _ _ _ (by simpa [bigEndian] using hv)
        · intro i hi
          apply writeAt_inside_get _ _ _ (by simpa [bigEndian] using hv)
          have : (bigEndian (ftell out % 2 ^ 32)).length = 4 := rfl
          rw [this]
          by_contra hc
          push_neg at hc
          exact hi ⟨hu, by omega, by omega⟩
        · unfold generateChunk
          simp only [hu, ne_eq, not_false_eq_true, if_true]
          rw [writeInt_at]
          simp only [fseek, ftell]
          have hat : FILE.AtEnd
              ⟨writeAt out.bytes (offs.getD n 0) (bigEndian (out.pos % 2 ^ 32)), out.pos⟩ := by
            unfold FILE.AtEnd at hend ⊢
            simp only
            rw [writeAt_inside_length _ _ _ (by simpa [bigEndian] using hv)]
            exact hend
          rw [writeChunk_append _ _ hat]
      · refine ⟨out.bytes, rfl, fun _ _ => rfl, ?_⟩
        unfold generateChunk
        simp only [hu, if_false]
        rw [writeChunk_append _ _ hend]
        rfl
    obtain ⟨B, hBl, hBg, hstep⟩ := step
    have hvalid2 : ∀ pre c2 post, rest = pre ++ c2 :: post → c2.Use ≠ cstr "0" →
        offs.getD (n + (if c.Use ≠ cstr "0" then 1 else 0) + (indexable pre).length) 0 + 4
          ≤ (B ++ chunkBytes c).length + (pre.flatMap chunkBytes).length := by
      intro pre c2 post hr hu2
      have := hvalid (c :: pre) c2 post (by rw [hr]; rfl) hu2
      rw [indexable_cons_length, List.flatMap_cons, List.length_append] at this
      rw [List.length_append, hBl]
      have e : n + (if c.Use ≠ cstr "0" then 1 else 0) + (indexable pre).length
          = n + ((if c.Use ≠ cstr "0" then 1 else 0) + (indexable pre).length) := by omega
      rw [e]
      omega
    obtain ⟨i1, i2, i3, i4, i5⟩ := ih ⟨B ++ chunkBytes c, (B ++ chunkBytes c).length⟩
      (n + (if c.Use ≠ cstr "0" then 1 else 0)) (atEnd_mk _) hvalid2
    have hg : generateChunks offs (c :: rest) (out, n)
        = generateChunks offs rest (generateChunk offs c (out, n)) := rfl
    rw [hg, hstep]
    refine ⟨i1, ?_, ?_, ?_, ?_⟩
    · rw [i2, List.flatMap_cons, List.length_append, List.length_append, hBl]
      omega
    · rw [i3, indexable_cons_length]
      omega
    · intro i hi
      rw [i4 i]
      · rw [List.flatMap_cons, ← List.append_assoc]
        show (B ++ chunkBytes c ++ rest.flatMap chunkBytes)[i]? = _
        apply getElem?_append_congr _ _ _ _ (by simp [hBl])
        apply getElem?_append_congr _ _ _ _ hBl
        apply hBg
        rintro ⟨hu, h1, h2⟩
        have := hi 0 (by rw [indexable_cons_length, if_pos hu]; omega)
        exact this ⟨h1, h2⟩
      · intro k hk hc
        have := hi ((if c.Use ≠ cstr "0" then 1 else 0) + k)
          (by rw [indexable_cons_length]; omega)
        rw [← Nat.add_assoc] at this
        exact this hc
    · show ftell out :: chunkStarts offs rest (generateChunk offs c (out, n)) = _
      rw [hstep, i5]
      have hft : ftell out = out.bytes.length := hend
      rw [hft, List.length_cons, List.range_succ_eq_map, List.map_cons, List.map_map]
      simp only [List.take_zero, List.flatMap_nil, List.length_nil, Nat.add_zero]
      congr 1
      apply List.map_congr_left
      intro j _
      simp only [Function.comp, List.take_succ_cons, List.flatMap_cons, List.length_append, hBl]
      omega

theorem headerOut_eq : headerOut = { bytes := headerBytes, pos := 12 } := by
  decide

theorem foldl_writeChunk (chunks : List Chunk) (out : FILE) (h : out.AtEnd) :
    (chunks.foldl writeChunk out).bytes = out.bytes ++ chunks.flatMap chunkBytes := by
  induction chunks generalizing out with
  | nil => simp
  | cons c rest ih =>
    rw [List.foldl_cons, writeChunk_append out c h, ih _ (atEnd_mk _)]
    simp

theorem plainSerialization_eq (chunks : List Chunk) :
    plainSerialization chunks = headerBytes ++ chunks.flatMap chunkBytes := by
  unfold plainSerialization
  rw [foldl_writeChunk _ _ (by rw [headerOut_eq]; rfl), headerOut_eq]

/-- The container against the plain serialization, when each patch falls inside
the bytes already written. -/
theorem generateBlorb_patch (st : Status)
    (hvalid : ∀ pre c post, st.BlorbChunks = pre ++ c :: post → c.Use ≠ cstr "0" →
      st.indexOffsets.getD (indexable pre).length 0 + 4 ≤ 12 + (pre.flatMap chunkBytes).length) :
    (container st).length = (plainSerialization st.BlorbChunks).length
      ∧ (plainSerialization st.BlorbChunks).length
          = 12 + (st.BlorbChunks.flatMap chunkBytes).length
      ∧ (∀ i, ¬ Patched st.indexOffsets (indexable st.BlorbChunks).length i →
          (container st)[i]? = (plainSerialization st.BlorbChunks)[i]?)
      ∧ chunkStarts st.indexOffsets st.BlorbChunks (headerOut, 0)
          = (List.range st.BlorbChunks.length).map
              (fun j => 12 + ((st.BlorbChunks.take j).flatMap chunkBytes).length) := by
  have hh : headerOut.AtEnd := by rw [headerOut_eq]; rfl
  have hhl : headerOut.bytes.length = 12 := by rw [headerOut_eq]; rfl
  have hhb : headerOut.bytes = headerBytes := by rw [headerOut_eq]
  obtain ⟨g1, g2, -, g4, g5⟩ := generateChunks_patch st.indexOffsets st.BlorbChunks headerOut 0 hh
    (by
      intro pre c post hc hu
      rw [Nat.zero_add, hhl]
      exact hvalid pre c post hc hu)
  rw [hhl] at g2
  have hpl : (plainSerialization st.BlorbChunks).length
      = 12 + (st.BlorbChunks.flatMap chunkBytes).length := by
    rw [plainSerialization_eq, List.length_append]
    rfl
  have hcont : container st
      = writeAt (generateChunks st.indexOffsets st.BlorbChunks (headerOut, 0)).1.bytes 4
          (bigEndian (((generateChunks st.indexOffsets st.BlorbChunks (headerOut, 0)).1.pos - 8)
            % 2 ^ 32)) := by
    unfold container generateBlorb
    simp only [writeInt_at, fseek, ftell]
    rfl
  have hin : 4 + (bigEndian (((generateChunks st.indexOffsets st.BlorbChunks
      (headerOut, 0)).1.pos - 8) % 2 ^ 32)).length
      ≤ (generateChunks st.indexOffsets st.BlorbChunks (headerOut, 0)).1.bytes.length := by
    rw [g2]
    simp [bigEndian]
    omega
  refine ⟨?_, hpl, ?_, ?_⟩
  · rw [hcont, writeAt_inside_length _ _ _ hin, g2, hpl]
  · intro i hi
    rw [hcont, writeAt_inside_get _ _ _ hin i, g4 i, hhb, plainSerialization_eq]
    · intro k hk hc
      rw [Nat.zero_add] at hc
      exact hi (Or.inr ⟨k, hk, hc⟩)
    · have : (bigEndian (((generateChunks st.indexOffsets st.BlorbChunks
          (headerOut, 0)).1.pos - 8) % 2 ^ 32)).length = 4 := rfl
      rw [this]
      by_contra hc
      exact hi (Or.inl (by omega))
  · rw [g5, hhl]

theorem chunkBytes_length_ge (c : Chunk) (ht : c.Type_ ≠ cstr "FORM")
    (hd : c.Length ≤ c.Data.length) : 8 + c.Length ≤ (chunkBytes c).length := by
  rw [chunkBytes_eq, if_pos ht]
  simp [bigEndian, List.length_take, Nat.min_eq_left hd, BlorbIdLen]
  omega

theorem indexable_length_append (pre post : List Chunk) :
    (indexable (pre ++ post)).length = (indexable pre).length + (indexable post).length := by
  unfold indexable
  rw [List.filter_append, List.length_append]

/-- A chunk list that starts with an index chunk large enough for the records
of the chunks after it, with the patch table `buildIndex` computes: each patch
falls inside the index chunk. -/
theorem indexFirst_valid (st : Status) (index : Chunk) (chunks : List Chunk)
    (hc : st.BlorbChunks = index :: chunks) (hu : index.Use = cstr "0")
    (ht : index.Type_ ≠ cstr "FORM")
    (hl : index.Length = 4 + 12 * (indexable chunks).length)
    (hd : index.Length ≤ index.Data.length)
    (ho : ∀ k, k < (indexable chunks).length → st.indexOffsets.getD k 0 = 32 + 12 * k) :
    ∀ pre c post, st.BlorbChunks = pre ++ c :: post → c.Use ≠ cstr "0" →
      st.indexOffsets.getD (indexable pre).length 0 + 4 ≤ 12 + (pre.flatMap chunkBytes).length := by
  intro pre c post hpc hcu
  rw [hc] at hpc
  cases pre with
  | nil =>
    exfalso
    have := (List.cons.inj hpc).1
    rw [this] at hu
    exact hcu hu
  | cons p pre2 =>
    have h1 := (List.cons.inj hpc).1
    have h2 : chunks = pre2 ++ c :: post := (List.cons.inj hpc).2
    subst h1
    have hk : (indexable pre2).length < (indexable chunks).length := by
      rw [h2, indexable_length_append, indexable_cons_length, if_pos hcu]
      omega
    rw [indexable_cons_neg _ _ hu, ho _ hk, List.flatMap_cons, List.length_append]
    have := chunkBytes_length_ge index ht hd
    omega

theorem chunkBytes_length (c : Chunk) (ht : c.Type_.length ≤ 4) (hd : c.Length ≤ c.Data.length) :
    (chunkBytes c).length
      = (if c.Type_ ≠ cstr "FORM" then 8 else 0) + c.Length + c.Length % 2 := by
  rw [chunkBytes_eq]
  have h2 := Nat.mod_two_eq_zero_or_one c.Length
  by_cases hf : c.Type_ ≠ cstr "FORM"
  · rw [if_pos hf, if_pos hf]
    rcases h2 with h | h <;>
      simp [bigEndian, List.length_take, Nat.min_eq_left hd, BlorbIdLen, h] <;> omega
  · rw [if_neg hf, if_neg hf]
    rcases h2 with h | h <;>
      simp [List.length_take, Nat.min_eq_left hd, h]

theorem flatMap_chunkBytes_even (chunks : List Chunk)
    (h : ∀ c ∈ chunks, c.Type_.length ≤ 4 ∧ c.Length ≤ c.Data.length) :
    (chunks.flatMap chunkBytes).length % 2 = 0 := by
  induction chunks with
  | nil => rfl
  | cons c rest ih =>
    have hc := h c (List.mem_cons_self _ _)
    have := chunkBytes_length c hc.1 hc.2
    have ih2 := ih (fun x hx => h x (List.mem_cons_of_mem _ hx))
    rw [List.flatMap_cons, List.length_append, this]
    split_ifs <;> omega

/-- What a successful build leaves: a chunk list that starts with the index
chunk, sized for the records of the chunks after it, the patch table pointing
at the offset fields of the records, every type tag of at most 4 characters and
every `Length` the length of the data. -/
theorem build_patchable (fs : List Nat → Option (List Nat))
    (verbose noBli onlyBli isShortExtension isGlulx : Bool) (path control : List Nat)
    (st : Status)
    (h : buildIndex fs (startStatus verbose noBli onlyBli isShortExtension isGlulx path control)
      = .ok st) :
    ∃ index chunks, st.BlorbChunks = index :: chunks ∧ index.Use = cstr "0"
      ∧ index.Type_ ≠ cstr "FORM"
      ∧ index.Length = 4 + 12 * (indexable chunks).length
      ∧ (∀ k, k < (indexable chunks).length → st.indexOffsets.getD k 0 = 32 + 12 * k)
      ∧ (∀ c ∈ st.BlorbChunks, c.Type_.length ≤ 4)
      ∧ (∀ c ∈ st.BlorbChunks, c.Length ≤ c.Data.length) := by
  obtain ⟨index, chunks, hc, hu, ht, hl, hd, hgood, -, ho, -⟩ :=
    container_eq fs verbose noBli onlyBli isShortExtension isGlulx path control st h
  have hdl : index.Data.length = index.Length := by
    rw [hd, hl, List.length_append, flatMap_indexRecordBytes_length]
    simp [bigEndian]
    omega
  refine ⟨index, chunks, hc, hu, by rw [ht]; decide, by rw [hl]; omega, ?_, ?_, ?_⟩
  · intro k hk
    rw [ho, List.getD_eq_getElem?_getD, List.getElem?_eq_getElem (by simpa using hk)]
    simp
  · intro c hcm
    rw [hc] at hcm
    rcases List.mem_cons.mp hcm with hci | hci
    · rw [hci, ht]
      decide
    · have := (hgood c hci).2.1
      revert this
      generalize c.Type_ = t
      intro ht2
      have hall : ∀ x ∈ cstr "Fspc" :: inferredTypes, x.length ≤ 4 := by decide
      exact hall t ht2
  · intro c hcm
    rw [hc] at hcm
    rcases List.mem_cons.mp hcm with hci | hci
    · rw [hci, hdl]
    · rw [(hgood c hci).2.2.1]

/-- C27. For a chunk list that starts with the index chunk (usage "0", a type
tag of at most 4 characters, data of 4 + 12 n bytes for the n indexed chunks
after it) and the patch table 32 + 12 k, as `buildIndex` leaves them: the
container `generateBlorb` writes has the length of the plain sequential
serialization, the tags "FORM", "latr", "IFRS" then the bytes `writeChunk`
writes for each chunk in order, and the same byte at every position other than
the 4 bytes at offset 4 and the 4 bytes at 32 + 12 k for k < n; each of these
offset fields lies in [24, 20 + 4 + 12 n), inside the data of the index chunk,
which the plain serialization holds from offset 20 on. -/
theorem C27_patch_refinement (st : Status) (index : Chunk) (chunks : List Chunk)
    (hc : st.BlorbChunks = index :: chunks) (hu : index.Use = cstr "0")
    (ht : index.Type_ ≠ cstr "FORM") (htl : index.Type_.length ≤ 4)
    (hl : index.Length = 4 + 12 * (indexable chunks).length)
    (hd : index.Length ≤ index.Data.length)
    (ho : ∀ k, k < (indexable chunks).length → st.indexOffsets.getD k 0 = 32 + 12 * k) :
    plainSerialization st.BlorbChunks
        = cstr "FORM" ++ cstr "latr" ++ cstr "IFRS" ++ st.BlorbChunks.flatMap chunkBytes
      ∧ (container st).length = (plainSerialization st.BlorbChunks).length
      ∧ (∀ i, ¬ ((4 ≤ i ∧ i < 8)
            ∨ ∃ k, k < (indexable chunks).length ∧ 32 + 12 * k ≤ i ∧ i < 32 + 12 * k + 4) →
          (container st)[i]? = (plainSerialization st.BlorbChunks)[i]?)
      ∧ (∀ k, k < (indexable chunks).length →
          24 ≤ 32 + 12 * k ∧ 32 + 12 * k + 4 ≤ 20 + 4 + 12 * (indexable chunks).length)
      ∧ ((plainSerialization st.BlorbChunks).drop 20).take (4 + 12 * (indexable chunks).length)
          = index.Data.take index.Length := by
  obtain ⟨p1, -, p3, -⟩ := generateBlorb_patch st (indexFirst_valid st index chunks hc hu ht hl hd ho)
  have hix : (indexable st.BlorbChunks).length = (indexable chunks).length := by
    rw [hc, indexable_cons_neg _ _ hu]
  refine ⟨plainSerialization_eq _, p1, ?_, fun k hk => ⟨by omega, by omega⟩, ?_⟩
  · intro i hi
    apply p3 i
    rintro (h | ⟨k, hk, h1, h2⟩)
    · exact hi (Or.inl h)
    · rw [hix] at hk
      rw [ho k hk] at h1 h2
      exact hi (Or.inr ⟨k, hk, h1, h2⟩)
  · rw [plainSerialization_eq, hc, List.flatMap_cons, chunkBytes_eq, if_pos ht,
      padId_of_le _ htl]
    have h20 : (20 : Nat) = (headerBytes ++ (padId index.Type_
        ++ bigEndian (index.Length % 2 ^ 32))).length := by
      simp [headerBytes, cstr, bigEndian, padId]
      omega
    have hsh : headerBytes ++ (padId index.Type_ ++ bigEndian (index.Length % 2 ^ 32)
          ++ List.take index.Length index.Data ++ (if index.Length % 2 ≠ 0 then [0] else [])
          ++ chunks.flatMap chunkBytes)
        = (headerBytes ++ (padId index.Type_ ++ bigEndian (index.Length % 2 ^ 32)))
          ++ (List.take index.Length index.Data ++ ((if index.Length % 2 ≠ 0 then [0] else [])
          ++ chunks.flatMap chunkBytes)) := by
      simp
    have htk : (List.take index.Length index.Data).length
        = 4 + 12 * (indexable chunks).length := by
      rw [List.length_take, Nat.min_eq_left hd, hl]
    rw [hsh, h20, List.drop_left, ← htk, List.take_left]

set_option maxRecDepth 100000 in
/-- A witness of C27: the container of the example build. -/
theorem C27_patch_refinement_witness :
    (container exampleIndexed).length = (plainSerialization exampleIndexed.BlorbChunks).length
      ∧ (container exampleIndexed)[12]? = (plainSerialization exampleIndexed.BlorbChunks)[12]?
      ∧ (container exampleIndexed)[35]? ≠ (plainSerialization exampleIndexed.BlorbChunks)[35]? :=
  ⟨(C27_patch_refinement exampleIndexed (exampleIndexed.BlorbChunks.headD Chunk.zero)
      exampleIndexed.BlorbChunks.tail (by rfl) (by rfl) (by decide) (by decide) (by rfl)
      (by decide) (by decide)).2.1,
    (C27_patch_refinement exampleIndexed (exampleIndexed.BlorbChunks.headD Chunk.zero)
      exampleIndexed.BlorbChunks.tail (by rfl) (by rfl) (by decide) (by decide) (by rfl)
      (by decide) (by decide)).2.2.1 12 (by decide),
    by decide⟩

/-- C30. For a chunk list as `buildIndex` leaves it (the index chunk first,
sized for the records of the chunks after it, with the patch table 32 + 12 k)
in which every type tag has at most 4 characters and every `Length` is within
the data: `writeChunk` appends 8 + Length + Length mod 2 bytes for a chunk, and
Length + Length mod 2 for a "FORM" chunk, an even number; the header
`generateBlorb` writes first is 12 bytes; the position at which `generateBlorb`
writes each chunk is even; and the length of the container is even. -/
theorem C30_even_offsets (st : Status) (index : Chunk) (chunks : List Chunk)
    (hc : st.BlorbChunks = index :: chunks) (hu : index.Use = cstr "0")
    (ht : index.Type_ ≠ cstr "FORM")
    (hl : index.Length = 4 + 12 * (indexable chunks).length)
    (ho : ∀ k, k < (indexable chunks).length → st.indexOffsets.getD k 0 = 32 + 12 * k)
    (htags : ∀ c ∈ st.BlorbChunks, c.Type_.length ≤ 4)
    (hdata : ∀ c ∈ st.BlorbChunks, c.Length ≤ c.Data.length) :
    (∀ c ∈ st.BlorbChunks,
        (chunkBytes c).length
            = (if c.Type_ ≠ cstr "FORM" then 8 else 0) + c.Length + c.Length % 2
          ∧ (chunkBytes c).length % 2 = 0)
      ∧ headerOut.bytes.length = 12 ∧ headerOut.pos = 12
      ∧ (chunkStarts st.indexOffsets st.BlorbChunks (headerOut, 0)).length
          = st.BlorbChunks.length
      ∧ (∀ p ∈ chunkStarts st.indexOffsets st.BlorbChunks (headerOut, 0), p % 2 = 0)
      ∧ (container st).length % 2 = 0 := by
  have hidx : index ∈ st.BlorbChunks := by
    rw [hc]
    exact List.mem_cons_self _ _
  obtain ⟨p1, p2, -, p4⟩ := generateBlorb_patch st
    (indexFirst_valid st index chunks hc hu ht hl (hdata index hidx) ho)
  have hall : ∀ c ∈ st.BlorbChunks, c.Type_.length ≤ 4 ∧ c.Length ≤ c.Data.length :=
    fun c hcm => ⟨htags c hcm, hdata c hcm⟩
  refine ⟨?_, by rw [headerOut_eq]; rfl, by rw [headerOut_eq], ?_, ?_, ?_⟩
  · intro c hcm
    have := chunkBytes_length c (htags c hcm) (hdata c hcm)
    refine ⟨this, ?_⟩
    rw [this]
    split_ifs <;> omega
  · rw [p4]
    simp
  · intro p hp
    rw [p4] at hp
    obtain ⟨j, -, hj⟩ := List.mem_map.mp hp
    have := flatMap_chunkBytes_even (st.BlorbChunks.take j)
      (fun c hcm => hall c (List.mem_of_mem_take hcm))
    omega
  · rw [p1, p2]
    have := flatMap_chunkBytes_even st.BlorbChunks hall
    omega

set_option maxRecDepth 100000 in
/-- A witness of C30: the example build writes its four chunks at the positions
12, 60, 72 and 82, and a container of 96 bytes. -/
theorem C30_even_offsets_witness :
    chunkStarts exampleIndexed.indexOffsets exampleIndexed.BlorbChunks (headerOut, 0)
        = [12, 60, 72, 82]
      ∧ (container exampleIndexed).length = 96
      ∧ (container exampleIndexed).length % 2 = 0 :=
  ⟨by decide, by decide,
    (C30_even_offsets exampleIndexed (exampleIndexed.BlorbChunks.headD Chunk.zero)
      exampleIndexed.BlorbChunks.tail (by rfl) (by rfl) (by decide) (by rfl)
      (by decide) (by decide) (by decide)).2.2.2.2.2⟩

/-! ## The options and the container -/

theorem eraseFlags_fields (a b : Status) (h : eraseFlags a = eraseFlags b) :
    a.nextChunkForPicts = b.nextChunkForPicts ∧ a.nextChunkForSnds = b.nextChunkForSnds
      ∧ a.nextChunkForExecs = b.nextChunkForExecs ∧ a.nextChunkForMeta = b.nextChunkForMeta
      ∧ a.onlyBli = b.onlyBli ∧ a.thereIsCover = b.thereIsCover ∧ a.coverChunk = b.coverChunk
      ∧ a.coverId = b.coverId ∧ a.thereIsBib = b.thereIsBib ∧ a.lineNumber = b.lineNumber
      ∧ a.BlorbChunks = b.BlorbChunks ∧ a.numberOfIndexEntries = b.numberOfIndexEntries
      ∧ a.indexOffsets = b.indexOffsets ∧ a.path = b.path ∧ a.in_ = b.in_ ∧ a.out = b.out :=
  ⟨(congrArg Status.nextChunkForPicts h :), (congrArg Status.nextChunkForSnds h :),
    (congrArg Status.nextChunkForExecs h :), (congrArg Status.nextChunkForMeta h :),
    (congrArg Status.onlyBli h :), (congrArg Status.thereIsCover h :), (congrArg Status.coverChunk h :),
    (congrArg Status.coverId h :), (congrArg Status.thereIsBib h :), (congrArg Status.lineNumber h :),
    (congrArg Status.BlorbChunks h :), (congrArg Status.numberOfIndexEntries h :),
    (congrArg Status.indexOffsets h :), (congrArg Status.path h :), (congrArg Status.in_ h :),
    (congrArg Status.out h :)⟩

theorem map_ok_erase (c : Chunk) (x y : Status) (h : eraseFlags x = eraseFlags y) :
    Except.map (Prod.map id eraseFlags) (.ok (c, x) : Except Failure (Chunk × Status))
      = Except.map (Prod.map id eraseFlags) (.ok (c, y)) := by
  simp only [Except.map, Prod.map, id, h]

/-- The type inferred for a file does not depend on the cleared flags. -/
theorem inferType_same (chunk : Chunk) (fileName : List Nat) (a b : Status)
    (h : eraseFlags a = eraseFlags b) :
    (inferType chunk fileName a).map (Prod.map id eraseFlags)
      = (inferType chunk fileName b).map (Prod.map id eraseFlags) := by
  have hl : a.lineNumber = b.lineNumber := (eraseFlags_fields a b h).2.2.2.2.2.2.2.2.2.1
  unfold inferType
  simp only
  generalize strtolower (getFileNameExt fileName) = ext
  by_cases h0 : ext = cstr "jpg"
  · rw [if_pos h0, if_pos h0]
    exact map_ok_erase _ _ _ h
  rw [if_neg h0, if_neg h0]
  by_cases h1 : ext = cstr "png"
  · rw [if_pos h1, if_pos h1]
    exact map_ok_erase _ _ _ h
  rw [if_neg h1, if_neg h1]
  by_cases h2 : ext = cstr "ogg"
  · rw [if_pos h2, if_pos h2]
    exact map_ok_erase _ _ _ h
  rw [if_neg h2, if_neg h2]
  by_cases h3 : ext = cstr "mod"
  · rw [if_pos h3, if_pos h3]
    exact map_ok_erase _ _ _ h
  rw [if_neg h3, if_neg h3]
  by_cases h4 : ext = cstr "aif"
  · rw [if_pos h4, if_pos h4]
    exact map_ok_erase _ _ _ h
  rw [if_neg h4, if_neg h4]
  by_cases h5 : ext = cstr "z5"
  · rw [if_pos h5, if_pos h5]
    exact map_ok_erase _ _ _ h
  rw [if_neg h5, if_neg h5]
  by_cases h6 : ext = cstr "z8"
  · rw [if_pos h6, if_pos h6]
    exact map_ok_erase _ _ _ h
  rw [if_neg h6, if_neg h6]
  by_cases h7 : ext = cstr "ulx"
  · rw [if_pos h7, if_pos h7]
    exact map_ok_erase _ _ _ h
  rw [if_neg h7, if_neg h7]
  by_cases h8 : ext = cstr "ifiction"
  · rw [if_pos h8, if_pos h8]
    exact map_ok_erase _ _ _ h
  rw [if_neg h8, if_neg h8]
  rw [hl]

theorem map_eq_cases {α β : Type} (g : α → β) (x y : Except Failure α)
    (h : x.map g = y.map g) :
    (∃ e, x = .error e ∧ y = .error e) ∨ (∃ u v, x = .ok u ∧ y = .ok v ∧ g u = g v) := by
  cases x with
  | error e =>
    cases y with
    | error e2 =>
      simp only [Except.map, Except.error.injEq] at h
      exact Or.inl ⟨e, rfl, by rw [h]⟩
    | ok v => simp [Except.map] at h
  | ok u =>
    cases y with
    | error e2 => simp [Except.map] at h
    | ok v =>
      simp only [Except.map, Except.ok.injEq] at h
      exact Or.inr ⟨u, v, rfl, rfl, h⟩

/-- The usage part of `readChunk` does not depend on the cleared flags. -/
theorem readChunkUse_same (buffer : List Nat) (toret : Chunk) (a b : Status)
    (h : eraseFlags a = eraseFlags b) :
    (readChunkUse buffer toret a).map (fun r => (r.1, eraseFlags r.2.1, r.2.2))
      = (readChunkUse buffer toret b).map (fun r => (r.1, eraseFlags r.2.1, r.2.2)) := by
  obtain ⟨f1, f2, f3, f4, f5, f6, f7, f8, f9, f10, f11, f12, f13, f14, f15, f16⟩ :=
    eraseFlags_fields a b h
  have hn : a.numberOfChunks = b.numberOfChunks := by
    unfold Status.numberOfChunks
    rw [f11]
  rw [readChunkUse_eq, readChunkUse_eq]
  cases cnvtToUsages buffer <;>
    simp only [f1, f2, f3, f4, f5, f6, f7, f8, f9, f10, f11, f12, f13, f14, f15, f16, hn] <;>
    (try split_ifs) <;>
    simp [Except.map, eraseFlags]

/-- The file part of `readChunk` does not depend on the cleared flags. -/
theorem readChunkFile_same (fs : List Nat → Option (List Nat)) (buffer : List Nat)
    (toret : Chunk) (use : Usages) (a b : Status) (h : eraseFlags a = eraseFlags b) :
    (readChunkFile fs buffer toret use a).map (Prod.map id eraseFlags)
      = (readChunkFile fs buffer toret use b).map (Prod.map id eraseFlags) := by
  have hp : prepareFileName buffer a = prepareFileName buffer b := by
    unfold prepareFileName
    rw [(eraseFlags_fields a b h).2.2.2.2.2.2.2.2.2.2.2.2.2.1]
  unfold readChunkFile
  simp only [bind, Except.bind, pure, Except.pure, throw, throwThe, MonadExceptOf.throw]
  rw [hp]
  rcases map_eq_cases _ _ _ (inferType_same toret (prepareFileName buffer b) a b h) with
    ⟨e, h1, h2⟩ | ⟨u, v, h1, h2, h3⟩
  · rw [h1, h2]
  · rw [h1, h2]
    obtain ⟨c1, a1⟩ := u
    obtain ⟨c2, b1⟩ := v
    simp only [Prod.map, id, Prod.mk.injEq] at h3
    obtain ⟨hc, hs⟩ := h3
    subst hc
    obtain ⟨f1, f2, f3, f4, f5, f6, f7, f8, f9, f10, f11, f12, f13, f14, f15, f16⟩ :=
      eraseFlags_fields a1 b1 hs
    have hn : a1.numberOfChunks = b1.numberOfChunks := by
      unfold Status.numberOfChunks
      rw [f11]
    simp only [f1, f2, f3, f4, f5, f6, f7, f8, f9, f10, f11, f12, f13, f14, f15, f16, hn]
    cases fs (prepareFileName buffer b) <;> simp only [] <;> split_ifs <;>
      simp_all [Except.map, eraseFlags]

theorem eraseFlags_in (a b : Status) (h : eraseFlags a = eraseFlags b) (f : InFile) :
    eraseFlags { a with in_ := f } = eraseFlags { b with in_ := f } :=
  (congrArg (fun s : Status => { s with in_ := f }) h :)

/-- The reading of an entry does not depend on the cleared flags. -/
theorem readChunk_same (fs : List Nat → Option (List Nat)) (a b : Status)
    (h : eraseFlags a = eraseFlags b) :
    (readChunk fs a).map (Prod.map id eraseFlags)
      = (readChunk fs b).map (Prod.map id eraseFlags) := by
  have hin : a.in_ = b.in_ := (eraseFlags_fields a b h).2.2.2.2.2.2.2.2.2.2.2.2.2.2.1
  rw [readChunk_eq, readChunk_eq, hin]
  generalize skipComments ((fgetc (skipDelimiters b.in_)).2.rest.length + 2)
    (fgetc (skipDelimiters b.in_)).1 (fgetc (skipDelimiters b.in_)).2 = sc
  match sc with
  | .error e => rfl
  | .ok (none, f) =>
    simp only [Except.map, Prod.map, id, eraseFlags_in a b h f]
  | .ok (some c, f) =>
    simp only
    rcases map_eq_cases _ _ _ (readChunkUse_same (freadLine (ungetc (some c) f)
      FieldDelimiters).1 Chunk.zero a b h) with ⟨e, h1, h2⟩ | ⟨u, v, h1, h2, h3⟩
    · rw [h1, h2]
    · rw [h1, h2]
      obtain ⟨t1, a1, u1⟩ := u
      obtain ⟨t2, b1, u2⟩ := v
      simp only [Prod.mk.injEq] at h3
      obtain ⟨ht, hs, hu⟩ := h3
      subst ht
      subst hu
      simp only
      by_cases hf : feof (skipDelimiters (freadLine (ungetc (some c) f) FieldDelimiters).2) = true
      · rw [if_pos hf, if_pos hf]
      · rw [if_neg hf, if_neg hf]
        rcases map_eq_cases _ _ _ (readChunkFile_same fs (readChunkRest
          (skipDelimiters (freadLine (ungetc (some c) f) FieldDelimiters).2)).1 t1 u1 a1 b1 hs)
          with ⟨e, h1, h2⟩ | ⟨u, v, h1, h2, h3⟩
        · rw [h1, h2]
        · rw [h1, h2]
          obtain ⟨k1, a2⟩ := u
          obtain ⟨k2, b2⟩ := v
          simp only [Prod.map, id, Prod.mk.injEq] at h3
          obtain ⟨hk, hs2⟩ := h3
          subst hk
          simp only [Except.map, Prod.map, id, eraseFlags_in a2 b2 hs2]

theorem storeChunk_same (a b : Status) (h : eraseFlags a = eraseFlags b) (chunk : Chunk) :
    eraseFlags (storeChunk a chunk) = eraseFlags (storeChunk b chunk) :=
  (congrArg (fun s : Status => storeChunk s chunk) h :)

theorem coverChunk_same (a b : Status) (h : eraseFlags a = eraseFlags b) :
    (coverChunk a).map eraseFlags = (coverChunk b).map eraseFlags := by
  obtain ⟨f1, f2, f3, f4, f5, f6, f7, f8, f9, f10, f11, f12, f13, f14, f15, f16⟩ :=
    eraseFlags_fields a b h
  have hn : a.numberOfChunks = b.numberOfChunks := by
    unfold Status.numberOfChunks
    rw [f11]
  have hfr : frontispiece a = frontispiece b := by
    unfold frontispiece
    rw [f4, f8]
  have hupd : ∀ x y, eraseFlags { a with nextChunkForMeta := x, BlorbChunks := y }
      = eraseFlags { b with nextChunkForMeta := x, BlorbChunks := y } :=
    fun x y => (congrArg (fun s : Status => { s with nextChunkForMeta := x, BlorbChunks := y }) h :)
  unfold coverChunk
  by_cases hc : a.thereIsCover = true
  · have hc2 : b.thereIsCover = true := by
      rw [← f6]
      exact hc
    rw [if_pos hc, if_pos hc2, hn]
    by_cases hcap : b.numberOfChunks ≥ MaxChunksBlorb
    · rw [if_pos hcap, if_pos hcap]
    · rw [if_neg hcap, if_neg hcap, hfr, f4, f11]
      simp only [Except.map, hupd]
  · have hc2 : ¬ b.thereIsCover = true := by
      rw [← f6]
      exact hc
    rw [if_neg hc, if_neg hc2]
    simp only [Except.map, h]

theorem indexChunk_same (a b : Status) (h : eraseFlags a = eraseFlags b) (n : Nat) :
    eraseFlags (indexChunk a n) = eraseFlags (indexChunk b n) := by
  obtain ⟨f1, f2, f3, f4, f5, f6, f7, f8, f9, f10, f11, f12, f13, f14, f15, f16⟩ :=
    eraseFlags_fields a b h
  have hupd : ∀ x y z,
      eraseFlags { a with BlorbChunks := x, indexOffsets := y, numberOfIndexEntries := z }
        = eraseFlags { b with BlorbChunks := x, indexOffsets := y, numberOfIndexEntries := z } :=
    fun x y z => (congrArg
      (fun s : Status => { s with BlorbChunks := x, indexOffsets := y, numberOfIndexEntries := z })
      h :)
  unfold indexChunk
  rw [f11, f12]
  cases b.BlorbChunks with
  | nil => exact h
  | cons index chunks =>
    simp only
    exact hupd _ _ _

section

attribute [local irreducible] readChunk storeChunk

/-- One turn of the first loop of `buildIndex`. -/
theorem loadChunks_step (fs : List Nat → Option (List Nat)) (fuel : Nat) (st : Status)
    (n : Nat) :
    loadChunks fs (fuel + 1) (st, n) =
      match readChunk fs st with
      | .error e => .error e
      | .ok (none, st1) => if !feof st1.in_ then loadChunks fs fuel (st1, n) else .ok (st1, n)
      | .ok (some chunk, st1) =>
        if st1.numberOfChunks ≥ MaxChunksBlorb then .error .chunkArrayOverrun
        else if !feof (storeChunk st1 chunk).in_ then
          loadChunks fs fuel (storeChunk st1 chunk, if chunk.Use ≠ cstr "0" then n + 1 else n)
        else .ok (storeChunk st1 chunk, if chunk.Use ≠ cstr "0" then n + 1 else n) := by
  rw [loadChunks]
  simp only [bind, Except.bind, pure, Except.pure]
  generalize readChunk fs st = r
  match r with
  | .error e => rfl
  | .ok (none, st1) => rfl
  | .ok (some chunk, st1) => simp only

/-- The first loop of `buildIndex` does not depend on the cleared flags. -/
theorem loadChunks_same (fs : List Nat → Option (List Nat)) (fuel : Nat) (a b : Status)
    (n : Nat) (h : eraseFlags a = eraseFlags b) :
    (loadChunks fs fuel (a, n)).map (Prod.map eraseFlags id)
      = (loadChunks fs fuel (b, n)).map (Prod.map eraseFlags id) := by
  induction fuel generalizing a b n with
  | zero => rfl
  | succ fuel ih =>
    rw [loadChunks_step, loadChunks_step]
    rcases map_eq_cases _ _ _ (readChunk_same fs a b h) with ⟨e, h1, h2⟩ | ⟨u, v, h1, h2, h3⟩
    · rw [h1, h2]
    · rw [h1, h2]
      obtain ⟨k1, a1⟩ := u
      obtain ⟨k2, b1⟩ := v
      simp only [Prod.map, id, Prod.mk.injEq] at h3
      obtain ⟨hk, hs⟩ := h3
      subst hk
      cases k1 with
      | none =>
        simp only
        rw [(eraseFlags_fields a1 b1 hs).2.2.2.2.2.2.2.2.2.2.2.2.2.2.1]
        split_ifs
        · exact ih a1 b1 n hs
        · simp only [Except.map, Prod.map, id, hs]
      | some chunk =>
        simp only
        have hn : a1.numberOfChunks = b1.numberOfChunks := by
          unfold Status.numberOfChunks
          rw [(eraseFlags_fields a1 b1 hs).2.2.2.2.2.2.2.2.2.2.1]
        have hs2 := storeChunk_same a1 b1 hs chunk
        rw [hn, (eraseFlags_fields _ _ hs2).2.2.2.2.2.2.2.2.2.2.2.2.2.2.1]
        generalize (if chunk.Use ≠ cstr "0" then n + 1 else n) = n1
        split_ifs
        · rfl
        · exact ih _ _ _ hs2
        · simp only [Except.map, Prod.map, id, hs2]

end

/-- The chunk list `buildIndex` leaves does not depend on the cleared flags. -/
theorem buildIndex_same (fs : List Nat → Option (List Nat)) (a b : Status)
    (h : eraseFlags a = eraseFlags b) :
    (buildIndex fs a).map eraseFlags = (buildIndex fs b).map eraseFlags := by
  have hin : a.in_ = b.in_ := (eraseFlags_fields a b h).2.2.2.2.2.2.2.2.2.2.2.2.2.2.1
  have h0 : eraseFlags (withIn (skipDelimiters b.in_) { a with BlorbChunks := [indexChunk0] })
      = eraseFlags (withIn (skipDelimiters b.in_) { b with BlorbChunks := [indexChunk0] }) :=
    (congrArg (fun s : Status =>
      withIn (skipDelimiters b.in_) { s with BlorbChunks := [indexChunk0] }) h :)
  rw [buildIndex_eq, buildIndex_eq, hin]
  have hload : ∀ (x y : Except Failure (Status × Nat)),
      x.map (Prod.map eraseFlags id) = y.map (Prod.map eraseFlags id) →
      (match x with
        | .error err => .error err
        | .ok (s, n) =>
          match coverChunk s with
          | .error err => .error err
          | .ok s => .ok (indexChunk s n) : Except Failure Status).map eraseFlags
      = (match y with
        | .error err => .error err
        | .ok (s, n) =>
          match coverChunk s with
          | .error err => .error err
          | .ok s => .ok (indexChunk s n) : Except Failure Status).map eraseFlags := by
    intro x y hxy
    rcases map_eq_cases _ _ _ hxy with ⟨e, h1, h2⟩ | ⟨u, v, h1, h2, h3⟩
    · rw [h1, h2]
    · rw [h1, h2]
      obtain ⟨a1, n1⟩ := u
      obtain ⟨b1, n2⟩ := v
      simp only [Prod.map, id, Prod.mk.injEq] at h3
      obtain ⟨hs, hn⟩ := h3
      subst hn
      simp only
      rcases map_eq_cases _ _ _ (coverChunk_same a1 b1 hs) with ⟨e, h1, h2⟩ | ⟨u, v, h1, h2, h3⟩
      · rw [h1, h2]
      · rw [h1, h2]
        simp only [Except.map, indexChunk_same u v h3 n1]
  apply hload
  split_ifs
  · exact loadChunks_same fs _ _ _ 0 h0
  · exact (congrArg (fun s => (Except.ok (s, 0) : Except Failure (Status × Nat))) h0 :)

theorem generateBlorb_chunks (a : Status) :
    (generateBlorb a).BlorbChunks = a.BlorbChunks
      ∧ (generateBlorb a).indexOffsets = a.indexOffsets := by
  unfold generateBlorb
  simp only [and_self]

theorem generateBlorb_out (a b : Status) (h1 : a.out = b.out)
    (h2 : a.indexOffsets = b.indexOffsets) (h3 : a.BlorbChunks = b.BlorbChunks) :
    (generateBlorb a).out = (generateBlorb b).out := by
  unfold generateBlorb
  simp only [h1, h2, h3]

theorem startStatus_same (verbose1 noBli1 short1 glulx1 : Bool)
    (verbose2 noBli2 short2 glulx2 onlyBli : Bool) (path control : List Nat) :
    eraseFlags (startStatus verbose1 noBli1 onlyBli short1 glulx1 path control)
      = eraseFlags (startStatus verbose2 noBli2 onlyBli short2 glulx2 path control) := by
  simp only [startStatus, initStatus, eraseFlags]

/-! ## Skipping comment lines and blank lines -/

theorem strchr_blank (c : Nat) (h : isBlank c = true) :
    (strchr FieldDelimiters (some c) || strchr LineDelimiters (some c)) = true := by
  simp only [isBlank, Bool.or_eq_true, beq_iff_eq] at h
  rcases h with (((h | h) | h) | h) | h <;> subst h <;> decide

theorem skipDelimitersFrom_blank (e : Bool) (c : Nat) (r : List Nat) (h : isBlank c = true) :
    skipDelimitersFrom e (c :: r) = skipDelimitersFrom e r := by
  rw [skipDelimitersFrom, if_pos (strchr_blank c h)]

theorem skipDelimitersFrom_eof (e : Bool) (r : List Nat) :
    skipDelimitersFrom e r = skipDelimitersFrom false r := by
  induction r with
  | nil => rfl
  | cons c r ih =>
    cases hb : isBlank c with
    | true => rw [skipDelimitersFrom_blank e c r hb, skipDelimitersFrom_blank false c r hb, ih]
    | false =>
      have h1 := skipDelimiters_cons c r e hb
      have h2 := skipDelimiters_cons c r false hb
      simp only [skipDelimiters] at h1 h2
      rw [h1, h2]

theorem skipDelimiters_eq (f : InFile) : skipDelimiters f = skipDelimitersFrom false f.rest := by
  rw [skipDelimiters, skipDelimitersFrom_eof]

theorem skipDelimitersFrom_blanks (ws r : List Nat) (h : ∀ x ∈ ws, isBlank x = true) :
    skipDelimitersFrom false (ws ++ r) = skipDelimitersFrom false r := by
  induction ws with
  | nil => rfl
  | cons c ws ih =>
    rw [List.cons_append, skipDelimitersFrom_blank false c _ (h c (List.mem_cons_self _ _)),
      ih (fun x hx => h x (List.mem_cons_of_mem _ hx))]

theorem skipDelimitersFrom_cons (c : Nat) (r : List Nat) (h : isBlank c = false) :
    skipDelimitersFrom false (c :: r) = { rest := c :: r, eof := false } := by
  have := skipDelimiters_cons c r false h
  simpa only [skipDelimiters] using this

/-- The outcome of `skipDelimiters`: the end of the file, or a character that is
not blank. -/
theorem skipDelimitersFrom_cases (r : List Nat) :
    (skipDelimitersFrom false r = { rest := [], eof := true } ∧ ∀ x ∈ r, isBlank x = true)
      ∨ ∃ ws c t, r = ws ++ c :: t ∧ (∀ x ∈ ws, isBlank x = true) ∧ isBlank c = false
          ∧ skipDelimitersFrom false r = { rest := c :: t, eof := false } := by
  induction r with
  | nil => exact Or.inl ⟨rfl, by simp⟩
  | cons c r ih =>
    cases hb : isBlank c with
    | true =>
      rw [skipDelimitersFrom_blank false c r hb]
      rcases ih with ⟨h1, h2⟩ | ⟨ws, d, t, h1, h2, h3, h4⟩
      · left
        refine ⟨h1, ?_⟩
        intro x hx
        rcases List.mem_cons.mp hx with rfl | hx
        · exact hb
        · exact h2 x hx
      · right
        refine ⟨c :: ws, d, t, by rw [h1]; rfl, ?_, h3, h4⟩
        intro x hx
        rcases List.mem_cons.mp hx with rfl | hx
        · exact hb
        · exact h2 x hx
    | false =>
      right
      exact ⟨[], c, r, rfl, by simp, hb, skipDelimitersFrom_cons c r hb⟩

theorem skipDelimiters_idem (r : List Nat) :
    skipDelimiters (skipDelimitersFrom false r) = skipDelimitersFrom false r := by
  rcases skipDelimitersFrom_cases r with ⟨h1, -⟩ | ⟨ws, c, t, -, -, h3, h4⟩
  · rw [h1]
    rfl
  · rw [h4]
    exact skipDelimiters_cons c t false h3

theorem skipDelimiters_skipEndOfLine (e : Bool) (r : List Nat) :
    skipDelimiters (skipEndOfLine e r) = skipDelimitersFrom false r := by
  induction r with
  | nil => rfl
  | cons c r ih =>
    by_cases hc : c = 13 ∨ c = 10
    · have hb : isBlank c = true := by
        rcases hc with rfl | rfl <;> decide
      rw [skipEndOfLine, if_pos hc, ih, skipDelimitersFrom_blank false c r hb]
    · rw [skipEndOfLine, if_neg hc]
      simp only [ungetc]
      rw [skipDelimiters_eq]

/-- The outcome of the last loop of `freadLine`: the end of the file, or a
character that does not end a line. -/
theorem skipEndOfLine_cases (e : Bool) (r : List Nat) :
    (skipEndOfLine e r = { rest := [], eof := true } ∧ ∀ x ∈ r, isBlank x = true)
      ∨ (skipEndOfLine e r).eof = false := by
  induction r with
  | nil => exact Or.inl ⟨rfl, by simp⟩
  | cons c r ih =>
    by_cases hc : c = 13 ∨ c = 10
    · have hb : isBlank c = true := by
        rcases hc with rfl | rfl <;> decide
      rw [skipEndOfLine, if_pos hc]
      rcases ih with ⟨h1, h2⟩ | h
      · left
        refine ⟨h1, ?_⟩
        intro x hx
        rcases List.mem_cons.mp hx with rfl | hx
        · exact hb
        · exact h2 x hx
      · exact Or.inr h
    · right
      rw [skipEndOfLine, if_neg hc]
      rfl

theorem skipDelimitersFrom_length (r : List Nat) :
    (skipDelimitersFrom false r).rest.length ≤ r.length := by
  rcases skipDelimitersFrom_cases r with ⟨h1, -⟩ | ⟨ws, c, t, h1, -, -, h4⟩
  · rw [h1]
    exact Nat.zero_le _
  · rw [h4, h1]
    simp

theorem freadLineChars_text (t r : List Nat) (ht : ∀ x ∈ t, x ≠ 0 ∧ x ≠ 10 ∧ x ≠ 13) :
    freadLineChars LineDelimiters (t ++ 10 :: r) = (t, r, false) := by
  induction t with
  | nil => simp [freadLineChars, strchr, lineDelimiters_eq]
  | cons c t ih =>
    obtain ⟨h0, h10, h13⟩ := ht c (List.mem_cons_self _ _)
    have h1 : strchr LineDelimiters (some c) = false := by
      simp [strchr, lineDelimiters_eq, h0, h10, h13]
    have ih2 := ih (fun x hx => ht x (List.mem_cons_of_mem _ hx))
    simp only [List.cons_append, freadLineChars, h1, Bool.not_false, Bool.true_and,
      List.append_eq, ih2]
    simp [h10, h13]

theorem freadLine_text (t r : List Nat) (b : Bool) (ht : ∀ x ∈ t, x ≠ 0 ∧ x ≠ 10 ∧ x ≠ 13) :
    freadLine { rest := t ++ 10 :: r, eof := b } LineDelimiters = (t, skipEndOfLine b r) := by
  simp [freadLine, freadLineChars_text t r ht]

theorem commentCharacters_spec :
    ∀ c ∈ CommentCharacters, isBlank c = false ∧ strchr CommentCharacters (some c) = true := by
  decide

theorem indent_blank (indent : List Nat) (h : ∀ x ∈ indent, x = 32 ∨ x = 9) :
    ∀ x ∈ indent ++ [10], isBlank x = true := by
  intro x hx
  rcases List.mem_append.mp hx with hx | hx
  · rcases h x hx with rfl | rfl <;> rfl
  · rw [List.mem_singleton.mp hx]
    rfl

section

attribute [local irreducible] freadLine skipDelimiters skipEndOfLine

theorem skipComments_comment (fuel : Nat) (c : Nat) (f : InFile)
    (h : strchr CommentCharacters (some c) = true) :
    skipComments (fuel + 1) (some c) f
      = skipComments fuel (fgetc (skipDelimiters (freadLine f LineDelimiters).2)).1
          (fgetc (skipDelimiters (freadLine f LineDelimiters).2)).2 := by
  rw [skipComments, if_pos h]

end

theorem skipComments_eof (fuel : Nat) (f : InFile) :
    skipComments (fuel + 1) none f = .ok (none, f) := by
  have : strchr CommentCharacters none = false := by decide
  simp [skipComments, this]

/-! ## Reading the line of an entry, whatever its layout -/

theorem space_blank (x : Nat) (h : x = 32 ∨ x = 9) : isBlank x = true := by
  rcases h with rfl | rfl <;> rfl

theorem eol_blank (x : Nat) (h : x = 13 ∨ x = 10) : isBlank x = true := by
  rcases h with rfl | rfl <;> rfl

theorem freadLineChars_blank (t r : List Nat) (d : Nat) (ht : ∀ c ∈ t, isBlank c = false)
    (hd : isBlank d = true) :
    freadLineChars FieldDelimiters (t ++ d :: r) = (t, r, false) := by
  induction t with
  | nil =>
    simp only [isBlank, Bool.or_eq_true, beq_iff_eq] at hd
    rcases hd with (((h | h) | h) | h) | h <;> subst h <;>
      simp [freadLineChars, strchr, fieldDelimiters_eq]
  | cons c t ih =>
    obtain ⟨h1, -⟩ := strchr_of_not_blank c (ht c (List.mem_cons_self _ _))
    obtain ⟨-, -, h10, h13, -⟩ := not_blank c (ht c (List.mem_cons_self _ _))
    have ih2 := ih (fun x hx => ht x (List.mem_cons_of_mem _ hx))
    simp only [List.cons_append, freadLineChars, h1, Bool.not_false, Bool.true_and,
      List.append_eq, ih2]
    simp [h10, h13]

theorem freadLine_blank (t r : List Nat) (d : Nat) (b : Bool)
    (ht : ∀ c ∈ t, isBlank c = false) (hd : isBlank d = true) :
    freadLine { rest := t ++ d :: r, eof := b } FieldDelimiters = (t, skipEndOfLine b r) := by
  simp [freadLine, freadLineChars_blank t r d ht hd]

theorem freadLineChars_eol (t r : List Nat) (d : Nat)
    (ht : ∀ x ∈ t, x ≠ 0 ∧ x ≠ 10 ∧ x ≠ 13) (hd : d = 13 ∨ d = 10) :
    freadLineChars LineDelimiters (t ++ d :: r) = (t, r, false) := by
  induction t with
  | nil => rcases hd with rfl | rfl <;> simp [freadLineChars, strchr, lineDelimiters_eq]
  | cons c t ih =>
    obtain ⟨h0, h10, h13⟩ := ht c (List.mem_cons_self _ _)
    have h1 : strchr LineDelimiters (some c) = false := by
      simp [strchr, lineDelimiters_eq, h0, h10, h13]
    have ih2 := ih (fun x hx => ht x (List.mem_cons_of_mem _ hx))
    simp only [List.cons_append, freadLineChars, h1, Bool.not_false, Bool.true_and,
      List.append_eq, ih2]
    simp [h10, h13]

theorem freadLine_eol (t r : List Nat) (d : Nat) (b : Bool)
    (ht : ∀ x ∈ t, x ≠ 0 ∧ x ≠ 10 ∧ x ≠ 13) (hd : d = 13 ∨ d = 10) :
    freadLine { rest := t ++ d :: r, eof := b } LineDelimiters = (t, skipEndOfLine b r) := by
  simp [freadLine, freadLineChars_eol t r d ht hd]

theorem skipEndOfLine_other (e : Bool) (c : Nat) (r : List Nat) (h10 : c ≠ 10) (h13 : c ≠ 13) :
    skipEndOfLine e (c :: r) = { rest := c :: r, eof := false } := by
  simp [skipEndOfLine, h10, h13, ungetc]

/-- After spaces and tabs followed by a character that is not blank, the last
loop of `freadLine` stops at once and `skipDelimiters` skips the spaces and
tabs. -/
theorem skip_spaces (e : Bool) (ws : List Nat) (c : Nat) (r : List Nat)
    (hws : ∀ x ∈ ws, x = 32 ∨ x = 9) (hc : isBlank c = false) :
    skipDelimiters (skipEndOfLine e (ws ++ c :: r)) = { rest := c :: r, eof := false } := by
  rw [skipDelimiters_skipEndOfLine, skipDelimitersFrom_blanks _ _ (fun x hx => space_blank x (hws x hx)),
    skipDelimitersFrom_cons c r hc]

theorem takeWhile_stop {p : Nat → Bool} (A : List Nat) (c : Nat) (B : List Nat)
    (hA : ∀ x ∈ A, p x = true) (hc : p c = false) : (A ++ c :: B).takeWhile p = A := by
  induction A with
  | nil => simp [List.takeWhile, hc]
  | cons a A ih =>
    have := ih (fun x hx => hA x (List.mem_cons_of_mem _ hx))
    rw [List.cons_append, List.takeWhile_cons, if_pos (hA a (List.mem_cons_self _ _)), this]

theorem strchr_space (x : Nat) (h : x = 32 ∨ x = 9) : strchr FieldDelimiters (some x) = true := by
  rcases h with rfl | rfl <;> decide

/-- `strTrim` takes the spaces and tabs that follow a token away. -/
theorem strTrim_trail (file trail : List Nat) (hf : file ≠ [])
    (hfb : ∀ c ∈ file, isBlank c = false) (ht : ∀ x ∈ trail, x = 32 ∨ x = 9) :
    strTrim (file ++ trail) FieldDelimiters = file := by
  have h1 : (file ++ trail).takeWhile (fun c => strchr FieldDelimiters (some c)) = [] := by
    cases hfl : file with
    | nil => exact absurd hfl hf
    | cons c s =>
      have := (strchr_of_not_blank c (hfb c (by rw [hfl]; exact List.mem_cons_self _ _))).1
      simp [List.takeWhile, this]
  have h2 : (file ++ trail).reverse.takeWhile (fun c => strchr FieldDelimiters (some c))
      = trail.reverse := by
    rw [List.reverse_append]
    cases hr : file.reverse with
    | nil =>
      have : file = [] := by simpa using hr
      exact absurd this hf
    | cons c r =>
      have hc : c ∈ file := by
        have : c ∈ file.reverse := by rw [hr]; exact List.mem_cons_self _ _
        exact List.mem_reverse.mp this
      exact takeWhile_stop _ c r
        (fun x hx => strchr_space x (ht x (List.mem_reverse.mp hx)))
        (strchr_of_not_blank c (hfb c hc)).1
  unfold strTrim
  simp only [h1, h2, List.length_nil, List.length_append, List.length_reverse, ne_eq,
    not_true_eq_false, false_and, if_false, Nat.add_sub_cancel]
  simp

theorem freadLineChars_end (t : List Nat) (ht : ∀ c ∈ t, isBlank c = false) :
    freadLineChars FieldDelimiters t = (t, [], true) := by
  induction t with
  | nil => rfl
  | cons c t ih =>
    obtain ⟨h1, -⟩ := strchr_of_not_blank c (ht c (List.mem_cons_self _ _))
    obtain ⟨-, -, h10, h13, -⟩ := not_blank c (ht c (List.mem_cons_self _ _))
    have ih2 := ih (fun x hx => ht x (List.mem_cons_of_mem _ hx))
    simp only [freadLineChars, h1, Bool.not_false, Bool.true_and, ih2]
    simp [h10, h13]

/-- A token that ends with the file is read whole, and the file is at its
end. -/
theorem freadLine_end (t : List Nat) (b : Bool) (ht : ∀ c ∈ t, isBlank c = false) :
    freadLine { rest := t, eof := b } FieldDelimiters = (t, { rest := [], eof := true }) := by
  simp [freadLine, freadLineChars_end t ht, skipEndOfLine]

theorem freadLineChars_text_end (t : List Nat) (ht : ∀ x ∈ t, x ≠ 0 ∧ x ≠ 10 ∧ x ≠ 13) :
    freadLineChars LineDelimiters t = (t, [], true) := by
  induction t with
  | nil => rfl
  | cons c t ih =>
    obtain ⟨h0, h10, h13⟩ := ht c (List.mem_cons_self _ _)
    have h1 : strchr LineDelimiters (some c) = false := by
      simp [strchr, lineDelimiters_eq, h0, h10, h13]
    have ih2 := ih (fun x hx => ht x (List.mem_cons_of_mem _ hx))
    simp only [freadLineChars, h1, Bool.not_false, Bool.true_and, ih2]
    simp [h10, h13]

/-- A line that ends with the file is read whole, and the file is at its end. -/
theorem freadLine_text_end (t : List Nat) (b : Bool) (ht : ∀ x ∈ t, x ≠ 0 ∧ x ≠ 10 ∧ x ≠ 13) :
    freadLine { rest := t, eof := b } LineDelimiters = (t, { rest := [], eof := true }) := by
  simp [freadLine, freadLineChars_text_end t ht, skipEndOfLine]

theorem renderLines_append (a b : List Line) :
    renderLines (a ++ b) = renderLines a ++ renderLines b := by
  induction a with
  | nil => rfl
  | cons l a ih => simp [renderLines, ih]

theorem entriesOf_append (a b : List Line) : entriesOf (a ++ b) = entriesOf a ++ entriesOf b := by
  induction a with
  | nil => rfl
  | cons l a ih =>
    cases l with
    | entry e lay => simp [entriesOf, ih]
    | comment indent c text eol => simpa [entriesOf] using ih
    | blank indent eol => simpa [entriesOf] using ih

theorem blank_line (indent eol : List Nat) (hi : ∀ x ∈ indent, x = 32 ∨ x = 9)
    (he : ∀ x ∈ eol, x = 13 ∨ x = 10) : ∀ x ∈ indent ++ eol, isBlank x = true := by
  intro x hx
  rcases List.mem_append.mp hx with hx | hx
  · exact space_blank x (hi x hx)
  · exact eol_blank x (he x hx)


theorem endedButLast_tail (x : Line) (ls : List Line) (h : EndedButLast (x :: ls)) :
    EndedButLast ls :=
  fun ls1 y ls2 h1 h2 => h (x :: ls1) y ls2 (by rw [h1]; rfl) h2

theorem endedButLast_suffix (a b : List Line) (h : EndedButLast (a ++ b)) : EndedButLast b :=
  fun ls1 y ls2 h1 h2 => h (a ++ ls1) y ls2 (by rw [h1, List.append_assoc]) h2

theorem endedButLast_init (a b : List Line) (h : EndedButLast (a ++ b)) : EndedButLast a :=
  fun ls1 y ls2 h1 h2 => h ls1 y (ls2 ++ b) (by rw [h1, List.append_assoc]; rfl) (by simp [h2])

theorem endedButLast_before (a : List Line) (x : Line) (b : List Line)
    (h : EndedButLast (a ++ x :: b)) : ∀ y ∈ a, y.Ended := by
  intro y hy
  obtain ⟨a1, a2, rfl⟩ := List.append_of_mem hy
  exact h a1 y (a2 ++ x :: b) (by simp) (by simp)

theorem endedButLast_head (x : Line) (ls : List Line) (h : EndedButLast (x :: ls))
    (hne : ls ≠ []) : x.Ended :=
  h [] x ls rfl hne

/-- The loop of `readChunk` that skips the commented lines, on comment lines and
blank lines followed by the end of the file or by a character that is neither
blank nor a comment character: the lines are skipped. -/
theorem skipComments_fillers (F : List Line) (hF : ∀ l ∈ F, l.WellFormed)
    (hE : entriesOf F = []) (hend : EndedButLast F) (R : List Nat)
    (hR : R = [] ∨ ∃ c r, R = c :: r ∧ isBlank c = false
      ∧ strchr CommentCharacters (some c) = false)
    (hRe : R ≠ [] → ∀ x ∈ F, x.Ended) :
    ∀ fuel, (skipDelimitersFrom false (renderLines F ++ R)).rest.length < fuel →
      skipComments fuel (fgetc (skipDelimitersFrom false (renderLines F ++ R))).1
          (fgetc (skipDelimitersFrom false (renderLines F ++ R))).2
        = .ok (R.head?, { rest := R.tail, eof := R.isEmpty }) := by
  induction F with
  | nil =>
    intro fuel hfuel
    obtain ⟨k, rfl⟩ : ∃ k, fuel = k + 1 := ⟨fuel - 1, by omega⟩
    rcases hR with rfl | ⟨c, r, rfl, hb, hc⟩
    · exact skipComments_eof k _
    · simp only [renderLines, List.nil_append]
      rw [skipDelimitersFrom_cons c r hb]
      exact skipComments_pass k c _ hc
  | cons l F ih =>
    intro fuel hfuel
    have hF2 : ∀ l ∈ F, l.WellFormed := fun x hx => hF x (List.mem_cons_of_mem _ hx)
    have hend2 : EndedButLast F := endedButLast_tail l F hend
    have hRe2 : R ≠ [] → ∀ x ∈ F, x.Ended := fun h x hx => hRe h x (List.mem_cons_of_mem _ hx)
    cases l with
    | entry e lay => simp [entriesOf] at hE
    | blank indent eol =>
      obtain ⟨hw, he⟩ : (∀ x ∈ indent, x = 32 ∨ x = 9) ∧ ∀ x ∈ eol, x = 13 ∨ x = 10 :=
        hF _ (List.mem_cons_self _ _)
      have hs : renderLines (Line.blank indent eol :: F) ++ R
          = (indent ++ eol) ++ (renderLines F ++ R) := by
        simp [renderLines, Line.render]
      rw [hs, skipDelimitersFrom_blanks _ _ (blank_line indent eol hw he)] at hfuel ⊢
      exact ih hF2 hE hend2 hRe2 fuel hfuel
    | comment indent c text eol =>
      obtain ⟨hw, hc, ht, he⟩ : (∀ x ∈ indent, x = 32 ∨ x = 9) ∧ c ∈ CommentCharacters
          ∧ (∀ x ∈ text, x ≠ 0 ∧ x ≠ 10 ∧ x ≠ 13) ∧ ∀ x ∈ eol, x = 13 ∨ x = 10 :=
        hF _ (List.mem_cons_self _ _)
      obtain ⟨hcb, hcc⟩ := commentCharacters_spec c hc
      have hwb : ∀ x ∈ indent, isBlank x = true := fun x hx => space_blank x (hw x hx)
      cases eol with
      | nil =>
        have hF0 : F = [] := by
          by_contra hne
          exact endedButLast_head _ F hend hne rfl
        have hR0 : R = [] := by
          by_contra hne
          exact hRe hne _ (List.mem_cons_self _ _) rfl
        subst hF0
        subst hR0
        have hs : renderLines [Line.comment indent c text []] ++ []
            = indent ++ c :: text := by
          simp [renderLines, Line.render]
        rw [hs, skipDelimitersFrom_blanks _ _ hwb, skipDelimitersFrom_cons c _ hcb] at hfuel ⊢
        obtain ⟨k, rfl⟩ : ∃ k, fuel = k + 1 := ⟨fuel - 1, by simp at hfuel; omega⟩
        obtain ⟨j, rfl⟩ : ∃ j, k = j + 1 := ⟨k - 1, by simp at hfuel; omega⟩
        simp only [fgetc]
        rw [skipComments_comment (j + 1) c _ hcc, freadLine_text_end text false ht]
        exact skipComments_eof j _
      | cons d eol1 =>
        have hd : d = 13 ∨ d = 10 := he d (List.mem_cons_self _ _)
        have he1 : ∀ x ∈ eol1, isBlank x = true := fun x hx =>
          eol_blank x (he x (List.mem_cons_of_mem _ hx))
        have hs : renderLines (Line.comment indent c text (d :: eol1) :: F) ++ R
            = indent ++ c :: (text ++ d :: (eol1 ++ (renderLines F ++ R))) := by
          simp [renderLines, Line.render]
        rw [hs, skipDelimitersFrom_blanks _ _ hwb, skipDelimitersFrom_cons c _ hcb] at hfuel ⊢
        obtain ⟨k, rfl⟩ : ∃ k, fuel = k + 1 := ⟨fuel - 1, by simp at hfuel; omega⟩
        simp only [fgetc]
        rw [skipComments_comment k c _ hcc, freadLine_eol text _ d false ht hd,
          skipDelimiters_skipEndOfLine, skipDelimitersFrom_blanks _ _ he1]
        apply ih hF2 hE hend2 hRe2 k
        have := skipDelimitersFrom_length (renderLines F ++ R)
        rw [List.length_append] at this
        simp at hfuel
        omega

theorem entry_rest_laid (e : Entry) (l : Layout) (hwf : e.WellFormed) (r : List Nat) :
    ∃ c t, (match e.id with
      | some i => i ++ l.idSep
      | none => []) ++ (e.file ++ (l.trail ++ l.eol)) ++ r = c :: t ∧ isBlank c = false := by
  obtain ⟨-, -, -, hf, hfb, hid⟩ := hwf
  cases hi : e.id with
  | none =>
    cases hfl : e.file with
    | nil => exact absurd hfl hf
    | cons c t =>
      exact ⟨c, t ++ (l.trail ++ l.eol) ++ r, by simp,
        hfb c (by rw [hfl]; exact List.mem_cons_self _ _)⟩
  | some i =>
    rw [hi] at hid
    cases hil : i with
    | nil => exact absurd hil (isId_ne_nil i hid.1)
    | cons c t =>
      exact ⟨c, t ++ l.idSep ++ (e.file ++ (l.trail ++ l.eol)) ++ r, by simp,
        hid.2 c (by rw [hil]; exact List.mem_cons_self _ _)⟩

/-- The second part of the line of a well-formed entry is read as its file
path, whatever the layout of the line and whatever follows the line: the control
file is left after blanks of the end of the line. A line without an end of line
is the last of the file. -/
theorem readChunkRest_tail (e : Entry) (l : Layout) (T X : List Nat) (hwf : e.WellFormed)
    (hl : l.WellFormed) (hT : l.eol = [] → T = [])
    (hX : X = (match e.id with
      | some i => i ++ l.idSep
      | none => []) ++ (e.file ++ (l.trail ++ l.eol)) ++ T) :
    ∃ Z, (∀ x ∈ Z, isBlank x = true)
      ∧ readChunkRest { rest := X, eof := false } = (e.file, skipEndOfLine false (Z ++ T)) := by
  subst hX
  obtain ⟨-, -, -, hf, hfb, hid⟩ := hwf
  obtain ⟨-, -, -, hin, his, htr, hel⟩ := hl
  have hte : ∀ x ∈ l.trail ++ l.eol, isBlank x = true := blank_line _ _ htr hel
  cases hi : e.id with
  | none =>
    rw [hi] at hid
    simp only at hid
    cases hz : l.trail ++ l.eol with
    | nil =>
      have hT0 := hT (List.append_eq_nil.mp hz).2
      subst hT0
      refine ⟨[], fun x hx => absurd hx (List.not_mem_nil x), ?_⟩
      have h1 : ([] : List Nat) ++ (e.file ++ []) ++ [] = e.file := by simp
      simp only [h1]
      unfold readChunkRest
      rw [freadLine_end e.file false hfb]
      simp only [hid]
      rfl
    | cons d Z =>
      rw [hz] at hte
      refine ⟨Z, fun x hx => hte x (List.mem_cons_of_mem _ hx), ?_⟩
      have h1 : ([] : List Nat) ++ (e.file ++ d :: Z) ++ T = e.file ++ d :: (Z ++ T) := by simp
      simp only [h1]
      unfold readChunkRest
      rw [freadLine_blank e.file _ d false hfb (hte d (List.mem_cons_self _ _))]
      simp only [hid]
      rfl
  | some i =>
    rw [hi] at hid
    simp only at hid
    obtain ⟨hid1, hid2⟩ := hid
    cases hs : l.idSep with
    | nil => exact absurd hs hin
    | cons s0 S =>
      have hS : ∀ x ∈ S, x = 32 ∨ x = 9 := fun x hx =>
        his x (by rw [hs]; exact List.mem_cons_of_mem _ hx)
      have hs0 : isBlank s0 = true :=
        space_blank s0 (his s0 (by rw [hs]; exact List.mem_cons_self _ _))
      cases hfl : e.file with
      | nil => exact absurd hfl hf
      | cons c t =>
        have hc : isBlank c = false := hfb c (by rw [hfl]; exact List.mem_cons_self _ _)
        have htext : ∀ x ∈ (c :: t) ++ l.trail, x ≠ 0 ∧ x ≠ 10 ∧ x ≠ 13 := by
          intro x hx
          rcases List.mem_append.mp hx with hx | hx
          · obtain ⟨a0, -, a10, a13, -⟩ := not_blank x (hfb x (by rw [hfl]; exact hx))
            exact ⟨a0, a10, a13⟩
          · rcases htr x hx with rfl | rfl <;> decide
        cases he : l.eol with
        | nil =>
          have hT0 := hT he
          subst hT0
          refine ⟨[], fun x hx => absurd hx (List.not_mem_nil x), ?_⟩
          have h1 : i ++ s0 :: S ++ ((c :: t) ++ (l.trail ++ [])) ++ []
              = i ++ s0 :: (S ++ c :: (t ++ l.trail)) := by simp
          simp only [h1]
          unfold readChunkRest
          rw [freadLine_blank i _ s0 false hid2 hs0]
          simp only [hid1, if_true]
          rw [skip_spaces false S c _ hS hc]
          have h3 : c :: (t ++ l.trail) = (c :: t) ++ l.trail := by simp
          rw [h3, freadLine_text_end _ false htext]
          simp only
          rw [strTrim_trail (c :: t) l.trail (by simp)
            (fun x hx => hfb x (by rw [hfl]; exact hx)) htr]
          rfl
        | cons d Z =>
          have hd : d = 13 ∨ d = 10 := hel d (by rw [he]; exact List.mem_cons_self _ _)
          refine ⟨Z, fun x hx => eol_blank x (hel x (by rw [he]; exact List.mem_cons_of_mem _ hx)),
            ?_⟩
          have h1 : i ++ s0 :: S ++ ((c :: t) ++ (l.trail ++ d :: Z)) ++ T
              = i ++ s0 :: (S ++ c :: (t ++ l.trail ++ d :: (Z ++ T))) := by simp
          simp only [h1]
          unfold readChunkRest
          rw [freadLine_blank i _ s0 false hid2 hs0]
          simp only [hid1, if_true]
          rw [skip_spaces false S c _ hS hc]
          have h3 : c :: (t ++ l.trail ++ d :: (Z ++ T))
              = ((c :: t) ++ l.trail) ++ d :: (Z ++ T) := by simp
          rw [h3, freadLine_eol _ _ d false htext hd]
          simp only
          rw [strTrim_trail (c :: t) l.trail (by simp)
            (fun x hx => hfb x (by rw [hfl]; exact hx)) htr]

theorem fgetc_length (f : InFile) : f.rest.length ≤ (fgetc f).2.rest.length + 1 := by
  unfold fgetc
  cases h : f.rest with
  | nil => simp
  | cons c r => simp

theorem endedButLast_of_all (ls : List Line) (h : ∀ x ∈ ls, x.Ended) : EndedButLast ls := by
  intro ls1 x ls2 h1 _
  exact h x (by rw [h1]; simp)

section

attribute [local irreducible] skipComments freadLine skipDelimiters readChunkRest readChunkUse
  readChunkFile skipEndOfLine skipDelimitersFrom

/-- On a control file that starts with comment lines and blank lines followed by
the line of a well-formed entry, whatever its layout, `readChunk` skips the
lines, reads the tokens of the entry, does the two parts of `entryStep`, and
leaves the control file after the line of the entry, or in the blanks that end
it. A line without an end of line is the last of the file. -/
theorem readChunk_lines (fs : List Nat → Option (List Nat)) (st : Status) (F : List Line)
    (e : Entry) (l : Layout) (T : List Nat) (hF : ∀ x ∈ F, x.WellFormed)
    (hE : entriesOf F = []) (hFe : ∀ x ∈ F, x.Ended) (hwf : e.WellFormed) (hl : l.WellFormed)
    (hT : l.eol = [] → T = [])
    (hin : skipDelimiters st.in_
      = skipDelimitersFrom false (renderLines F ++ (e.renderWith l ++ T))) :
    ∃ Z, (∀ x ∈ Z, isBlank x = true) ∧
      readChunk fs st =
        match entryStep fs st e with
        | .error err => .error err
        | .ok (chunk, st1) => .ok (chunk, withIn (skipEndOfLine false (Z ++ T)) st1) := by
  obtain ⟨c1, t1, hr1, hb1⟩ := entry_rest_laid e l hwf T
  obtain ⟨Z, hZ, hrest⟩ := readChunkRest_tail e l T (c1 :: t1) hwf hl hT hr1.symm
  refine ⟨Z, hZ, ?_⟩
  obtain ⟨hu, hub, hcom, -⟩ := hwf
  obtain ⟨hind, hsn, hsp, -⟩ := hl
  obtain ⟨s0, S, hsep⟩ := List.exists_cons_of_ne_nil hsn
  have hS : ∀ x ∈ S, x = 32 ∨ x = 9 := fun x hx =>
    hsp x (by rw [hsep]; exact List.mem_cons_of_mem _ hx)
  have hs0 : isBlank s0 = true :=
    space_blank s0 (hsp s0 (by rw [hsep]; exact List.mem_cons_self _ _))
  cases hus : e.use with
  | nil => exact absurd hus hu
  | cons u0 U =>
    have hu0 : isBlank u0 = false := hub u0 (by rw [hus]; exact List.mem_cons_self _ _)
    have hc0 : strchr CommentCharacters (some u0) = false := by
      rw [hus] at hcom; exact hcom
    have h0 : renderLines F ++ (e.renderWith l ++ T)
        = renderLines (F ++ [Line.blank l.indent []])
          ++ u0 :: (U ++ s0 :: (S ++ c1 :: t1)) := by
      rw [← hr1, renderLines_append]
      simp [Entry.renderWith, hus, hsep, renderLines, Line.render]
    have hF2 : ∀ x ∈ F ++ [Line.blank l.indent []], x.WellFormed := by
      intro x hx
      rcases List.mem_append.mp hx with hx | hx
      · exact hF x hx
      · rw [List.mem_singleton.mp hx]
        exact ⟨hind, by simp⟩
    have hE2 : entriesOf (F ++ [Line.blank l.indent []]) = [] := by
      rw [entriesOf_append, hE]
      rfl
    have hs5 : freadLine (ungetc (some u0) { rest := U ++ s0 :: (S ++ c1 :: t1), eof := false })
        FieldDelimiters = (u0 :: U, skipEndOfLine false (S ++ c1 :: t1)) :=
      freadLine_blank (u0 :: U) (S ++ c1 :: t1) s0 false (by rw [← hus]; exact hub) hs0
    rw [h0] at hin
    have hFe2 : ∀ x ∈ F ++ [Line.blank l.indent []], x.Ended := by
      intro x hx
      rcases List.mem_append.mp hx with hx | hx
      · exact hFe x hx
      · rw [List.mem_singleton.mp hx]
        trivial
    have hsk := skipComments_fillers (F ++ [Line.blank l.indent []]) hF2 hE2
      (endedButLast_of_all _ hFe2)
      (u0 :: (U ++ s0 :: (S ++ c1 :: t1))) (Or.inr ⟨u0, _, rfl, hu0, hc0⟩) (fun _ => hFe2)
      ((fgetc (skipDelimitersFrom false (renderLines (F ++ [Line.blank l.indent []])
        ++ u0 :: (U ++ s0 :: (S ++ c1 :: t1))))).2.rest.length + 2)
      (by
        have := fgetc_length (skipDelimitersFrom false
          (renderLines (F ++ [Line.blank l.indent []]) ++ u0 :: (U ++ s0 :: (S ++ c1 :: t1))))
        omega)
    rw [readChunk_eq, hin, hsk]
    simp only [List.head?, List.tail, List.isEmpty]
    simp only [hs5, skip_spaces false S c1 t1 hS hb1, feof, Bool.false_eq_true, if_false]
    rw [hrest]
    simp only [entryStep, hus]
    cases readChunkUse (u0 :: U) Chunk.zero st with
    | error err => rfl
    | ok r =>
      obtain ⟨toret, st2, use⟩ := r
      simp only
      cases readChunkFile fs e.file toret use st2 with
      | error err => rfl
      | ok r2 => rfl

/-- On a control file made of comment lines and blank lines, `readChunk` reaches
the end of the file and returns no chunk. -/
theorem readChunk_fillers (fs : List Nat → Option (List Nat)) (st : Status) (F : List Line)
    (hF : ∀ l ∈ F, l.WellFormed) (hE : entriesOf F = []) (hend : EndedButLast F)
    (hin : skipDelimiters st.in_ = skipDelimitersFrom false (renderLines F)) :
    readChunk fs st = .ok (none, withIn { rest := [], eof := true } st) := by
  have hsk := skipComments_fillers F hF hE hend [] (Or.inl rfl) (fun h => absurd rfl h)
    ((fgetc (skipDelimitersFrom false (renderLines F ++ []))).2.rest.length + 2)
    (by
      have := fgetc_length (skipDelimitersFrom false (renderLines F ++ []))
      omega)
  rw [List.append_nil] at hsk
  rw [readChunk_eq, hin, hsk]
  rfl

end

/-! ## The first loop of `buildIndex` over the lines -/

/-- The lines hold no entry, or split at their first entry. -/
theorem lines_split (ls : List Line) :
    entriesOf ls = [] ∨ ∃ F e lay rest, ls = F ++ Line.entry e lay :: rest ∧ entriesOf F = []
      ∧ entriesOf ls = e :: entriesOf rest := by
  induction ls with
  | nil => exact Or.inl rfl
  | cons l ls ih =>
    cases l with
    | entry e lay => exact Or.inr ⟨[], e, lay, ls, rfl, rfl, rfl⟩
    | comment indent c text eol =>
      rcases ih with h | ⟨F, e, lay, rest, h1, h2, h3⟩
      · exact Or.inl h
      · exact Or.inr ⟨Line.comment indent c text eol :: F, e, lay, rest, by rw [h1]; rfl, h2, h3⟩
    | blank indent eol =>
      rcases ih with h | ⟨F, e, lay, rest, h1, h2, h3⟩
      · exact Or.inl h
      · exact Or.inr ⟨Line.blank indent eol :: F, e, lay, rest, by rw [h1]; rfl, h2, h3⟩

/-- Lines whose characters are all blank hold no entry. -/
theorem entriesOf_blank (ls : List Line) (hwf : ∀ l ∈ ls, l.WellFormed)
    (h : ∀ x ∈ renderLines ls, isBlank x = true) : entriesOf ls = [] := by
  rcases lines_split ls with h0 | ⟨F, e, lay, rest, h1, -, -⟩
  · exact h0
  · exfalso
    have hew : e.WellFormed := (hwf (Line.entry e lay) (by rw [h1]; simp)).1
    obtain ⟨hu, hub, -⟩ := hew
    cases hus : e.use with
    | nil => exact hu hus
    | cons u0 U =>
      have hmem : u0 ∈ renderLines ls := by
        rw [h1, renderLines_append]
        simp [renderLines, Line.render, Entry.renderWith, hus]
      have := hub u0 (by rw [hus]; exact List.mem_cons_self _ _)
      rw [h u0 hmem] at this
      cases this

theorem loadEntries_atEnd (fs : List Nat → Option (List Nat)) (es : List Entry) (st : Status)
    (n : Nat) (f : InFile) :
    (loadEntries fs es (withIn f st, n)).map atEnd = (loadEntries fs es (st, n)).map atEnd := by
  cases es with
  | nil => rfl
  | cons e es => rw [loadEntries_withIn fs (e :: es) (by simp)]

theorem storeChunk_withIn (st : Status) (chunk : Chunk) (f : InFile) :
    storeChunk (withIn f st) chunk = withIn (skipDelimiters f) (storeChunk st chunk) := rfl

theorem loadEntries_step (fs : List Nat → Option (List Nat)) (e : Entry) (es : List Entry)
    (status : Status) (n : Nat) :
    loadEntries fs (e :: es) (status, n) =
      match entryStep fs status e with
      | .error err => .error err
      | .ok (some chunk, status) =>
        if status.numberOfChunks ≥ MaxChunksBlorb then .error .chunkArrayOverrun
        else
          loadEntries fs es
            (storeChunk (withIn { rest := [], eof := true } status) chunk,
             if chunk.Use ≠ cstr "0" then n + 1 else n)
      | .ok (none, status) => loadEntries fs es (withIn { rest := [], eof := true } status, n) := by
  rw [loadEntries]

theorem loadEntries_nil (fs : List Nat → Option (List Nat)) (s : Status × Nat) :
    loadEntries fs [] s = .ok s := rfl

section

attribute [local irreducible] readChunk storeChunk loadEntries entryStep skipDelimiters
  skipEndOfLine skipDelimitersFrom

/-- On a control file made of lines, the first loop of `buildIndex` does what it
does on the entries of the lines, and leaves the control file at its end. -/
theorem loadChunks_lines (fs : List Nat → Option (List Nat)) :
    ∀ (m : Nat) (ls : List Line) (fuel : Nat) (st : Status) (n : Nat), ls.length ≤ m →
      (∀ l ∈ ls, l.WellFormed) → EndedButLast ls → (entriesOf ls).length < fuel →
      skipDelimiters st.in_ = skipDelimitersFrom false (renderLines ls) →
      loadChunks fs fuel (st, n) = (loadEntries fs (entriesOf ls) (st, n)).map atEnd := by
  intro m
  induction m with
  | zero =>
    intro ls fuel st n hm hwf hend hfuel hin
    have hls : ls = [] := List.length_eq_zero.mp (Nat.le_zero.mp hm)
    subst hls
    obtain ⟨k, rfl⟩ : ∃ k, fuel = k + 1 := ⟨fuel - 1, by omega⟩
    rw [loadChunks_step, readChunk_fillers fs st [] hwf rfl hend hin]
    simp only [entriesOf, loadEntries_nil]
    rfl
  | succ m ih =>
    intro ls fuel st n hm hwf hend hfuel hin
    obtain ⟨k, rfl⟩ : ∃ k, fuel = k + 1 := ⟨fuel - 1, by omega⟩
    rcases lines_split ls with h0 | ⟨F, e, lay, rest, h1, h2, h3⟩
    · rw [loadChunks_step, readChunk_fillers fs st ls hwf h0 hend hin, h0, loadEntries_nil]
      rfl
    · have hFw : ∀ l ∈ F, l.WellFormed := fun l hl => hwf l (by rw [h1]; simp [hl])
      obtain ⟨hew, hlw⟩ : e.WellFormed ∧ lay.WellFormed :=
        hwf (Line.entry e lay) (by rw [h1]; simp)
      rw [h1] at hend
      have hFe : ∀ x ∈ F, x.Ended := endedButLast_before F _ rest hend
      have hsuf : EndedButLast (Line.entry e lay :: rest) := endedButLast_suffix F _ hend
      have hrend : EndedButLast rest := endedButLast_tail _ rest hsuf
      have hT : lay.eol = [] → renderLines rest = [] := by
        intro he
        by_cases hr : rest = []
        · rw [hr]
          rfl
        · exact absurd he (endedButLast_head _ rest hsuf hr)
      have hrw : ∀ l ∈ rest, l.WellFormed := fun l hl => hwf l (by rw [h1]; simp [hl])
      have hrl : rest.length ≤ m := by
        rw [h1] at hm
        simp at hm
        omega
      have hrf : (entriesOf rest).length < k := by
        rw [h3] at hfuel
        simp at hfuel
        omega
      have hrender : renderLines ls = renderLines F ++ (e.renderWith lay ++ renderLines rest) := by
        rw [h1, renderLines_append]
        rfl
      rw [hrender] at hin
      obtain ⟨Z, hZ, hread⟩ := readChunk_lines fs st F e lay (renderLines rest) hFw h2 hFe hew hlw hT hin
      have hskip : skipDelimitersFrom false (Z ++ renderLines rest)
          = skipDelimitersFrom false (renderLines rest) := skipDelimitersFrom_blanks Z _ hZ
      rw [loadChunks_step, hread, h3, loadEntries_step]
      cases entryStep fs st e with
      | error err => rfl
      | ok r =>
        obtain ⟨chunk, st1⟩ := r
        cases chunk with
        | none =>
          simp only
          rcases skipEndOfLine_cases false (Z ++ renderLines rest) with ⟨e1, e2⟩ | e1
          · rw [e1, entriesOf_blank rest hrw (fun x hx => e2 x (List.mem_append_right _ hx)),
              loadEntries_nil]
            rfl
          · have hf : (!feof (withIn (skipEndOfLine false (Z ++ renderLines rest)) st1).in_)
                = true := by
              simp [feof, withIn, e1]
            rw [if_pos hf]
            rw [ih rest k (withIn (skipEndOfLine false (Z ++ renderLines rest)) st1) n hrl hrw
              hrend hrf
              ((skipDelimiters_skipEndOfLine false (Z ++ renderLines rest)).trans hskip)]
            rw [loadEntries_atEnd, ← loadEntries_atEnd fs (entriesOf rest) st1 n
              { rest := [], eof := true }]
        | some chunk =>
          simp only
          have hn : (withIn (skipEndOfLine false (Z ++ renderLines rest)) st1).numberOfChunks
              = st1.numberOfChunks := rfl
          rw [hn]
          by_cases hcap : st1.numberOfChunks ≥ MaxChunksBlorb
          · rw [if_pos hcap, if_pos hcap]
            rfl
          · rw [if_neg hcap, if_neg hcap]
            generalize (if chunk.Use ≠ cstr "0" then n + 1 else n) = n1
            rw [storeChunk_withIn, storeChunk_withIn, skipDelimiters_skipEndOfLine, hskip]
            rcases skipDelimitersFrom_cases (renderLines rest) with ⟨e1, e2⟩ | ⟨ws, c, t, -, -, -, e1⟩
            · rw [e1, entriesOf_blank rest hrw e2, loadEntries_nil]
              rfl
            · have hf : (!feof (withIn (skipDelimitersFrom false (renderLines rest))
                  (storeChunk st1 chunk)).in_) = true := by
                simp [feof, withIn, e1]
              rw [if_pos hf]
              rw [ih rest k _ n1 hrl hrw hrend hrf (skipDelimiters_idem (renderLines rest))]
              rw [loadEntries_atEnd, ← loadEntries_atEnd fs (entriesOf rest)
                (storeChunk st1 chunk) n1 (skipDelimiters { rest := [], eof := true })]

end

theorem entriesOf_wf (ls : List Line) (hwf : ∀ l ∈ ls, l.WellFormed) :
    ∀ e ∈ entriesOf ls, e.WellFormed := by
  induction ls with
  | nil =>
    intro e he
    cases he
  | cons l ls ih =>
    have ih2 := ih (fun x hx => hwf x (List.mem_cons_of_mem _ hx))
    cases l with
    | entry e0 lay =>
      intro e he
      rcases List.mem_cons.mp he with rfl | he
      · exact (hwf (Line.entry e lay) (List.mem_cons_self _ _)).1
      · exact ih2 e he
    | comment indent c text eol => exact ih2
    | blank indent eol => exact ih2

theorem entriesOf_length_skip (ls : List Line) (hwf : ∀ l ∈ ls, l.WellFormed) :
    (entriesOf ls).length ≤ (skipDelimitersFrom false (renderLines ls)).rest.length := by
  induction ls with
  | nil => exact Nat.zero_le _
  | cons l ls ih =>
    have ih2 := ih (fun x hx => hwf x (List.mem_cons_of_mem _ hx))
    have hle : (skipDelimitersFrom false (renderLines ls)).rest.length
        ≤ (renderLines ls).length := skipDelimitersFrom_length _
    cases l with
    | entry e lay =>
      obtain ⟨⟨hu, hub, -⟩, hind, -⟩ : e.WellFormed ∧ lay.WellFormed :=
        hwf _ (List.mem_cons_self _ _)
      cases hus : e.use with
      | nil => exact absurd hus hu
      | cons u0 U =>
        have hu0 : isBlank u0 = false := hub u0 (by rw [hus]; exact List.mem_cons_self _ _)
        have hs : ∃ X, renderLines (Line.entry e lay :: ls)
            = lay.indent ++ u0 :: (X ++ renderLines ls) := by
          cases hi : e.id with
          | none =>
            exact ⟨U ++ (lay.sep ++ (e.file ++ (lay.trail ++ lay.eol))), by
              simp [renderLines, Line.render, Entry.renderWith, hus, hi]⟩
          | some i =>
            exact ⟨U ++ (lay.sep ++ ((i ++ lay.idSep) ++ (e.file ++ (lay.trail ++ lay.eol)))), by
              simp [renderLines, Line.render, Entry.renderWith, hus, hi]⟩
        obtain ⟨X, hX⟩ := hs
        rw [hX, skipDelimitersFrom_blanks _ _ (fun x hx => space_blank x (hind x hx)),
          skipDelimitersFrom_cons u0 _ hu0]
        simp only [entriesOf, List.length_cons, List.length_append]
        omega
    | comment indent c text eol =>
      obtain ⟨hw, hc, -⟩ : (∀ x ∈ indent, x = 32 ∨ x = 9) ∧ c ∈ CommentCharacters
          ∧ (∀ x ∈ text, x ≠ 0 ∧ x ≠ 10 ∧ x ≠ 13) ∧ ∀ x ∈ eol, x = 13 ∨ x = 10 :=
        hwf _ (List.mem_cons_self _ _)
      obtain ⟨hcb, -⟩ := commentCharacters_spec c hc
      have hwb : ∀ x ∈ indent, isBlank x = true := fun x hx => space_blank x (hw x hx)
      have hs : renderLines (Line.comment indent c text eol :: ls)
          = indent ++ c :: (text ++ eol ++ renderLines ls) := by
        simp [renderLines, Line.render]
      rw [hs, skipDelimitersFrom_blanks _ _ hwb, skipDelimitersFrom_cons c _ hcb]
      simp only [entriesOf, List.length_cons, List.length_append]
      omega
    | blank indent eol =>
      obtain ⟨hw, he⟩ : (∀ x ∈ indent, x = 32 ∨ x = 9) ∧ ∀ x ∈ eol, x = 13 ∨ x = 10 :=
        hwf _ (List.mem_cons_self _ _)
      have hs : renderLines (Line.blank indent eol :: ls) = (indent ++ eol) ++ renderLines ls := rfl
      rw [hs, skipDelimitersFrom_blanks _ _ (blank_line indent eol hw he)]
      exact ih2

theorem entryStep_in (fs : List Nat → Option (List Nat)) (st st1 : Status) (e : Entry)
    (c : Option Chunk) (h : entryStep fs st e = .ok (c, st1)) : st1.in_ = st.in_ := by
  have := entryStep_withIn fs st e st.in_
  have hw : withIn st.in_ st = st := rfl
  rw [hw, h] at this
  simp only [Except.ok.injEq, Prod.mk.injEq] at this
  have h2 := congrArg Status.in_ this.2
  exact h2

/-- The first loop of `buildIndex` over the entries, started with the control
file at its end, leaves it there. -/
theorem loadEntries_in (fs : List Nat → Option (List Nat)) :
    ∀ (es : List Entry) (st : Status) (n : Nat) (r : Status × Nat),
      st.in_ = { rest := [], eof := true } → loadEntries fs es (st, n) = .ok r →
      r.1.in_ = { rest := [], eof := true } := by
  intro es
  induction es with
  | nil =>
    intro st n r hst h
    rw [loadEntries_nil] at h
    injection h with h
    rw [← h]
    exact hst
  | cons e es ih =>
    intro st n r hst h
    rw [loadEntries_step] at h
    cases hes : entryStep fs st e with
    | error err =>
      rw [hes] at h
      cases h
    | ok x =>
      obtain ⟨c, st1⟩ := x
      rw [hes] at h
      cases c with
      | none => exact ih _ _ r rfl h
      | some chunk =>
        simp only at h
        split_ifs at h <;> exact ih _ _ r rfl h

theorem loadEntries_map_atEnd (fs : List Nat → Option (List Nat)) (es : List Entry)
    (st : Status) (n : Nat) (hst : st.in_ = { rest := [], eof := true }) :
    (loadEntries fs es (st, n)).map atEnd = loadEntries fs es (st, n) := by
  cases h : loadEntries fs es (st, n) with
  | error err => rfl
  | ok r =>
    have := loadEntries_in fs es st n r hst h
    simp only [Except.map, atEnd, withIn, ← this]

theorem withIn_start (s : Status) (f : InFile)
    (verbose noBli onlyBli isShortExtension isGlulx : Bool) (path control : List Nat)
    (hs : s = startStatus verbose noBli onlyBli isShortExtension isGlulx path control) :
    withIn f { s with BlorbChunks := [indexChunk0] }
      = withIn f (entriesStart verbose noBli onlyBli isShortExtension isGlulx path) := by
  subst hs
  rfl

section

attribute [local irreducible] loadChunks skipDelimiters coverChunk indexChunk loadEntries
  skipDelimitersFrom

/-- On a control file made of lines, `buildIndex` does what it does on the control
file made of the lines of the entries, written with single spaces and line
feeds. The last line need not have an end of line. -/
theorem buildIndex_lines (fs : List Nat → Option (List Nat))
    (verbose noBli onlyBli isShortExtension isGlulx : Bool) (path : List Nat)
    (ls : List Line) (hwf : ∀ l ∈ ls, l.WellFormed) (hend : EndedButLast ls) :
    buildIndex fs (startStatus verbose noBli onlyBli isShortExtension isGlulx path
        (renderLines ls))
      = buildIndex fs (startStatus verbose noBli onlyBli isShortExtension isGlulx path
        (renderAll (entriesOf ls))) := by
  have hin : (startStatus verbose noBli onlyBli isShortExtension isGlulx path
      (renderLines ls)).in_ = { rest := renderLines ls, eof := false } := rfl
  have key : (if (!feof (skipDelimitersFrom false (renderLines ls))) = true then
        loadChunks fs ((skipDelimitersFrom false (renderLines ls)).rest.length + 1)
          (withIn (skipDelimitersFrom false (renderLines ls))
            (entriesStart verbose noBli onlyBli isShortExtension isGlulx path), 0)
      else
        .ok (withIn (skipDelimitersFrom false (renderLines ls))
          (entriesStart verbose noBli onlyBli isShortExtension isGlulx path), 0))
      = loadEntries fs (entriesOf ls)
          (entriesStart verbose noBli onlyBli isShortExtension isGlulx path, 0) := by
    rcases skipDelimitersFrom_cases (renderLines ls) with ⟨e1, e2⟩ | ⟨ws, c, t, -, -, -, e1⟩
    · rw [e1, entriesOf_blank ls hwf e2, loadEntries_nil]
      rfl
    · have hf : (!feof (skipDelimitersFrom false (renderLines ls))) = true := by
        simp [feof, e1]
      rw [if_pos hf, loadChunks_lines fs ls.length ls _ _ 0 (Nat.le_refl _) hwf hend
        (Nat.lt_succ_of_le (entriesOf_length_skip ls hwf))
        (skipDelimiters_idem (renderLines ls)),
        loadEntries_atEnd, loadEntries_map_atEnd fs _ _ 0 rfl]
  rw [buildIndex_renderAll fs _ _ _ _ _ _ _ (entriesOf_wf ls hwf), buildIndex_eq,
    withIn_start _ _ verbose noBli onlyBli isShortExtension isGlulx path (renderLines ls) rfl,
    hin, skipDelimiters_eq]
  dsimp only
  rw [key]

end

theorem buildIndex_empty (fs : List Nat → Option (List Nat))
    (verbose noBli onlyBli isShortExtension isGlulx : Bool) (path : List Nat) :
    ∃ st, buildIndex fs (startStatus verbose noBli onlyBli isShortExtension isGlulx path [])
        = Except.ok st
      ∧ st.BlorbChunks = [{ indexChunk0 with Length := 4, Data := [0, 0, 0, 0] }]
      ∧ st.numberOfIndexEntries = 0 ∧ st.indexOffsets = [] :=
  ⟨_, rfl, rfl, rfl, rfl⟩

/-- For a control file made of the lines of well-formed entries with comment
lines (spaces and tabs, then one of the characters of
`CommentCharacters`) and blank lines (spaces and tabs) before, between and after
them: `buildIndex` gives what it gives on the control file made of the lines of
the entries alone, the same status with the same chunks, or the same failure;
and on a control file of comment lines and blank lines only it succeeds with the
index chunk alone, of `Length` 4 and with the count 0 as data. -/
theorem comments_skipped (fs : List Nat → Option (List Nat))
    (verbose noBli onlyBli isShortExtension isGlulx : Bool) (path : List Nat)
    (ls : List Line) (hwf : ∀ l ∈ ls, l.WellFormed) (hend : EndedButLast ls) :
    buildIndex fs (startStatus verbose noBli onlyBli isShortExtension isGlulx path
        (renderLines ls))
      = buildIndex fs (startStatus verbose noBli onlyBli isShortExtension isGlulx path
        (renderAll (entriesOf ls)))
    ∧ (entriesOf ls = [] →
        ∃ st, buildIndex fs (startStatus verbose noBli onlyBli isShortExtension isGlulx path
            (renderLines ls)) = .ok st
          ∧ st.BlorbChunks = [{ indexChunk0 with Length := 4, Data := bigEndian 0 }]
          ∧ indexable st.BlorbChunks = [] ∧ st.numberOfIndexEntries = 0) := by
  refine ⟨buildIndex_lines fs _ _ _ _ _ _ ls hwf hend, ?_⟩
  intro hE
  rw [buildIndex_lines fs _ _ _ _ _ _ ls hwf hend, hE]
  obtain ⟨st, h1, h2, h3, -⟩ :=
    buildIndex_empty fs verbose noBli onlyBli isShortExtension isGlulx path
  refine ⟨st, h1, h2, ?_, h3⟩
  rw [h2]
  decide

theorem commentedLines_wellFormed : ∀ l ∈ commentedLines, l.WellFormed := by
  intro l hl
  simp only [commentedLines, List.mem_cons, List.mem_singleton, List.not_mem_nil, or_false] at hl
  rcases hl with rfl | rfl | rfl | rfl | rfl | rfl | rfl | rfl | rfl
  · exact ⟨by decide, by decide, by decide, by decide⟩
  · exact ⟨by decide, by decide⟩
  · exact ⟨pictEntry_wellFormed,
      ⟨by decide, by decide, by decide, by decide, by decide, by decide, by decide⟩⟩
  · exact ⟨by decide, by decide, by decide, by decide⟩
  · exact ⟨by decide, by decide⟩
  · exact ⟨⟨by decide, by decide, by decide, by decide, by decide, by decide⟩,
      ⟨by decide, by decide, by decide, by decide, by decide, by decide, by decide⟩⟩
  · exact ⟨⟨by decide, by decide, by decide, by decide, by decide, by decide⟩,
      ⟨by decide, by decide, by decide, by decide, by decide, by decide, by decide⟩⟩
  · exact ⟨by decide, by decide, by decide, by decide⟩
  · exact ⟨by decide, by decide⟩

theorem commentedLines_ended : EndedButLast commentedLines := by
  apply endedButLast_of_all
  intro l hl
  simp only [commentedLines, List.mem_cons, List.mem_singleton, List.not_mem_nil, or_false] at hl
  rcases hl with rfl | rfl | rfl | rfl | rfl | rfl | rfl | rfl | rfl
  · exact (by decide : ([13, 10] : List Nat) ≠ [])
  · trivial
  · exact (by decide : ([13, 10] : List Nat) ≠ [])
  · exact (by decide : ([10] : List Nat) ≠ [])
  · trivial
  · exact (by decide : ([10] : List Nat) ≠ [])
  · exact (by decide : ([10] : List Nat) ≠ [])
  · exact (by decide : ([10] : List Nat) ≠ [])
  · trivial

set_option maxRecDepth 100000 in
/-- A control file with comment lines and blank lines before, between and after
its three entries gives the chunks of the control file with
the three entries alone. -/
theorem comments_skipped_example :
    renderLines commentedLines
        = cstr ("; resources\r\n\n  pict\tcover.png\r\n \t! the cover\n \r\ncover cover.png\n"
            ++ "\tsnd  mySound\ttheme.ogg \n#end\n\t")
      ∧ entriesOf commentedLines = coverEntries
      ∧ buildIndex exampleFs (startStatus false false false false false []
          (renderLines commentedLines))
        = buildIndex exampleFs (startStatus false false false false false []
          (renderAll coverEntries)) :=
  ⟨by decide, by decide,
    (comments_skipped exampleFs false false false false false [] commentedLines
      commentedLines_wellFormed commentedLines_ended).1⟩

/-! ## The chunks of a build, entry by entry -/

theorem readChunkUse_use (buffer : List Nat) (st st2 : Status) (toret : Chunk) (use : Usages)
    (h : readChunkUse buffer Chunk.zero st = .ok (toret, st2, use)) :
    toret.Use = (if cnvtToUsages buffer = .Fspc then cstr "Pict"
        else storedUse (cnvtToUsages buffer))
      ∧ st2.path = st.path := by
  rw [readChunkUse_eq] at h
  split at h
  · rename_i hu
    injection h with h; injection h with h1 h; injection h with h2 h3
    subst h1 h2 h3
    rw [hu]
    exact ⟨rfl, rfl⟩
  · rename_i hu
    injection h with h; injection h with h1 h; injection h with h2 h3
    subst h1 h2 h3
    rw [hu]
    exact ⟨rfl, rfl⟩
  · rename_i hu
    injection h with h; injection h with h1 h; injection h with h2 h3
    subst h1 h2 h3
    rw [hu]
    exact ⟨rfl, rfl⟩
  · rename_i hu
    split_ifs at h
    injection h with h; injection h with h1 h; injection h with h2 h3
    subst h1 h2 h3
    rw [hu]
    exact ⟨rfl, rfl⟩
  · rename_i hu
    split_ifs at h
    injection h with h; injection h with h1 h; injection h with h2 h3
    subst h1 h2 h3
    rw [hu]
    exact ⟨rfl, rfl⟩
  · cases h

theorem fileOf_eq (st : Status) (e : Entry) :
    prepareFileName e.file st = fileOf st.path e :=
  prepareFileName_path _ _ _ rfl

/-- What `entryStep` gives for an entry: no chunk when the file cannot be
opened, else the chunk of the entry. -/
theorem entryStep_chunk (fs : List Nat → Option (List Nat)) (st st1 : Status) (e : Entry)
    (c : Option Chunk) (h : entryStep fs st e = .ok (c, st1)) :
    st1.path = st.path
      ∧ ((c = none ∧ fs (prepareFileName e.file st) = none)
        ∨ ∃ chunk, c = some chunk ∧ ChunkOf fs st.path e chunk) := by
  unfold entryStep at h
  cases hr : readChunkUse e.use Chunk.zero st with
  | error err =>
    rw [hr] at h
    cases h
  | ok r =>
    obtain ⟨toret, st2, use⟩ := r
    rw [hr] at h
    simp only at h
    obtain ⟨hu, hp⟩ := readChunkUse_use e.use st st2 toret use hr
    obtain ⟨T, g, cid, hT, hst, hc⟩ := readChunkFile_ok fs e.file toret use st2 st1 c h
    have hp1 : st1.path = st.path := by
      rw [hst]
      exact hp
    have hpf : prepareFileName e.file st2 = prepareFileName e.file st :=
      prepareFileName_path _ _ _ hp
    refine ⟨hp1, ?_⟩
    rcases hc with ⟨h1, -, h3⟩ | ⟨contents, h1, h2⟩
    · exact Or.inl ⟨h1, by rw [← hpf]; exact h3⟩
    · refine Or.inr ⟨_, h2, ?_, rfl, ?_, hT⟩
      · show fs (fileOf st.path e) = some contents
        rw [← h1, hpf, fileOf_eq]
      · show toret.Use = e.chunkUse
        rw [hu]
        unfold Entry.chunkUse Entry.isCover
        by_cases hf : cnvtToUsages e.use = .Fspc
        · simp [hf]
        · simp [hf]

/-- The chunks the first loop of `buildIndex` stores when every file opens: one
for each entry, in the order of the entries. -/
theorem loadEntries_order (fs : List Nat → Option (List Nat)) :
    ∀ (es : List Entry) (st s : Status) (n m : Nat), loadEntries fs es (st, n) = .ok (s, m) →
      (∀ e ∈ es, fs (prepareFileName e.file st) ≠ none) →
      ∃ cs, s.BlorbChunks = st.BlorbChunks ++ cs ∧ List.Forall₂ (ChunkOf fs st.path) es cs := by
  intro es
  induction es with
  | nil =>
    intro st s n m h _
    rw [loadEntries_nil] at h
    injection h with h
    injection h with h1 h2
    subst h1
    exact ⟨[], by simp, List.Forall₂.nil⟩
  | cons e es ih =>
    intro st s n m h hopen
    rw [loadEntries_step] at h
    cases he : entryStep fs st e with
    | error err =>
      rw [he] at h
      cases h
    | ok r =>
      obtain ⟨c, st1⟩ := r
      rw [he] at h
      obtain ⟨hp, hc⟩ := entryStep_chunk fs st st1 e c he
      obtain ⟨hb, -⟩ := entryStep_shape fs st st1 e c he
      rcases hc with ⟨-, hnone⟩ | ⟨chunk, rfl, hchunk⟩
      · exact absurd hnone (hopen e (List.mem_cons_self _ _))
      · simp only at h
        by_cases hov : st1.numberOfChunks ≥ MaxChunksBlorb
        · rw [if_pos hov] at h
          cases h
        · rw [if_neg hov] at h
          have hp2 : (storeChunk (withIn { rest := [], eof := true } st1) chunk).path = st.path :=
            hp
          have hb2 : (storeChunk (withIn { rest := [], eof := true } st1) chunk).BlorbChunks
              = st.BlorbChunks ++ [chunk] := by
            rw [← hb]
            rfl
          obtain ⟨cs, h1, h2⟩ := ih _ s _ m h (by
            intro x hx
            rw [prepareFileName_path _ _ st hp2]
            exact hopen x (List.mem_cons_of_mem _ hx))
          rw [hp2] at h2
          refine ⟨chunk :: cs, ?_, List.Forall₂.cons hchunk h2⟩
          rw [h1, hb2]
          simp

theorem indexable_front (cs : List Chunk) (b : Bool) (front : Chunk)
    (h : front.Use = cstr "0") :
    indexable (cs ++ (if b then [front] else [])) = indexable cs := by
  cases b with
  | false => simp
  | true =>
    rw [if_pos rfl, indexable_append, indexable_cons_neg _ _ h]
    simp [indexable]

/-- For a control file made of the lines of well-formed entries, comment lines
and blank lines, whose files all open, the chunk list of a successful
`buildIndex` is: the index chunk (type "RIdx", usage "0"), then one chunk for
each entry, in the order of the entries, holding the contents of the file of
the entry, then the cover chunk (usage "0", type "Fspc") exactly when an entry
declares a cover; the index chunk and the cover chunk are not indexable, `n`
(`numberOfIndexEntries`, which sizes the index: `Length` is 4 + 12 n) counts the
indexable chunks of the entries alone. -/
theorem chunk_order_of_lines (fs : List Nat → Option (List Nat))
    (verbose noBli onlyBli isShortExtension isGlulx : Bool) (path : List Nat)
    (ls : List Line) (hwf : ∀ l ∈ ls, l.WellFormed) (hend : EndedButLast ls) (st : Status)
    (h : buildIndex fs (startStatus verbose noBli onlyBli isShortExtension isGlulx path
      (renderLines ls)) = .ok st)
    (hopen : ∀ e ∈ entriesOf ls, fs (fileOf path e) ≠ none) :
    ∃ index cs front,
      st.BlorbChunks
          = index :: (cs ++ (if (entriesOf ls).any Entry.isCover then [front] else []))
        ∧ index.Type_ = cstr "RIdx" ∧ index.Use = cstr "0"
        ∧ List.Forall₂ (ChunkOf fs path) (entriesOf ls) cs
        ∧ front.Use = cstr "0" ∧ front.Type_ = cstr "Fspc"
        ∧ indexable st.BlorbChunks = indexable cs
        ∧ st.numberOfIndexEntries = (indexable cs).length
        ∧ index.Length = 4 + 12 * (indexable cs).length := by
  have h2 := h
  rw [buildIndex_lines fs _ _ _ _ _ _ ls hwf hend] at h2
  obtain ⟨s, n, index, hl, hT, hU, hB⟩ :=
    buildIndex_entries fs verbose noBli onlyBli isShortExtension isGlulx path (entriesOf ls)
      (entriesOf_wf ls hwf) st h2
  obtain ⟨cs, hcs, hF⟩ := loadEntries_order fs (entriesOf ls) _ s 0 n hl (by
    intro e he
    rw [fileOf_eq]
    exact hopen e he)
  have hcover := (loadEntries_flags fs (entriesOf ls) _ 0 s n hl).2
  have hc0 : (entriesStart verbose noBli onlyBli isShortExtension isGlulx path).thereIsCover
      = false := rfl
  rw [hc0, Bool.false_or] at hcover
  have hb0 : (entriesStart verbose noBli onlyBli isShortExtension isGlulx path).BlorbChunks
      = [indexChunk0] := rfl
  rw [hb0] at hcs
  have htail : s.BlorbChunks.tail = cs := by
    rw [hcs]
    rfl
  rw [htail, hcover] at hB
  obtain ⟨hf1, hf2, -, -⟩ := frontispiece_eq s
  have hix : indexable st.BlorbChunks = indexable cs := by
    rw [hB, indexable_cons_neg _ _ hU, indexable_front cs _ _ hf1]
  obtain ⟨chunks, -, -, hst, -, hnum⟩ := buildIndex_ok fs _ st
    (by simp [startStatus, initStatus]) (by simp [startStatus, initStatus])
    (by simp [startStatus, initStatus]) (by simp [startStatus, initStatus])
    (by simp [startStatus, initStatus]) h
  rw [hB] at hst
  have hi := (List.cons.inj hst).1
  have hch := (List.cons.inj hst).2
  have hixc : indexable chunks = indexable cs := by
    rw [← hch, indexable_front cs _ _ hf1]
  refine ⟨index, cs, frontispiece s, hB, hT, hU, hF, hf1, hf2, hix, ?_, ?_⟩
  · rw [hnum, hixc]
  · rw [hi]
    show 12 * (indexable chunks).length + 4 = _
    rw [hixc]
    omega

set_option maxRecDepth 100000 in
/-- The control file with comments, a picture, a cover and a sound gives the index chunk, three chunks and the cover chunk. -/
theorem chunk_order_of_lines_example :
    ∃ index cs front,
      coverIndexed.BlorbChunks
          = index :: (cs ++ (if (entriesOf commentedLines).any Entry.isCover then [front]
              else []))
        ∧ index.Type_ = cstr "RIdx" ∧ index.Use = cstr "0"
        ∧ List.Forall₂ (ChunkOf exampleFs []) (entriesOf commentedLines) cs
        ∧ front.Use = cstr "0" ∧ front.Type_ = cstr "Fspc"
        ∧ indexable coverIndexed.BlorbChunks = indexable cs
        ∧ coverIndexed.numberOfIndexEntries = (indexable cs).length
        ∧ index.Length = 4 + 12 * (indexable cs).length :=
  chunk_order_of_lines exampleFs false false false false false [] commentedLines
    commentedLines_wellFormed commentedLines_ended coverIndexed (by rfl) (by decide)

/-! ## The type tags of the chunks of a build -/

/-- Every chunk of a successful build has one of the type tags of `chunkTypes`
and data of `Length` bytes. -/
theorem build_chunks_typed (fs : List Nat → Option (List Nat))
    (verbose noBli onlyBli isShortExtension isGlulx : Bool) (path control : List Nat)
    (st : Status)
    (h : buildIndex fs (startStatus verbose noBli onlyBli isShortExtension isGlulx path control)
      = .ok st) :
    ∀ c ∈ st.BlorbChunks, c.Type_ ∈ chunkTypes ∧ c.Data.length = c.Length := by
  obtain ⟨index, chunks, hc, hu, ht, hl, hd, hgood, -, ho, -⟩ :=
    container_eq fs verbose noBli onlyBli isShortExtension isGlulx path control st h
  have hdl : index.Data.length = index.Length := by
    rw [hd, hl, List.length_append, flatMap_indexRecordBytes_length]
    simp [bigEndian]
    omega
  intro c hcm
  rw [hc] at hcm
  rcases List.mem_cons.mp hcm with hci | hci
  · rw [hci, ht]
    exact ⟨by decide, hdl⟩
  · refine ⟨?_, (hgood c hci).2.2.1⟩
    have := (hgood c hci).2.1
    revert this
    generalize c.Type_ = t
    intro ht2
    have hall : ∀ x ∈ cstr "Fspc" :: inferredTypes, x ∈ chunkTypes := by decide
    exact hall t ht2

theorem inferType_aif (chunk : Chunk) (fileName : List Nat) (status : Status)
    (h : strtolower (getFileNameExt fileName) = cstr "aif") :
    inferType chunk fileName status = .ok ({ chunk with Type_ := cstr "AIFF" }, status) := by
  unfold inferType
  simp only [h]
  rfl

/-- C32. Every chunk of the list a successful `buildIndex` leaves has its type
tag among "RIdx", "Fspc", "IFmd", "PNG", "JPEG", "OGGV", "MOD", "AIFF", "ZCOD"
and "GLUL", and so never the tag "FORM": for each of them `writeChunk` takes the
branch that writes the 8-byte header, the type tag space-padded then `Length`,
before the data. For a file whose extension, as `getFileNameExt` gives it, is
`aif`, `inferType` sets the type "AIFF", and a chunk of type "AIFF" is written
as "AIFF", its `Length`, then its data. -/
theorem C32_type_tags (fs : List Nat → Option (List Nat))
    (verbose noBli onlyBli isShortExtension isGlulx : Bool) (path control : List Nat)
    (st : Status)
    (h : buildIndex fs (startStatus verbose noBli onlyBli isShortExtension isGlulx path control)
      = .ok st) :
    (∀ c ∈ st.BlorbChunks, c.Type_ ∈ chunkTypes)
      ∧ (∀ c ∈ st.BlorbChunks, c.Type_ ≠ cstr "FORM")
      ∧ (∀ c ∈ st.BlorbChunks, ∀ out : FILE, out.AtEnd →
          (writeChunk out c).bytes
            = out.bytes ++ (padId c.Type_ ++ bigEndian c.Length ++ c.Data
                ++ (if c.Length % 2 ≠ 0 then [0] else [])))
      ∧ (∀ c ∈ st.BlorbChunks, c.Type_ = cstr "AIFF" →
          chunkBytes c = cstr "AIFF" ++ bigEndian c.Length ++ c.Data
            ++ (if c.Length % 2 ≠ 0 then [0] else []))
      ∧ (∀ chunk fileName status, strtolower (getFileNameExt fileName) = cstr "aif" →
          inferType chunk fileName status
            = .ok ({ chunk with Type_ := cstr "AIFF" }, status)) := by
  have hall := build_chunks_typed fs verbose noBli onlyBli isShortExtension isGlulx path
    control st h
  have hform : ∀ t ∈ chunkTypes, t ≠ cstr "FORM" ∧ t.length ≤ 4 := by decide
  have hbytes : ∀ c ∈ st.BlorbChunks, chunkBytes c
      = padId c.Type_ ++ bigEndian c.Length ++ c.Data
          ++ (if c.Length % 2 ≠ 0 then [0] else []) := by
    intro c hc
    obtain ⟨ht, hd⟩ := hall c hc
    obtain ⟨hf, hl⟩ := hform _ ht
    rw [chunkBytes_eq, if_pos hf, padId_of_le _ hl, bigEndian_mod, ← hd, List.take_length]
  refine ⟨fun c hc => (hall c hc).1, fun c hc => (hform _ (hall c hc).1).1, ?_, ?_,
    inferType_aif⟩
  · intro c hc out hout
    rw [writeChunk_append out c hout, hbytes c hc]
  · intro c hc ht
    rw [hbytes c hc, ht]
    rfl

set_option maxRecDepth 100000 in
/-- A witness of C32: the control file `snd theme.aif` gives the index chunk and
a chunk of type "AIFF", written at offset 36 of the container with its header. -/
theorem C32_type_tags_witness :
    aifIndexed.BlorbChunks.map (fun c => c.Type_) = [cstr "RIdx", cstr "AIFF"]
      ∧ (∀ c ∈ aifIndexed.BlorbChunks, c.Type_ ≠ cstr "FORM")
      ∧ ((container aifIndexed).drop 36).take 12
        = cstr "AIFF" ++ bigEndian 3 ++ [1, 2, 3, 0] :=
  ⟨by decide,
    (C32_type_tags aifFs false false false false false [] aifControl aifIndexed (by rfl)).2.1,
    by decide⟩

/-! ## The counts of the index -/

theorem indexStart_eq (n : Nat) :
    indexStart n
      = (bigEndian (n % 2 ^ 32) ++ List.replicate (12 * n) 0, 4, List.replicate n 0, 0) := by
  have hz : List.replicate (12 * n + 4) 0
      = [] ++ List.replicate 4 0 ++ List.replicate (12 * n) 0 := by
    simp only [List.nil_append, ← List.replicate_add]
    congr 1
    omega
  have hs : strLong (List.replicate (12 * n + 4) 0) 0 n
      = bigEndian (n % 2 ^ 32) ++ List.replicate (12 * n) 0 := by
    rw [hz]
    exact strLong_mid [] _ _ _ (by simp)
  rw [indexStart, hs]

/-- The second loop of `buildIndex` after the chunks `pre`, when the count `n`
leaves room for `j` more records. -/
theorem indexRecords_prefix (pre : List Chunk) (n j : Nat)
    (hn : n = (indexable pre).length + j) :
    (indexRecords pre (indexStart n)).2.1 = 4 + 12 * (indexable pre).length
      ∧ (indexRecords pre (indexStart n)).2.2.2 = (indexable pre).length
      ∧ (indexRecords pre (indexStart n)).1.length = 4 + 12 * n
      ∧ (indexRecords pre (indexStart n)).2.2.1.length = n := by
  have hr := indexRecords_eq pre (bigEndian (n % 2 ^ 32)) [] j
  have hbl : (bigEndian (n % 2 ^ 32)).length = 4 := by simp [bigEndian]
  simp only [List.nil_append, List.length_nil, hbl, ← hn] at hr
  rw [indexStart_eq, hr]
  refine ⟨rfl, by simp, ?_, ?_⟩
  · simp only [List.length_append, flatMap_indexRecordBytes_length, hbl, List.length_replicate]
    omega
  · simp only [List.length_append, List.length_map, List.length_range, List.length_replicate]
    omega

theorem generateChunks_count (offs : List Nat) (chunks : List Chunk) (s : FILE × Nat) :
    (generateChunks offs chunks s).2 = s.2 + (indexable chunks).length := by
  induction chunks generalizing s with
  | nil => simp [generateChunks, indexable]
  | cons c rest ih =>
    obtain ⟨out, n⟩ := s
    have hstep : (generateChunk offs c (out, n)).2 = n + (if c.Use ≠ cstr "0" then 1 else 0) := by
      unfold generateChunk
      by_cases hu : c.Use ≠ cstr "0"
      · simp only [hu, ne_eq, not_false_eq_true, if_true]
      · simp only [hu, if_false]
        rfl
    have hg : generateChunks offs (c :: rest) (out, n)
        = generateChunks offs rest (generateChunk offs c (out, n)) := rfl
    rw [hg, ih, hstep, indexable_cons_length]
    simp only
    omega

section

attribute [local irreducible] indexChunk indexRecords generateChunks

/-- C31. In a successful build, with n the count the first loop of `buildIndex`
makes of the chunks stored with a usage other than "0": the chunks after the
index chunk hold n such chunks, the cover chunk not being one; the second loop,
started with the write pointer at byte 4 of the 4 + 12 n bytes of the index
data, is at byte 4 + 12 k before the record of the chunk after k such chunks,
with 12 bytes left in the data and an entry left in the patch table, and ends
at byte 4 + 12 n with `numberOfIndexEntries` = n; in `generateBlorb` the entry
of the patch table used for the chunk after k such chunks is the entry k, below
the length n of the table, and the local `n` ends at n. -/
theorem C31_index_counts (fs : List Nat → Option (List Nat))
    (verbose noBli onlyBli isShortExtension isGlulx : Bool) (path control : List Nat)
    (st : Status)
    (h : buildIndex fs (startStatus verbose noBli onlyBli isShortExtension isGlulx path control)
      = .ok st) :
    ∃ s n index chunks,
      st = indexChunk s n ∧ s.BlorbChunks = index :: chunks ∧ s.numberOfIndexEntries = 0
        ∧ n = (indexable chunks).length
        ∧ st.numberOfIndexEntries = n ∧ st.indexOffsets.length = n
        ∧ (indexStart n).1.length = 4 + 12 * n ∧ (indexStart n).2.1 = 4
        ∧ (∀ pre c post, chunks = pre ++ c :: post → c.Use ≠ cstr "0" →
            (indexRecords pre (indexStart n)).2.1 = 4 + 12 * (indexable pre).length
              ∧ (indexRecords pre (indexStart n)).2.1 + 12
                  ≤ (indexRecords pre (indexStart n)).1.length
              ∧ (indexRecords pre (indexStart n)).2.2.2 = (indexable pre).length
              ∧ (indexRecords pre (indexStart n)).2.2.2
                  < (indexRecords pre (indexStart n)).2.2.1.length)
        ∧ (indexRecords chunks (indexStart n)).2.1 = 4 + 12 * n
        ∧ (indexRecords chunks (indexStart n)).2.2.2 = n
        ∧ (indexRecords chunks (indexStart n)).1.length = 4 + 12 * n
        ∧ (∀ pre c post, st.BlorbChunks = pre ++ c :: post → c.Use ≠ cstr "0" →
            (generateChunks st.indexOffsets pre (headerOut, 0)).2 = (indexable pre).length
              ∧ (generateChunks st.indexOffsets pre (headerOut, 0)).2
                  < st.indexOffsets.length)
        ∧ (generateChunks st.indexOffsets st.BlorbChunks (headerOut, 0)).2 = n := by
  obtain ⟨s, n, hL, hst⟩ := buildIndex_inv fs Loaded
    (fun st n chunk st1 hP hr hc => loaded_store fs st n chunk st1 hP hr hc)
    (fun st n st1 hP hr => loaded_drop fs st n st1 hP hr)
    (fun st n st1 hP hc => coverChunk_loaded st st1 n hP hc)
    (startStatus verbose noBli onlyBli isShortExtension isGlulx path control) st
    (loaded_init _ _ (by simp [startStatus, initStatus]) (by simp [startStatus, initStatus])
      (by simp [startStatus, initStatus]) (by simp [startStatus, initStatus])
      (by simp [startStatus, initStatus])) h
  obtain ⟨⟨chunks, hc, hn, -⟩, hnie, -, -⟩ := hL
  simp only at hc hn hnie
  have hst2 := hst
  rw [hn, indexChunk_eq s indexChunk0 chunks hc hnie] at hst2
  have hnum : st.numberOfIndexEntries = n := by rw [hst2, hn]
  have hoff : st.indexOffsets.length = n := by
    rw [hst2, hn]
    simp
  have hbc : ∃ index2, st.BlorbChunks = index2 :: chunks ∧ index2.Use = cstr "0" := by
    rw [hst2]
    exact ⟨_, rfl, rfl⟩
  obtain ⟨index2, hb2, hu2⟩ := hbc
  have hfull := indexRecords_prefix chunks n 0 (by omega)
  refine ⟨s, n, indexChunk0, chunks, hst, hc, hnie, hn, hnum, hoff, ?_, ?_, ?_, hfull.1.trans
    (by rw [hn]), hfull.2.1.trans hn.symm, hfull.2.2.1, ?_, ?_⟩
  · rw [indexStart_eq]
    simp [bigEndian]
    omega
  · rw [indexStart_eq]
  · intro pre c post hsplit hcu
    have hcount : (indexable chunks).length
        = (indexable pre).length + (1 + (indexable post).length) := by
      rw [hsplit, indexable_length_append, indexable_cons_length, if_pos hcu]
    obtain ⟨p1, p2, p3, p4⟩ := indexRecords_prefix pre n (1 + (indexable post).length)
      (by omega)
    refine ⟨p1, ?_, p2, ?_⟩
    · rw [p1, p3]
      omega
    · rw [p2, p4]
      omega
  · intro pre c post hsplit hcu
    rw [generateChunks_count]
    have hcount : (indexable st.BlorbChunks).length
        = (indexable pre).length + (1 + (indexable post).length) := by
      rw [hsplit, indexable_length_append, indexable_cons_length, if_pos hcu]
    rw [hb2, indexable_cons_neg _ _ hu2] at hcount
    refine ⟨by simp, ?_⟩
    rw [hoff]
    simp only [Nat.zero_add]
    omega
  · rw [generateChunks_count, hb2, indexable_cons_neg _ _ hu2]
    simp only [Nat.zero_add]
    exact hn.symm

end

set_option maxRecDepth 100000 in
/-- A witness of C31: the example build, of three indexed chunks. -/
theorem C31_index_counts_witness :
    exampleIndexed.numberOfIndexEntries = 3 ∧ exampleIndexed.indexOffsets.length = 3
      ∧ ∃ s n index chunks,
        exampleIndexed = indexChunk s n ∧ s.BlorbChunks = index :: chunks
          ∧ s.numberOfIndexEntries = 0 ∧ n = (indexable chunks).length
          ∧ exampleIndexed.numberOfIndexEntries = n
          ∧ (generateChunks exampleIndexed.indexOffsets exampleIndexed.BlorbChunks
              (headerOut, 0)).2 = n := by
  refine ⟨by decide, by decide, ?_⟩
  obtain ⟨s, n, index, chunks, h1, h2, h3, h4, h5, -, -, -, -, -, -, -, -, h6⟩ :=
    C31_index_counts exampleFs false false false false false [] exampleControl exampleIndexed
      (by rfl)
  exact ⟨s, n, index, chunks, h1, h2, h3, h4, h5, h6⟩

/-! ## The resource number of an entry -/

theorem readChunkUse_number (buffer : List Nat) (st st2 : Status) (toret : Chunk)
    (use : Usages) (h : readChunkUse buffer Chunk.zero st = .ok (toret, st2, use)) :
    (if cnvtToUsages buffer = .Fspc then Usages.Pict else cnvtToUsages buffer)
        ∈ [Usages.Exec, Usages.Pict, Usages.Snd, Usages.IFmd]
      ∧ toret.Res
        = counterOf st (if cnvtToUsages buffer = .Fspc then Usages.Pict else cnvtToUsages buffer)
      ∧ Bump st st2 (if cnvtToUsages buffer = .Fspc then Usages.Pict else cnvtToUsages buffer) := by
  rw [readChunkUse_eq] at h
  split at h
  · rename_i hu
    injection h with h; injection h with h1 h; injection h with h2 h3
    subst h1 h2 h3
    rw [hu]
    exact ⟨by decide, rfl, by simp [Bump]⟩
  · rename_i hu
    injection h with h; injection h with h1 h; injection h with h2 h3
    subst h1 h2 h3
    rw [hu]
    exact ⟨by decide, rfl, by simp [Bump]⟩
  · rename_i hu
    injection h with h; injection h with h1 h; injection h with h2 h3
    subst h1 h2 h3
    rw [hu]
    exact ⟨by decide, rfl, by simp [Bump]⟩
  · rename_i hu
    split_ifs at h
    injection h with h; injection h with h1 h; injection h with h2 h3
    subst h1 h2 h3
    rw [hu]
    exact ⟨by decide, rfl, by simp [Bump]⟩
  · rename_i hu
    split_ifs at h
    injection h with h; injection h with h1 h; injection h with h2 h3
    subst h1 h2 h3
    rw [hu]
    exact ⟨by decide, rfl, by simp [Bump]⟩
  · cases h

theorem bump_counterOf (st st2 : Status) (u v : Usages) (h : Bump st st2 u)
    (hu : u ∈ [Usages.Exec, Usages.Pict, Usages.Snd, Usages.IFmd])
    (hv : v ∈ [Usages.Exec, Usages.Pict, Usages.Snd, Usages.IFmd]) :
    counterOf st2 v = if v = u then (counterOf st v + 1) % 2 ^ 32 else counterOf st v := by
  obtain ⟨e1, e2, e3, e4⟩ := h
  simp only [List.mem_cons, List.mem_singleton, List.not_mem_nil, or_false] at hu hv
  rcases hu with rfl | rfl | rfl | rfl <;> rcases hv with rfl | rfl | rfl | rfl <;>
    simp [counterOf, e1, e2, e3, e4]

/-- The number `entryStep` gives the chunk of an entry is the counter of its
usage, which is then incremented, whether a chunk is stored or not. -/
theorem entryStep_number (fs : List Nat → Option (List Nat)) (st st1 : Status) (e : Entry)
    (c : Option Chunk) (h : entryStep fs st e = .ok (c, st1)) :
    e.counter ∈ [Usages.Exec, Usages.Pict, Usages.Snd, Usages.IFmd]
      ∧ (∀ chunk, c = some chunk → chunk.Res = counterOf st e.counter)
      ∧ ∀ v ∈ [Usages.Exec, Usages.Pict, Usages.Snd, Usages.IFmd],
          counterOf st1 v
            = if v = e.counter then (counterOf st v + 1) % 2 ^ 32 else counterOf st v := by
  unfold entryStep at h
  cases hr : readChunkUse e.use Chunk.zero st with
  | error err =>
    rw [hr] at h
    cases h
  | ok r =>
    obtain ⟨toret, st2, use⟩ := r
    rw [hr] at h
    simp only at h
    obtain ⟨hm, hres, hbump⟩ := readChunkUse_number e.use st st2 toret use hr
    obtain ⟨T, g, cid, -, hst, hc⟩ := readChunkFile_ok fs e.file toret use st2 st1 c h
    have hcnt : ∀ v, counterOf st1 v = counterOf st2 v := by
      intro v
      rw [hst]
      cases v <;> rfl
    refine ⟨hm, ?_, ?_⟩
    · intro chunk hchunk
      rcases hc with ⟨h1, -, -⟩ | ⟨contents, -, h2⟩
      · rw [h1] at hchunk
        cases hchunk
      · rw [h2] at hchunk
        injection hchunk with hchunk
        rw [← hchunk]
        exact hres
    · intro v hv
      rw [hcnt v]
      exact bump_counterOf st st2 _ v hbump hm hv

theorem entryChunks_cons (fs : List Nat → Option (List Nat)) (e : Entry) (es : List Entry)
    (status : Status) :
    entryChunks fs (e :: es) status =
      match entryStep fs status e with
      | .error _ => []
      | .ok (some chunk, status) =>
        if status.numberOfChunks ≥ MaxChunksBlorb then []
        else
          some chunk
            :: entryChunks fs es (storeChunk (withIn { rest := [], eof := true } status) chunk)
      | .ok (none, status) =>
        none :: entryChunks fs es (withIn { rest := [], eof := true } status) := by
  rw [entryChunks]

/-- The shape of the list of `entryChunks` at an entry that does not stop it. -/
theorem entryChunks_step (fs : List Nat → Option (List Nat)) (e : Entry) (es : List Entry)
    (st : Status) (h : entryChunks fs (e :: es) st ≠ []) :
    ∃ c st1 st2, entryStep fs st e = .ok (c, st1)
      ∧ entryChunks fs (e :: es) st = c :: entryChunks fs es st2
      ∧ (∀ v, counterOf st2 v = counterOf st1 v) := by
  rw [entryChunks_cons] at h ⊢
  cases he : entryStep fs st e with
  | error err =>
    rw [he] at h
    exact absurd rfl h
  | ok r =>
    obtain ⟨c, st1⟩ := r
    rw [he] at h
    cases c with
    | none => exact ⟨none, st1, _, rfl, rfl, fun v => by cases v <;> rfl⟩
    | some chunk =>
      simp only at h ⊢
      by_cases hov : st1.numberOfChunks ≥ MaxChunksBlorb
      · rw [if_pos hov] at h
        exact absurd rfl h
      · rw [if_neg hov]
        exact ⟨some chunk, st1, _, rfl, rfl, fun v => by cases v <;> rfl⟩

/-- The number of the chunk of the entry `i` of a control list: the counter of
its usage when the loop starts, plus the number of entries of that usage before
it. -/
theorem entryChunks_number (fs : List Nat → Option (List Nat)) :
    ∀ (es : List Entry) (st : Status) (i : Nat) (e : Entry) (c : Chunk),
      (∀ v, counterOf st v < 2 ^ 32) → es[i]? = some e →
      (entryChunks fs es st)[i]? = some (some c) →
      e.counter ∈ [Usages.Exec, Usages.Pict, Usages.Snd, Usages.IFmd]
        ∧ c.Res = (counterOf st e.counter
            + ((es.take i).filter (fun x => x.counter = e.counter)).length) % 2 ^ 32 := by
  intro es
  induction es with
  | nil =>
    intro st i e c _ he
    simp at he
  | cons e0 es ih =>
    intro st i e c hlt he hc
    have hne : entryChunks fs (e0 :: es) st ≠ [] := by
      intro h0
      rw [h0] at hc
      simp at hc
    obtain ⟨c0, st1, st2, hstep, htrace, hcnt⟩ := entryChunks_step fs e0 es st hne
    obtain ⟨hm0, hres0, hbump0⟩ := entryStep_number fs st st1 e0 c0 hstep
    rw [htrace] at hc
    cases i with
    | zero =>
      simp only [List.getElem?_cons_zero, Option.some.injEq] at he hc
      subst he
      refine ⟨hm0, ?_⟩
      rw [hres0 c hc]
      simp only [List.take_zero, List.filter_nil, List.length_nil, Nat.add_zero]
      exact (Nat.mod_eq_of_lt (hlt _)).symm
    | succ i =>
      simp only [List.getElem?_cons_succ] at he hc
      have hlt2 : ∀ v, counterOf st2 v < 2 ^ 32 := by
        intro v
        rw [hcnt v]
        have hfour : ∀ w ∈ [Usages.Exec, Usages.Pict, Usages.Snd, Usages.IFmd],
            counterOf st1 w < 2 ^ 32 := by
          intro w hw
          rw [hbump0 w hw]
          split_ifs
          · exact Nat.mod_lt _ (by norm_num)
          · exact hlt w
        cases v
        · exact hfour _ (by decide)
        · exact hfour _ (by decide)
        · exact hfour _ (by decide)
        · exact hfour _ (by decide)
        · exact hfour Usages.IFmd (by decide)
        · exact hfour Usages.IFmd (by decide)
      obtain ⟨hm, hres⟩ := ih st2 i e c hlt2 he hc
      refine ⟨hm, ?_⟩
      rw [hres, hcnt, hbump0 _ hm, List.take_succ_cons, List.filter_cons]
      by_cases heq : e.counter = e0.counter
      · have hd : decide (e0.counter = e.counter) = true := by simp [heq]
        rw [if_pos heq, hd, if_pos rfl, List.length_cons]
        omega
      · have hd : decide (e0.counter = e.counter) = false := by
          simp only [decide_eq_false_iff_not]
          exact fun hh => heq hh.symm
        rw [if_neg heq, hd]
        simp

/-- The chunks the first loop of `buildIndex` stores are those `entryChunks`
lists, and when the loop succeeds the list has an item for each entry. -/
theorem loadEntries_entryChunks (fs : List Nat → Option (List Nat)) :
    ∀ (es : List Entry) (st s : Status) (n m : Nat), loadEntries fs es (st, n) = .ok (s, m) →
      s.BlorbChunks = st.BlorbChunks ++ (entryChunks fs es st).reduceOption
        ∧ (entryChunks fs es st).length = es.length := by
  intro es
  induction es with
  | nil =>
    intro st s n m h
    rw [loadEntries_nil] at h
    injection h with h
    injection h with h1 h2
    subst h1
    exact ⟨by simp [entryChunks], rfl⟩
  | cons e es ih =>
    intro st s n m h
    rw [loadEntries_step] at h
    rw [entryChunks_cons]
    cases he : entryStep fs st e with
    | error err =>
      rw [he] at h
      cases h
    | ok r =>
      obtain ⟨c, st1⟩ := r
      rw [he] at h
      obtain ⟨hb, -⟩ := entryStep_shape fs st st1 e c he
      cases c with
      | none =>
        obtain ⟨i1, i2⟩ := ih _ s n m h
        refine ⟨?_, by simp [i2]⟩
        rw [i1]
        show st1.BlorbChunks ++ _ = _
        rw [hb]
        simp [List.reduceOption_cons_of_none]
      | some chunk =>
        simp only at h ⊢
        by_cases hov : st1.numberOfChunks ≥ MaxChunksBlorb
        · rw [if_pos hov] at h
          cases h
        · rw [if_neg hov] at h
          rw [if_neg hov]
          obtain ⟨i1, i2⟩ := ih _ s _ m h
          refine ⟨?_, by simp [i2]⟩
          rw [i1]
          show st1.BlorbChunks ++ [chunk] ++ _ = _
          rw [hb]
          simp [List.reduceOption_cons_of_some]

/-! ## Lines with more than a usage and a file path -/

set_option maxRecDepth 100000 in
/-- C11 fails on the code. The control file of the one line
`pict a.png cover cover.png` holds a picture entry and no cover entry: its first
token resolves to `Pict`. `readChunk` reads the file path up to the first space,
takes the rest of the line, `cover cover.png`, for another entry, a cover, and
`buildIndex` ends the chunk list with a cover chunk of type "Fspc" that holds
the number 4. -/
theorem C11_cover_from_rest_of_line :
    cnvtToUsages (cstr "pict") = .Pict
      ∧ readChunkRest { rest := cstr "a.png cover cover.png\n", eof := false }
        = (cstr "a.png", { rest := cstr "cover cover.png\n", eof := false })
      ∧ (match buildIndex everyFs
          (startStatus false false false false false [] extraCoverControl) with
        | .ok status =>
          status.BlorbChunks.tail.map (fun chunk => (chunk.Use, chunk.Type_, chunk.Res, chunk.Data))
        | .error _ => [])
        = [(cstr "Pict", cstr "PNG", 3, [7]), (cstr "Pict", cstr "PNG", 4, [7]),
           (cstr "0", cstr "Fspc", 1, [0, 0, 0, 4])] := by
  refine ⟨by decide, by rfl, by rfl⟩

set_option maxRecDepth 100000 in
/-- C24 fails on the code. In the control file `pict a.png snd`, `snd b.ogg`
the file path of the first line is read up to the first space and the word `snd`
that follows it is taken for the usage of another entry, whose identifier and
file path `readChunk` finds on the second line: the build gives two chunks. With
the comment line `! c` between the two lines, the comment character is no longer
the first character `readChunk` meets: `!` is read as the file path of the entry
`snd`, and the build stops with "unrecognized file extension". -/
theorem C24_comment_read_as_path :
    (match buildIndex everyFs
          (startStatus false false false false false [] leftoverControl) with
        | .ok status =>
          status.BlorbChunks.tail.map (fun chunk => (chunk.Use, chunk.Type_, chunk.Res, chunk.Data))
        | .error _ => [])
        = [(cstr "Pict", cstr "PNG", 3, [7]), (cstr "Snd", cstr "OGGV", 3, [7])]
      ∧ strchr CommentCharacters (some 33) = true
      ∧ buildIndex everyFs
          (startStatus false false false false false [] leftoverCommentedControl)
        = .error (.unrecognizedExtension 1 [] (cstr "!")) := by
  refine ⟨by rfl, by decide, by rfl⟩

set_option maxRecDepth 100000 in
/-- C25 fails on the code. The control file of the one line
`pict cover.png snd theme.ogg` holds one entry, and every file opens.
`readChunk` reads the file path of the entry up to the first space and takes the
rest of the line for another entry: the chunk list has two chunks after the
index chunk, a picture and a sound, both counted in the index. -/
theorem C25_two_chunks_from_one_line :
    readChunkRest { rest := cstr "cover.png snd theme.ogg\n", eof := false }
        = (cstr "cover.png", { rest := cstr "snd theme.ogg\n", eof := false })
      ∧ (match buildIndex everyFs
          (startStatus false false false false false [] twoOnLineControl) with
        | .ok status =>
          (status.BlorbChunks.tail.map
            (fun chunk => (chunk.Use, chunk.Type_, chunk.Res, chunk.Data)),
           status.numberOfIndexEntries)
        | .error _ => ([], 0))
        = ([(cstr "Pict", cstr "PNG", 3, [7]), (cstr "Snd", cstr "OGGV", 3, [7])], 2)
    := by
  refine ⟨by rfl, by rfl⟩

/-! ## The entries read from a control file, whatever its bytes -/

section

attribute [local irreducible] skipComments freadLine skipDelimiters readChunkRest readChunkUse
  readChunkFile skipEndOfLine skipDelimitersFrom

/-- The two parts of `readChunk`: the tokens of an entry are read, whatever the
files hold, then the chunk is made. -/
theorem readChunk_tokens (fs : List Nat → Option (List Nat)) (st : Status) :
    readChunk fs st = afterTokens fs st (readTokens st.in_) := by
  rw [readChunk_eq]
  unfold readTokens
  dsimp only
  cases skipComments ((fgetc (skipDelimiters st.in_)).2.rest.length + 2)
      (fgetc (skipDelimiters st.in_)).1 (fgetc (skipDelimiters st.in_)).2 with
  | error e => rfl
  | ok r =>
    obtain ⟨c, f⟩ := r
    cases c with
    | none => rfl
    | some c =>
      dsimp only
      by_cases hf : feof (skipDelimiters (freadLine (ungetc (some c) f) FieldDelimiters).2) = true
      · rw [if_pos hf]
        simp only [hf, if_true, afterTokens]
        cases readChunkUse (freadLine (ungetc (some c) f) FieldDelimiters).1 Chunk.zero st with
        | error e => rfl
        | ok r => rfl
      · rw [if_neg hf]
        simp only [hf, if_false, afterTokens, entryStep]
        cases readChunkUse (freadLine (ungetc (some c) f) FieldDelimiters).1 Chunk.zero st with
        | error e => rfl
        | ok r =>
          obtain ⟨toret, st2, use⟩ := r
          dsimp only
          cases readChunkFile fs (readChunkRest
              (skipDelimiters (freadLine (ungetc (some c) f) FieldDelimiters).2)).1
              toret use st2 with
          | error e => rfl
          | ok r2 => rfl

end

theorem skipDelimiters_twice (f : InFile) : skipDelimiters (skipDelimiters f) = skipDelimiters f := by
  rw [skipDelimiters_eq f, skipDelimiters_idem]

theorem freadLine_stream (f : InFile) (d : List Nat) :
    (freadLine f d).2 = { rest := [], eof := true } ∨ (freadLine f d).2.eof = false := by
  unfold freadLine
  rcases skipEndOfLine_cases (f.eof || (freadLineChars d f.rest).2.2)
    (freadLineChars d f.rest).2.1 with ⟨h, -⟩ | h
  · exact Or.inl h
  · exact Or.inr h

theorem readChunkRest_stream (f : InFile) :
    (readChunkRest f).2 = { rest := [], eof := true } ∨ (readChunkRest f).2.eof = false := by
  unfold readChunkRest
  dsimp only
  split_ifs
  · exact freadLine_stream _ _
  · exact freadLine_stream _ _

section

attribute [local irreducible] skipComments freadLine skipDelimiters readChunkRest skipEndOfLine
  skipDelimitersFrom

theorem readTokens_skip (f : InFile) : readTokens (skipDelimiters f) = readTokens f := by
  unfold readTokens
  rw [skipDelimiters_twice]

/-- At the end of the control file, or before blanks that end it, `readChunk`
reads no token. -/
theorem readTokens_end (f : InFile) (h : skipDelimiters f = { rest := [], eof := true }) :
    readTokens f = .endOfFile { rest := [], eof := true } := by
  unfold readTokens
  rw [h]
  have h1 : fgetc { rest := [], eof := true } = (none, { rest := [], eof := true }) := rfl
  dsimp only
  rw [h1]
  dsimp only
  rw [List.length_nil, skipComments_eof]

theorem readTokens_endOfFile (f f1 : InFile) (h : readTokens f = .endOfFile f1) :
    f1.eof = true := by
  unfold readTokens at h
  dsimp only at h
  cases hs : skipComments ((fgetc (skipDelimiters f)).2.rest.length + 2)
      (fgetc (skipDelimiters f)).1 (fgetc (skipDelimiters f)).2 with
  | error e => rw [hs] at h; cases h
  | ok r =>
    obtain ⟨c, g⟩ := r
    rw [hs] at h
    cases c with
    | none =>
      dsimp only at h
      injection h with h
      subst h
      exact skipComments_none _ _ _ _ hs (fun hn => fgetc_none _ _ (Prod.ext hn rfl))
    | some c =>
      dsimp only at h
      split_ifs at h

theorem readTokens_entry (f f1 : InFile) (e : Entry) (h : readTokens f = .entry e f1) :
    f1 = { rest := [], eof := true } ∨ f1.eof = false := by
  unfold readTokens at h
  dsimp only at h
  cases hs : skipComments ((fgetc (skipDelimiters f)).2.rest.length + 2)
      (fgetc (skipDelimiters f)).1 (fgetc (skipDelimiters f)).2 with
  | error e => rw [hs] at h; cases h
  | ok r =>
    obtain ⟨c, g⟩ := r
    rw [hs] at h
    cases c with
    | none => cases h
    | some c =>
      dsimp only at h
      split_ifs at h
      injection h with h1 h2
      rw [← h2]
      exact readChunkRest_stream _

end

theorem entriesRead_succ (fuel : Nat) (f : InFile) :
    entriesRead (fuel + 1) f = match readTokens f with
      | .entry e f1 => e :: entriesRead fuel f1
      | _ => [] := by
  rw [entriesRead]

theorem entriesRead_end (fuel : Nat) (f : InFile)
    (h : skipDelimiters f = { rest := [], eof := true }) : entriesRead fuel f = [] := by
  cases fuel with
  | zero => rfl
  | succ k => rw [entriesRead_succ, readTokens_end f h]

theorem entriesRead_skip (fuel : Nat) (f : InFile) :
    entriesRead fuel (skipDelimiters f) = entriesRead fuel f := by
  cases fuel with
  | zero => rfl
  | succ k => rw [entriesRead_succ, entriesRead_succ, readTokens_skip]

theorem entriesRead_length (fuel : Nat) : ∀ f, (entriesRead fuel f).length ≤ fuel := by
  induction fuel with
  | zero => intro f; exact Nat.le_refl _
  | succ k ih =>
    intro f
    rw [entriesRead_succ]
    cases readTokens f with
    | entry e f1 =>
      have := ih f1
      simp only [List.length_cons]
      omega
    | endOfFile f1 => exact Nat.zero_le _
    | useOnly u => exact Nat.zero_le _
    | failed e => exact Nat.zero_le _

theorem skipDelimiters_end_cases (f : InFile) :
    skipDelimiters f = { rest := [], eof := true } ∨ (skipDelimiters f).eof = false := by
  rw [skipDelimiters_eq]
  rcases skipDelimitersFrom_cases f.rest with ⟨h, -⟩ | ⟨ws, c, t, -, -, -, h⟩
  · exact Or.inl h
  · right
    rw [h]

section

attribute [local irreducible] readChunk storeChunk loadEntries entryStep skipDelimiters
  readTokens entriesRead

/-- The first loop of `buildIndex`, when it succeeds, does on the control file
what it does on the entries read from it. -/
theorem loadChunks_read (fs : List Nat → Option (List Nat)) :
    ∀ (fuel : Nat) (st : Status) (n : Nat) (s : Status) (m : Nat),
      loadChunks fs fuel (st, n) = .ok (s, m) →
      (loadEntries fs (entriesRead fuel st.in_) (st, n)).map atEnd = .ok (atEnd (s, m)) := by
  intro fuel
  induction fuel with
  | zero =>
    intro st n s m h
    rw [loadChunks] at h
    cases h
  | succ k ih =>
    intro st n s m h
    rw [loadChunks_step, readChunk_tokens] at h
    rw [entriesRead_succ]
    cases ht : readTokens st.in_ with
    | failed e =>
      rw [ht] at h
      simp only [afterTokens] at h
      cases h
    | useOnly u =>
      rw [ht] at h
      simp only [afterTokens] at h
      cases hu : readChunkUse u Chunk.zero st with
      | error e => rw [hu] at h; cases h
      | ok r => rw [hu] at h; cases h
    | endOfFile f =>
      rw [ht] at h
      simp only [afterTokens] at h
      have hf := readTokens_endOfFile _ _ ht
      have hn : (!feof f) = false := by simp [feof, hf]
      rw [if_neg (by rw [hn]; decide)] at h
      injection h with h
      injection h with h1 h2
      subst h1
      subst h2
      dsimp only
      rw [loadEntries_nil]
      rfl
    | entry e f1 =>
      rw [ht] at h
      simp only [afterTokens] at h
      dsimp only
      rw [loadEntries_step]
      cases he : entryStep fs st e with
      | error err => rw [he] at h; cases h
      | ok r =>
        obtain ⟨chunk, st1⟩ := r
        rw [he] at h
        cases chunk with
        | none =>
          dsimp only at h ⊢
          rcases readTokens_entry _ _ _ ht with hend | hne
          · have hn : (!feof (withIn f1 st1).in_) = false := by
              rw [hend]
              rfl
            rw [if_neg (by rw [hn]; decide)] at h
            injection h with h
            injection h with h1 h2
            subst h1
            subst h2
            rw [entriesRead_end k f1 (by rw [hend]; exact skipDelimiters_nil true), loadEntries_nil]
            rfl
          · have hf : (!feof (withIn f1 st1).in_) = true := by
              simp [feof, withIn, hne]
            rw [if_pos hf] at h
            have h2 := ih _ _ _ _ h
            rw [← h2]
            show (loadEntries fs (entriesRead k f1) (withIn { rest := [], eof := true } st1, n)).map
                atEnd
              = (loadEntries fs (entriesRead k f1) (withIn f1 st1, n)).map atEnd
            rw [loadEntries_atEnd, loadEntries_atEnd]
        | some chunk =>
          dsimp only at h ⊢
          have hnum : (withIn f1 st1).numberOfChunks = st1.numberOfChunks := rfl
          rw [hnum] at h
          by_cases hcap : st1.numberOfChunks ≥ MaxChunksBlorb
          · rw [if_pos hcap] at h
            cases h
          · rw [if_neg hcap] at h
            rw [if_neg hcap]
            generalize (if chunk.Use ≠ cstr "0" then n + 1 else n) = n1 at h ⊢
            rw [storeChunk_withIn] at h ⊢
            rcases skipDelimiters_end_cases f1 with hend | hne
            · have hn : (!feof (withIn (skipDelimiters f1) (storeChunk st1 chunk)).in_)
                  = false := by
                rw [hend]
                rfl
              rw [if_neg (by rw [hn]; decide)] at h
              injection h with h
              injection h with h1 h2
              subst h1
              subst h2
              rw [entriesRead_end k f1 hend, loadEntries_nil]
              rfl
            · have hf : (!feof (withIn (skipDelimiters f1) (storeChunk st1 chunk)).in_)
                  = true := by
                simp [feof, withIn, hne]
              rw [if_pos hf] at h
              have h2 := ih _ _ _ _ h
              rw [← h2]
              show (loadEntries fs (entriesRead k f1)
                  (withIn (skipDelimiters { rest := [], eof := true }) (storeChunk st1 chunk),
                    n1)).map atEnd
                = (loadEntries fs (entriesRead k (skipDelimiters f1))
                  (withIn (skipDelimiters f1) (storeChunk st1 chunk), n1)).map atEnd
              rw [entriesRead_skip, loadEntries_atEnd, loadEntries_atEnd]

end

/-- The chunks after the cover chunk is prepared and the index chunk filled. -/
theorem cover_index_chunks (s0 s2 st : Status) (n : Nat) (cs : List Chunk)
    (hcs : s0.BlorbChunks = indexChunk0 :: cs) (hc : coverChunk s0 = .ok s2)
    (h : indexChunk s2 n = st) :
    ∃ index, index.Type_ = cstr "RIdx" ∧ index.Use = cstr "0"
      ∧ st.BlorbChunks = index :: (cs ++ (if s0.thereIsCover then [frontispiece s0] else [])) := by
  obtain ⟨data, hd, -⟩ := indexChunk_chunks s2 n
  rw [h] at hd
  have hs2 : s2.BlorbChunks
      = indexChunk0 :: (cs ++ (if s0.thereIsCover then [frontispiece s0] else [])) := by
    unfold coverChunk at hc
    cases ht : s0.thereIsCover
    · rw [ht] at hc
      simp only [Bool.false_eq_true, if_false, Except.ok.injEq] at hc
      rw [← hc, hcs]
      simp
    · rw [ht] at hc
      simp only [if_true] at hc
      split_ifs at hc
      injection hc with hc
      rw [← hc]
      simp [hcs]
  rw [hs2] at hd
  refine ⟨{ indexChunk0 with Length := 12 * n + 4, Data := data }, rfl, rfl, ?_⟩
  rw [hd]

section

attribute [local irreducible] loadChunks skipDelimiters coverChunk indexChunk loadEntries
  skipDelimitersFrom entriesRead frontispiece

/-- A successful build does on the control file what the first loop of
`buildIndex` does on the entries read from it, followed by the cover chunk and
the index chunk. -/
theorem buildIndex_read (fs : List Nat → Option (List Nat))
    (verbose noBli onlyBli isShortExtension isGlulx : Bool) (path control : List Nat)
    (st : Status)
    (h : buildIndex fs (startStatus verbose noBli onlyBli isShortExtension isGlulx path control)
      = .ok st) :
    ∃ s n index, loadEntries fs (entriesIn control)
        (entriesStart verbose noBli onlyBli isShortExtension isGlulx path, 0) = .ok (s, n)
      ∧ index.Type_ = cstr "RIdx" ∧ index.Use = cstr "0"
      ∧ st.BlorbChunks = index :: (s.BlorbChunks.tail
          ++ (if s.thereIsCover then [frontispiece s] else [])) := by
  have key : ∀ (s0 : Status) (n : Nat),
      loadEntries fs (entriesIn control)
        (entriesStart verbose noBli onlyBli isShortExtension isGlulx path, 0)
        = .ok (withIn { rest := [], eof := true } s0, n) →
      ∀ s2, coverChunk s0 = .ok s2 → indexChunk s2 n = st →
      ∃ s n index, loadEntries fs (entriesIn control)
          (entriesStart verbose noBli onlyBli isShortExtension isGlulx path, 0) = .ok (s, n)
        ∧ index.Type_ = cstr "RIdx" ∧ index.Use = cstr "0"
        ∧ st.BlorbChunks = index :: (s.BlorbChunks.tail
            ++ (if s.thereIsCover then [frontispiece s] else [])) := by
    intro s0 n hl s2 hc hst
    obtain ⟨hb, -⟩ := loadEntries_entryChunks fs _ _ _ _ _ hl
    have hb0 : (entriesStart verbose noBli onlyBli isShortExtension isGlulx path).BlorbChunks
        = [indexChunk0] := rfl
    rw [hb0] at hb
    have hcs : s0.BlorbChunks = indexChunk0 :: (entryChunks fs (entriesIn control)
        (entriesStart verbose noBli onlyBli isShortExtension isGlulx path)).reduceOption := hb
    obtain ⟨index, h1, h2, h3⟩ := cover_index_chunks s0 s2 st n _ hcs hc hst
    refine ⟨_, n, index, hl, h1, h2, ?_⟩
    rw [h3]
    have e1 : (withIn { rest := [], eof := true } s0).BlorbChunks = s0.BlorbChunks := rfl
    have e2 : (withIn { rest := [], eof := true } s0).thereIsCover = s0.thereIsCover := rfl
    have e3 : frontispiece (withIn { rest := [], eof := true } s0) = frontispiece s0 := by
      unfold frontispiece
      rfl
    rw [e1, e2, e3, hcs]
    rfl
  unfold buildIndex at h
  simp only [bind, Except.bind] at h
  split_ifs at h with hf
  · split at h
    · cases h
    · rename_i r hload
      obtain ⟨s0, n⟩ := r
      have hload2 : loadChunks fs
          ((skipDelimiters { rest := control, eof := false }).rest.length + 1)
          (withIn (skipDelimiters { rest := control, eof := false })
            (entriesStart verbose noBli onlyBli isShortExtension isGlulx path), 0)
          = .ok (s0, n) := hload
      have hr := loadChunks_read fs _ _ _ _ _ hload2
      have hin : (withIn (skipDelimiters { rest := control, eof := false })
          (entriesStart verbose noBli onlyBli isShortExtension isGlulx path)).in_
          = skipDelimiters { rest := control, eof := false } := rfl
      rw [hin, loadEntries_atEnd, loadEntries_map_atEnd fs _ _ 0 rfl] at hr
      simp only at h
      split at h
      · cases h
      · rename_i s2 hc
        simp only [pure, Except.pure, Except.ok.injEq] at h
        exact key s0 n hr s2 hc h
  · simp only [pure, Except.pure] at h
    split at h
    · cases h
    · rename_i s2 hc
      simp only [Except.ok.injEq] at h
      have hend : skipDelimiters { rest := control, eof := false } = { rest := [], eof := true } := by
        rcases skipDelimiters_end_cases { rest := control, eof := false } with h1 | h1
        · exact h1
        · exfalso
          have h2 : (!feof (skipDelimiters { rest := control, eof := false })) = true := by
            simp [feof, h1]
          exact hf h2
      have hE : entriesIn control = [] := by
        unfold entriesIn
        rw [entriesRead_end _ _ (by rw [skipDelimiters_twice]; exact hend)]
      refine key _ 0 ?_ s2 hc h
      rw [hE, loadEntries_nil]
      rfl

end

/-! ## Resource numbers are not given twice -/

theorem chunkUse_counter (e : Entry) : e.chunkUse = storedUse e.counter := by
  unfold Entry.chunkUse Entry.counter Entry.isCover
  cases cnvtToUsages e.use <;> rfl

theorem storedUse_inj (v w : Usages) (h : storedUse v = storedUse w)
    (hv : storedUse v ≠ cstr "0") : v = w := by
  cases v <;> cases w <;> first | rfl | (exfalso; revert h hv; decide)

theorem storedUse_counter (v : Usages) (hv : storedUse v ≠ cstr "0") :
    v ∈ [Usages.Exec, Usages.Pict, Usages.Snd, Usages.IFmd] := by
  cases v <;> first | decide | (exfalso; revert hv; decide)

theorem counterOf_withIn (f : InFile) (st : Status) (v : Usages) :
    counterOf (withIn f st) v = counterOf st v := by
  cases v <;> rfl

theorem counterOf_storeChunk (st : Status) (chunk : Chunk) (v : Usages) :
    counterOf (storeChunk st chunk) v = counterOf st v := by
  cases v <;> rfl

/-- One entry keeps the invariant, whether its chunk is stored or dropped, as
long as its counter does not wrap around. -/
theorem belowCounters_step (st st2 : Status) (u : Usages) (new : Option Chunk)
    (hinv : BelowCounters st)
    (hcount : ∀ v ∈ [Usages.Exec, Usages.Pict, Usages.Snd, Usages.IFmd],
      counterOf st2 v = if v = u then counterOf st v + 1 else counterOf st v)
    (hchunks : st2.BlorbChunks = st.BlorbChunks ++ new.toList)
    (hnew : ∀ c, new = some c → c.Use = storedUse u ∧ c.Res = counterOf st u) :
    BelowCounters st2 := by
  obtain ⟨hp, hb⟩ := hinv
  have hmono : ∀ v ∈ [Usages.Exec, Usages.Pict, Usages.Snd, Usages.IFmd],
      counterOf st v ≤ counterOf st2 v := by
    intro v hv
    rw [hcount v hv]
    split_ifs <;> omega
  constructor
  · rw [hchunks, List.pairwise_append]
    refine ⟨hp, ?_, ?_⟩
    · cases new with
      | none => exact List.Pairwise.nil
      | some c => exact List.pairwise_singleton _ _
    · intro a ha b hbm hsame hne
      cases new with
      | none => cases hbm
      | some c =>
        have hbc : b = c := by simpa using hbm
        subst hbc
        obtain ⟨hu, hr⟩ := hnew b rfl
        obtain ⟨v, hav, hlt⟩ := hb a ha hne
        have hvu : v = u := storedUse_inj v u (by rw [← hav, ← hu]; exact hsame)
          (by rw [← hav]; exact hne)
        subst hvu
        omega
  · intro c hc hne
    rw [hchunks] at hc
    rcases List.mem_append.mp hc with hc | hc
    · obtain ⟨v, hav, hlt⟩ := hb c hc hne
      have hv := storedUse_counter v (by rw [← hav]; exact hne)
      exact ⟨v, hav, Nat.lt_of_lt_of_le hlt (hmono v hv)⟩
    · cases new with
      | none => cases hc
      | some c0 =>
        have hbc : c = c0 := by simpa using hc
        subst hbc
        obtain ⟨hu, hr⟩ := hnew c rfl
        have hv := storedUse_counter u (by rw [← hu]; exact hne)
        refine ⟨u, hu, ?_⟩
        rw [hcount u hv, if_pos rfl, hr]
        omega

/-- The first loop of `buildIndex` keeps the invariant when the counters cannot
wrap around over the entries. -/
theorem loadEntries_distinct (fs : List Nat → Option (List Nat)) :
    ∀ (es : List Entry) (st : Status) (n : Nat) (s : Status) (m : Nat),
      loadEntries fs es (st, n) = .ok (s, m) → BelowCounters st →
      (∀ v, counterOf st v + es.length < 2 ^ 32) → BelowCounters s := by
  intro es
  induction es with
  | nil =>
    intro st n s m h hinv _
    rw [loadEntries_nil] at h
    injection h with h
    injection h with h1 h2
    rw [← h1]
    exact hinv
  | cons e es ih =>
    intro st n s m h hinv hlen
    rw [loadEntries_step] at h
    cases he : entryStep fs st e with
    | error err =>
      rw [he] at h
      cases h
    | ok r =>
      obtain ⟨c, st1⟩ := r
      rw [he] at h
      obtain ⟨hcU, hres, hbump⟩ := entryStep_number fs st st1 e c he
      obtain ⟨hb, -⟩ := entryStep_shape fs st st1 e c he
      obtain ⟨-, hck⟩ := entryStep_chunk fs st st1 e c he
      have hcount : ∀ v ∈ [Usages.Exec, Usages.Pict, Usages.Snd, Usages.IFmd],
          counterOf st1 v = if v = e.counter then counterOf st v + 1 else counterOf st v := by
        intro v hv
        rw [hbump v hv]
        split_ifs with hve
        · have := hlen v
          simp only [List.length_cons] at this
          exact Nat.mod_eq_of_lt (by omega)
        · rfl
      have hlen1 : ∀ v, counterOf st1 v + es.length < 2 ^ 32 := by
        intro v
        have h0 := hlen v
        simp only [List.length_cons] at h0
        by_cases hv : v ∈ [Usages.Exec, Usages.Pict, Usages.Snd, Usages.IFmd]
        · rw [hcount v hv]
          split_ifs <;> omega
        · have hm : counterOf st1 v = counterOf st1 Usages.IFmd := by
            cases v <;> first | rfl | (exfalso; exact hv (by decide))
          have h1 := hlen Usages.IFmd
          simp only [List.length_cons] at h1
          rw [hm, hcount Usages.IFmd (by decide)]
          split_ifs <;> omega
      cases c with
      | none =>
        dsimp only at h
        refine ih _ _ _ _ h ?_ ?_
        · refine belowCounters_step st _ e.counter none hinv ?_ ?_ ?_
          · intro v hv
            rw [counterOf_withIn]
            exact hcount v hv
          · show st1.BlorbChunks = _
            rw [hb]
            simp
          · intro c hc
            cases hc
        · intro v
          rw [counterOf_withIn]
          exact hlen1 v
      | some chunk =>
        dsimp only at h
        generalize (if chunk.Use ≠ cstr "0" then n + 1 else n) = n1 at h
        by_cases hcap : st1.numberOfChunks ≥ MaxChunksBlorb
        · rw [if_pos hcap] at h
          cases h
        rw [if_neg hcap] at h
        refine ih _ _ _ _ h ?_ ?_
        · refine belowCounters_step st _ e.counter (some chunk) hinv ?_ ?_ ?_
          · intro v hv
            rw [counterOf_storeChunk, counterOf_withIn]
            exact hcount v hv
          · show st1.BlorbChunks ++ [chunk] = _
            rw [hb]
            rfl
          · intro c hc
            injection hc with hc
            subst hc
            refine ⟨?_, hres _ rfl⟩
            rcases hck with ⟨hn, -⟩ | ⟨ch, hch, -, -, hu, -⟩
            · cases hn
            · injection hch with hch
              rw [hch, hu, chunkUse_counter]
        · intro v
          rw [counterOf_storeChunk, counterOf_withIn]
          exact hlen1 v

theorem entryStep_missingEntry (st : Status) (hp : st.path = []) (ho : st.onlyBli = true) :
    ∃ st1, entryStep exampleFs st missingEntry = .ok (none, st1)
      ∧ st1.BlorbChunks = st.BlorbChunks ∧ st1.path = [] ∧ st1.onlyBli = true := by
  have hu : cnvtToUsages missingEntry.use = .Pict := by decide
  have hf : ∀ s : Status, s.path = [] →
      prepareFileName missingEntry.file s = cstr "missing.png" := by
    intro s hs
    have h1 : strTrim missingEntry.file FieldDelimiters = cstr "missing.png" := by decide
    have h2 : isRelativePath (cstr "missing.png") = true := by decide
    simp only [prepareFileName, h1, h2, if_true, makeCompletePath, hs, List.nil_append]
  have hi : ∀ (c : Chunk) (s : Status), inferType c (cstr "missing.png") s
      = .ok ({ c with Type_ := cstr "PNG" }, s) := by
    intro c s
    have h1 : strtolower (getFileNameExt (cstr "missing.png")) = cstr "png" := by decide
    have h2 : copyId (PictureChunkTypes.getD PNG []) = cstr "PNG" := by decide
    unfold inferType
    simp only [h1, h2]
    rfl
  have he : exampleFs (cstr "missing.png") = none := by decide
  unfold entryStep
  rw [readChunkUse_eq, hu]
  simp only
  unfold readChunkFile
  simp only [bind, Except.bind, hf, hp, hi, he, pure, Except.pure]
  split_ifs <;> simp_all

/-- Entries that are dropped take their numbers: after `k` picture entries whose
file is missing, the counter of the pictures is `k` further, modulo 2^32. -/
theorem loadEntries_missing (rest : List Entry) : ∀ (k : Nat) (st : Status) (n : Nat),
    st.path = [] → st.onlyBli = true → counterOf st .Pict < 2 ^ 32 →
    ∃ s, loadEntries exampleFs (List.replicate k missingEntry ++ rest) (st, n)
        = loadEntries exampleFs rest (s, n)
      ∧ s.BlorbChunks = st.BlorbChunks ∧ s.path = [] ∧ s.onlyBli = true
      ∧ counterOf s .Pict = (counterOf st .Pict + k) % 2 ^ 32 := by
  intro k
  induction k with
  | zero =>
    intro st n hp ho hx
    exact ⟨st, rfl, rfl, hp, ho, (Nat.mod_eq_of_lt hx).symm⟩
  | succ k ih =>
    intro st n hp ho hx
    obtain ⟨st1, h1, h2, h3, h4⟩ := entryStep_missingEntry st hp ho
    obtain ⟨-, -, hbump⟩ := entryStep_number exampleFs st st1 missingEntry none h1
    have hc : counterOf st1 .Pict = (counterOf st .Pict + 1) % 2 ^ 32 := by
      have := hbump .Pict (by decide)
      rw [this]
      have hm : missingEntry.counter = .Pict := by decide
      rw [hm, if_pos rfl]
    obtain ⟨s, e1, e2, e3, e4, e5⟩ := ih (withIn { rest := [], eof := true } st1) n h3 h4 (by
      rw [counterOf_withIn, hc]
      exact Nat.mod_lt _ (by decide))
    refine ⟨s, ?_, ?_, e3, e4, ?_⟩
    · rw [List.replicate_succ, List.cons_append, loadEntries_step, h1]
      exact e1
    · rw [e2]
      exact h2
    · rw [e5, counterOf_withIn, hc]
      omega

theorem wrapEntries_wellFormed : ∀ x ∈ wrapEntries, x.WellFormed := by
  intro x hx
  unfold wrapEntries at hx
  rcases List.mem_cons.mp hx with rfl | hx
  · exact pictEntry_wellFormed
  · rcases List.mem_append.mp hx with hx | hx
    · rw [(List.mem_replicate.mp hx).2]
      exact missingEntry_wellFormed
    · rw [List.mem_singleton.mp hx]
      exact pictEntry_wellFormed

/-- A picture entry whose file opens gets the number of the counter of the
pictures, and its chunk is stored with the usage "Pict". -/
theorem loadEntries_pict (rest : List Entry) (st : Status) (n : Nat) (hp : st.path = [])
    (hcap : st.numberOfChunks < MaxChunksBlorb) :
    ∃ chunk s m, loadEntries exampleFs (pictEntry :: rest) (st, n)
        = loadEntries exampleFs rest (s, m)
      ∧ s.BlorbChunks = st.BlorbChunks ++ [chunk] ∧ s.path = [] ∧ s.onlyBli = st.onlyBli
      ∧ chunk.Use = cstr "Pict" ∧ chunk.Res = counterOf st .Pict
      ∧ counterOf s .Pict = (counterOf st .Pict + 1) % 2 ^ 32 := by
  obtain ⟨chunk, st1, h1, h2, h3⟩ := entryStep_pictEntry st hp
  obtain ⟨-, hres, hbump⟩ := entryStep_number exampleFs st st1 pictEntry _ h1
  obtain ⟨-, ho, -⟩ := entryStep_shape exampleFs st st1 pictEntry _ h1
  obtain ⟨-, hck⟩ := entryStep_chunk exampleFs st st1 pictEntry _ h1
  have hm : pictEntry.counter = .Pict := by decide
  have hov : ¬ st1.numberOfChunks ≥ MaxChunksBlorb := by
    have : st1.numberOfChunks = st.numberOfChunks := by simp only [Status.numberOfChunks, h2]
    rw [this]
    omega
  refine ⟨chunk, storeChunk (withIn { rest := [], eof := true } st1) chunk,
    (if chunk.Use ≠ cstr "0" then n + 1 else n), ?_, ?_, h3, ho, ?_, ?_, ?_⟩
  · rw [loadEntries_step, h1]
    simp only [if_neg hov]
  · show st1.BlorbChunks ++ [chunk] = _
    rw [h2]
  · rcases hck with ⟨hn, -⟩ | ⟨ch, hch, -, -, hu, -⟩
    · cases hn
    · injection hch with hch
      rw [hch, hu]
      decide
  · rw [hres chunk rfl, hm]
  · rw [counterOf_storeChunk, counterOf_withIn, hbump .Pict (by decide), hm, if_pos rfl]

/-- The counters wrap around: in the mode `onlyBli`, the control list
`wrapEntries` builds, and the chunks of its first and last entries, both of
usage "Pict", both have the number 3. -/
theorem wrapEntries_numbers :
    ∃ st, buildIndex exampleFs (startStatus false false true false false []
        (renderAll wrapEntries)) = .ok st
      ∧ ¬ st.BlorbChunks.Pairwise
          (fun a b => a.Use = b.Use → a.Use ≠ cstr "0" → a.Res ≠ b.Res) := by
  rw [buildIndex_renderAll exampleFs _ _ _ _ _ _ _ wrapEntries_wellFormed]
  obtain ⟨c1, s1, m1, e1, b1, p1, o1, u1, r1, k1⟩ := loadEntries_pict
    (List.replicate (2 ^ 32 - 1) missingEntry ++ [pictEntry])
    (entriesStart false false true false false []) 0 rfl (by decide)
  obtain ⟨s2, e2, b2, p2, o2, k2⟩ := loadEntries_missing [pictEntry] (2 ^ 32 - 1) s1 m1 p1
    (by rw [o1]; rfl) (by rw [k1]; exact Nat.mod_lt _ (by decide))
  obtain ⟨c3, s3, m3, e3, b3, p3, o3, u3, r3, k3⟩ := loadEntries_pict [] s2 m1 p2 (by
    show s2.BlorbChunks.length < MaxChunksBlorb
    rw [b2, b1, List.length_append]
    exact (by decide : 1 + 1 < MaxChunksBlorb))
  have hl : loadEntries exampleFs wrapEntries (entriesStart false false true false false [], 0)
      = .ok (s3, m3) := by
    unfold wrapEntries
    rw [e1, e2, e3, loadEntries_nil]
  have hr1 : c1.Res = 3 := by
    rw [r1]
    rfl
  have hr3 : c3.Res = 3 := by
    rw [r3, k2, k1]
    have : counterOf (entriesStart false false true false false []) .Pict = 3 := rfl
    rw [this]
    decide
  have hchunks : s3.BlorbChunks = indexChunk0 :: [c1, c3] := by
    rw [b3, b2, b1]
    rfl
  rw [hl]
  dsimp only
  have hcov : ∃ s4, coverChunk s3 = .ok s4 := by
    unfold coverChunk
    split_ifs with h1 h2
    · exfalso
      have : s3.numberOfChunks = 3 := by
        show s3.BlorbChunks.length = 3
        rw [hchunks]
        rfl
      rw [this] at h2
      revert h2
      decide
    · exact ⟨_, rfl⟩
    · exact ⟨_, rfl⟩
  obtain ⟨s4, h4⟩ := hcov
  rw [h4]
  dsimp only
  refine ⟨_, rfl, ?_⟩
  obtain ⟨index, -, -, hB⟩ := cover_index_chunks s3 s4 _ m3 [c1, c3] hchunks h4 rfl
  rw [hB]
  intro hp
  have h2 := (List.pairwise_cons.mp hp).2
  rw [List.cons_append, List.cons_append, List.nil_append] at h2
  have h3 := (List.pairwise_cons.mp h2).1 c3 (List.mem_cons_self _ _)
  exact h3 (by rw [u1, u3]) (by rw [u1]; decide) (by rw [hr1, hr3])

set_option maxRecDepth 100000 in
/-- C8 as stated fails. In the chunk list built for a control file with one
bibliographic entry, the index chunk and the chunk of that entry both have usage
"0" and resource number 0. And the counters of the resource numbers are 32-bit:
in the mode `onlyBli`, the control list `wrapEntries`, a picture, 2^32 - 1
pictures whose file is missing and a picture, builds, and the chunks of its
first and last entries, both of usage "Pict", both have the number 3. -/
theorem C8_counterexample :
    buildIndex bibFs (startStatus false false false false false [] bibControl) = .ok bibIndexed
      ∧ ¬ bibIndexed.BlorbChunks.Pairwise (fun a b => a.Use = b.Use → a.Res ≠ b.Res)
      ∧ ∃ st, buildIndex exampleFs (startStatus false false true false false []
            (renderAll wrapEntries)) = .ok st
          ∧ ¬ st.BlorbChunks.Pairwise
              (fun a b => a.Use = b.Use → a.Use ≠ cstr "0" → a.Res ≠ b.Res) := by
  refine ⟨by rfl, ?_, wrapEntries_numbers⟩
  decide

theorem entriesIn_length (control : List Nat) : (entriesIn control).length ≤ control.length + 1 := by
  unfold entriesIn
  have h1 := entriesRead_length
    ((skipDelimiters { rest := control, eof := false }).rest.length + 1)
    (skipDelimiters { rest := control, eof := false })
  have h2 : (skipDelimiters { rest := control, eof := false }).rest.length ≤ control.length := by
    rw [skipDelimiters_eq]
    exact skipDelimitersFrom_length control
  omega

/-- C8, amended. In the chunk list of every successful build of a control file
from which `readChunk` reads less than 2^32 - 3 entries (`entriesIn control`;
there are less of them than bytes in the file), whatever the mode and whether
or not every file opens, no two distinct chunks that have the same usage, other
than the sentinel "0", have the same resource number. -/
theorem C8_unique_resource_numbers (fs : List Nat → Option (List Nat))
    (verbose noBli onlyBli isShortExtension isGlulx : Bool) (path control : List Nat)
    (st : Status)
    (h : buildIndex fs (startStatus verbose noBli onlyBli isShortExtension isGlulx path control)
      = .ok st)
    (hlen : (entriesIn control).length + 3 < 2 ^ 32) :
    st.BlorbChunks.Pairwise (fun a b => a.Use = b.Use → a.Use ≠ cstr "0" → a.Res ≠ b.Res) := by
  obtain ⟨s, n, index, hl, -, hU, hB⟩ :=
    buildIndex_read fs verbose noBli onlyBli isShortExtension isGlulx path control st h
  have hinit : BelowCounters (entriesStart verbose noBli onlyBli isShortExtension isGlulx path) := by
    constructor
    · exact List.pairwise_singleton _ _
    · intro c hc hne
      have hc0 : c = indexChunk0 := by
        have : c ∈ [indexChunk0] := hc
        simpa using this
      rw [hc0] at hne
      exact absurd rfl hne
  have hbound : ∀ v, counterOf (entriesStart verbose noBli onlyBli isShortExtension isGlulx path) v
      + (entriesIn control).length < 2 ^ 32 := by
    intro v
    have h2 : counterOf (entriesStart verbose noBli onlyBli isShortExtension isGlulx path) v
        ≤ 3 := by
      cases v
      · exact (by decide : (0 : Nat) ≤ 3)
      · exact (by decide : (3 : Nat) ≤ 3)
      · exact (by decide : (3 : Nat) ≤ 3)
      · exact (by decide : (0 : Nat) ≤ 3)
      · exact (by decide : (0 : Nat) ≤ 3)
      · exact (by decide : (0 : Nat) ≤ 3)
    omega
  obtain ⟨hp, -⟩ := loadEntries_distinct fs _ _ _ _ _ hl hinit hbound
  obtain ⟨hb, -⟩ := loadEntries_entryChunks fs _ _ _ _ _ hl
  have hb0 : (entriesStart verbose noBli onlyBli isShortExtension isGlulx path).BlorbChunks
      = [indexChunk0] := rfl
  rw [hb0] at hb
  rw [hb] at hp hB
  have htail : ([indexChunk0] ++ (entryChunks fs (entriesIn control)
      (entriesStart verbose noBli onlyBli isShortExtension isGlulx path)).reduceOption).tail
      = (entryChunks fs (entriesIn control)
      (entriesStart verbose noBli onlyBli isShortExtension isGlulx path)).reduceOption := rfl
  rw [htail] at hB
  have hp2 := (List.pairwise_cons.mp hp).2
  rw [hB, List.pairwise_cons]
  constructor
  · intro b _ _ hne
    exact absurd hU hne
  · rw [List.pairwise_append]
    refine ⟨hp2, ?_, ?_⟩
    · split_ifs
      · exact List.pairwise_singleton _ _
      · exact List.Pairwise.nil
    · intro a _ b hbm hsame hne
      split_ifs at hbm
      · rw [List.mem_singleton.mp hbm] at hsame
        exact absurd (hsame.trans (frontispiece_eq s).1) hne
      · cases hbm

set_option maxRecDepth 100000 in
/-- A witness of the amended C8: the chunk list built for the example. -/
theorem C8_unique_resource_numbers_witness :
    exampleIndexed.BlorbChunks.Pairwise
      (fun a b => a.Use = b.Use → a.Use ≠ cstr "0" → a.Res ≠ b.Res) :=
  C8_unique_resource_numbers exampleFs false false false false false [] exampleControl
    exampleIndexed (by rfl)
    (Nat.lt_of_le_of_lt (Nat.add_le_add_right (entriesIn_length exampleControl) 3) (by decide))

/-- The chunk list of a successful build: the index chunk, the chunks
`entryChunks` lists for the entries read from the control file, which has an
item for each entry, then the cover chunk if there is one. -/
theorem buildIndex_readChunks (fs : List Nat → Option (List Nat))
    (verbose noBli onlyBli isShortExtension isGlulx : Bool) (path control : List Nat)
    (st : Status)
    (h : buildIndex fs (startStatus verbose noBli onlyBli isShortExtension isGlulx path control)
      = .ok st) :
    (entryChunks fs (entriesIn control)
        (entriesStart verbose noBli onlyBli isShortExtension isGlulx path)).length
        = (entriesIn control).length
      ∧ ∃ index cover, st.BlorbChunks
          = index :: ((entryChunks fs (entriesIn control)
              (entriesStart verbose noBli onlyBli isShortExtension isGlulx path)).reduceOption
            ++ cover)
        ∧ index.Type_ = cstr "RIdx" ∧ ∀ c ∈ cover, c.Type_ = cstr "Fspc" := by
  obtain ⟨s, n, index, hl, hT, -, hB⟩ :=
    buildIndex_read fs verbose noBli onlyBli isShortExtension isGlulx path control st h
  obtain ⟨h1, h2⟩ := loadEntries_entryChunks fs (entriesIn control) _ s 0 n hl
  have hb0 : (entriesStart verbose noBli onlyBli isShortExtension isGlulx path).BlorbChunks
      = [indexChunk0] := rfl
  rw [hb0] at h1
  have htail : s.BlorbChunks.tail = (entryChunks fs (entriesIn control)
      (entriesStart verbose noBli onlyBli isShortExtension isGlulx path)).reduceOption := by
    rw [h1]
    rfl
  rw [htail] at hB
  refine ⟨h2, index, _, hB, hT, ?_⟩
  intro c hc
  split_ifs at hc
  · rw [List.mem_singleton.mp hc]
    exact (frontispiece_eq s).2.1
  · cases hc

/-- C33. For two successful builds of the same control file, whatever its bytes,
with the files of `fs1` and of `fs2`: the entries `readChunk` reads from the
control file, `entriesIn control`, do not depend on the files; the chunks of
each build are, after the index chunk, those `readChunk` returned for these
entries, in order (`entryChunks` has an item for each entry, the chunk or `none`
for an entry that is dropped); and an entry for which both builds got a chunk
has the same resource number in both, the first number of its usage plus the
number of entries of that usage before it in the control file (modulo 2^32),
entries whose file was missing included. -/
theorem C33_numbers_independent (fs1 fs2 : List Nat → Option (List Nat))
    (verbose noBli onlyBli isShortExtension isGlulx : Bool) (path control : List Nat)
    (st1 st2 : Status)
    (h1 : buildIndex fs1 (startStatus verbose noBli onlyBli isShortExtension isGlulx path
      control) = .ok st1)
    (h2 : buildIndex fs2 (startStatus verbose noBli onlyBli isShortExtension isGlulx path
      control) = .ok st2) :
    (entryChunks fs1 (entriesIn control)
        (entriesStart verbose noBli onlyBli isShortExtension isGlulx path)).length
        = (entriesIn control).length
      ∧ (entryChunks fs2 (entriesIn control)
        (entriesStart verbose noBli onlyBli isShortExtension isGlulx path)).length
        = (entriesIn control).length
      ∧ (∃ index cover, st1.BlorbChunks
          = index :: ((entryChunks fs1 (entriesIn control)
              (entriesStart verbose noBli onlyBli isShortExtension isGlulx path)).reduceOption
            ++ cover) ∧ index.Type_ = cstr "RIdx" ∧ ∀ c ∈ cover, c.Type_ = cstr "Fspc")
      ∧ (∃ index cover, st2.BlorbChunks
          = index :: ((entryChunks fs2 (entriesIn control)
              (entriesStart verbose noBli onlyBli isShortExtension isGlulx path)).reduceOption
            ++ cover) ∧ index.Type_ = cstr "RIdx" ∧ ∀ c ∈ cover, c.Type_ = cstr "Fspc")
      ∧ ∀ i e c1 c2, (entriesIn control)[i]? = some e →
          (entryChunks fs1 (entriesIn control)
            (entriesStart verbose noBli onlyBli isShortExtension isGlulx path))[i]?
              = some (some c1) →
          (entryChunks fs2 (entriesIn control)
            (entriesStart verbose noBli onlyBli isShortExtension isGlulx path))[i]?
              = some (some c2) →
          c1.Res = c2.Res
            ∧ c1.Res = (firstNumber e.counter
                + (((entriesIn control).take i).filter
                    (fun x => x.counter = e.counter)).length) % 2 ^ 32 := by
  obtain ⟨a1, a2⟩ := buildIndex_readChunks fs1 verbose noBli onlyBli isShortExtension isGlulx
    path control st1 h1
  obtain ⟨b1, b2⟩ := buildIndex_readChunks fs2 verbose noBli onlyBli isShortExtension isGlulx
    path control st2 h2
  have hfirst : ∀ v, counterOf
      (entriesStart verbose noBli onlyBli isShortExtension isGlulx path) v = firstNumber v := by
    intro v
    cases v <;> rfl
  have hlt : ∀ v, counterOf
      (entriesStart verbose noBli onlyBli isShortExtension isGlulx path) v < 2 ^ 32 := by
    intro v
    rw [hfirst]
    cases v <;> decide
  refine ⟨a1, b1, a2, b2, ?_⟩
  intro i e c1 c2 he hc1 hc2
  obtain ⟨-, r1⟩ := entryChunks_number fs1 (entriesIn control) _ i e c1 hlt he hc1
  obtain ⟨-, r2⟩ := entryChunks_number fs2 (entriesIn control) _ i e c2 hlt he hc2
  rw [hfirst] at r1 r2
  exact ⟨r1.trans r2.symm, r1⟩

set_option maxRecDepth 100000 in
/-- A witness of C33: the control file `numberedControl`, whose lines are
`pict cover.png`, `pict missing.png` and `pict myPic cover.png` written with a
tab, spaces around the tokens and lines ended by a carriage return and a line
feed, in the mode `onlyBli`. With the files of `exampleFs` the second entry is
dropped, with those of `everyFs` it is not; the third entry has the number 5 in
both builds. -/
theorem C33_numbers_independent_witness :
    (entriesIn numberedControl).map (fun e => (e.use, e.file))
        = [(cstr "pict", cstr "cover.png"), (cstr "pict", cstr "missing.png"),
           (cstr "pict", cstr "cover.png")]
      ∧ (entryChunks exampleFs (entriesIn numberedControl)
        (entriesStart false false true false false [])).map (Option.map (fun c => c.Res))
        = [some 3, none, some 5]
      ∧ (entryChunks everyFs (entriesIn numberedControl)
        (entriesStart false false true false false [])).map (Option.map (fun c => c.Res))
        = [some 3, some 4, some 5]
      ∧ ∀ c1 c2,
          (entryChunks exampleFs (entriesIn numberedControl)
            (entriesStart false false true false false []))[2]? = some (some c1) →
          (entryChunks everyFs (entriesIn numberedControl)
            (entriesStart false false true false false []))[2]? = some (some c2) →
          c1.Res = c2.Res :=
  ⟨by decide, by decide, by decide, fun c1 c2 hc1 hc2 =>
    ((C33_numbers_independent exampleFs everyFs false false true false false []
      numberedControl (numberedBuilt exampleFs) (numberedBuilt everyFs) (by rfl)
      (by rfl)).2.2.2.2 2 pictEntry c1 c2 (by decide) hc1 hc2).1⟩

/-! ## Duplicated entries and usage errors, whatever the layout of the lines -/

theorem endedButLast_singleton (x : Line) : EndedButLast [x] := by
  intro ls1 y ls2 h1 h2
  have hlen := congrArg List.length h1
  simp at hlen
  cases ls2 with
  | nil => exact absurd rfl h2
  | cons z r =>
    simp at hlen
    omega

theorem endedButLast_cons (x : Line) (ls : List Line) (hx : x.Ended) (h : EndedButLast ls) :
    EndedButLast (x :: ls) := by
  intro ls1 y ls2 h1 h2
  cases ls1 with
  | nil =>
    injection h1 with h3 h4
    rw [← h3]
    exact hx
  | cons z r =>
    injection h1 with h3 h4
    exact h r y ls2 h4 h2

/-- C9, amended. Of a control file made of the lines of well-formed entries
(tokens without blanks, one entry on a line), whatever the layout of the lines
(spaces or tabs between the tokens, before the usage token and after the file
path, lines ended by line feeds or carriage returns, the last line of the file
with or without an end of line) and with comment lines and blank lines between
them: when an entry whose usage resolves to bibliographic info comes after
another such entry, and the build of the lines before it succeeds, the build
stops with "duplicated bibliographic info"; likewise an entry that resolves to
the cover after another one stops the build with "duplicated cover"; and with at
most one entry of bibliographic info the build never stops with the first
message, with at most one cover entry never with the second. -/
theorem C9_duplicate_entries (fs : List Nat → Option (List Nat))
    (verbose noBli onlyBli isShortExtension isGlulx : Bool) (path : List Nat)
    (ls : List Line) (hwf : ∀ l ∈ ls, l.WellFormed) (hend : EndedButLast ls) :
    (∀ ls1 e lay ls2 st1, ls = ls1 ++ Line.entry e lay :: ls2 →
        buildIndex fs (startStatus verbose noBli onlyBli isShortExtension isGlulx path
          (renderLines ls1)) = .ok st1 →
        (∃ x ∈ entriesOf ls1, x.isBib = true) → e.isBib = true →
        buildIndex fs (startStatus verbose noBli onlyBli isShortExtension isGlulx path
          (renderLines ls)) = .error .duplicatedBib)
      ∧ (∀ ls1 e lay ls2 st1, ls = ls1 ++ Line.entry e lay :: ls2 →
        buildIndex fs (startStatus verbose noBli onlyBli isShortExtension isGlulx path
          (renderLines ls1)) = .ok st1 →
        (∃ x ∈ entriesOf ls1, x.isCover = true) → e.isCover = true →
        buildIndex fs (startStatus verbose noBli onlyBli isShortExtension isGlulx path
          (renderLines ls)) = .error .duplicatedCover)
      ∧ ((entriesOf ls).countP Entry.isBib ≤ 1 →
        buildIndex fs (startStatus verbose noBli onlyBli isShortExtension isGlulx path
          (renderLines ls)) ≠ .error .duplicatedBib)
      ∧ ((entriesOf ls).countP Entry.isCover ≤ 1 →
        buildIndex fs (startStatus verbose noBli onlyBli isShortExtension isGlulx path
          (renderLines ls)) ≠ .error .duplicatedCover) := by
  obtain ⟨h1, h2, h3, h4⟩ := duplicate_entries fs verbose noBli onlyBli isShortExtension
    isGlulx path (entriesOf ls) (entriesOf_wf ls hwf)
  rw [buildIndex_lines fs _ _ _ _ _ _ ls hwf hend]
  refine ⟨?_, ?_, h3, h4⟩
  · intro ls1 e lay ls2 st1 hls hpre hx he
    have hw1 : ∀ l ∈ ls1, l.WellFormed := fun l hl => hwf l (by rw [hls]; simp [hl])
    have he1 : EndedButLast ls1 := endedButLast_init ls1 _ (hls ▸ hend)
    rw [buildIndex_lines fs _ _ _ _ _ _ ls1 hw1 he1] at hpre
    exact h1 (entriesOf ls1) e (entriesOf ls2) st1 (by rw [hls, entriesOf_append]; rfl) hpre hx he
  · intro ls1 e lay ls2 st1 hls hpre hx he
    have hw1 : ∀ l ∈ ls1, l.WellFormed := fun l hl => hwf l (by rw [hls]; simp [hl])
    have he1 : EndedButLast ls1 := endedButLast_init ls1 _ (hls ▸ hend)
    rw [buildIndex_lines fs _ _ _ _ _ _ ls1 hw1 he1] at hpre
    exact h2 (entriesOf ls1) e (entriesOf ls2) st1 (by rw [hls, entriesOf_append]; rfl) hpre hx he

theorem twiceBibLines_wellFormed : ∀ l ∈ twiceBibLines, l.WellFormed := by
  intro l hl
  simp only [twiceBibLines, List.mem_cons, List.mem_singleton, List.not_mem_nil, or_false] at hl
  rcases hl with rfl | rfl | rfl
  · exact ⟨⟨by decide, by decide, by decide, by decide, by decide, by decide⟩,
      ⟨by decide, by decide, by decide, by decide, by decide, by decide, by decide⟩⟩
  · exact ⟨by decide, by decide, by decide, by decide⟩
  · exact ⟨⟨by decide, by decide, by decide, by decide, by decide, by decide⟩,
      ⟨by decide, by decide, by decide, by decide, by decide, by decide, by decide⟩⟩

theorem twiceBibLines_ended : EndedButLast twiceBibLines :=
  endedButLast_cons _ _ (by decide : ([13, 10] : List Nat) ≠ [])
    (endedButLast_cons _ _ (by decide : ([13, 10] : List Nat) ≠ []) (endedButLast_singleton _))

set_option maxRecDepth 100000 in
/-- A witness of the amended C9: the control file of the lines
`meta biblio.ifiction` and `bib about biblio.ifiction`, written with tabs and
spaces, a comment line between them, lines ended by a carriage return and a line
feed, and no end of line after the last line. The build of the first line
succeeds, the build of the file stops with "duplicated bibliographic info", and
not with "duplicated cover". -/
theorem C9_duplicate_entries_witness :
    (∀ l ∈ twiceBibLines, l.WellFormed) ∧ EndedButLast twiceBibLines
      ∧ renderLines twiceBibLines
        = cstr "  meta\tbiblio.ifiction \r\n\t; again\r\nbib \tabout\t\tbiblio.ifiction"
      ∧ buildIndex bibFs (startStatus false false false false false []
          (renderLines twiceBibLines)) = .error .duplicatedBib
      ∧ buildIndex bibFs (startStatus false false false false false []
          (renderLines twiceBibLines)) ≠ .error .duplicatedCover :=
  have h := C9_duplicate_entries bibFs false false false false false [] twiceBibLines
    twiceBibLines_wellFormed twiceBibLines_ended
  ⟨twiceBibLines_wellFormed, twiceBibLines_ended, by decide,
    h.1 (twiceBibLines.take 2)
      { use := cstr "bib", id := some (cstr "about"), file := cstr "biblio.ifiction" }
      { indent := [], sep := [32, 9], idSep := [9, 9], trail := [], eol := [] } []
      bibIndexed rfl (by rfl) ⟨_, List.mem_singleton.mpr rfl, by decide⟩ (by decide),
    h.2.2.2 (by decide)⟩

/-- C20, amended. For a well-formed entry (tokens without blanks), wherever its
line stands in the control file: after comment lines and blank lines, with any
layout of the line (spaces or tabs between the tokens, before the usage token
and after the file path, line ended by line feeds or carriage returns, or by the
end of the file) and whatever follows the line. When the file of the entry has
an extension `inferType` knows and can be opened, `readChunk` fails exactly when
the first token does not resolve to a usage, or resolves to bibliographic info
when bibliographic info was met before, or resolves to the cover when a cover
was met before; and it fails with the message "Illegal use" exactly when the
first token does not resolve to a usage. -/
theorem C20_usage_errors (fs : List Nat → Option (List Nat)) (st : Status) (F : List Line)
    (e : Entry) (l : Layout) (T : List Nat) (hF : ∀ x ∈ F, x.WellFormed ∧ x.Ended)
    (hE : entriesOf F = []) (hwf : e.WellFormed) (hl : l.WellFormed) (hT : l.eol = [] → T = [])
    (hin : st.in_ = { rest := renderLines F ++ (e.renderWith l ++ T), eof := false })
    (hext : knownExt (prepareFileName e.file st) = true)
    (hopen : fs (prepareFileName e.file st) ≠ none) :
    ((∃ err, readChunk fs st = .error err) ↔
        (cnvtToUsages e.use = .UsageError
          ∨ (cnvtToUsages e.use = .IFmd ∧ st.thereIsBib = true)
          ∨ (cnvtToUsages e.use = .Fspc ∧ st.thereIsCover = true)))
      ∧ (readChunk fs st = .error (.illegalUse st.lineNumber (cstr "ERR"))
        ↔ cnvtToUsages e.use = .UsageError) := by
  obtain ⟨Z, -, hr⟩ := readChunk_lines fs st F e l T (fun x hx => (hF x hx).1) hE
    (fun x hx => (hF x hx).2) hwf hl hT (by rw [skipDelimiters_eq, hin])
  rw [hr]
  unfold entryStep
  rcases readChunkUse_cases e.use Chunk.zero st with ⟨h1, h2⟩ | ⟨h1, h2, h3⟩ | ⟨h1, h2, h3⟩
    | ⟨h1, h2, h3, c, st2, u, h4, h5, -, -, -⟩
  · rw [h2]
    exact ⟨⟨fun _ => Or.inl h1, fun _ => ⟨_, rfl⟩⟩, ⟨fun _ => h1, fun _ => rfl⟩⟩
  · rw [h3]
    refine ⟨⟨fun _ => Or.inr (Or.inl ⟨h1, h2⟩), fun _ => ⟨_, rfl⟩⟩, ⟨fun h => ?_, fun h => ?_⟩⟩
    · cases h
    · rw [h1] at h; cases h
  · rw [h3]
    refine ⟨⟨fun _ => Or.inr (Or.inr ⟨h1, h2⟩), fun _ => ⟨_, rfl⟩⟩, ⟨fun h => ?_, fun h => ?_⟩⟩
    · cases h
    · rw [h1] at h; cases h
  · rw [h4]
    simp only
    have hp := prepareFileName_path e.file st2 st h5
    rw [← hp] at hext hopen
    cases hf : fs (prepareFileName e.file st2) with
    | none => exact absurd hf hopen
    | some contents =>
      obtain ⟨chunk, st1, h6⟩ := (readChunkFile_known fs e.file c u st2 hext).1 contents hf
      rw [h6]
      refine ⟨⟨fun h => ?_, fun h => ?_⟩, ⟨fun h => ?_, fun h => absurd h h1⟩⟩
      · obtain ⟨err, h⟩ := h
        cases h
      · rcases h with h | h | h
        · exact absurd h h1
        · exact absurd h h2
        · exact absurd h h3
      · cases h

set_option maxRecDepth 100000 in
/-- A witness of the amended C20: the entry `foo cover.png`, whose first token is
no alias of a usage, written after a comment line with a tab before the usage
token, a tab and a space after it, spaces after the file path and a line ended
by a carriage return and a line feed, and followed by other text, makes
`readChunk` fail with the message "Illegal use". -/
theorem C20_usage_errors_witness :
    fooEntry.WellFormed ∧ fooLayout.WellFormed
      ∧ renderLines [Line.comment [] 59 (cstr " first") [13, 10]]
          ++ (fooEntry.renderWith fooLayout ++ cstr "anything else") = fooControl
      ∧ cnvtToUsages fooEntry.use = .UsageError
      ∧ readChunk exampleFs (startStatus false false false false false [] fooControl)
        = .error (.illegalUse 0 (cstr "ERR")) :=
  ⟨fooEntry_wellFormed,
    ⟨by decide, by decide, by decide, by decide, by decide, by decide, by decide⟩,
    by decide, by decide,
    (C20_usage_errors exampleFs
      (startStatus false false false false false [] fooControl)
      [Line.comment [] 59 (cstr " first") [13, 10]] fooEntry fooLayout (cstr "anything else")
      (by
        intro x hx
        rw [List.mem_singleton.mp hx]
        exact ⟨⟨by decide, by decide, by decide, by decide⟩,
          (by decide : ([13, 10] : List Nat) ≠ [])⟩)
      rfl fooEntry_wellFormed
      ⟨by decide, by decide, by decide, by decide, by decide, by decide, by decide⟩
      (fun h => absurd h (by decide))
      (by decide) (by decide) (by decide)).2.mpr (by decide)⟩

/-! ## The run of the program and the model of the build -/

theorem readChunkId_rest (f : InFile) :
    ((readChunkId f).2.1, (readChunkId f).2.2) = readChunkRest f := by
  unfold readChunkId readChunkRest
  simp only
  split_ifs <;> rfl

/-- The status `Run.readChunkFile` leaves is the one `readChunkFile` gives. -/
theorem readChunkFile_run (w : World) (id : Option (List Nat)) (buffer : List Nat)
    (toret : Chunk) (use : Usages) (run : Run) :
    (Run.readChunkFile w id buffer toret use run).map (fun r => (r.1, r.2.status))
      = readChunkFile w.files buffer toret use run.status := by
  unfold Run.readChunkFile readChunkFile
  simp only [bind, Except.bind, pure, Except.pure]
  cases hi : inferType toret (prepareFileName buffer run.status) run.status with
  | error e => rfl
  | ok r =>
    obtain ⟨t, st⟩ := r
    simp only
    by_cases hc : (st.thereIsCover && st.numberOfChunks == st.coverChunk) = true
    · simp only [hc, if_true]
      cases hf : w.files (prepareFileName buffer run.status) with
      | none =>
        simp only
        split_ifs <;> rfl
      | some contents => rfl
    · simp only [hc, if_false, Bool.false_eq_true]
      cases hf : w.files (prepareFileName buffer run.status) with
      | none =>
        simp only
        split_ifs <;> rfl
      | some contents => rfl

section

attribute [local irreducible] skipComments freadLine skipDelimiters readChunkRest readChunkUse
  readChunkFile Run.readChunkFile readChunkId

/-- The status `Run.readChunk` leaves is the one `readChunk` gives. -/
theorem readChunk_run (w : World) (run : Run) :
    (Run.readChunk w run).map (fun r => (r.1, r.2.status)) = readChunk w.files run.status := by
  unfold Run.readChunk readChunk
  simp only
  cases hs : skipComments ((fgetc (skipDelimiters run.status.in_)).2.rest.length + 2)
      (fgetc (skipDelimiters run.status.in_)).1 (fgetc (skipDelimiters run.status.in_)).2 with
  | error e => rfl
  | ok r =>
    obtain ⟨c, f⟩ := r
    cases c with
    | none => rfl
    | some c =>
      simp only
      cases hu : readChunkUse (freadLine (ungetc (some c) f) FieldDelimiters).1 Chunk.zero
          run.status with
      | error e => rfl
      | ok r2 =>
        obtain ⟨t, st, u⟩ := r2
        simp only
        by_cases he : feof (skipDelimiters (freadLine (ungetc (some c) f) FieldDelimiters).2) = true
        · simp only [he, if_true]
          rfl
        · simp only [he, if_false, Bool.false_eq_true]
          have hrest := readChunkId_rest
            (skipDelimiters (freadLine (ungetc (some c) f) FieldDelimiters).2)
          have hfile := readChunkFile_run w
            (readChunkId (skipDelimiters (freadLine (ungetc (some c) f) FieldDelimiters).2)).1
            (readChunkId (skipDelimiters (freadLine (ungetc (some c) f) FieldDelimiters).2)).2.1
            t u { run with status := st }
          rw [← hrest]
          simp only
          rw [← hfile]
          cases Run.readChunkFile w
            (readChunkId (skipDelimiters (freadLine (ungetc (some c) f) FieldDelimiters).2)).1
            (readChunkId (skipDelimiters (freadLine (ungetc (some c) f) FieldDelimiters).2)).2.1
            t u { run with status := st } with
          | error e => rfl
          | ok r3 => rfl

end

section

attribute [local irreducible] readChunk Run.readChunk storeChunk skipDelimiters

/-- The status the first loop leaves, and the count, are the ones `loadChunks`
gives. -/
theorem loadChunks_run (w : World) :
    ∀ (fuel : Nat) (run : Run) (n : Nat),
      (Run.loadChunks w fuel (run, n)).map (fun r => (r.1.status, r.2))
        = loadChunks w.files fuel (run.status, n) := by
  intro fuel
  induction fuel with
  | zero => intro run n; rfl
  | succ fuel ih =>
    intro run n
    rw [Run.loadChunks, loadChunks]
    simp only [bind, Except.bind, pure, Except.pure]
    rw [← readChunk_run w run]
    cases Run.readChunk w run with
    | error e => rfl
    | ok r =>
      obtain ⟨chunk, run1⟩ := r
      simp only [Except.map]
      cases chunk with
      | none =>
        simp only
        by_cases hf : feof run1.status.in_ = true
        · simp only [hf, Bool.not_true, Bool.false_eq_true, if_false]
        · simp only [Bool.not_eq_true] at hf
          simp only [hf, Bool.not_false, if_true]
          exact ih run1 n
      | some chunk =>
        simp only
        by_cases hcap : run1.status.numberOfChunks ≥ MaxChunksBlorb
        · simp only [hcap, if_true]
        · simp only [hcap, if_false]
          by_cases hf : feof (storeChunk run1.status chunk).in_ = true
          · simp only [hf, Bool.not_true, Bool.false_eq_true, if_false]
          · simp only [Bool.not_eq_true] at hf
            simp only [hf, Bool.not_false, if_true]
            exact ih _ _

end

theorem writeBliHeader_status (now : Tm) (run : Run) :
    (writeBliHeader now run).status = run.status := by
  unfold writeBliHeader
  cases run.bli <;> rfl

section

attribute [local irreducible] loadChunks Run.loadChunks skipDelimiters coverChunk indexChunk
  writeBliHeader reportIndex

/-- The status `Run.buildIndex` leaves is the one `buildIndex` gives. -/
theorem buildIndex_run (w : World) (run : Run) :
    (Run.buildIndex w run).map Run.status = buildIndex w.files run.status := by
  have hl := loadChunks_run w ((skipDelimiters run.status.in_).rest.length + 1)
    { (writeBliHeader w.now run) with
      status := withIn (skipDelimiters run.status.in_)
        { run.status with BlorbChunks := [indexChunk0] } } 0
  rw [buildIndex_eq]
  unfold Run.buildIndex
  simp only [bind, Except.bind, pure, Except.pure, writeBliHeader_status, withIn] at hl ⊢
  by_cases hf : (!feof (skipDelimiters run.status.in_)) = true
  · rw [if_pos hf, if_pos hf, ← hl]
    generalize Run.loadChunks w _ _ = r
    cases r with
    | error err => rfl
    | ok r =>
      obtain ⟨run1, n⟩ := r
      simp only [Except.map]
      generalize coverChunk run1.status = c
      cases c with
      | error err => rfl
      | ok st =>
        simp only
        split_ifs <;> rfl
  · rw [if_neg hf, if_neg hf]
    simp only
    generalize coverChunk _ = c
    cases c with
    | error err => rfl
    | ok st =>
      simp only [Except.map]
      split_ifs <;> rfl

end

/-- The status `Run.generateBlorb` leaves is the one `generateBlorb` gives. -/
theorem generateBlorb_run (run : Run) :
    (Run.generateBlorb run).status = generateBlorb run.status := by
  unfold Run.generateBlorb
  simp only
  split_ifs <;> rfl

theorem changeOutputFileExtension_status (run : Run) :
    (changeOutputFileExtension run).status = run.status := by
  unfold changeOutputFileExtension
  simp only
  split_ifs <;> rfl

/-- The build of a run that ends well: the control file opens, `buildIndex`
gives a status from the one `main` hands to it, and the status of the run is
that status, after `generateBlorb` on a new output file unless `onlyBli` is
set. -/
theorem main_build (w : World) (myName arg : List Nat)
    (verbose noBli onlyBli isShortExtension isGlulx : Bool) (run : Run)
    (h : main w myName arg verbose noBli onlyBli isShortExtension isGlulx = .ok run) :
    ∃ control st,
      w.files (changeFileNameExt arg DefaultInExt) = some control
        ∧ buildIndex w.files (startStatus verbose noBli onlyBli isShortExtension isGlulx
            (getPathFromFileName (changeFileNameExt arg DefaultInExt)) control) = .ok st
        ∧ run.status
          = if st.onlyBli then st else generateBlorb { st with out := FILE.empty } := by
  unfold main at h
  simp only at h
  cases hc : w.files (changeFileNameExt arg DefaultInExt) with
  | none =>
    rw [hc] at h
    cases h
  | some control =>
    rw [hc] at h
    simp only at h
    split_ifs at h with hb
    all_goals
      generalize hr : Run.buildIndex w _ = r at h
      have hp := congrArg (Except.map Run.status) hr
      rw [buildIndex_run] at hp
      simp only at hp
      cases r with
      | error e => cases h
      | ok run1 =>
        simp only [Except.map] at hp
        refine ⟨control, run1.status, rfl, hp, ?_⟩
        · simp only at h
          split_ifs at h <;> cases h <;>
            simp_all [generateBlorb_run, changeOutputFileExtension_status]

/-- The statuses two builds give from the statuses `main` hands to `buildIndex`
with different options differ in the options only. -/
theorem build_same (fs : List Nat → Option (List Nat))
    (verbose1 noBli1 short1 glulx1 verbose2 noBli2 short2 glulx2 onlyBli : Bool)
    (path control : List Nat) :
    (buildIndex fs (startStatus verbose1 noBli1 onlyBli short1 glulx1 path control)).map
        eraseFlags
      = (buildIndex fs (startStatus verbose2 noBli2 onlyBli short2 glulx2 path control)).map
        eraseFlags :=
  buildIndex_same fs _ _ (startStatus_same verbose1 noBli1 short1 glulx1 verbose2 noBli2
    short2 glulx2 onlyBli path control)

/-- The output stream and the chunks of a build, generated or not, are the same
for two statuses that differ in the options `verbose`, `noBli`,
`isShortExtension` and in `isGlulx` only. -/
theorem generated_same (a b : Status) (h : eraseFlags a = eraseFlags b) :
    (if a.onlyBli then a else generateBlorb { a with out := FILE.empty }).out
        = (if b.onlyBli then b else generateBlorb { b with out := FILE.empty }).out
      ∧ (if a.onlyBli then a else generateBlorb { a with out := FILE.empty }).BlorbChunks
        = (if b.onlyBli then b else generateBlorb { b with out := FILE.empty }).BlorbChunks := by
  obtain ⟨f1, f2, f3, f4, f5, f6, f7, f8, f9, f10, f11, f12, f13, f14, f15, f16⟩ :=
    eraseFlags_fields a b h
  rw [f5]
  split_ifs
  · exact ⟨f16, f11⟩
  · refine ⟨generateBlorb_out _ _ rfl f13 f11, ?_⟩
    rw [(generateBlorb_chunks _).1, (generateBlorb_chunks _).1]
    exact f11

section

attribute [local irreducible] buildIndex generateBlorb startStatus eraseFlags Run.buildIndex
  changeFileNameExt getPathFromFileName Run.generateBlorb changeOutputFileExtension

/-- In a world where every file can be created, `main` stops when the control
file cannot be opened or the build fails, and otherwise ends with the status of
the build, after `generateBlorb` on a new output file unless `onlyBli` is set. -/
theorem main_creatable (files : List Nat → Option (List Nat)) (now : Tm) (myName arg : List Nat)
    (verbose noBli onlyBli isShortExtension isGlulx : Bool) :
    (main { files := files, creatable := fun _ => true, now := now } myName arg verbose noBli
        onlyBli isShortExtension isGlulx).map Run.status
      = match files (changeFileNameExt arg DefaultInExt) with
        | none => .error (.cantOpenControl (changeFileNameExt arg DefaultInExt))
        | some control =>
          match buildIndex files (startStatus verbose noBli onlyBli isShortExtension isGlulx
              (getPathFromFileName (changeFileNameExt arg DefaultInExt)) control) with
          | .error e => .error (.build e)
          | .ok st => .ok (if st.onlyBli then st else generateBlorb { st with out := FILE.empty })
    := by
  unfold main
  simp only
  cases hc : files (changeFileNameExt arg DefaultInExt) with
  | none => rfl
  | some control =>
    simp only [Bool.not_true, Bool.and_false, Bool.false_eq_true, if_false]
    split_ifs with hb
    all_goals
      generalize hr : Run.buildIndex _ _ = r
      have hp := congrArg (Except.map Run.status) hr
      rw [buildIndex_run] at hp
      simp only at hp
      rw [hp]
      cases r with
      | error e => rfl
      | ok run1 =>
        simp only [Except.map]
        split_ifs <;> simp_all [generateBlorb_run, changeOutputFileExtension_status]

end

/-- C26. Two runs of `main` on the same control file and the same files, whatever
the options `verbose`, `noBli` (no declarations file) and `isShortExtension` of
each, whatever the date each reads from the clock, the name each is called by,
the value `isGlulx` holds at the start and the files each can create. When the
first run ends well, every second run that ends well leaves the same output
stream, byte for byte, and the same chunk list; and a second run that can create
every file it opens for writing does end well, with that output stream. (The
date goes to the header of the declarations file, the option `verbose` to the
report, the option `isShortExtension` to the name of the output file; a run that
cannot create its declarations file or its output file stops and writes no
container.) -/
theorem C26_flags_independent (files : List Nat → Option (List Nat))
    (creatable1 creatable2 : List Nat → Bool) (now1 now2 : Tm) (myName1 myName2 arg : List Nat)
    (verbose1 noBli1 short1 glulx1 verbose2 noBli2 short2 glulx2 onlyBli : Bool) (run1 : Run)
    (h1 : main { files := files, creatable := creatable1, now := now1 } myName1 arg verbose1
      noBli1 onlyBli short1 glulx1 = .ok run1) :
    (∀ run2,
        main { files := files, creatable := creatable2, now := now2 } myName2 arg verbose2
          noBli2 onlyBli short2 glulx2 = .ok run2 →
        run2.status.out = run1.status.out
          ∧ run2.status.BlorbChunks = run1.status.BlorbChunks)
      ∧ ∃ run2,
        main { files := files, creatable := fun _ => true, now := now2 } myName2 arg verbose2
          noBli2 onlyBli short2 glulx2 = .ok run2
        ∧ run2.status.out = run1.status.out := by
  have hsame := build_same files verbose2 noBli2 short2 glulx2 verbose1 noBli1 short1 glulx1
    onlyBli (getPathFromFileName (changeFileNameExt arg DefaultInExt))
  obtain ⟨c1, st1, hc1, hb1, hs1⟩ := main_build _ _ _ _ _ _ _ _ _ h1
  simp only at hc1 hb1
  have h := hsame c1
  rw [hb1] at h
  constructor
  · intro run2 h2
    obtain ⟨c2, st2, hc2, hb2, hs2⟩ := main_build _ _ _ _ _ _ _ _ _ h2
    simp only at hc2 hb2
    rw [hc1] at hc2
    cases hc2
    rw [hb2] at h
    simp only [Except.map, Except.ok.injEq] at h
    rw [hs1, hs2]
    exact generated_same st2 st1 h
  · have hm := main_creatable files now2 myName2 arg verbose2 noBli2 onlyBli short2 glulx2
    rw [hc1] at hm
    simp only at hm
    cases hb2 : buildIndex files (startStatus verbose2 noBli2 onlyBli short2 glulx2
        (getPathFromFileName (changeFileNameExt arg DefaultInExt)) c1) with
    | error e =>
      rw [hb2] at h
      simp [Except.map] at h
    | ok st2 =>
      rw [hb2] at h hm
      simp only [Except.map, Except.ok.injEq] at h
      cases hr : main { files := files, creatable := fun _ => true, now := now2 } myName2 arg
          verbose2 noBli2 onlyBli short2 glulx2 with
      | error e =>
        rw [hr] at hm
        simp [Except.map] at hm
      | ok run2 =>
        rw [hr] at hm
        simp only [Except.map, Except.ok.injEq] at hm
        refine ⟨run2, rfl, ?_⟩
        rw [hm, hs1]
        exact (generated_same st2 st1 h).1

set_option maxRecDepth 100000 in
/-- A witness of C26: two runs on the control file `game.res` of the example.
The first, called `bresc`, runs with no option at the date `dateA`; the second,
called `blc`, with the options `verbose`, `noBli` and `isShortExtension` at the
date `dateB`, and can create the file `game.blb` only. The first writes a
declarations file with its date in the header, the second none; the first has
no report, the second has one; their output files are named `game.zblorb` and
`game.blb`; and the output streams are the same 96 bytes. -/
theorem C26_flags_independent_witness :
    gameRunA = .ok gameA ∧ gameRunB = .ok gameB
      ∧ gameA.bli = some (cstr ("! Resources include file for Inform\n"
          ++ "! Generated by bresc (bresc) v0.32 Serial 20091218 on 01/11/2026 17:33:05\n\n"
          ++ "message \"Including resources file by bresc, on 01/11/2026 17:33:05\";\n\n"
          ++ "Constant myPic 3;\t! Pict: \x27cover.png\x27\n"
          ++ "Constant mySound 3;\t! Snd: \x27theme.ogg\x27\n"))
      ∧ gameB.bli = none
      ∧ gameA.report = none ∧ gameB.report ≠ none
      ∧ gameA.outName = some (cstr "game.zblorb") ∧ gameB.outName = some (cstr "game.blb")
      ∧ gameA.status.out.bytes.length = 96
      ∧ gameB.status.out = gameA.status.out :=
  ⟨by rfl, by rfl, by rfl, by rfl, by rfl, by decide, by rfl, by rfl, by rfl,
    ((C26_flags_independent gameFiles (fun _ => true) (fun name => name = cstr "game.blb")
      dateA dateB (cstr "bresc") (cstr "blc") (cstr "game") false false false false true true
      true false false gameA (by rfl)).1 gameB (by rfl)).1⟩

end Bresc
